import Mathlib

/-!
# carl: reflection-driven serialization of object graphs

A shallow embedding of the encoder and decoder of the `carl` reflection library
(`PointerTable.cpp`, `ReflectionData.cpp`, `ReflectedVariable.cpp`,
`ReflectionPrimitiveTypes.h`, `ReflectionDataManager.cpp`).

Conventions of the embedding:

* a raw address (`void *`) is a natural number and `0` is `nullptr`;
* a pointer to a `ReflectionData` (the per-type static instance) is a natural number
  as well, dereferenced through a total map `Descriptors`;
* memory is a map from addresses to typed cells; member access is `base + offset`
  exactly as `pointerOffset` computes it;
* streams are lists of characters; an input stream is the list of characters that
  are still unread, so `tellg`/`seekg` save and restore that list;
* a failed `assert` is the fault `Fault.assertion`; recursion and loops are driven
  by a fuel counter and report `Fault.outOfFuel` when it is exhausted;
* an access that the code does not check (a vector read outside the table, a read into a
  buffer that is too small) is no fault: the call goes on, and what it reads or stores is
  the unspecified cell `Value.garbage`.
-/

namespace carl

/-- A raw address; zero is the null pointer. -/
abbrev Address := Nat

/-- A pointer to the static `ReflectionData` instance of a type; zero is the null pointer. -/
abbrev DescriptorPtr := Nat

/-- Text written to or read from a stream. -/
abbrev Text := List Char

/-- Content of one memory cell. Floating-point cells are restricted to integral values
whose absolute value is below one million: these are the values that `operator<<`
prints as plain decimal digits under the default precision of six. -/
inductive Value where
  | garbage : Value
  | int (i : Int) : Value
  | float (i : Int) : Value
  | string (s : Text) : Value
  | pointer (a : Address) : Value
  deriving DecidableEq, Repr

/-- The heap contents seen through typed cells. -/
abbrev Memory := Address → Value

/-- Outcome of a run that did not produce a value. -/
inductive Fault where
  | assertion : Fault
  | outOfFuel : Fault
  deriving DecidableEq, Repr

deriving instance DecidableEq for Except

/-- The value of a cell read as `T *`. -/
def Value.asPointer : Value → Address
  | .pointer a => a
  | _ => 0

/-- The value of a cell read as an integer type. -/
def Value.asInt : Value → Int
  | .int i => i
  | _ => 0

/-- The value of a cell read as `float`. -/
def Value.asFloat : Value → Int
  | .float i => i
  | _ => 0

/-- The value of a cell read as `std::string`. -/
def Value.asString : Value → Text
  | .string s => s
  | _ => []

/-- Memory after storing `v` at address `a`. -/
def Memory.write (mem : Memory) (a : Address) (v : Value) : Memory :=
  fun b => if b = a then v else mem b

/-- Simple pointer manipulation (`ReflectionUtilities.h`). -/
def pointerOffset (ptr : Address) (offset : Nat) : Address := ptr + offset

/-! ## Text produced by `operator<<` -/

/-- The decimal digit character of `d < 10`. -/
def digitChar (d : Nat) : Char := Char.ofNat (48 + d)

/-- Digits of `n`, most significant first, pushed in front of `acc`. -/
def showNatAux : Nat → Nat → Text → Text
  | 0, _, acc => acc
  | fuel + 1, n, acc =>
    if n < 10 then digitChar n :: acc
    else showNatAux fuel (n / 10) (digitChar (n % 10) :: acc)

/-- Text of `stream << n` for an unsigned integer. -/
def showNat (n : Nat) : Text := showNatAux (n + 1) n []

/-- Text of `stream << i` for a signed integer. -/
def showInt : Int → Text
  | .ofNat n => showNat n
  | .negSucc n => '-' :: showNat (n + 1)

/-- Writes `pad` tab characters (`padStream`). -/
def padStream (pad : Nat) : Text := List.replicate pad '\t'

/-! ## Descriptors -/

/-- A (descriptor, instance address) pair (`ReflectedVariable`). -/
structure ReflectedVariable where
  reflectionData : DescriptorPtr := 0
  instanceData : Address := 0
  deriving DecidableEq, Repr

/-- One reflected member of a type (`ReflectedMember`). -/
structure ReflectedMember where
  name : Text
  offset : Nat
  size : Nat
  isPointer : Bool
  data : DescriptorPtr
  deriving DecidableEq, Repr

/-- Callback type `ReflectionData::SerializeFunction`. -/
abbrev SerializeFunction := Memory → ReflectedVariable → Text

/-- Callback type `ReflectionData::DeserializeFunction`: from the unread input and the
memory to the unread input and the memory after the extraction. An extraction that fails
leaves the stream in the failed state, in which every later extraction fails too and the
next `assert` on the stream or on a token aborts; the model aborts at once. -/
abbrev DeserializeFunction := Memory → ReflectedVariable → Text → Except Fault (Text × Memory)

/-- The schema of one type (`ReflectionData`). The default value is the state of a
default-constructed instance. -/
structure ReflectionData where
  members : List ReflectedMember := []
  name : Text := []
  size : Nat := 0
  parent : DescriptorPtr := 0
  serializeFunction : Option SerializeFunction := none
  deserializeFunction : Option DeserializeFunction := none

/-- The static `ReflectionData` instances, addressed by pointer. -/
abbrev Descriptors := DescriptorPtr → ReflectionData

/-- `ReflectionData::hasParent`. -/
def ReflectionData.hasParent (d : ReflectionData) : Bool := d.parent != 0

/-- `ReflectionData::hasDataMembers`. -/
def ReflectionData.hasDataMembers (d : ReflectionData) : Bool := !d.members.isEmpty

/-- `ReflectionData::member`: the first member with the given name. -/
def ReflectionData.member (d : ReflectionData) (name : Text) : Option ReflectedMember :=
  d.members.find? (fun member => member.name == name)

/-- `ReflectedMember::isArray`. -/
def ReflectedMember.isArray (types : Descriptors) (m : ReflectedMember) : Bool :=
  decide (m.size > (types m.data).size)

/-! ## The pointer table -/

/-- `PointerTable::TableRecord`. -/
structure TableRecord where
  var : ReflectedVariable := {}
  needsSerialization : Bool := false
  deriving DecidableEq, Repr

/-- `PointerTable::Instance`. -/
structure Instance where
  reflectionData : DescriptorPtr := 0
  tableIndex : Nat := 0
  deriving DecidableEq, Repr

/-- `PointerTable::PatchPointer`. -/
structure PatchPointer where
  index : Nat
  var : ReflectedVariable
  deriving DecidableEq, Repr

/-- `PointerTable`: the linear table, the address lookup map (a finite map, `none` being
`end()`), and the pointers to patch after loading. -/
structure PointerTable where
  dataTable : List TableRecord := []
  lookupTable : Address → Option (List Instance) := fun _ => none
  pointersToPatch : List PatchPointer := []

/-- Type-name match used by `hasPointer`, `index` and `addPointer`. -/
def sameTypeName (types : Descriptors) (var : ReflectedVariable) (object : Instance) : Bool :=
  (types object.reflectionData).name == (types var.reflectionData).name

/-- `PointerTable::hasPointer`. -/
def PointerTable.hasPointer (types : Descriptors) (t : PointerTable)
    (var : ReflectedVariable) : Bool :=
  match t.lookupTable var.instanceData with
  | none => false
  | some objects => objects.any (sameTypeName types var)

/-- Appends a record for `pointer` and returns its index (the two insertion paths of
`addPointer`). -/
def PointerTable.pushRecord (t : PointerTable) (pointer : ReflectedVariable)
    (needsSerialization : Bool) (objects : List Instance) : Nat × PointerTable :=
  let index := t.dataTable.length
  let instance_ : Instance := { reflectionData := pointer.reflectionData, tableIndex := index }
  (index,
    { t with
      dataTable := t.dataTable ++ [{ var := pointer, needsSerialization := needsSerialization }]
      lookupTable := fun a =>
        if a = pointer.instanceData then some (objects ++ [instance_]) else t.lookupTable a })

/-- `PointerTable::addPointer`. -/
def PointerTable.addPointer (types : Descriptors) (t : PointerTable)
    (pointer : ReflectedVariable) (needsSerialization : Bool) : Nat × PointerTable :=
  match t.lookupTable pointer.instanceData with
  | some objects =>
    match objects.find? (sameTypeName types pointer) with
    | some object =>
      let index := object.tableIndex
      (index,
        { t with
          dataTable := t.dataTable.modify
            (fun r => if r.needsSerialization = true
              then { r with needsSerialization := needsSerialization } else r) index })
    | none => t.pushRecord pointer needsSerialization objects
  | none => t.pushRecord pointer needsSerialization []

/-- `PointerTable::index`. -/
def PointerTable.index (types : Descriptors) (t : PointerTable)
    (var : ReflectedVariable) : Except Fault Nat :=
  match t.lookupTable var.instanceData with
  | none => .error .assertion
  | some objects =>
    match objects.find? (sameTypeName types var) with
    | some object => .ok object.tableIndex
    | none => .error .assertion

/-- `PointerTable::pointer`. -/
def PointerTable.pointer (t : PointerTable) (index : Nat) : Except Fault ReflectedVariable :=
  match t.dataTable[index]? with
  | some r => .ok r.var
  | none => .error .assertion

/-- The variable that a pointer member `member` of the object at `base` points to. -/
def resolvedPointer (mem : Memory) (base : Address) (member : ReflectedMember) :
    ReflectedVariable :=
  { reflectionData := member.data
    instanceData := (mem (pointerOffset base member.offset)).asPointer }

/-- The in-place variable of a non-pointer member `member` of the object at `base`. -/
def memberVariable (base : Address) (member : ReflectedMember) : ReflectedVariable :=
  { reflectionData := member.data, instanceData := pointerOffset base member.offset }

/-- The body of the member loop of `PointerTable::populate`; `populate` is the recursive
call. -/
def PointerTable.populateMember (types : Descriptors) (mem : Memory)
    (populate : ReflectedVariable → Bool → PointerTable → Except Fault PointerTable)
    (reflectedVariable : ReflectedVariable) (t : PointerTable) (member : ReflectedMember) :
    Except Fault PointerTable :=
  if (types member.data).hasDataMembers || member.isPointer then
    if member.isPointer then
      populate (resolvedPointer mem reflectedVariable.instanceData member) true t
    else
      populate (memberVariable reflectedVariable.instanceData member) false t
  else .ok t

/-- `PointerTable::populate`. -/
def PointerTable.populate (types : Descriptors) (mem : Memory) :
    Nat → ReflectedVariable → Bool → PointerTable → Except Fault PointerTable
  | 0, _, _, _ => .error .outOfFuel
  | fuel + 1, reflectedVariable, needsSerialization, t =>
    if t.hasPointer types reflectedVariable then .ok t
    else
      let t1 := (t.addPointer types reflectedVariable needsSerialization).2
      if reflectedVariable.instanceData = 0 then .ok t1
      else
        (types reflectedVariable.reflectionData).members.foldlM
          (PointerTable.populateMember types mem (PointerTable.populate types mem fuel)
            reflectedVariable)
          t1

/-! ## Encoding -/

/-- Number of iterations of `for (ii = 0; ii < size; ii += baseTypeSize)`. -/
def arrayCount (size baseTypeSize : Nat) : Nat := (size + baseTypeSize - 1) / baseTypeSize

/-- The `k`-th element of the array member `member` of the object at `base`. -/
def arrayElement (types : Descriptors) (base : Address) (member : ReflectedMember) (k : Nat) :
    ReflectedVariable :=
  { reflectionData := member.data
    instanceData := pointerOffset base (member.offset + k * (types member.data).size) }

/-- Runs `write` on every element in order and returns the text written, in order. -/
def writeEach {α : Type} (write : α → Except Fault Text) : List α → Except Fault Text
  | [] => pure []
  | a :: rest => do
    let text ← write a
    let more ← writeEach write rest
    pure (text ++ more)

/-- The body of the member loop of `ReflectionData::serialize`: the text written for one
member at the indentation `padding` of the members; `serialize` is the recursive call. -/
def ReflectionData.serializeMember (types : Descriptors) (mem : Memory)
    (pointerTable : PointerTable)
    (serialize : DescriptorPtr → ReflectedVariable → Nat → Bool → Except Fault Text)
    (var : ReflectedVariable) (padding : Nat) (member : ReflectedMember) : Except Fault Text :=
  if member.isPointer then do
    let index ← pointerTable.index types (resolvedPointer mem var.instanceData member)
    pure (padStream padding ++ member.name ++ [' '] ++ showNat index ++ ['\n'])
  else if member.isArray types then
    if (types member.data).size = 0 then .error .assertion
    else do
      let elements ← writeEach
        (fun k => do
          let text ← serialize member.data (arrayElement types var.instanceData member k)
            (padding + 1) true
          pure (padStream (padding + 1) ++ text))
        (List.range (arrayCount member.size (types member.data).size))
      pure (padStream padding ++ member.name ++ ['\n'] ++ elements)
  else do
    let text ← serialize member.data (memberVariable var.instanceData member) padding false
    pure (padStream padding ++ member.name ++ [' '] ++ text)

/-- `ReflectionData::serialize`, called on the descriptor `self`. -/
def ReflectionData.serialize (types : Descriptors) (mem : Memory) (pointerTable : PointerTable) :
    Nat → DescriptorPtr → ReflectedVariable → Nat → Bool → Except Fault Text
  | 0, _, _, _, _ => .error .outOfFuel
  | fuel + 1, self, var, padding, isArray => do
    let parentText ←
      (if (types self).parent != 0 then
        ReflectionData.serialize types mem pointerTable fuel (types self).parent var padding false
      else pure [])
    match (types self).serializeFunction with
    | some f => pure (parentText ++ f mem var)
    | none =>
      let indexText ←
        (if isArray then pure []
        else do
          let index ← pointerTable.index types var
          pure (showNat index ++ [' ']))
      let header := parentText ++ indexText ++ (types self).name ++ ['\n']
      if var.instanceData = 0 then
        pure (header ++ padStream padding ++ ['[', '\n'] ++ padStream (padding + 1)
          ++ ['n', 'u', 'l', 'l', '\n'] ++ padStream padding ++ [']', '\n'])
      else do
        let body ← writeEach
          (ReflectionData.serializeMember types mem pointerTable
            (ReflectionData.serialize types mem pointerTable fuel) var (padding + 1))
          (types self).members
        pure (header ++ padStream padding ++ ['[', '\n'] ++ body ++ padStream padding ++ [']', '\n'])

/-- The body of the loop of `PointerTable::serialize`: the text written for one table
record. -/
def PointerTable.serializeRecord (types : Descriptors) (mem : Memory) (fuel : Nat)
    (t : PointerTable) (record : TableRecord) : Except Fault Text :=
  if record.needsSerialization then do
    let tag :=
      if (types record.var.reflectionData).hasParent then
        ['('] ++ (types record.var.reflectionData).name ++ [')', ' ']
      else []
    let text ← ReflectionData.serialize types mem t fuel record.var.reflectionData
      record.var 0 false
    pure (tag ++ text)
  else pure []

/-- `PointerTable::serialize`. -/
def PointerTable.serialize (types : Descriptors) (mem : Memory) (fuel : Nat)
    (t : PointerTable) : Except Fault Text := do
  let body ← writeEach (PointerTable.serializeRecord types mem fuel t) t.dataTable
  pure (showNat t.dataTable.length ++ ['\n'] ++ body)

/-- `ReflectedVariable::serialize`: populate a fresh table from the root, then write it. -/
def ReflectedVariable.serialize (types : Descriptors) (mem : Memory) (fuel : Nat)
    (self : ReflectedVariable) : Except Fault Text := do
  let table ← PointerTable.populate types mem fuel self true {}
  table.serialize types mem fuel

/-! ## Text consumed by `operator>>` -/

/-- The whitespace characters skipped by formatted extraction (`isspace`). -/
def isSpace (c : Char) : Bool :=
  c == ' ' || c == '\t' || c == '\n' || c == '\r' || c == Char.ofNat 11 || c == Char.ofNat 12

/-- Skips leading whitespace. -/
def skipSpace : Text → Text
  | [] => []
  | c :: cs => if isSpace c then skipSpace cs else c :: cs

/-- Reads decimal digits, accumulating their value onto `acc`. -/
def readDigits : Text → Nat → Nat × Text
  | [], acc => (acc, [])
  | c :: cs, acc =>
    if c.isDigit then readDigits cs (acc * 10 + (c.toNat - 48)) else (acc, c :: cs)

/-- Reads the characters of a token, up to the next whitespace. -/
def readToken : Text → Text × Text
  | [] => ([], [])
  | c :: cs =>
    if isSpace c then ([], c :: cs)
    else ((c :: (readToken cs).1), (readToken cs).2)

/-- Reads an unsigned digit sequence; fails when there is no digit. -/
def extractDigits (s : Text) : Except Fault (Nat × Text) :=
  match s with
  | c :: cs => if c.isDigit then .ok (readDigits (c :: cs) 0) else .error .assertion
  | [] => .error .assertion

/-- `stream >> n` for a `size_t`: optional sign, digits; a negative number wraps around
and a number that does not fit fails. -/
def extractSize (s : Text) : Except Fault (Nat × Text) :=
  match skipSpace s with
  | [] => .error .assertion
  | c :: cs =>
    if c = '-' then do
      let (n, rest) ← extractDigits cs
      if n < 2 ^ 64 then pure ((2 ^ 64 - n) % 2 ^ 64, rest) else .error .assertion
    else if c = '+' then do
      let (n, rest) ← extractDigits cs
      if n < 2 ^ 64 then pure (n, rest) else .error .assertion
    else do
      let (n, rest) ← extractDigits (c :: cs)
      if n < 2 ^ 64 then pure (n, rest) else .error .assertion

/-- `stream >> i` for an `int`: optional sign, digits, and the value has to fit 32 bits. -/
def extractInt (s : Text) : Except Fault (Int × Text) :=
  match skipSpace s with
  | [] => .error .assertion
  | c :: cs =>
    if c = '-' then do
      let (n, rest) ← extractDigits cs
      if n ≤ 2 ^ 31 then pure (-(n : Int), rest) else .error .assertion
    else if c = '+' then do
      let (n, rest) ← extractDigits cs
      if n < 2 ^ 31 then pure ((n : Int), rest) else .error .assertion
    else do
      let (n, rest) ← extractDigits (c :: cs)
      if n < 2 ^ 31 then pure ((n : Int), rest) else .error .assertion

/-- `stream >> token` for a `std::string`: skips whitespace, then reads up to the next
whitespace; fails when no character is read. -/
def extractToken (s : Text) : Except Fault (Text × Text) :=
  match readToken (skipSpace s) with
  | ([], _) => .error .assertion
  | (token, rest) => .ok (token, rest)

/-- `stream.ignore(n, '\n')`: discards characters up to and including the next newline,
at most `n` of them. -/
def ignoreLine : Nat → Text → Text
  | 0, s => s
  | _ + 1, [] => []
  | n + 1, c :: cs => if c = '\n' then cs else ignoreLine n cs

/-- The loop test `stream.peek() > 0`. -/
def peekPositive : Text → Bool
  | [] => false
  | c :: _ => decide (0 < c.toNat)

/-! ## Leaf codecs (`ReflectionPrimitiveTypes.h`) -/

/-- `serializePrimitiveValue<int>`. -/
def serializePrimitiveValueInt : SerializeFunction :=
  fun mem var => showInt (mem var.instanceData).asInt ++ ['\n']

/-- `deserializePrimitiveValue<int>`. -/
def deserializePrimitiveValueInt : DeserializeFunction :=
  fun mem var stream => do
    let (i, rest) ← extractInt stream
    pure (rest, mem.write var.instanceData (.int i))

/-- `serializePrimitiveValue<float>` on the integral values of the model. -/
def serializePrimitiveValueFloat : SerializeFunction :=
  fun mem var => showInt (mem var.instanceData).asFloat ++ ['\n']

/-- `deserializePrimitiveValue<float>` on the integral values of the model. -/
def deserializePrimitiveValueFloat : DeserializeFunction :=
  fun mem var stream => do
    let (i, rest) ← extractInt stream
    if -1000000 < i ∧ i < 1000000 then pure (rest, mem.write var.instanceData (.float i))
    else .error .assertion

/-- `serializePrimitiveValue<std::string>`: length, a space, the bytes. -/
def serializePrimitiveValueString : SerializeFunction :=
  fun mem var =>
    showNat (mem var.instanceData).asString.length ++ [' ']
      ++ (mem var.instanceData).asString ++ ['\n']

/-- `deserializePrimitiveValue<std::string>`: the length must be positive, one character
is skipped, and the bytes are read into `char tmpArray[1024]` with no check of the length
against the size of the buffer: a string of more than 1024 bytes overruns the buffer, the
call returns, and what it stores is unspecified. -/
def deserializePrimitiveValueString : DeserializeFunction :=
  fun mem var stream => do
    let (stringLength, rest) ← extractSize stream
    if stringLength = 0 then .error .assertion
    else if (rest.drop 1).length < stringLength then .error .assertion
    else if 1024 < stringLength then
      pure ((rest.drop 1).drop stringLength, mem.write var.instanceData .garbage)
    else pure ((rest.drop 1).drop stringLength,
      mem.write var.instanceData (.string ((rest.drop 1).take stringLength)))

/-- The descriptor declared by `CARL_DECLARE_REFLECTION_PRIMITIVE_TYPE(int)`. -/
def intReflectionData : ReflectionData :=
  { name := ['i', 'n', 't'], size := 4
    serializeFunction := some serializePrimitiveValueInt
    deserializeFunction := some deserializePrimitiveValueInt }

/-- The descriptor declared by `CARL_DECLARE_REFLECTION_PRIMITIVE_TYPE(float)`. -/
def floatReflectionData : ReflectionData :=
  { name := ['f', 'l', 'o', 'a', 't'], size := 4
    serializeFunction := some serializePrimitiveValueFloat
    deserializeFunction := some deserializePrimitiveValueFloat }

/-- The descriptor declared by `CARL_DECLARE_REFLECTION_PRIMITIVE_TYPE(std::string)`. -/
def stringReflectionData : ReflectionData :=
  { name := ['s', 't', 'd', ':', ':', 's', 't', 'r', 'i', 'n', 'g'], size := 32
    serializeFunction := some serializePrimitiveValueString
    deserializeFunction := some deserializePrimitiveValueString }

/-! ## The registry (`ReflectionDataManager`) -/

/-- `ReflectionDataManager`: the map from the 32-bit key of a name hash to a descriptor. -/
structure ReflectionDataManager where
  reflectedData : List (Nat × DescriptorPtr) := []

/-- Lookup by key in the map of the manager. -/
def ReflectionDataManager.find (m : ReflectionDataManager) (key : Nat) : Option DescriptorPtr :=
  (m.reflectedData.find? (fun entry => entry.1 == key)).map (fun entry => entry.2)

/-- The statements of `ReflectionDataManager::addReflectedData`, run in order on the map
of the manager: the two assertions, then the only write to the map. An assertion that
fails stops the call, and the map stays as the statements run before it left it.
`hashString` is `std::hash<std::string>`, whose `size_t` result is converted to the 32-bit
key type of the map. -/
def ReflectionDataManager.addReflectedDataSteps (types : Descriptors) (hashString : Text → Nat)
    (data : DescriptorPtr) : ExceptT Fault (StateM ReflectionDataManager) Unit := do
  if data = 0 then throw Fault.assertion
  let hash := hashString (types data).name % 2 ^ 32
  if ((← get).find hash).isSome then throw Fault.assertion
  modify (fun m => { reflectedData := m.reflectedData ++ [(hash, data)] })

/-- The registry in which a call of `ReflectionDataManager::addReflectedData` on the
registry `m` ends, whether the call returns or stops at an assertion. -/
def ReflectionDataManager.registryAfter (types : Descriptors) (hashString : Text → Nat)
    (m : ReflectionDataManager) (data : DescriptorPtr) : ReflectionDataManager :=
  ((ReflectionDataManager.addReflectedDataSteps types hashString data).run.run m).2

/-- `ReflectionDataManager::addReflectedData` called on the registry `m`: the registry in
which the call ends when it returns, or the fault that stops it. -/
def ReflectionDataManager.addReflectedData (types : Descriptors) (hashString : Text → Nat)
    (m : ReflectionDataManager) (data : DescriptorPtr) : Except Fault ReflectionDataManager :=
  match ((ReflectionDataManager.addReflectedDataSteps types hashString data).run.run m).1 with
  | .ok _ => .ok (m.registryAfter types hashString data)
  | .error e => .error e

/-- `ReflectionDataManager::reflectionData`, by name. -/
def ReflectionDataManager.reflectionData (hashString : Text → Nat)
    (m : ReflectionDataManager) (name : Text) : Option DescriptorPtr :=
  m.find (hashString name % 2 ^ 32)

/-! ## Decoding -/

/-- The free store: memory contents, the address the next `new` returns, and the blocks
handed out so far (address and size). -/
structure Heap where
  memory : Memory
  brk : Address
  allocated : List (Address × Nat) := []

/-- `ReflectionData::allocateInstance`, which is `new T` with `sizeof(T)` the size of the
descriptor: a fresh block whose contents are not initialised. -/
def Heap.allocateInstance (h : Heap) (size : Nat) : Address × Heap :=
  (h.brk, { h with brk := h.brk + size, allocated := h.allocated ++ [(h.brk, size)] })

/-- The state threaded through decoding: the unread input, the free store and the table. -/
structure Loader where
  stream : Text
  heap : Heap
  table : PointerTable

/-- `PointerTable::addPatchPointer`. -/
def PointerTable.addPatchPointer (t : PointerTable) (index : Nat) (pointer : ReflectedVariable) :
    PointerTable :=
  { t with pointersToPatch := t.pointersToPatch ++ [{ index := index, var := pointer }] }

/-- The assignment `pointerTable.pointer(tableIndex) = *variable` that ends
`ReflectionData::deserialize`. -/
def PointerTable.publish (t : PointerTable) (tableIndex : Nat) (var : ReflectedVariable) :
    Except Fault PointerTable :=
  if tableIndex < t.dataTable.length then
    .ok { t with dataTable := t.dataTable.modify (fun r => { r with var := var }) tableIndex }
  else .error .assertion

/-- The body of the member loop of `ReflectionData::deserialize` for a member that was
found by name; `deserialize` is the recursive call. -/
def ReflectionData.deserializeMember (types : Descriptors)
    (deserialize : DescriptorPtr → ReflectedVariable → Loader → Bool →
      Except Fault (ReflectedVariable × Loader))
    (var : ReflectedVariable) (st : Loader) (member : ReflectedMember) : Except Fault Loader :=
  if member.isPointer then do
    let (pointerIndex, s) ← extractSize st.stream
    pure { st with
      stream := s
      table := st.table.addPatchPointer pointerIndex (memberVariable var.instanceData member) }
  else if member.isArray types then
    if (types member.data).size = 0 then .error .outOfFuel
    else
      (List.range (arrayCount member.size (types member.data).size)).foldlM
        (fun st k => do
          let (_, st) ← deserialize member.data (arrayElement types var.instanceData member k)
            st true
          pure st)
        st
  else do
    let (_, st) ← deserialize member.data (memberVariable var.instanceData member) st false
    pure st

mutual

/-- `ReflectionData::deserialize`, called on the descriptor `self`; returns the variable
(whose instance pointer a `null` token resets) and the state. -/
def ReflectionData.deserialize (types : Descriptors) :
    Nat → DescriptorPtr → ReflectedVariable → Loader → Bool →
      Except Fault (ReflectedVariable × Loader)
  | 0, _, _, _, _ => .error .outOfFuel
  | fuel + 1, self, var, st, isArray => do
    let (var, st) ←
      (if (types self).parent != 0 then
        ReflectionData.deserialize types fuel (types self).parent var st isArray
      else pure (var, st))
    match (types self).deserializeFunction with
    | some f => do
      let (rest, memory) ← f st.heap.memory var st.stream
      pure (var, { st with stream := rest, heap := { st.heap with memory := memory } })
    | none => do
      let (tableIndex, s1) ← (if isArray then pure (0, st.stream) else extractSize st.stream)
      let (typeName, s2) ← extractToken s1
      if typeName ≠ (types self).name then .error .assertion
      else do
        let (bracket, s3) ← extractToken s2
        if bracket ≠ ['['] then .error .assertion
        else do
          let (var, st) ← ReflectionData.deserializeMembers types fuel self var
            { st with stream := s3 }
          if (types self).parent != 0 then pure (var, st)
          else do
            let table ← st.table.publish tableIndex var
            pure (var, { st with table := table })

/-- The loop `while (streamInput != "]")` of `ReflectionData::deserialize`. -/
def ReflectionData.deserializeMembers (types : Descriptors) :
    Nat → DescriptorPtr → ReflectedVariable → Loader →
      Except Fault (ReflectedVariable × Loader)
  | 0, _, _, _ => .error .outOfFuel
  | fuel + 1, self, var, st => do
    let (streamInput, s1) ← extractToken st.stream
    let st := { st with stream := s1 }
    if streamInput = ['n', 'u', 'l', 'l'] then
      ReflectionData.deserializeMembers types fuel self { var with instanceData := 0 } st
    else do
      let st ←
        (match (types self).member streamInput with
        | none => pure st
        | some member =>
          ReflectionData.deserializeMember types (ReflectionData.deserialize types fuel)
            var st member)
      if streamInput = [']'] then pure (var, st)
      else ReflectionData.deserializeMembers types fuel self var st

end

/-- The body of the loop `while (stream.peek() > 0)` of `PointerTable::deserialize`: loads
one top-level record. -/
def PointerTable.deserializeRecord (types : Descriptors) (hashString : Text → Nat)
    (manager : ReflectionDataManager) (tableSize : Nat) (fuel : Nat) (st : Loader) :
    Except Fault Loader := do
  let (inheritedObject, tag, s1) ←
    (if st.stream.head? = some '(' then do
      let (token, s) ← extractToken st.stream
      pure (true, (token.drop 1).take (token.length - 2), s)
    else pure (false, [], st.stream))
  let streamPosition := s1
  let (index, s2) ← extractSize s1
  if ¬ index < tableSize then .error .assertion
  else do
    let (streamInput, _) ← (if inheritedObject then pure (tag, s2) else extractToken s2)
    match manager.reflectionData hashString streamInput with
    | none => .error .assertion
    | some reflectionData => do
      let (instanceData, heap) := st.heap.allocateInstance (types reflectionData).size
      let var : ReflectedVariable :=
        { reflectionData := reflectionData, instanceData := instanceData }
      let (_, st) ← ReflectionData.deserialize types fuel reflectionData var
        { st with stream := streamPosition, heap := heap } false
      pure { st with stream := ignoreLine 256 st.stream }

/-- The loop `while (stream.peek() > 0)` of `PointerTable::deserialize`. -/
def PointerTable.deserializeRecords (types : Descriptors) (hashString : Text → Nat)
    (manager : ReflectionDataManager) (tableSize : Nat) : Nat → Loader → Except Fault Loader
  | 0, _ => .error .outOfFuel
  | fuel + 1, st =>
    if peekPositive st.stream then do
      let st ← PointerTable.deserializeRecord types hashString manager tableSize fuel st
      PointerTable.deserializeRecords types hashString manager tableSize fuel st
    else pure st

/-- Number of top-level records that the loop of `PointerTable::deserialize` loads from
the state `st`: its completed iterations. -/
def PointerTable.loadedRecords (types : Descriptors) (hashString : Text → Nat)
    (manager : ReflectionDataManager) (tableSize : Nat) : Nat → Loader → Nat
  | 0, _ => 0
  | fuel + 1, st =>
    if peekPositive st.stream then
      match PointerTable.deserializeRecord types hashString manager tableSize fuel st with
      | .ok st => PointerTable.loadedRecords types hashString manager tableSize fuel st + 1
      | .error _ => 0
    else 0

/-- The closing loop of `PointerTable::deserialize`: every recorded pointer receives the
instance address stored in the table at its index. The loop has no assertion and always
returns: `m_dataTable[pointer.index]` is an unchecked vector access, and for an index
outside the table the pointer receives whatever lies behind the vector, an unspecified
value. -/
def PointerTable.patchPointers (dataTable : List TableRecord) :
    List PatchPointer → Memory → Except Fault Memory
  | [], memory => .ok memory
  | pointer :: rest, memory =>
    PointerTable.patchPointers dataTable rest
      (memory.write pointer.var.instanceData
        (match dataTable[pointer.index]? with
          | some tablePointer => .pointer tablePointer.var.instanceData
          | none => .garbage))

/-- `PointerTable::deserialize`. -/
def PointerTable.deserialize (types : Descriptors) (hashString : Text → Nat)
    (manager : ReflectionDataManager) (fuel : Nat) (stream : Text) (heap : Heap) :
    Except Fault Loader := do
  let (tableSize, s) ← extractSize stream
  if tableSize = 0 then .error .assertion
  else do
    let st ← PointerTable.deserializeRecords types hashString manager tableSize fuel
      { stream := ignoreLine 256 s, heap := heap
        table := { dataTable := List.replicate tableSize {} } }
    let memory ← PointerTable.patchPointers st.table.dataTable st.table.pointersToPatch
      st.heap.memory
    pure { st with heap := { st.heap with memory := memory } }

/-- `ReflectedVariable::deserialize`: loads the table and stores the instance address of
entry 0 through the pointer that the variable wraps. -/
def ReflectedVariable.deserialize (types : Descriptors) (hashString : Text → Nat)
    (manager : ReflectionDataManager) (fuel : Nat) (self : ReflectedVariable)
    (stream : Text) (heap : Heap) : Except Fault Loader := do
  let st ← PointerTable.deserialize types hashString manager fuel stream heap
  let root ← st.table.pointer 0
  pure { st with
    heap := { st.heap with
      memory := st.heap.memory.write self.instanceData (.pointer root.instanceData) } }

/-! ## Notions used by the statements -/

/-- The key under which a variable is filed in the table: its address and its type name. -/
def tableKey (types : Descriptors) (v : ReflectedVariable) : Address × Text :=
  (v.instanceData, (types v.reflectionData).name)

/-- The variable that `populate` visits for the member `member` of the object at `base`. -/
def childVariable (mem : Memory) (base : Address) (member : ReflectedMember) :
    ReflectedVariable :=
  if member.isPointer then resolvedPointer mem base member else memberVariable base member

/-- The members that `populate` follows: pointers and members whose type has members. -/
def followed (types : Descriptors) (member : ReflectedMember) : Bool :=
  (types member.data).hasDataMembers || member.isPointer

/-- Agreement of the linear table with the address lookup map: every record is listed
under its address, every listed instance names its record, and the type names listed
under one address are pairwise different. -/
structure PointerTable.Consistent (types : Descriptors) (t : PointerTable) : Prop where
  listed : ∀ i r, t.dataTable[i]? = some r →
    ∃ objs, t.lookupTable r.var.instanceData = some objs ∧
      ({ reflectionData := r.var.reflectionData, tableIndex := i } : Instance) ∈ objs
  sound : ∀ a objs o, t.lookupTable a = some objs → o ∈ objs →
    ∃ r, t.dataTable[o.tableIndex]? = some r ∧
      r.var = { reflectionData := o.reflectionData, instanceData := a }
  names : ∀ a objs, t.lookupTable a = some objs →
    (objs.map (fun o => (types o.reflectionData).name)).Nodup

/-- The record `r` has been expanded in the table `t`: every member that `populate`
follows from it has a table entry. -/
def PointerTable.Expanded (types : Descriptors) (mem : Memory) (t : PointerTable)
    (r : TableRecord) : Prop :=
  r.var.instanceData ≠ 0 →
    ∀ m ∈ (types r.var.reflectionData).members, followed types m = true →
      t.hasPointer types (childVariable mem r.var.instanceData m) = true

/-- Number of variables of `G` whose key the table `t` does not hold yet. -/
def PointerTable.missing (types : Descriptors) (G : List ReflectedVariable) (t : PointerTable) :
    Nat :=
  G.countP (fun w => !t.hasPointer types w)

/-- A finite object graph: a finite list of variables that is closed under the members
`populate` follows from its non-null variables. -/
def ClosedGraph (types : Descriptors) (mem : Memory) (G : List ReflectedVariable) : Prop :=
  ∀ v ∈ G, v.instanceData ≠ 0 →
    ∀ m ∈ (types v.reflectionData).members, followed types m = true →
      childVariable mem v.instanceData m ∈ G

/-! ## Example types

The types of the scenarios, as the reflection macros register them on a 64-bit platform:
`Foo { int x; float y; }`, `Node { int v; Node *next; }`, `Y { int v; }`,
`C { Y *p; Y y; }`, `Pt { int x; }`, `Holder { Pt pts[2]; }`,
`Root { int id; Holder *h; }`, `Base { int k; }`, `Derived : Base { int m; }`,
`Owner { Derived *d; }`, `IntRef { int *p; }`, `Pair { Y *p; Y *q; }`,
`Links { Y *p; Y *q; }`, `Tagged : Links { int m; }`, `Ref { Y *p; }`,
`Refs { Ref rs[3]; }`, `Grid { int cells[4]; }`, `Final : Derived { int n; }`,
`Msg { std::string s; }`, `Inl { Y y; Y *p; }` and `Ders { Derived ds[2]; }`. -/

/-- The descriptors of the example types, by descriptor pointer. -/
def exampleTypes : Descriptors
  | 1 => intReflectionData
  | 2 => floatReflectionData
  | 3 => stringReflectionData
  | 4 => { name := ['F', 'o', 'o'], size := 8
           members := [⟨['x'], 0, 4, false, 1⟩, ⟨['y'], 4, 4, false, 2⟩] }
  | 5 => { name := ['N', 'o', 'd', 'e'], size := 16
           members := [⟨['v'], 0, 4, false, 1⟩, ⟨['n', 'e', 'x', 't'], 8, 8, true, 5⟩] }
  | 6 => { name := ['Y'], size := 4, members := [⟨['v'], 0, 4, false, 1⟩] }
  | 7 => { name := ['C'], size := 16
           members := [⟨['p'], 0, 8, true, 6⟩, ⟨['y'], 8, 4, false, 6⟩] }
  | 8 => { name := ['P', 't'], size := 4, members := [⟨['x'], 0, 4, false, 1⟩] }
  | 9 => { name := ['H', 'o', 'l', 'd', 'e', 'r'], size := 8
           members := [⟨['p', 't', 's'], 0, 8, false, 8⟩] }
  | 10 => { name := ['R', 'o', 'o', 't'], size := 16
            members := [⟨['i', 'd'], 0, 4, false, 1⟩, ⟨['h'], 8, 8, true, 9⟩] }
  | 11 => { name := ['B', 'a', 's', 'e'], size := 4, members := [⟨['k'], 0, 4, false, 1⟩] }
  | 12 => { name := ['D', 'e', 'r', 'i', 'v', 'e', 'd'], size := 8, parent := 11
            members := [⟨['m'], 4, 4, false, 1⟩] }
  | 13 => { name := ['O', 'w', 'n', 'e', 'r'], size := 8
            members := [⟨['d'], 0, 8, true, 12⟩] }
  | 14 => { name := ['I', 'n', 't', 'R', 'e', 'f'], size := 8
            members := [⟨['p'], 0, 8, true, 1⟩] }
  | 15 => { name := ['P', 'a', 'i', 'r'], size := 16
            members := [⟨['p'], 0, 8, true, 6⟩, ⟨['q'], 8, 8, true, 6⟩] }
  | 16 => { name := ['L', 'i', 'n', 'k', 's'], size := 16
            members := [⟨['p'], 0, 8, true, 6⟩, ⟨['q'], 8, 8, true, 6⟩] }
  | 17 => { name := ['T', 'a', 'g', 'g', 'e', 'd'], size := 24, parent := 16
            members := [⟨['m'], 16, 4, false, 1⟩] }
  | 18 => { name := ['R', 'e', 'f'], size := 8, members := [⟨['p'], 0, 8, true, 6⟩] }
  | 19 => { name := ['R', 'e', 'f', 's'], size := 24
            members := [⟨['r', 's'], 0, 24, false, 18⟩] }
  | 20 => { name := ['G', 'r', 'i', 'd'], size := 16
            members := [⟨['c', 'e', 'l', 'l', 's'], 0, 16, false, 1⟩] }
  | 21 => { name := ['F', 'i', 'n', 'a', 'l'], size := 12, parent := 12
            members := [⟨['n'], 8, 4, false, 1⟩] }
  | 22 => { name := ['M', 's', 'g'], size := 32, members := [⟨['s'], 0, 32, false, 3⟩] }
  | 23 => { name := ['I', 'n', 'l'], size := 16
            members := [⟨['y'], 0, 4, false, 6⟩, ⟨['p'], 8, 8, true, 6⟩] }
  | 24 => { name := ['D', 'e', 'r', 's'], size := 16
            members := [⟨['d', 's'], 0, 16, false, 12⟩] }
  | _ => {}

/-- The descriptor pointer of `Node`. -/
def nodePtr : DescriptorPtr := 5

/-- A string hash for the examples. -/
def exampleHash (s : Text) : Nat := s.foldl (fun h c => h * 31 + c.toNat) 7

/-- The registry after the registration of the example types. -/
def exampleManager : ReflectionDataManager :=
  { reflectedData := (List.range 24).map
      (fun i => (exampleHash (exampleTypes (i + 1)).name % 2 ^ 32, i + 1)) }

/-- An empty free store whose first block will be at address 1000. -/
def exampleHeap : Heap := { memory := fun _ => .garbage, brk := 1000 }

/-- Two nodes in a cycle: `a` at 100 with `v = 1`, `b` at 200 with `v = 2`,
`a.next = &b`, `b.next = &a`. -/
def cycleMemory : Memory
  | 100 => .int 1
  | 108 => .pointer 200
  | 200 => .int 2
  | 208 => .pointer 100
  | _ => .garbage

/-- The text the leaf codec of the type of `v` writes for `v` (empty when the type has no
codec). -/
def leafText (types : Descriptors) (mem : Memory) (v : ReflectedVariable) : Text :=
  match (types v.reflectionData).serializeFunction with
  | some f => f mem v
  | none => []

/-- A member that is a plain leaf: neither pointer nor array, of a type that has a leaf
codec, no parent and no members. -/
def LeafMember (types : Descriptors) (m : ReflectedMember) : Prop :=
  m.isPointer = false ∧ m.isArray types = false ∧
    (types m.data).serializeFunction.isSome = true ∧ (types m.data).parent = 0 ∧
    (types m.data).members = []

/-- `Foo f; f.x = 10; f.y = 13;` at address 100. -/
def fooMemory : Memory
  | 100 => .int 10
  | 104 => .float 13
  | _ => .garbage

/-- `C c; c.y.v = 7; c.p = &c.y;` at address 100: the pointer member, declared first,
points at the inline member. -/
def aliasMemory : Memory
  | 100 => .pointer 108
  | 108 => .int 7
  | _ => .garbage

/-- `Root r; Holder h; r.id = 5; r.h = &h; h.pts = { {7}, {8} };` with `r` at address 300
and `h` at address 200. -/
def arrayMemory : Memory
  | 300 => .int 5
  | 308 => .pointer 200
  | 200 => .int 7
  | 204 => .int 8
  | _ => .garbage

/-- Serializes `root`, loads the text into `exampleHeap` through a root pointer kept at
address 50, and returns the text together with the loader state. -/
def roundTrip (mem : Memory) (fuel : Nat) (root : ReflectedVariable) :
    Except Fault (Text × Loader) := do
  let text ← ReflectedVariable.serialize exampleTypes mem fuel root
  let st ← ReflectedVariable.deserialize exampleTypes exampleHash exampleManager fuel
    { reflectionData := 0, instanceData := 50 } text exampleHeap
  pure (text, st)

/-- The free store of `b` has the blocks and the break of the free store of `a`: no
allocation happened in between. -/
def Loader.sameBlocks (a b : Loader) : Prop :=
  b.heap.allocated = a.heap.allocated ∧ b.heap.brk = a.heap.brk

/-- The text of a top-level record whose block holds only `null`: the index, the type
name, and the lines `[`, tab `null`, `]`. -/
def nullRecordText (index : Nat) (name : Text) : Text :=
  showNat index ++ [' '] ++ name ++ ['\n', '[', '\n', '\t', 'n', 'u', 'l', 'l', '\n', ']', '\n']

/-- The table after `pointerTable.pointer(index) = var`. -/
def PointerTable.withEntry (t : PointerTable) (index : Nat) (var : ReflectedVariable) :
    PointerTable :=
  { t with dataTable := t.dataTable.modify (fun r => { r with var := var }) index }

/-- A type name that `operator>>` reads back as one token: not empty, free of whitespace. -/
def TokenName (name : Text) : Prop := name ≠ [] ∧ ∀ c ∈ name, isSpace c = false

/-- Two nodes in a null-terminated chain: `a` at 100 with `v = 1`, `b` at 200 with `v = 2`,
`a.next = &b`, `b.next = nullptr`. -/
def chainMemory : Memory
  | 100 => .int 1
  | 108 => .pointer 200
  | 200 => .int 2
  | 208 => .pointer 0
  | _ => .garbage

/-- `Owner o; o.d = nullptr;` at address 100, where `d` points to a `Derived : Base`. -/
def ownerMemory : Memory
  | 100 => .pointer 0
  | _ => .garbage

/-- The text of the one-node chain `a.v = 1`, `a.next = nullptr`. -/
def singleNodeText : Text :=
  "2\n0 Node\n[\n\tv 1\n\tnext 1\n]\n1 Node\n[\n\tnull\n]\n".toList

/-- One node at 100 with `v = 1` and `next = nullptr`. -/
def singleNodeMemory : Memory
  | 100 => .int 1
  | 108 => .pointer 0
  | _ => .garbage

/-- The text of the top-level record of a `Node` with value `v` at table index `index`
whose `next` has table index `next`. -/
def nodeRecordText (index : Nat) (v : Int) (next : Nat) : Text :=
  showNat index ++ [' ', 'N', 'o', 'd', 'e', '\n', '[', '\n', '\t', 'v', ' '] ++ showInt v
    ++ ['\n', '\t', 'n', 'e', 'x', 't', ' '] ++ showNat next ++ ['\n', ']', '\n']

/-! ## Chains of `Node` -/

/-- The variable of the `Node` at address `a`. -/
def nodeVariable (a : Address) : ReflectedVariable :=
  { reflectionData := nodePtr, instanceData := a }

/-- The table after `addPointer`, with the flag set, of the nodes at `addrs` in order. -/
def nodeTable (t : PointerTable) (addrs : List Address) : PointerTable :=
  addrs.foldl (fun t a => (t.addPointer exampleTypes (nodeVariable a) true).2) t

/-- In `mem`, the `next` member of each node at `addrs` points to the node that follows in
the list, and the `next` member of the last one holds `last`. -/
def NodeChain (mem : Memory) : List Address → Address → Prop
  | [], _ => True
  | a :: rest, last =>
    (mem (pointerOffset a 8)).asPointer = rest.headD last ∧ NodeChain mem rest last

/-- The top-level record written for the table entry with address `a` when the table
entries have the addresses `L`. -/
def chainRecordText (mem : Memory) (L : List Address) (a : Address) : Text :=
  if a = 0 then nullRecordText (L.indexOf 0) ['N', 'o', 'd', 'e']
  else nodeRecordText (L.indexOf a) (mem a).asInt (L.indexOf (mem (pointerOffset a 8)).asPointer)

/-- The whole text written for a table whose entries have the addresses `L`. -/
def chainText (mem : Memory) (L : List Address) : Text :=
  showNat L.length ++ ['\n'] ++ (L.map (chainRecordText mem L)).flatten

/-- The effect on free store and table of loading the record written for the table entry
with address `a`. -/
def loadRecord (mem : Memory) (L : List Address) (a : Address) (s : Heap × PointerTable) :
    Heap × PointerTable :=
  if a = 0 then
    ((s.1.allocateInstance 16).2, s.2.withEntry (L.indexOf 0) (nodeVariable 0))
  else
    ({ memory := s.1.memory.write s.1.brk (.int (mem a).asInt)
       brk := s.1.brk + 16
       allocated := s.1.allocated ++ [(s.1.brk, 16)] },
      (s.2.addPatchPointer (L.indexOf (mem (pointerOffset a 8)).asPointer)
        (nodeVariable (s.1.brk + 8))).withEntry (L.indexOf a) (nodeVariable s.1.brk))

/-- The effect of loading the records of the entries `S`, in order. -/
def loadChain (mem : Memory) (L : List Address) (S : List Address) (s : Heap × PointerTable) :
    Heap × PointerTable :=
  S.foldl (fun s a => loadRecord mem L a s) s

/-- The patch list that loading the records of the entries `S` builds, the first block
being allocated at `brk`. -/
def chainPatches (mem : Memory) (L : List Address) : Address → List Address → List PatchPointer
  | _, [] => []
  | brk, a :: rest =>
    (if a = 0 then []
      else [{ index := L.indexOf (mem (pointerOffset a 8)).asPointer
              var := nodeVariable (brk + 8) }])
      ++ chainPatches mem L (brk + 16) rest

/-- The address at which the entry with address `a` is decoded when the first block is
allocated at `brk`: null stays null, the node at position `i` gets the block `i`. -/
def decodedAddress (L : List Address) (brk : Address) (a : Address) : Address :=
  if a = 0 then 0 else brk + 16 * L.indexOf a

/-- The values of the nodes at the non-null addresses of `L` are 32-bit integers. -/
def IntValues (mem : Memory) (L : List Address) : Prop :=
  ∀ a ∈ L, a ≠ 0 → -(2 : Int) ^ 31 ≤ (mem a).asInt ∧ (mem a).asInt < (2 : Int) ^ 31

/-- `Pair r; Y y; y.v = 7; r.p = &y; r.q = &y;` with `r` at address 100 and `y` at 200. -/
def pairMemory : Memory
  | 100 => .pointer 200
  | 108 => .pointer 200
  | 200 => .int 7
  | _ => .garbage

/-- `Tagged d; Y y; y.v = 7; d.p = &y; d.q = &y; d.m = 3;` with `d` at address 100 and `y`
at 200: both pointer members are declared on the parent type `Links`. -/
def inheritedMemory : Memory
  | 100 => .pointer 200
  | 108 => .pointer 200
  | 116 => .int 3
  | 200 => .int 7
  | _ => .garbage

/-- `Refs r; Y y0, y; y0.v = 9; y.v = 7; r.rs[0].p = &y0; r.rs[1].p = &y; r.rs[2].p = &y;`
with `r` at address 100, `y` at 200 and `y0` at 300. -/
def refsMemory : Memory
  | 100 => .pointer 300
  | 108 => .pointer 200
  | 116 => .pointer 200
  | 200 => .int 7
  | 300 => .int 9
  | _ => .garbage

/-- `Owner o; Derived d; d.k = 4; d.m = 9; o.d = &d;` with `o` at address 100 and `d` at
200. -/
def derivedMemory : Memory
  | 100 => .pointer 200
  | 200 => .int 4
  | 204 => .int 9
  | _ => .garbage

/-- `Final f; f.k = 1; f.m = 2; f.n = 3;` at address 100. -/
def finalMemory : Memory
  | 100 => .int 1
  | 104 => .int 2
  | 108 => .int 3
  | _ => .garbage

/-- `Msg m; m.s = "hello world";` at address 100. -/
def msgMemory : Memory
  | 100 => .string "hello world".toList
  | _ => .garbage

/-- The entries that `PointerTable::serialize` writes a record for, each with its index:
those whose flag `needsSerialization` is set, in table order. -/
def PointerTable.emitted (t : PointerTable) : List (Nat × TableRecord) :=
  t.dataTable.enum.filter (fun e => e.2.needsSerialization)

/-- The 32-bit key under which the registry files a type name. -/
def nameKey (hashString : Text → Nat) (name : Text) : Nat := hashString name % 2 ^ 32

/-- A sequence of registrations: `addReflectedData` for each descriptor of `ds` in turn,
starting from the registry `m`; it returns when every registration does. -/
def ReflectionDataManager.registerAll (types : Descriptors) (hashString : Text → Nat)
    (m : ReflectionDataManager) (ds : List DescriptorPtr) : Except Fault ReflectionDataManager :=
  ds.foldlM (ReflectionDataManager.addReflectedData types hashString) m

/-- The leaf codec made of the encoder `f` and the decoder `g` reads back what `f` writes
for the cell of `v` in `mem`: the text written ends with a newline and, read behind any
whitespace, the decoder stores the value of that cell at its destination and stops in
front of the newline. -/
def ReadsBack (f : SerializeFunction) (g : DeserializeFunction) (mem : Memory)
    (v : ReflectedVariable) : Prop :=
  ∃ body, f mem v = body ++ ['\n'] ∧
    ∀ (memory : Memory) (w : ReflectedVariable) (white rest : Text),
      (∀ c ∈ white, isSpace c = true) →
      g memory w (white ++ body ++ '\n' :: rest) =
        .ok ('\n' :: rest, memory.write w.instanceData (mem v.instanceData))

/-- The type whose header opens the text that `ReflectionData::serialize` writes for the
type `self`: a parent is written before its child, so it is the type at the end of the
parent chain of `self`, followed for at most `fuel` links. -/
def headerType (types : Descriptors) : Nat → DescriptorPtr → DescriptorPtr
  | 0, self => self
  | fuel + 1, self =>
    if (types self).parent != 0 then headerType types fuel (types self).parent else self

/-- Memory after storing the listed values at the listed addresses, in list order. -/
def Memory.writeAll (memory : Memory) (cells : List (Address × Value)) : Memory :=
  cells.foldl (fun m c => m.write c.1 c.2) memory

/-- The member lines of a block whose members are leaves: for each member the indentation,
the name, a space and the text of the leaf codec for the member of the object at `src`. -/
def memberLines (types : Descriptors) (mem : Memory) (src : Address) (padding : Nat)
    (ms : List ReflectedMember) : Text :=
  (ms.map (fun m =>
    padStream padding ++ m.name ++ [' '] ++ leafText types mem (memberVariable src m))).flatten

/-- The block that `ReflectionData::serialize` writes for the members that the type `self`
declares, for the object at `src` with table index `index`: the header line, `[`, the
member lines and `]`. -/
def blockText (types : Descriptors) (mem : Memory) (self : DescriptorPtr) (src : Address)
    (index padding : Nat) : Text :=
  showNat index ++ [' '] ++ (types self).name ++ ['\n'] ++ padStream padding ++ ['[', '\n']
    ++ memberLines types mem src (padding + 1) (types self).members
    ++ padStream padding ++ [']', '\n']

/-- A leaf member that the decoder of the type `self` reads back from the text written for
the object at `src`: the member is found by its name, the name is read as one token that
is neither `null` nor `]`, and the codec of the member type reads back the value. -/
def ReadableMember (types : Descriptors) (mem : Memory) (self : DescriptorPtr) (src : Address)
    (m : ReflectedMember) : Prop :=
  (types self).member m.name = some m ∧ LeafMember types m ∧ TokenName m.name ∧
    m.name ≠ ['n', 'u', 'l', 'l'] ∧ m.name ≠ [']'] ∧
    ∃ f g, (types m.data).serializeFunction = some f ∧
      (types m.data).deserializeFunction = some g ∧
      ReadsBack f g mem (memberVariable src m)

/-- The cells that decoding the members `ms` of the object at `src` writes into the object
at `dest`. -/
def memberCells (mem : Memory) (src dest : Address) (ms : List ReflectedMember) :
    List (Address × Value) :=
  ms.map (fun m => (pointerOffset dest m.offset, mem (pointerOffset src m.offset)))

/-- Descriptors of a program with one composite type, of the given name, without members,
parent and leaf codec. -/
def soleType (name : Text) : Descriptors := fun _ => { name := name, size := 4 }

/-- The type name under which the loop body of `PointerTable::deserialize` looks up the
descriptor of the record at the head of `stream`: the tag without its parentheses when the
record starts with `(`, and else the token that follows the index. -/
def recordTypeName (stream : Text) : Except Fault Text := do
  let (inheritedObject, tag, s1) ←
    (if stream.head? = some '(' then do
      let (token, s) ← extractToken stream
      pure (true, (token.drop 1).take (token.length - 2), s)
    else pure (false, [], stream))
  let (_, s2) ← extractSize s1
  let (streamInput, _) ← (if inheritedObject then pure (tag, s2) else extractToken s2)
  pure streamInput

/-- `Inl c; c.y.v = 7; c.p = &c.y;` at address 100: the inline member, declared first, is
also the target of the pointer member. -/
def inlMemory : Memory
  | 100 => .int 7
  | 108 => .pointer 100
  | _ => .garbage

/-- `Ders r; r.ds = { {1, 2}, {3, 4} };` at address 100, the elements being
`Derived : Base` with `k` at offset 0 and `m` at offset 4. -/
def dersMemory : Memory
  | 100 => .int 1
  | 104 => .int 2
  | 108 => .int 3
  | 112 => .int 4
  | _ => .garbage

/-- The tables that calls of `PointerTable::populate` build, starting from an empty
table. -/
inductive PopulateReachable (types : Descriptors) (mem : Memory) : PointerTable → Prop
  | empty : PopulateReachable types mem {}
  | call (t t' : PointerTable) (fuel : Nat) (v : ReflectedVariable) (n : Bool) :
      PopulateReachable types mem t → PointerTable.populate types mem fuel v n t = .ok t' →
      PopulateReachable types mem t'

/-- How many instances the address lookup map lists for the key made of the address `a` and
the type name `name`. -/
def PointerTable.keyCount (types : Descriptors) (t : PointerTable) (a : Address) (name : Text) :
    Nat :=
  match t.lookupTable a with
  | none => 0
  | some objects => objects.countP (fun o => decide ((types o.reflectionData).name = name))

/-- The members of the type `p` and of the types on its parent chain (followed for at most
`fuel` links), the members of the parents first. -/
def allMembers (types : Descriptors) : Nat → DescriptorPtr → List ReflectedMember
  | 0, _ => []
  | fuel + 1, p =>
    (if (types p).parent != 0 then allMembers types fuel (types p).parent else [])
      ++ (types p).members

/-- The variables reachable from `root` through member offsets and pointer dereferences:
the root, the target of every pointer member of a reachable object, and every element of
every inline member of composite type of a reachable object (a member that is not an array
has one element), the members being those declared on the type of the object and on its
parents. -/
inductive Reachable (types : Descriptors) (mem : Memory) (root : ReflectedVariable) :
    ReflectedVariable → Prop
  | root : Reachable types mem root root
  | target (v : ReflectedVariable) (fuel : Nat) (m : ReflectedMember) :
      Reachable types mem root v → v.instanceData ≠ 0 →
      m ∈ allMembers types fuel v.reflectionData → m.isPointer = true →
      Reachable types mem root (resolvedPointer mem v.instanceData m)
  | element (v : ReflectedVariable) (fuel : Nat) (m : ReflectedMember) (k : Nat) :
      Reachable types mem root v → v.instanceData ≠ 0 →
      m ∈ allMembers types fuel v.reflectionData → m.isPointer = false →
      (types m.data).hasDataMembers = true →
      k < arrayCount m.size (types m.data).size →
      Reachable types mem root (arrayElement types v.instanceData m k)

/-- `ReflectionData::addMember`: the member is appended to the list of members. -/
def ReflectionData.addMember (d : ReflectionData) (member : ReflectedMember) : ReflectionData :=
  { d with members := d.members ++ [member] }

/-- `ReflectionDataCreator<T>::addMember` on the descriptor `d` of `T`: a `ReflectedMember` is
constructed from the arguments, which its constructor stores as they are, and added. -/
def ReflectionDataCreator.addMember (d : ReflectionData) (name : Text) (offset size : Nat)
    (isPointer : Bool) (data : DescriptorPtr) : ReflectionData :=
  d.addMember { name := name, offset := offset, size := size, isPointer := isPointer, data := data }

/-- The text that `ReflectedVariable::serialize` writes for the first node of
`cycleMemory`: two `Node` records, each naming the other one by its index. -/
def cycleText : Text :=
  "2\n0 Node\n[\n\tv 1\n\tnext 1\n]\n1 Node\n[\n\tv 2\n\tnext 0\n]\n".toList

/-- The preconditions under which `populate` lists every variable that
`ReflectionData::serialize` looks up, for the registered types `R`: the types of the members
of a registered type are registered; no registered type has a parent; a registered type
without members has a leaf codec; the elements of an array member have a type without
members, of a size that is not zero; and two registered types have different names. -/
structure PlainTypes (types : Descriptors) (R : DescriptorPtr → Prop) : Prop where
  closed : ∀ p, R p → ∀ m ∈ (types p).members, R m.data
  noParent : ∀ p, R p → (types p).parent = 0
  leafCodec : ∀ p, R p → (types p).members = [] → (types p).serializeFunction ≠ none
  arrays : ∀ p, R p → ∀ m ∈ (types p).members, m.isPointer = false → m.isArray types = true →
    (types m.data).members = [] ∧ (types m.data).size ≠ 0
  names : ∀ p q, R p → R q → (types p).name = (types q).name → p = q

/-- The variable `v` seen through the address map `φ`: the same type at the mapped
address. -/
def ReflectedVariable.moved (φ : Address → Address) (v : ReflectedVariable) :
    ReflectedVariable :=
  { reflectionData := v.reflectionData, instanceData := φ v.instanceData }

/-- The table record `r` seen through the address map `φ`. -/
def TableRecord.moved (φ : Address → Address) (r : TableRecord) : TableRecord :=
  { var := r.var.moved φ, needsSerialization := r.needsSerialization }

/-- Two heaps that hold the same object graph at different addresses. `F p a` says that an
object, a base-class part, a member or an array element of type `p` lies at the address `a`
of the first heap, and `φ` maps the addresses of the first heap to those of the second
one: null to null and nothing else to null, different objects to different addresses, a
member or array element to the same offset in the mapped object, the target of a pointer
member to the target of the pointer member of the mapped object, and a leaf value to a
leaf value with the same text. -/
structure Relocation (types : Descriptors) (mem1 mem2 : Memory) (φ : Address → Address)
    (F : DescriptorPtr → Address → Prop) : Prop where
  null : φ 0 = 0
  nonNull : ∀ p a, F p a → a ≠ 0 → φ a ≠ 0
  injective : ∀ p q a b, F p a → F q b → φ a = φ b → a = b
  parent : ∀ p a, F p a → (types p).parent ≠ 0 → F (types p).parent a
  pointers : ∀ p a, F p a → a ≠ 0 → ∀ m ∈ (types p).members, m.isPointer = true →
    F m.data (mem1 (pointerOffset a m.offset)).asPointer ∧
    (mem2 (pointerOffset (φ a) m.offset)).asPointer =
      φ (mem1 (pointerOffset a m.offset)).asPointer
  inline : ∀ p a, F p a → a ≠ 0 → ∀ m ∈ (types p).members, m.isPointer = false →
    ∀ k, (k = 0 ∨ k < arrayCount m.size (types m.data).size) →
      F m.data (pointerOffset a (m.offset + k * (types m.data).size)) ∧
      φ (pointerOffset a (m.offset + k * (types m.data).size)) =
        pointerOffset (φ a) (m.offset + k * (types m.data).size)
  leaves : ∀ p a, F p a → ∀ f, (types p).serializeFunction = some f →
    ∀ d, f mem2 { reflectionData := d, instanceData := φ a }
      = f mem1 { reflectionData := d, instanceData := a }

/-- The table `t2` is the table `t1` seen through the address map `φ`: the same records in
the same order at the mapped addresses, and the same instance lists under the mapped
addresses of the graph. -/
def PointerTable.Moved (φ : Address → Address) (F : DescriptorPtr → Address → Prop)
    (t1 t2 : PointerTable) : Prop :=
  t2.dataTable = t1.dataTable.map (TableRecord.moved φ) ∧
  ∀ p a, F p a → t2.lookupTable (φ a) = t1.lookupTable a

/-- Two results that stop on the same fault or return related values. -/
def RelatedResults {α β : Type} (rel : α → β → Prop) :
    Except Fault α → Except Fault β → Prop
  | .ok a, .ok b => rel a b
  | .error e, .error e' => e = e'
  | _, _ => False

/-- The cycle of `cycleMemory` at other addresses, in the other order: `a` at 500 and `b`
at 300. -/
def movedCycleMemory : Memory
  | 500 => .int 1
  | 508 => .pointer 300
  | 300 => .int 2
  | 308 => .pointer 500
  | _ => .garbage

/-- The address bijection that exchanges 100 with 500 and 200 with 300. -/
def relocate (a : Address) : Address :=
  if a = 100 then 500 else if a = 500 then 100 else if a = 200 then 300
  else if a = 300 then 200 else a

/-- The objects of the cycle of `cycleMemory`: the two nodes and their `int` members. -/
def cycleFrames (p : DescriptorPtr) (a : Address) : Prop :=
  (p = 5 ∨ p = 1) ∧ (a = 100 ∨ a = 200)

/-- The decoder `g` consumes what the encoder `f` writes for the variable `v`: the text ends
with a newline and, after any whitespace, `g` reads the text up to that newline and leaves
the newline and what follows it. -/
def Consumes (f : SerializeFunction) (g : DeserializeFunction) (mem : Memory)
    (v : ReflectedVariable) : Prop :=
  ∃ body, f mem v = body ++ ['\n'] ∧
    ∀ (memory : Memory) (w : ReflectedVariable) (white rest : Text),
      (∀ c ∈ white, isSpace c = true) →
      ∃ memory', g memory w (white ++ body ++ '\n' :: rest) = .ok ('\n' :: rest, memory')

/-- The conditions under which the decoder reads back the blocks that the encoder writes
for the objects `F` of a heap, `F p a` saying that an object, a base-class part, a member
or an array element of type `p` lies at the address `a`: the members and array elements
of a non-null object and its base-class part are objects; the name of a type without codec
and the names of the members are tokens, no member being called `null` or `]`; a member is
found by its name; a type has both codecs or none, and the decoding codec consumes what the
encoding one writes for the object; and the element type of an array member has no
parent. -/
structure Decodable (types : Descriptors) (mem : Memory)
    (F : DescriptorPtr → Address → Prop) : Prop where
  members : ∀ p a, F p a → a ≠ 0 → ∀ m ∈ (types p).members, m.isPointer = false →
    ∀ k, (k = 0 ∨ k < arrayCount m.size (types m.data).size) →
      F m.data (pointerOffset a (m.offset + k * (types m.data).size))
  parent : ∀ p a, F p a → (types p).parent ≠ 0 → F (types p).parent a
  typeName : ∀ p a, F p a → (types p).serializeFunction = none → TokenName (types p).name
  memberNames : ∀ p a, F p a → ∀ m ∈ (types p).members,
    (types p).member m.name = some m ∧ TokenName m.name ∧
      m.name ≠ ['n', 'u', 'l', 'l'] ∧ m.name ≠ [']']
  codecs : ∀ p a, F p a → ∀ f, (types p).serializeFunction = some f →
    ∃ g, (types p).deserializeFunction = some g ∧
      ∀ d, Consumes f g mem { reflectionData := d, instanceData := a }
  noCodec : ∀ p a, F p a → (types p).serializeFunction = none →
    (types p).deserializeFunction = none
  elements : ∀ p a, F p a → ∀ m ∈ (types p).members, m.isPointer = false →
    m.isArray types = true → (types m.data).parent = 0

/-- `ReflectionData::deserialize`, called on the descriptor `self`, consumes the text
`text` and nothing after it: the text ends with a newline, and from every stream that holds,
after any whitespace, the text followed by anything, in a state whose table has an entry
and at least `n` entries, the call returns with the stream at that last newline, whatever
follows it, and with a table of the same size. -/
def Consumed (types : Descriptors) (self : DescriptorPtr) (isArray : Bool) (n : Nat)
    (text : Text) : Prop :=
  ∃ body, text = body ++ ['\n'] ∧
    ∀ (dest : ReflectedVariable) (st : Loader) (white rest : Text),
      (∀ c ∈ white, isSpace c = true) →
      st.stream = white ++ body ++ '\n' :: rest →
      0 < st.table.dataTable.length → n ≤ st.table.dataTable.length →
      ∃ (fuel : Nat) (var' : ReflectedVariable) (st' : Loader),
        ReflectionData.deserialize types fuel self dest st isArray = .ok (var', st') ∧
        st'.stream = '\n' :: rest ∧
        st'.table.dataTable.length = st.table.dataTable.length

/-- The block that `ReflectionData::serialize` writes for the `Inl` of `inlMemory`: the
block of the inline member `y` is nested in it. -/
def inlBlock : Text :=
  "0 Inl\n[\n\ty 1 Y\n\t[\n\t\tv 7\n\t]\n\tp 1\n]\n".toList

/-- The block that `ReflectionData::serialize` writes for the `Holder` of `arrayMemory`:
the blocks of the two elements of `pts` are nested in it. -/
def holderBlock : Text :=
  "1 Holder\n[\n\tpts\n\t\tPt\n\t\t[\n\t\t\tx 7\n\t\t]\n\t\tPt\n\t\t[\n\t\t\tx 8\n\t\t]\n]\n".toList

/-- The example types and four more: `DerArr : Base { Pt pts[2]; }`,
`Base2 { Pt first; }`, `Der2 : Base2 { int m; }` and
`Card { int id; std::string label; Y y; int tail; Y *p; }`. -/
def moreTypes : Descriptors
  | 25 => { name := ['D', 'e', 'r', 'A', 'r', 'r'], size := 12, parent := 11
            members := [⟨['p', 't', 's'], 4, 8, false, 8⟩] }
  | 26 => { name := ['B', 'a', 's', 'e', '2'], size := 4
            members := [⟨['f', 'i', 'r', 's', 't'], 0, 4, false, 8⟩] }
  | 27 => { name := ['D', 'e', 'r', '2'], size := 8, parent := 26
            members := [⟨['m'], 4, 4, false, 1⟩] }
  | 28 => { name := ['C', 'a', 'r', 'd'], size := 56
            members := [⟨['i', 'd'], 0, 4, false, 1⟩, ⟨['l', 'a', 'b', 'e', 'l'], 8, 32, false, 3⟩,
              ⟨['y'], 40, 4, false, 6⟩, ⟨['t', 'a', 'i', 'l'], 44, 4, false, 1⟩,
              ⟨['p'], 48, 8, true, 6⟩] }
  | p => exampleTypes p

/-- The registry after the registration of the types of `moreTypes`. -/
def moreManager : ReflectionDataManager :=
  { reflectedData := (List.range 28).map
      (fun i => (exampleHash (moreTypes (i + 1)).name % 2 ^ 32, i + 1)) }

/-- `DerArr d; d.k = 4; d.pts = { {7}, {8} };` at address 100, `k` being declared by the
parent `Base`. -/
def derArrMemory : Memory
  | 100 => .int 4
  | 104 => .int 7
  | 108 => .int 8
  | _ => .garbage

/-- `Der2 d; d.first.x = 7; d.m = 9;` at address 100, `first` being declared by the parent
`Base2` at offset zero. -/
def der2Memory : Memory
  | 100 => .int 7
  | 104 => .int 9
  | _ => .garbage

/-- `Card c; c.id = 3; c.label = "a b]"; c.y.v = 7; c.tail = 5; c.p = &c.y;` at address
100, beside a cell at 300 that is not initialised. -/
def cardMemory : Memory
  | 100 => .int 3
  | 108 => .string ['a', ' ', 'b', ']']
  | 140 => .int 7
  | 144 => .int 5
  | 148 => .pointer 140
  | _ => .garbage

/-- The objects of the `Card` of `cardMemory`: the card, its members `id`, `label`, `y` and
`tail`, and the member `v` of `y`. -/
def cardFrames (p : DescriptorPtr) (a : Address) : Prop :=
  (p = 28 ∧ a = 100) ∨ (p = 1 ∧ (a = 100 ∨ a = 140 ∨ a = 144)) ∨ (p = 3 ∧ a = 108) ∨
    (p = 6 ∧ a = 140)

/-- The block that `ReflectionData::serialize` writes for the `Card` of `cardMemory`: an
`int`, a string with a space and a `]` in it, the nested block of `y`, an `int` and a
pointer. -/
def cardBlock : Text :=
  "0 Card\n[\n\tid 3\n\tlabel 4 a b]\n\ty 1 Y\n\t[\n\t\tv 7\n\t]\n\ttail 5\n\tp 1\n]\n".toList

/-! # Verification -/

/-! ## The statements of `addReflectedData` -/

/-- Running the statements of `addReflectedData` on the registry `m`: both assertions come
before the write, so that a call that stops ends in `m`. -/
theorem addReflectedDataSteps_run (types : Descriptors) (hashString : Text → Nat)
    (m : ReflectionDataManager) (data : DescriptorPtr) :
    (ReflectionDataManager.addReflectedDataSteps types hashString data).run.run m =
      if data = 0 then (.error .assertion, m)
      else if (m.find (hashString (types data).name % 2 ^ 32)).isSome then
        (.error .assertion, m)
      else (.ok (), { reflectedData :=
        m.reflectedData ++ [(hashString (types data).name % 2 ^ 32, data)] }) := by
  unfold ReflectionDataManager.addReflectedDataSteps
  generalize hashString (types data).name % 2 ^ 32 = key
  by_cases h0 : data = 0
  · rw [if_pos h0, if_pos h0]; rfl
  · rw [if_neg h0, if_neg h0]
    by_cases h1 : (m.find key).isSome = true
    · rw [if_pos h1]
      show (ExceptT.run (do
        if ((← get).find key).isSome then throw Fault.assertion
        modify (fun m => { reflectedData := m.reflectedData ++ [(key, data)] }) :
          ExceptT Fault (StateM ReflectionDataManager) Unit)).run m = _
      simp [ExceptT.run, StateT.run, throw, throwThe, MonadExceptOf.throw, ExceptT.mk, bind,
        ExceptT.bind, ExceptT.bindCont, StateT.bind, pure, StateT.pure, get, getThe,
        MonadStateOf.get, liftM, monadLift, MonadLift.monadLift, ExceptT.lift, StateT.get,
        Functor.map, StateT.map, ExceptT.pure, modify, modifyGet, MonadStateOf.modifyGet,
        StateT.modifyGet, h1]
    · rw [if_neg h1]
      show (ExceptT.run (do
        if ((← get).find key).isSome then throw Fault.assertion
        modify (fun m => { reflectedData := m.reflectedData ++ [(key, data)] }) :
          ExceptT Fault (StateM ReflectionDataManager) Unit)).run m = _
      simp [ExceptT.run, StateT.run, throw, throwThe, MonadExceptOf.throw, ExceptT.mk, bind,
        ExceptT.bind, ExceptT.bindCont, StateT.bind, pure, StateT.pure, get, getThe,
        MonadStateOf.get, liftM, monadLift, MonadLift.monadLift, ExceptT.lift, StateT.get,
        Functor.map, StateT.map, ExceptT.pure, modify, modifyGet, MonadStateOf.modifyGet,
        StateT.modifyGet, h1]

/-- What `addReflectedData` returns, in terms of the registry it is called on. -/
theorem addReflectedData_eq (types : Descriptors) (hashString : Text → Nat)
    (m : ReflectionDataManager) (data : DescriptorPtr) :
    m.addReflectedData types hashString data =
      if data = 0 then .error .assertion
      else if (m.find (hashString (types data).name % 2 ^ 32)).isSome then .error .assertion
      else .ok { reflectedData :=
        m.reflectedData ++ [(hashString (types data).name % 2 ^ 32, data)] } := by
  unfold ReflectionDataManager.addReflectedData ReflectionDataManager.registryAfter
  rw [addReflectedDataSteps_run]
  by_cases h0 : data = 0
  · simp only [h0, if_true]
  · by_cases h1 : (m.find (hashString (types data).name % 2 ^ 32)).isSome = true
    · simp only [h0, h1, if_true, if_false]
    · simp only [h0, h1, if_false, Bool.false_eq_true]

/-! ## Reading back written text -/

theorem digitChar_isDigit (d : Nat) (h : d < 10) : (digitChar d).isDigit = true := by
  interval_cases d <;> decide

theorem digitChar_toNat (d : Nat) (h : d < 10) : (digitChar d).toNat - 48 = d := by
  interval_cases d <;> decide

theorem isDigit_not_space (c : Char) (h : c.isDigit = true) : isSpace c = false := by
  have h1 : 48 ≤ c.val := by
    simp [Char.isDigit] at h; exact h.1
  simp only [isSpace, Bool.or_eq_false_iff, beq_eq_false_iff_ne, ne_eq]
  refine ⟨⟨⟨⟨⟨?_, ?_⟩, ?_⟩, ?_⟩, ?_⟩, ?_⟩ <;> (intro heq; subst heq; revert h1; decide)

theorem isDigit_ne_minus (c : Char) (h : c.isDigit = true) : c ≠ '-' := by
  intro heq; subst heq; revert h; decide

theorem isDigit_ne_plus (c : Char) (h : c.isDigit = true) : c ≠ '+' := by
  intro heq; subst heq; revert h; decide

/-- Decimal digits of `n`, most significant first. -/
theorem showNatAux_eq (fuel : Nat) : ∀ (n : Nat) (acc : Text), n < fuel →
    showNatAux fuel n acc =
      ((if n = 0 then [0] else (Nat.digits 10 n).reverse).map digitChar) ++ acc := by
  induction fuel with
  | zero => intro n acc h; omega
  | succ f ih =>
    intro n acc h
    unfold showNatAux
    by_cases h10 : n < 10
    · simp only [h10, if_true]
      by_cases h0 : n = 0
      · simp [h0]
      · have : Nat.digits 10 n = [n] := Nat.digits_of_lt 10 n h0 h10
        simp [h0, this]
    · simp only [h10, if_false]
      have hn0 : n ≠ 0 := by omega
      have hq0 : n / 10 ≠ 0 := by omega
      have hq : n / 10 < f := by omega
      rw [ih (n / 10) _ hq]
      have hd : Nat.digits 10 n = n % 10 :: Nat.digits 10 (n / 10) :=
        Nat.digits_def' (by norm_num) (by omega)
      simp [hn0, hq0, hd]

theorem showNat_eq (n : Nat) :
    showNat n = (if n = 0 then [0] else (Nat.digits 10 n).reverse).map digitChar := by
  unfold showNat
  rw [showNatAux_eq (n + 1) n [] (by omega)]
  simp

theorem readDigits_map (ds : List Nat) : ∀ (acc : Nat) (rest : Text),
    (∀ d ∈ ds, d < 10) → (∀ c ∈ rest.head?, c.isDigit = false) →
    readDigits (ds.map digitChar ++ rest) acc = (ds.foldl (fun a d => a * 10 + d) acc, rest) := by
  induction ds with
  | nil =>
    intro acc rest _ hrest
    cases rest with
    | nil => simp [readDigits]
    | cons c cs =>
      have : c.isDigit = false := hrest c (by simp)
      simp [readDigits, this]
  | cons d ds ih =>
    intro acc rest hds hrest
    have hd : d < 10 := hds d (by simp)
    simp only [List.map_cons, List.cons_append, readDigits, digitChar_isDigit d hd, if_true,
      digitChar_toNat d hd, List.foldl_cons]
    exact ih _ rest (fun x hx => hds x (by simp [hx])) hrest

theorem foldl_digits (n : Nat) :
    (if n = 0 then [0] else (Nat.digits 10 n).reverse).foldl (fun a d => a * 10 + d) 0 = n := by
  by_cases h0 : n = 0
  · simp [h0]
  · simp only [h0, if_false, List.foldl_reverse]
    have h := Nat.ofDigits_digits 10 n
    rw [Nat.ofDigits_eq_foldr] at h
    conv_rhs => rw [← h]
    congr 1
    funext x y
    simp; ring

theorem digits_lt (n : Nat) : ∀ d ∈ (if n = 0 then [0] else (Nat.digits 10 n).reverse), d < 10 := by
  intro d hd
  by_cases h0 : n = 0
  · simp [h0] at hd; omega
  · simp only [h0, if_false, List.mem_reverse] at hd
    exact Nat.digits_lt_base (by norm_num) hd

/-- Reading back the digits written for `n`. -/
theorem readDigits_showNat (n : Nat) (rest : Text) (hrest : ∀ c ∈ rest.head?, c.isDigit = false) :
    readDigits (showNat n ++ rest) 0 = (n, rest) := by
  rw [showNat_eq, readDigits_map _ 0 rest (digits_lt n) hrest, foldl_digits]

/-- The text of a number starts with a digit. -/
theorem showNat_head (n : Nat) : ∃ c cs, showNat n = c :: cs ∧ c.isDigit = true := by
  rw [showNat_eq]
  by_cases h0 : n = 0
  · exact ⟨digitChar 0, [], by simp [h0], by decide⟩
  · simp only [h0, if_false]
    have hne : (Nat.digits 10 n).reverse ≠ [] := by
      simp [Nat.digits_ne_nil_iff_ne_zero, h0]
    obtain ⟨d, ds, hds⟩ := List.exists_cons_of_ne_nil hne
    refine ⟨digitChar d, ds.map digitChar, by simp [hds], ?_⟩
    apply digitChar_isDigit
    have : d ∈ (Nat.digits 10 n).reverse := by simp [hds]
    exact Nat.digits_lt_base (by norm_num) (List.mem_reverse.mp this)





theorem skipSpace_of_not_space (c : Char) (cs : Text) (h : isSpace c = false) :
    skipSpace (c :: cs) = c :: cs := by
  simp [skipSpace, h]

theorem skipSpace_space (c : Char) (cs : Text) (h : isSpace c = true) :
    skipSpace (c :: cs) = skipSpace cs := by
  simp [skipSpace, h]

theorem skipSpace_padStream (n : Nat) (s : Text) : skipSpace (padStream n ++ s) = skipSpace s := by
  induction n with
  | zero => simp [padStream]
  | succ k ih =>
    have : padStream (k + 1) = '\t' :: padStream k := by simp [padStream, List.replicate_succ]
    rw [this, List.cons_append, skipSpace_space _ _ (by decide), ih]

theorem extractDigits_showNat (n : Nat) (rest : Text)
    (hrest : ∀ c ∈ rest.head?, c.isDigit = false) :
    extractDigits (showNat n ++ rest) = .ok (n, rest) := by
  obtain ⟨c, cs, hc, hd⟩ := showNat_head n
  have h := readDigits_showNat n rest hrest
  rw [hc] at h ⊢
  simp only [List.cons_append] at h ⊢
  simp [extractDigits, hd, h]

/-- `stream >> n` reads back the text written by `stream << n`. -/
theorem extractSize_showNat (n : Nat) (rest : Text) (hn : n < 2 ^ 64)
    (hrest : ∀ c ∈ rest.head?, c.isDigit = false) :
    extractSize (showNat n ++ rest) = .ok (n, rest) := by
  obtain ⟨c, cs, hc, hd⟩ := showNat_head n
  have h := extractDigits_showNat n rest hrest
  rw [hc] at h ⊢
  simp only [List.cons_append] at h ⊢
  unfold extractSize
  rw [skipSpace_of_not_space c _ (isDigit_not_space c hd)]
  simp only [isDigit_ne_minus c hd, isDigit_ne_plus c hd, if_false, h]
  simp [bind, Except.bind, pure, Except.pure]
  omega

theorem extractSize_space (c : Char) (s : Text) (h : isSpace c = true) :
    extractSize (c :: s) = extractSize s := by
  unfold extractSize
  rw [skipSpace_space c s h]

theorem extractSize_padStream (n : Nat) (s : Text) :
    extractSize (padStream n ++ s) = extractSize s := by
  unfold extractSize
  rw [skipSpace_padStream]

/-- `stream >> i` reads back the text written by `stream << i` for a 32-bit integer. -/
theorem extractInt_showInt (i : Int) (rest : Text) (hlo : -(2 : Int) ^ 31 ≤ i)
    (hhi : i < (2 : Int) ^ 31) (hrest : ∀ c ∈ rest.head?, c.isDigit = false) :
    extractInt (showInt i ++ rest) = .ok (i, rest) := by
  cases i with
  | ofNat n =>
    obtain ⟨c, cs, hc, hd⟩ := showNat_head n
    have h := extractDigits_showNat n rest hrest
    have hn : n < 2 ^ 31 := by
      have : (n : Int) < (2 : Int) ^ 31 := hhi
      exact_mod_cast this
    simp only [showInt]
    rw [hc] at h ⊢
    simp only [List.cons_append] at h ⊢
    unfold extractInt
    rw [skipSpace_of_not_space c _ (isDigit_not_space c hd)]
    simp only [isDigit_ne_minus c hd, isDigit_ne_plus c hd, if_false, h]
    simp [bind, Except.bind, pure, Except.pure]
    omega
  | negSucc n =>
    have h := extractDigits_showNat (n + 1) rest hrest
    have hn : n + 1 ≤ 2 ^ 31 := by
      have h1 : -(2 : Int) ^ 31 ≤ Int.negSucc n := hlo
      rw [Int.negSucc_eq] at h1
      have : ((n + 1 : Nat) : Int) ≤ (2 : Int) ^ 31 := by push_cast; linarith
      exact_mod_cast this
    simp only [showInt, List.cons_append]
    unfold extractInt
    rw [skipSpace_of_not_space '-' _ (by decide)]
    simp only [if_true, h]
    simp [bind, Except.bind, pure, Except.pure, Int.negSucc_eq]
    omega

theorem extractInt_space (c : Char) (s : Text) (h : isSpace c = true) :
    extractInt (c :: s) = extractInt s := by
  unfold extractInt
  rw [skipSpace_space c s h]

theorem readToken_append (token : Text) (c : Char) (rest : Text)
    (htoken : ∀ x ∈ token, isSpace x = false) (hc : isSpace c = true) :
    readToken (token ++ c :: rest) = (token, c :: rest) := by
  induction token with
  | nil => simp [readToken, hc]
  | cons x xs ih =>
    have hx : isSpace x = false := htoken x (by simp)
    have := ih (fun y hy => htoken y (by simp [hy]))
    simp [readToken, hx, this]

/-- `stream >> token` reads a whitespace-free token up to the whitespace that follows. -/
theorem extractToken_append (token : Text) (c : Char) (rest : Text) (hne : token ≠ [])
    (htoken : ∀ x ∈ token, isSpace x = false) (hc : isSpace c = true) :
    extractToken (token ++ c :: rest) = .ok (token, c :: rest) := by
  obtain ⟨x, xs, hx⟩ := List.exists_cons_of_ne_nil hne
  unfold extractToken
  have h1 : skipSpace (token ++ c :: rest) = token ++ c :: rest := by
    rw [hx, List.cons_append]
    exact skipSpace_of_not_space x _ (htoken x (by simp [hx]))
  rw [h1, readToken_append token c rest htoken hc, hx]

theorem extractToken_space (c : Char) (s : Text) (h : isSpace c = true) :
    extractToken (c :: s) = extractToken s := by
  unfold extractToken
  rw [skipSpace_space c s h]

theorem extractToken_padStream (n : Nat) (s : Text) :
    extractToken (padStream n ++ s) = extractToken s := by
  unfold extractToken
  rw [skipSpace_padStream]

/-! ## The pointer table -/

theorem consistent_empty (types : Descriptors) : PointerTable.Consistent types {} := by
  constructor
  · intro i r h; simp at h
  · intro a objs o h; simp at h
  · intro a objs h; simp at h

theorem sameTypeName_iff (types : Descriptors) (v : ReflectedVariable) (o : Instance) :
    sameTypeName types v o = true ↔ (types o.reflectionData).name = (types v.reflectionData).name := by
  simp [sameTypeName]

/-- `hasPointer` answers whether some record of the table has the key of the variable. -/
theorem hasPointer_iff (types : Descriptors) (t : PointerTable) (ht : t.Consistent types)
    (v : ReflectedVariable) :
    t.hasPointer types v = true ↔
      ∃ (i : Nat) (r : TableRecord), t.dataTable[i]? = some r ∧ tableKey types r.var = tableKey types v := by
  unfold PointerTable.hasPointer
  constructor
  · intro h
    cases hl : t.lookupTable v.instanceData with
    | none => simp [hl] at h
    | some objs =>
      simp only [hl, List.any_eq_true] at h
      obtain ⟨o, ho, hname⟩ := h
      obtain ⟨r, hr, hv⟩ := ht.sound _ _ o hl ho
      refine ⟨o.tableIndex, r, hr, ?_⟩
      rw [sameTypeName_iff] at hname
      simp [tableKey, hv, hname]
  · rintro ⟨i, r, hr, hkey⟩
    obtain ⟨objs, hl, hin⟩ := ht.listed i r hr
    simp only [tableKey, Prod.mk.injEq] at hkey
    rw [hkey.1] at hl
    simp only [hl, List.any_eq_true]
    exact ⟨_, hin, by rw [sameTypeName_iff]; exact hkey.2⟩

/-- `index` returns the position of the record that has the key of the variable. -/
theorem index_of_record (types : Descriptors) (t : PointerTable) (ht : t.Consistent types)
    (v : ReflectedVariable) (i : Nat) (r : TableRecord) (hr : t.dataTable[i]? = some r)
    (hkey : tableKey types r.var = tableKey types v) : t.index types v = .ok i := by
  obtain ⟨objs, hl, hin⟩ := ht.listed i r hr
  simp only [tableKey, Prod.mk.injEq] at hkey
  rw [hkey.1] at hl
  unfold PointerTable.index
  simp only [hl]
  have hsat : sameTypeName types v { reflectionData := r.var.reflectionData, tableIndex := i } = true := by
    rw [sameTypeName_iff]; exact hkey.2
  cases hf : objs.find? (sameTypeName types v) with
  | none =>
    rw [List.find?_eq_none] at hf
    exact absurd hsat (hf _ hin)
  | some o =>
    have ho : o ∈ objs := List.mem_of_find?_eq_some hf
    have hs : sameTypeName types v o = true := List.find?_some hf
    rw [sameTypeName_iff] at hs
    have hnodup := ht.names _ _ hl
    have : o = { reflectionData := r.var.reflectionData, tableIndex := i } := by
      apply List.inj_on_of_nodup_map hnodup ho hin
      simp [hs, hkey.2]
    simp [this]

/-- Two records with the same key are the same record. -/
theorem record_unique (types : Descriptors) (t : PointerTable) (ht : t.Consistent types)
    (i j : Nat) (r s : TableRecord) (hr : t.dataTable[i]? = some r)
    (hs : t.dataTable[j]? = some s) (hkey : tableKey types r.var = tableKey types s.var) :
    i = j := by
  have h1 := index_of_record types t ht s.var i r hr hkey
  have h2 := index_of_record types t ht s.var j s hs rfl
  rw [h1] at h2
  exact Except.ok.inj h2

/-- When the key is absent, `addPointer` takes one of its two insertion paths. -/
theorem addPointer_absent (types : Descriptors) (t : PointerTable) (v : ReflectedVariable)
    (n : Bool) (h : t.hasPointer types v = false) :
    ∃ objs, (t.lookupTable v.instanceData = some objs ∨
        (t.lookupTable v.instanceData = none ∧ objs = [])) ∧
      (∀ o ∈ objs, sameTypeName types v o = false) ∧
      t.addPointer types v n = t.pushRecord v n objs := by
  unfold PointerTable.hasPointer at h
  unfold PointerTable.addPointer
  cases hl : t.lookupTable v.instanceData with
  | none => exact ⟨[], Or.inr ⟨rfl, rfl⟩, by simp, rfl⟩
  | some objs =>
    simp only [hl, List.any_eq_false] at h
    have hf : objs.find? (sameTypeName types v) = none := by
      rw [List.find?_eq_none]; intro o ho; simp [h o ho]
    refine ⟨objs, Or.inl rfl, fun o ho => by simpa using h o ho, ?_⟩
    simp [hf]

theorem addPointer_dataTable (types : Descriptors) (t : PointerTable) (v : ReflectedVariable)
    (n : Bool) (h : t.hasPointer types v = false) :
    (t.addPointer types v n).2.dataTable = t.dataTable ++ [{ var := v, needsSerialization := n }] ∧
    (t.addPointer types v n).2.pointersToPatch = t.pointersToPatch ∧
    (t.addPointer types v n).1 = t.dataTable.length := by
  obtain ⟨objs, _, _, heq⟩ := addPointer_absent types t v n h
  rw [heq]
  simp [PointerTable.pushRecord]

/-- Adding an absent key keeps the table consistent. -/
theorem addPointer_consistent (types : Descriptors) (t : PointerTable) (ht : t.Consistent types)
    (v : ReflectedVariable) (n : Bool) (h : t.hasPointer types v = false) :
    (t.addPointer types v n).2.Consistent types := by
  obtain ⟨objs, hobjs, hno, heq⟩ := addPointer_absent types t v n h
  rw [heq]
  constructor
  · intro i r hr
    simp only [PointerTable.pushRecord] at hr ⊢
    by_cases hi : i < t.dataTable.length
    · rw [List.getElem?_append_left hi] at hr
      obtain ⟨objs', hl', hin'⟩ := ht.listed i r hr
      by_cases ha : r.var.instanceData = v.instanceData
      · simp only [ha, if_true]
        rw [ha] at hl'
        rcases hobjs with h1 | ⟨h1, _⟩
        · rw [h1] at hl'
          cases hl'
          exact ⟨_, rfl, by simp [hin']⟩
        · rw [h1] at hl'; cases hl'
      · simp only [ha, if_false]
        exact ⟨objs', hl', hin'⟩
    · have hi' : t.dataTable.length ≤ i := by omega
      rw [List.getElem?_append_right hi'] at hr
      have h0 : i - t.dataTable.length = 0 := by
        by_contra hne
        rw [List.getElem?_eq_none (by simp; omega)] at hr
        cases hr
      rw [h0] at hr
      simp only [List.getElem?_cons_zero, Option.some.injEq] at hr
      subst hr
      have hi0 : i = t.dataTable.length := by omega
      subst hi0
      simp
  · intro a objs' o hl ho
    simp only [PointerTable.pushRecord] at hl ⊢
    by_cases ha : a = v.instanceData
    · simp only [ha, if_true, Option.some.injEq] at hl
      subst hl
      rw [List.mem_append] at ho
      rcases ho with ho | ho
      · rcases hobjs with h1 | ⟨_, h1⟩
        · obtain ⟨r, hr, hv⟩ := ht.sound _ _ o h1 ho
          have hlt : o.tableIndex < t.dataTable.length := by
            by_contra hge
            rw [List.getElem?_eq_none (by omega)] at hr
            cases hr
          refine ⟨r, ?_, by rw [hv, ha]⟩
          rw [List.getElem?_append_left hlt]; exact hr
        · subst h1; simp at ho
      · simp only [List.mem_singleton] at ho
        subst ho
        refine ⟨{ var := v, needsSerialization := n }, ?_, by simp [ha]⟩
        simp
    · simp only [ha, if_false] at hl
      obtain ⟨r, hr, hv⟩ := ht.sound _ _ o hl ho
      have hlt : o.tableIndex < t.dataTable.length := by
        by_contra hge
        rw [List.getElem?_eq_none (by omega)] at hr
        cases hr
      refine ⟨r, ?_, hv⟩
      rw [List.getElem?_append_left hlt]; exact hr
  · intro a objs' hl
    simp only [PointerTable.pushRecord] at hl
    by_cases ha : a = v.instanceData
    · simp only [ha, if_true, Option.some.injEq] at hl
      subst hl
      rw [List.map_append, List.nodup_append]
      refine ⟨?_, by simp, ?_⟩
      · rcases hobjs with h1 | ⟨_, h1⟩
        · exact ht.names _ _ h1
        · subst h1; simp
      · intro x hx hx'
        simp only [List.map_cons, List.map_nil, List.mem_singleton] at hx'
        rw [List.mem_map] at hx
        obtain ⟨o, ho, hox⟩ := hx
        have := hno o ho
        rw [← Bool.not_eq_true, sameTypeName_iff] at this
        exact this (by rw [hox, hx'])
    · simp only [ha, if_false] at hl
      exact ht.names _ _ hl

theorem hasPointer_mono (types : Descriptors) (t t' : PointerTable) (ht : t.Consistent types)
    (ht' : t'.Consistent types) (hext : ∃ ext, t'.dataTable = t.dataTable ++ ext)
    (w : ReflectedVariable) (h : t.hasPointer types w = true) : t'.hasPointer types w = true := by
  rw [hasPointer_iff types t ht] at h
  rw [hasPointer_iff types t' ht']
  obtain ⟨i, r, hr, hkey⟩ := h
  obtain ⟨ext, hext⟩ := hext
  refine ⟨i, r, ?_, hkey⟩
  have hlt : i < t.dataTable.length := by
    by_contra hge
    rw [List.getElem?_eq_none (by omega)] at hr
    cases hr
  rw [hext, List.getElem?_append_left hlt]; exact hr

theorem expanded_mono (types : Descriptors) (mem : Memory) (t t' : PointerTable)
    (ht : t.Consistent types) (ht' : t'.Consistent types)
    (hext : ∃ ext, t'.dataTable = t.dataTable ++ ext) (r : TableRecord)
    (h : t.Expanded types mem r) : t'.Expanded types mem r := by
  intro hne m hm hf
  exact hasPointer_mono types t t' ht ht' hext _ (h hne m hm hf)

theorem populate_succ (types : Descriptors) (mem : Memory) (fuel : Nat) (v : ReflectedVariable)
    (n : Bool) (t : PointerTable) :
    PointerTable.populate types mem (fuel + 1) v n t =
      if t.hasPointer types v then .ok t
      else
        if v.instanceData = 0 then .ok (t.addPointer types v n).2
        else
          (types v.reflectionData).members.foldlM
            (PointerTable.populateMember types mem (PointerTable.populate types mem fuel) v)
            (t.addPointer types v n).2 := by
  rw [PointerTable.populate]

/-- What `populate` establishes: the table stays consistent, it is extended at the end,
it holds the key of the visited variable, and every record it added is expanded. -/
theorem populate_spec (types : Descriptors) (mem : Memory) : ∀ (fuel : Nat)
    (v : ReflectedVariable) (n : Bool) (t t' : PointerTable), t.Consistent types →
    PointerTable.populate types mem fuel v n t = .ok t' →
    t'.Consistent types ∧ (∃ ext, t'.dataTable = t.dataTable ++ ext) ∧
      t'.hasPointer types v = true ∧
      (∀ (i : Nat) (r : TableRecord), t.dataTable.length ≤ i → t'.dataTable[i]? = some r →
        t'.Expanded types mem r) := by
  intro fuel
  induction fuel with
  | zero => intro v n t t' _ h; simp [PointerTable.populate] at h
  | succ fuel ih =>
    intro v n t t' ht h
    rw [populate_succ] at h
    by_cases hp : t.hasPointer types v = true
    · simp only [hp, if_true, Except.ok.injEq] at h
      subst h
      refine ⟨ht, ⟨[], by simp⟩, hp, ?_⟩
      intro i r hi hr
      rw [List.getElem?_eq_none hi] at hr; cases hr
    · have hp' : t.hasPointer types v = false := by simpa using hp
      simp only [hp', Bool.false_eq_true, if_false] at h
      obtain ⟨hd, _, _⟩ := addPointer_dataTable types t v n hp'
      have ht1 := addPointer_consistent types t ht v n hp'
      have hv1 : (t.addPointer types v n).2.hasPointer types v = true := by
        rw [hasPointer_iff types _ ht1]
        exact ⟨t.dataTable.length, { var := v, needsSerialization := n }, by simp [hd], rfl⟩
      by_cases h0 : v.instanceData = 0
      · simp only [h0, if_true, Except.ok.injEq] at h
        subst h
        refine ⟨ht1, ⟨_, hd⟩, hv1, ?_⟩
        intro i r hi hr
        rw [hd] at hr
        rw [List.getElem?_append_right hi] at hr
        have : i - t.dataTable.length = 0 := by
          by_contra hne
          rw [List.getElem?_eq_none (by simp; omega)] at hr
          cases hr
        rw [this] at hr
        simp only [List.getElem?_cons_zero, Option.some.injEq] at hr
        subst hr
        intro hne
        exact absurd h0 hne
      · simp only [h0, if_false] at h
        have hfold : ∀ (ms : List ReflectedMember) (b b' : PointerTable), b.Consistent types →
            List.foldlM (PointerTable.populateMember types mem
              (PointerTable.populate types mem fuel) v) b ms = .ok b' →
            b'.Consistent types ∧ (∃ ext, b'.dataTable = b.dataTable ++ ext) ∧
              (∀ m ∈ ms, followed types m = true →
                b'.hasPointer types (childVariable mem v.instanceData m) = true) ∧
              (∀ (i : Nat) (r : TableRecord), b.dataTable.length ≤ i →
                b'.dataTable[i]? = some r → b'.Expanded types mem r) := by
          intro ms
          induction ms with
          | nil =>
            intro b b' hb hf
            simp only [List.foldlM_nil, pure, Except.pure, Except.ok.injEq] at hf
            subst hf
            refine ⟨hb, ⟨[], by simp⟩, by simp, ?_⟩
            intro i r hi hr
            rw [List.getElem?_eq_none hi] at hr; cases hr
          | cons m ms ihm =>
            intro b b' hb hf
            rw [List.foldlM_cons] at hf
            cases hb1 : PointerTable.populateMember types mem
                (PointerTable.populate types mem fuel) v b m with
            | error e => simp [hb1, bind, Except.bind] at hf
            | ok b1 =>
              simp only [hb1, bind, Except.bind] at hf
              have hstep : b1.Consistent types ∧ (∃ ext, b1.dataTable = b.dataTable ++ ext) ∧
                  (followed types m = true →
                    b1.hasPointer types (childVariable mem v.instanceData m) = true) ∧
                  (∀ (i : Nat) (r : TableRecord), b.dataTable.length ≤ i →
                    b1.dataTable[i]? = some r → b1.Expanded types mem r) := by
                unfold PointerTable.populateMember at hb1
                by_cases hfo : followed types m = true
                · have hfo' : ((types m.data).hasDataMembers || m.isPointer) = true := hfo
                  simp only [hfo', if_true] at hb1
                  by_cases hptr : m.isPointer = true
                  · simp only [hptr, if_true] at hb1
                    obtain ⟨c1, c2, c3, c4⟩ := ih _ _ _ _ hb hb1
                    exact ⟨c1, c2, fun _ => by simpa [childVariable, hptr] using c3, c4⟩
                  · simp only [hptr, Bool.false_eq_true, if_false] at hb1
                    obtain ⟨c1, c2, c3, c4⟩ := ih _ _ _ _ hb hb1
                    exact ⟨c1, c2, fun _ => by simpa [childVariable, hptr] using c3, c4⟩
                · have hfo' : ((types m.data).hasDataMembers || m.isPointer) = false := by
                    simpa [followed] using hfo
                  simp only [hfo', Bool.false_eq_true, if_false, Except.ok.injEq] at hb1
                  subst hb1
                  refine ⟨hb, ⟨[], by simp⟩, fun h => absurd h hfo, ?_⟩
                  intro i r hi hr
                  rw [List.getElem?_eq_none hi] at hr; cases hr
              obtain ⟨s1, s2, s3, s4⟩ := hstep
              obtain ⟨r1, r2, r3, r4⟩ := ihm b1 b' s1 hf
              obtain ⟨e1, he1⟩ := s2
              obtain ⟨e2, he2⟩ := r2
              have hbb' : ∃ ext, b'.dataTable = b.dataTable ++ ext :=
                ⟨e1 ++ e2, by rw [he2, he1, List.append_assoc]⟩
              refine ⟨r1, hbb', ?_, ?_⟩
              · intro m' hm' hfo
                rw [List.mem_cons] at hm'
                rcases hm' with hm' | hm'
                · subst hm'
                  exact hasPointer_mono types b1 b' s1 r1 ⟨e2, he2⟩ _ (s3 hfo)
                · exact r3 m' hm' hfo
              · intro i r hi hr
                by_cases hi1 : b1.dataTable.length ≤ i
                · exact r4 i r hi1 hr
                · have hlt : i < b1.dataTable.length := by omega
                  have hr1 : b1.dataTable[i]? = some r := by
                    rw [he2, List.getElem?_append_left hlt] at hr; exact hr
                  exact expanded_mono types mem b1 b' s1 r1 ⟨e2, he2⟩ r (s4 i r hi hr1)
        obtain ⟨f1, f2, f3, f4⟩ := hfold _ _ _ ht1 h
        obtain ⟨e, he⟩ := f2
        have hext1 : ∃ ext, t'.dataTable = (t.addPointer types v n).2.dataTable ++ ext := ⟨e, he⟩
        refine ⟨f1, ⟨[{ var := v, needsSerialization := n }] ++ e, by
          rw [he, hd, List.append_assoc]⟩, hasPointer_mono types _ t' ht1 f1 hext1 _ hv1, ?_⟩
        intro i r hi hr
        by_cases hi1 : (t.addPointer types v n).2.dataTable.length ≤ i
        · exact f4 i r hi1 hr
        · have hlen : (t.addPointer types v n).2.dataTable.length = t.dataTable.length + 1 := by
            rw [hd]; simp
          have hi0 : i = t.dataTable.length := by omega
          subst hi0
          have hr' : r = { var := v, needsSerialization := n } := by
            rw [he, hd, List.append_assoc, List.getElem?_append_right (le_refl _)] at hr
            simpa using hr.symm
          subst hr'
          intro _ m hm hfo
          exact f3 m hm hfo

theorem countP_le_of_imp {α : Type} (p q : α → Bool) (l : List α)
    (h : ∀ x ∈ l, p x = true → q x = true) : l.countP p ≤ l.countP q := by
  induction l with
  | nil => simp
  | cons a l ih =>
    have ih' := ih (fun x hx => h x (List.mem_cons_of_mem a hx))
    have ha := h a (List.mem_cons_self a l)
    rw [List.countP_cons, List.countP_cons]
    by_cases hp : p a = true
    · simp [hp, ha hp]; exact ih'
    · simp [hp]; split <;> omega

theorem countP_lt_of_imp {α : Type} (p q : α → Bool) (l : List α)
    (h : ∀ x ∈ l, p x = true → q x = true) (a : α) (ha : a ∈ l) (hpa : p a = false)
    (hqa : q a = true) : l.countP p < l.countP q := by
  induction l with
  | nil => simp at ha
  | cons b l ih =>
    rw [List.countP_cons, List.countP_cons]
    have hle := countP_le_of_imp p q l (fun x hx => h x (List.mem_cons_of_mem b hx))
    rw [List.mem_cons] at ha
    rcases ha with ha | ha
    · subst ha
      simp [hpa, hqa]; omega
    · have ih' := ih (fun x hx => h x (List.mem_cons_of_mem b hx)) ha
      have hb := h b (List.mem_cons_self b l)
      by_cases hp : p b = true
      · simp [hp, hb hp]; exact ih'
      · simp [hp]; split <;> omega

theorem missing_le (types : Descriptors) (G : List ReflectedVariable) (t t' : PointerTable)
    (ht : t.Consistent types) (ht' : t'.Consistent types)
    (hext : ∃ ext, t'.dataTable = t.dataTable ++ ext) :
    t'.missing types G ≤ t.missing types G := by
  apply countP_le_of_imp
  intro w _ hw
  simp only [Bool.not_eq_true', Bool.not_eq_eq_eq_not, Bool.not_true] at hw ⊢
  by_contra hc
  have hc' : t.hasPointer types w = true := by simpa using hc
  rw [hasPointer_mono types t t' ht ht' hext w hc'] at hw
  cases hw

/-- With more fuel than there are variables of a closed graph still missing from the
table, `populate` returns a table. -/
theorem populate_total (types : Descriptors) (mem : Memory) (G : List ReflectedVariable)
    (hG : ClosedGraph types mem G) : ∀ (fuel : Nat) (v : ReflectedVariable) (n : Bool)
    (t : PointerTable), t.Consistent types → v ∈ G → t.missing types G < fuel →
    ∃ t', PointerTable.populate types mem fuel v n t = .ok t' := by
  intro fuel
  induction fuel with
  | zero => intro v n t _ _ h; omega
  | succ fuel ih =>
    intro v n t ht hv hfuel
    rw [populate_succ]
    by_cases hp : t.hasPointer types v = true
    · exact ⟨t, by simp [hp]⟩
    · have hp' : t.hasPointer types v = false := by simpa using hp
      simp only [hp', Bool.false_eq_true, if_false]
      by_cases h0 : v.instanceData = 0
      · exact ⟨(t.addPointer types v n).2, by simp [h0]⟩
      · simp only [h0, if_false]
        obtain ⟨hd, _, _⟩ := addPointer_dataTable types t v n hp'
        have ht1 := addPointer_consistent types t ht v n hp'
        have hv1 : (t.addPointer types v n).2.hasPointer types v = true := by
          rw [hasPointer_iff types _ ht1]
          exact ⟨t.dataTable.length, { var := v, needsSerialization := n }, by simp [hd], rfl⟩
        have hlt : (t.addPointer types v n).2.missing types G < t.missing types G := by
          apply countP_lt_of_imp _ _ G _ v hv
          · simp [hv1]
          · simp [hp']
          · intro w _ hw
            simp only [Bool.not_eq_true', Bool.not_eq_eq_eq_not, Bool.not_true] at hw ⊢
            by_contra hc
            have hc' : t.hasPointer types w = true := by simpa using hc
            rw [hasPointer_mono types t _ ht ht1 ⟨_, hd⟩ w hc'] at hw
            cases hw
        have hfold : ∀ (ms : List ReflectedMember) (b : PointerTable),
            (∀ m ∈ ms, m ∈ (types v.reflectionData).members) → b.Consistent types →
            b.missing types G < fuel →
            ∃ b', List.foldlM (PointerTable.populateMember types mem
              (PointerTable.populate types mem fuel) v) b ms = .ok b' := by
          intro ms
          induction ms with
          | nil => intro b _ _ _; exact ⟨b, rfl⟩
          | cons m ms ihm =>
            intro b hms hb hbf
            rw [List.foldlM_cons]
            have hstep : ∃ b1, PointerTable.populateMember types mem
                (PointerTable.populate types mem fuel) v b m = .ok b1 ∧ b1.Consistent types ∧
                b1.missing types G ≤ b.missing types G := by
              unfold PointerTable.populateMember
              by_cases hfo : followed types m = true
              · have hfo' : ((types m.data).hasDataMembers || m.isPointer) = true := hfo
                have hchild := hG v hv h0 m (hms m (List.mem_cons_self m ms)) hfo
                simp only [hfo', if_true]
                by_cases hptr : m.isPointer = true
                · simp only [childVariable, hptr, if_true] at hchild ⊢
                  obtain ⟨b1, hb1⟩ := ih _ true b hb hchild hbf
                  obtain ⟨c1, c2, _, _⟩ := populate_spec types mem _ _ _ _ _ hb hb1
                  exact ⟨b1, hb1, c1, missing_le types G b b1 hb c1 c2⟩
                · simp only [childVariable, hptr, Bool.false_eq_true, if_false] at hchild ⊢
                  obtain ⟨b1, hb1⟩ := ih _ false b hb hchild hbf
                  obtain ⟨c1, c2, _, _⟩ := populate_spec types mem _ _ _ _ _ hb hb1
                  exact ⟨b1, hb1, c1, missing_le types G b b1 hb c1 c2⟩
              · have hfo' : ((types m.data).hasDataMembers || m.isPointer) = false := by
                  simpa [followed] using hfo
                simp only [hfo', Bool.false_eq_true, if_false]
                exact ⟨b, rfl, hb, le_refl _⟩
            obtain ⟨b1, hb1, hc1, hle1⟩ := hstep
            obtain ⟨b', hb'⟩ := ihm b1 (fun x hx => hms x (List.mem_cons_of_mem m hx)) hc1
              (by omega)
            exact ⟨b', by simp [hb1, bind, Except.bind, hb']⟩
        exact hfold _ _ (fun m hm => hm) ht1 (by omega)

theorem missing_le_length (types : Descriptors) (G : List ReflectedVariable) (t : PointerTable) :
    t.missing types G ≤ G.length := List.countP_le_length _

theorem populateMembers_extends (types : Descriptors) (mem : Memory) (fuel : Nat)
    (v : ReflectedVariable) : ∀ (ms : List ReflectedMember) (b b' : PointerTable),
    b.Consistent types →
    List.foldlM (PointerTable.populateMember types mem (PointerTable.populate types mem fuel) v)
      b ms = .ok b' →
    b'.Consistent types ∧ ∃ ext, b'.dataTable = b.dataTable ++ ext := by
  intro ms
  induction ms with
  | nil =>
    intro b b' hb hf
    simp only [List.foldlM_nil, pure, Except.pure, Except.ok.injEq] at hf
    subst hf
    exact ⟨hb, [], by simp⟩
  | cons m ms ihm =>
    intro b b' hb hf
    rw [List.foldlM_cons] at hf
    cases hb1 : PointerTable.populateMember types mem
        (PointerTable.populate types mem fuel) v b m with
    | error e => simp [hb1, bind, Except.bind] at hf
    | ok b1 =>
      simp only [hb1, bind, Except.bind] at hf
      have hstep : b1.Consistent types ∧ ∃ ext, b1.dataTable = b.dataTable ++ ext := by
        unfold PointerTable.populateMember at hb1
        split at hb1
        · split at hb1
          · obtain ⟨c1, c2, _, _⟩ := populate_spec types mem _ _ _ _ _ hb hb1
            exact ⟨c1, c2⟩
          · obtain ⟨c1, c2, _, _⟩ := populate_spec types mem _ _ _ _ _ hb hb1
            exact ⟨c1, c2⟩
        · simp only [Except.ok.injEq] at hb1
          subst hb1
          exact ⟨hb, [], by simp⟩
      obtain ⟨s1, e1, he1⟩ := hstep
      obtain ⟨r1, e2, he2⟩ := ihm b1 b' s1 hf
      exact ⟨r1, e1 ++ e2, by rw [he2, he1, List.append_assoc]⟩

/-- A call of `populate` on an absent key files the variable at the end of the table,
with the flag of the call. -/
theorem populate_absent (types : Descriptors) (mem : Memory) (fuel : Nat)
    (v : ReflectedVariable) (n : Bool) (t t' : PointerTable) (ht : t.Consistent types)
    (hp : t.hasPointer types v = false)
    (h : PointerTable.populate types mem (fuel + 1) v n t = .ok t') :
    ∃ ext, t'.dataTable = t.dataTable ++ { var := v, needsSerialization := n } :: ext := by
  rw [populate_succ] at h
  simp only [hp, Bool.false_eq_true, if_false] at h
  obtain ⟨hd, _, _⟩ := addPointer_dataTable types t v n hp
  have ht1 := addPointer_consistent types t ht v n hp
  by_cases h0 : v.instanceData = 0
  · simp only [h0, if_true, Except.ok.injEq] at h
    subst h
    exact ⟨[], hd⟩
  · simp only [h0, if_false] at h
    obtain ⟨_, e, he⟩ := populateMembers_extends types mem fuel v _ _ _ ht1 h
    exact ⟨e, by rw [he, hd, List.append_assoc]; rfl⟩

/-- **C6** `PointerTable::populate` terminates on every finite object graph, cycles
included: with more fuel than the graph has variables the call on the root returns a
table; a call whose key is already in the table returns the table unchanged without
recursing, and a call whose key is absent adds that key. -/
theorem populate_terminates (types : Descriptors) (mem : Memory) (G : List ReflectedVariable)
    (hG : ClosedGraph types mem G) (root : ReflectedVariable) (hroot : root ∈ G)
    (needs : Bool) :
    (∀ fuel, G.length < fuel →
      ∃ t, PointerTable.populate types mem fuel root needs {} = .ok t) ∧
    (∀ (fuel : Nat) (v : ReflectedVariable) (n : Bool) (t : PointerTable),
      t.hasPointer types v = true →
      PointerTable.populate types mem (fuel + 1) v n t = .ok t) ∧
    (∀ (fuel : Nat) (v : ReflectedVariable) (n : Bool) (t t' : PointerTable),
      t.Consistent types → t.hasPointer types v = false →
      PointerTable.populate types mem (fuel + 1) v n t = .ok t' →
      t'.hasPointer types v = true ∧
        ∃ ext, t'.dataTable = t.dataTable ++ { var := v, needsSerialization := n } :: ext) := by
  refine ⟨?_, ?_, ?_⟩
  · intro fuel hfuel
    apply populate_total types mem G hG fuel root needs {} (consistent_empty types) hroot
    exact lt_of_le_of_lt (missing_le_length types G {}) hfuel
  · intro fuel v n t hp
    rw [populate_succ]; simp [hp]
  · intro fuel v n t t' ht hp h
    exact ⟨(populate_spec types mem _ _ _ _ _ ht h).2.2.1,
      populate_absent types mem fuel v n t t' ht hp h⟩

/-- The two-node cycle `A → B → A` is a closed graph, and `populate` terminates on it. -/
theorem populate_terminates_witness :
    ClosedGraph exampleTypes cycleMemory [⟨nodePtr, 100⟩, ⟨nodePtr, 200⟩] ∧
    (⟨nodePtr, 100⟩ : ReflectedVariable) ∈ [(⟨nodePtr, 100⟩ : ReflectedVariable), ⟨nodePtr, 200⟩] ∧
    ((∀ fuel, [(⟨nodePtr, 100⟩ : ReflectedVariable), ⟨nodePtr, 200⟩].length < fuel →
      ∃ t, PointerTable.populate exampleTypes cycleMemory fuel ⟨nodePtr, 100⟩ true {} = .ok t) ∧
    (∀ (fuel : Nat) (v : ReflectedVariable) (n : Bool) (t : PointerTable),
      t.hasPointer exampleTypes v = true →
      PointerTable.populate exampleTypes cycleMemory (fuel + 1) v n t = .ok t) ∧
    (∀ (fuel : Nat) (v : ReflectedVariable) (n : Bool) (t t' : PointerTable),
      t.Consistent exampleTypes → t.hasPointer exampleTypes v = false →
      PointerTable.populate exampleTypes cycleMemory (fuel + 1) v n t = .ok t' →
      t'.hasPointer exampleTypes v = true ∧
        ∃ ext, t'.dataTable = t.dataTable ++ { var := v, needsSerialization := n } :: ext)) :=
  ⟨by unfold ClosedGraph; decide, by decide,
    populate_terminates exampleTypes cycleMemory [⟨nodePtr, 100⟩, ⟨nodePtr, 200⟩]
      (by unfold ClosedGraph; decide) ⟨nodePtr, 100⟩ (by decide) true⟩

/-! ## Encoding -/

theorem writeEach_map {α : Type} (write : α → Except Fault Text) (g : α → Text) :
    ∀ (l : List α), (∀ a ∈ l, write a = .ok (g a)) →
    writeEach write l = .ok (l.map g).flatten := by
  intro l
  induction l with
  | nil => intro _; rfl
  | cons a l ih =>
    intro h
    have ha := h a (List.mem_cons_self a l)
    have hl := ih (fun x hx => h x (List.mem_cons_of_mem a hx))
    simp [writeEach, ha, hl, bind, Except.bind, pure, Except.pure]

/-- A type with a leaf codec and no parent is written by its codec alone. -/
theorem serialize_leaf (types : Descriptors) (mem : Memory) (t : PointerTable) (fuel : Nat)
    (p : DescriptorPtr) (v : ReflectedVariable) (padding : Nat) (isArray : Bool)
    (hparent : (types p).parent = 0) (f : SerializeFunction)
    (hf : (types p).serializeFunction = some f) :
    ReflectionData.serialize types mem t (fuel + 1) p v padding isArray = .ok (f mem v) := by
  rw [ReflectionData.serialize]
  simp [hparent, hf, bind, Except.bind, pure, Except.pure]

/-- The text written for a non-null variable of a type without parent and codec. -/
theorem serialize_composite (types : Descriptors) (mem : Memory) (t : PointerTable) (fuel : Nat)
    (p : DescriptorPtr) (v : ReflectedVariable) (padding : Nat) (index : Nat)
    (hparent : (types p).parent = 0) (hf : (types p).serializeFunction = none)
    (hv : v.instanceData ≠ 0) (hindex : t.index types v = .ok index) (body : Text)
    (hbody : writeEach (ReflectionData.serializeMember types mem t
      (ReflectionData.serialize types mem t fuel) v (padding + 1)) (types p).members
        = .ok body) :
    ReflectionData.serialize types mem t (fuel + 1) p v padding false =
      .ok (showNat index ++ [' '] ++ (types p).name ++ ['\n'] ++ padStream padding
        ++ ['[', '\n'] ++ body ++ padStream padding ++ [']', '\n']) := by
  rw [ReflectionData.serialize]
  simp [hparent, hf, hv, hindex, hbody, bind, Except.bind, pure, Except.pure]

theorem populateMembers_unfollowed (types : Descriptors) (mem : Memory)
    (populate : ReflectedVariable → Bool → PointerTable → Except Fault PointerTable)
    (v : ReflectedVariable) : ∀ (ms : List ReflectedMember) (b : PointerTable),
    (∀ m ∈ ms, followed types m = false) →
    List.foldlM (PointerTable.populateMember types mem populate v) b ms = .ok b := by
  intro ms
  induction ms with
  | nil => intro b _; rfl
  | cons m ms ih =>
    intro b h
    have hm : ((types m.data).hasDataMembers || m.isPointer) = false :=
      h m (List.mem_cons_self m ms)
    rw [List.foldlM_cons]
    simp only [PointerTable.populateMember, hm, Bool.false_eq_true, if_false, bind, Except.bind]
    exact ih b (fun x hx => h x (List.mem_cons_of_mem m hx))

/-- **C3** For an instance of a type without parent whose members are all plain leaves,
`ReflectedVariable::serialize` writes the line `1`, the header line `0 <TypeName>`, a
line `[`, one line per member in declaration order made of a tab, the member name, a
space and the text of the leaf codec, and a line `]`. -/
theorem serialize_flat (types : Descriptors) (mem : Memory) (root : ReflectedVariable)
    (hroot : root.instanceData ≠ 0) (hparent : (types root.reflectionData).parent = 0)
    (hcodec : (types root.reflectionData).serializeFunction = none)
    (hleaf : ∀ m ∈ (types root.reflectionData).members, LeafMember types m)
    (fuel : Nat) (hfuel : 2 ≤ fuel) :
    ReflectedVariable.serialize types mem fuel root =
      .ok (['1', '\n'] ++ ['0', ' '] ++ (types root.reflectionData).name ++ ['\n']
        ++ ['[', '\n']
        ++ ((types root.reflectionData).members.map (fun m =>
            ['\t'] ++ m.name ++ [' ']
              ++ leafText types mem (memberVariable root.instanceData m))).flatten
        ++ [']', '\n']) := by
  obtain ⟨fuel, rfl⟩ : ∃ k, fuel = k + 2 := ⟨fuel - 2, by omega⟩
  have hempty : PointerTable.hasPointer types {} root = false := by
    simp [PointerTable.hasPointer]
  have hunf : ∀ m ∈ (types root.reflectionData).members, followed types m = false := by
    intro m hm
    obtain ⟨h1, _, _, _, h5⟩ := hleaf m hm
    simp [followed, ReflectionData.hasDataMembers, h1, h5]
  have hpop : PointerTable.populate types mem (fuel + 2) root true {} =
      .ok (PointerTable.addPointer types {} root true).2 := by
    rw [populate_succ]
    simp only [hempty, Bool.false_eq_true, if_false, hroot]
    exact populateMembers_unfollowed types mem _ root _ _ hunf
  obtain ⟨hd, _, _⟩ := addPointer_dataTable types {} root true hempty
  have hcons := addPointer_consistent types {} (consistent_empty types) root true hempty
  have hindex : (PointerTable.addPointer types {} root true).2.index types root = .ok 0 := by
    apply index_of_record types _ hcons root 0 { var := root, needsSerialization := true }
    · rw [hd]; rfl
    · rfl
  have hbody := writeEach_map
    (ReflectionData.serializeMember types mem (PointerTable.addPointer types {} root true).2
      (ReflectionData.serialize types mem (PointerTable.addPointer types {} root true).2
        (fuel + 1)) root (0 + 1))
    (fun m => ['\t'] ++ m.name ++ [' ']
      ++ leafText types mem (memberVariable root.instanceData m))
    (types root.reflectionData).members (by
      intro m hm
      obtain ⟨h1, h2, h3, h4, _⟩ := hleaf m hm
      obtain ⟨f, hf⟩ := Option.isSome_iff_exists.mp h3
      have := serialize_leaf types mem (PointerTable.addPointer types {} root true).2 fuel
        m.data (memberVariable root.instanceData m) (0 + 1) false h4 f hf
      have hlt : leafText types mem (memberVariable root.instanceData m)
          = f mem (memberVariable root.instanceData m) := by
        simp [leafText, memberVariable, hf]
      simp [ReflectionData.serializeMember, h1, h2, this, hlt, bind, Except.bind, pure,
        Except.pure, padStream])
  have hrec := serialize_composite types mem (PointerTable.addPointer types {} root true).2
    (fuel + 1) root.reflectionData root 0 0 hparent hcodec hroot hindex _ hbody
  unfold ReflectedVariable.serialize
  simp only [hpop, bind, Except.bind]
  unfold PointerTable.serialize
  have hnp : (types root.reflectionData).hasParent = false := by
    simp [ReflectionData.hasParent, hparent]
  have h1 : showNat 1 = ['1'] := by decide
  have h0 : showNat 0 = ['0'] := by decide
  simp [hd, writeEach, PointerTable.serializeRecord, hnp, hrec, bind, Except.bind, pure,
    Except.pure, padStream, h0, h1]

/-- The instance `Foo` with `x = 10` and `y = 13` is written as the lines `1`, `0 Foo`,
`[`, tab `x 10`, tab `y 13`, `]`. -/
theorem serialize_flat_witness :
    (⟨4, 100⟩ : ReflectedVariable).instanceData ≠ 0 ∧
    (∀ m ∈ (exampleTypes 4).members, LeafMember exampleTypes m) ∧
    ReflectedVariable.serialize exampleTypes fooMemory 2 ⟨4, 100⟩ =
      .ok "1\n0 Foo\n[\n\tx 10\n\ty 13\n]\n".toList :=
  ⟨by decide, by unfold LeafMember; decide,
    (serialize_flat exampleTypes fooMemory ⟨4, 100⟩ (by decide) rfl rfl
      (by unfold LeafMember; decide) 2 (le_refl 2)).trans (by decide)⟩

/-! ## Evaluations on the example graphs -/

set_option maxRecDepth 100000 in
/-- **C8** On `C { Y *p; Y y; }` with `p = &y` the table entry of `y`, created by the
pointer visit, keeps its flag: the text holds two records of `y` (nested in the block of
`C` and standalone, both with index 1), and after decoding the pointer field at 1000 holds
1016, the standalone copy, not 1008, the inline member of the decoded container. -/
theorem inline_record_duplicated :
    (PointerTable.populate exampleTypes aliasMemory 10 ⟨7, 100⟩ true {}).map
        (fun t => t.dataTable) =
      .ok [⟨⟨7, 100⟩, true⟩, ⟨⟨6, 108⟩, true⟩] ∧
    (roundTrip aliasMemory 10 ⟨7, 100⟩).map
        (fun r => (r.1, r.2.table.dataTable.map (fun e => e.var),
          r.2.heap.memory 1000, r.2.heap.memory 1008)) =
      .ok ("2\n0 C\n[\n\tp 1\n\ty 1 Y\n\t[\n\t\tv 7\n\t]\n]\n1 Y\n[\n\tv 7\n]\n".toList,
        [⟨7, 1000⟩, ⟨6, 1016⟩], .pointer 1016, .int 7) := by
  decide

set_option maxRecDepth 100000 in
/-- **C1** On `Root { int id; Holder *h; }` whose holder has an array of two `Pt`, the
array elements, decoded without an index, are published into table slot 0: the root address
stored by `deserialize` is 1020, the second array element of the decoded holder, not 1000,
the decoded `Root`; the leaf `id` read there is 8, not 5. -/
theorem round_trip_root_lost :
    (roundTrip arrayMemory 10 ⟨10, 300⟩).map
        (fun r => (r.1, r.2.heap.allocated, r.2.heap.memory 50,
          r.2.heap.memory 1000, r.2.heap.memory 1020)) =
      .ok (("3\n0 Root\n[\n\tid 5\n\th 1\n]\n1 Holder\n[\n\tpts\n\t\tPt\n\t\t[\n\t\t\tx 7\n\t\t]"
          ++ "\n\t\tPt\n\t\t[\n\t\t\tx 8\n\t\t]\n]\n").toList,
        [(1000, 16), (1016, 8)], .pointer 1020, .int 5, .int 8) := by
  decide

set_option maxRecDepth 100000 in
/-- **C2** On `C { Y *p; Y y; }` with `p = &y`, serializing the decoded graph (root at
1000) gives a text that differs from the first one: the table now has three entries. -/
theorem round_trip_text_differs :
    (do
      let r ← roundTrip aliasMemory 10 ⟨7, 100⟩
      let again ← ReflectedVariable.serialize exampleTypes r.2.heap.memory 10
        ⟨7, (r.2.heap.memory 50).asPointer⟩
      pure (r.1, again)) =
      .ok ("2\n0 C\n[\n\tp 1\n\ty 1 Y\n\t[\n\t\tv 7\n\t]\n]\n1 Y\n[\n\tv 7\n]\n".toList,
        "3\n0 C\n[\n\tp 1\n\ty 2 Y\n\t[\n\t\tv 7\n\t]\n]\n1 Y\n[\n\tv 7\n]\n".toList) := by
  decide

/-! ## Decoding -/

theorem deserializeMembers_succ (types : Descriptors) (fuel : Nat) (self : DescriptorPtr)
    (var : ReflectedVariable) (st : Loader) :
    ReflectionData.deserializeMembers types (fuel + 1) self var st =
      (do
        let (streamInput, s1) ← extractToken st.stream
        let st := { st with stream := s1 }
        if streamInput = ['n', 'u', 'l', 'l'] then
          ReflectionData.deserializeMembers types fuel self { var with instanceData := 0 } st
        else do
          let st ←
            (match (types self).member streamInput with
            | none => pure st
            | some member =>
              ReflectionData.deserializeMember types (ReflectionData.deserialize types fuel)
                var st member)
          if streamInput = [']'] then pure (var, st)
          else ReflectionData.deserializeMembers types fuel self var st) := by
  rw [ReflectionData.deserializeMembers]

theorem deserialize_succ (types : Descriptors) (fuel : Nat) (self : DescriptorPtr)
    (var : ReflectedVariable) (st : Loader) (isArray : Bool) :
    ReflectionData.deserialize types (fuel + 1) self var st isArray =
      (do
        let (var, st) ←
          (if (types self).parent != 0 then
            ReflectionData.deserialize types fuel (types self).parent var st isArray
          else pure (var, st))
        match (types self).deserializeFunction with
        | some f => do
          let (rest, memory) ← f st.heap.memory var st.stream
          pure (var, { st with stream := rest, heap := { st.heap with memory := memory } })
        | none => do
          let (tableIndex, s1) ← (if isArray then pure (0, st.stream) else extractSize st.stream)
          let (typeName, s2) ← extractToken s1
          if typeName ≠ (types self).name then .error .assertion
          else do
            let (bracket, s3) ← extractToken s2
            if bracket ≠ ['['] then .error .assertion
            else do
              let (var, st) ← ReflectionData.deserializeMembers types fuel self var
                { st with stream := s3 }
              if (types self).parent != 0 then pure (var, st)
              else do
                let table ← st.table.publish tableIndex var
                pure (var, { st with table := table })) := by
  rw [ReflectionData.deserialize]

/-- The closing `]` of a block ends the member loop. -/
theorem deserializeMembers_close (types : Descriptors) (fuel : Nat) (self : DescriptorPtr)
    (var : ReflectedVariable) (st : Loader) (rest : Text)
    (hstream : extractToken st.stream = .ok ([']'], rest))
    (hmember : (types self).member [']'] = none) :
    ReflectionData.deserializeMembers types (fuel + 1) self var st =
      .ok (var, { st with stream := rest }) := by
  rw [deserializeMembers_succ]
  simp [hstream, hmember, bind, Except.bind, pure, Except.pure]

/-- The token `null` resets the instance pointer of the variable and the loop goes on. -/
theorem deserializeMembers_null (types : Descriptors) (fuel : Nat) (self : DescriptorPtr)
    (var : ReflectedVariable) (st : Loader) (rest : Text)
    (hstream : extractToken st.stream = .ok (['n', 'u', 'l', 'l'], rest)) :
    ReflectionData.deserializeMembers types (fuel + 1) self var st =
      ReflectionData.deserializeMembers types fuel self { var with instanceData := 0 }
        { st with stream := rest } := by
  rw [deserializeMembers_succ]
  simp [hstream, bind, Except.bind]

/-- Reading the line of a pointer member records the member's slot in the patch list,
with the index read, and the loop goes on. -/
theorem deserializeMembers_pointer (types : Descriptors) (fuel : Nat) (self : DescriptorPtr)
    (var : ReflectedVariable) (st : Loader) (member : ReflectedMember) (index : Nat)
    (s1 rest : Text)
    (hstream : extractToken st.stream = .ok (member.name, s1))
    (hindex : extractSize s1 = .ok (index, rest))
    (hmember : (types self).member member.name = some member)
    (hpointer : member.isPointer = true)
    (hnull : member.name ≠ ['n', 'u', 'l', 'l']) (hclose : member.name ≠ [']']) :
    ReflectionData.deserializeMembers types (fuel + 1) self var st =
      ReflectionData.deserializeMembers types fuel self var
        { st with
          stream := rest
          table := st.table.addPatchPointer index (memberVariable var.instanceData member) } := by
  rw [deserializeMembers_succ]
  simp [hstream, hindex, hmember, hpointer, hnull, hclose, ReflectionData.deserializeMember,
    bind, Except.bind, pure, Except.pure]

theorem bind_ok {ε α β : Type} (x : Except ε α) (f : α → Except ε β) (b : β) :
    (x >>= f) = .ok b ↔ ∃ a, x = .ok a ∧ f a = .ok b := by
  cases x <;> simp [bind, Except.bind]

theorem sameBlocks_refl (a : Loader) : a.sameBlocks a := ⟨rfl, rfl⟩

theorem sameBlocks_trans {a b c : Loader} (h1 : a.sameBlocks b) (h2 : b.sameBlocks c) :
    a.sameBlocks c := ⟨h2.1.trans h1.1, h2.2.trans h1.2⟩

theorem deserializeMember_sameBlocks (types : Descriptors)
    (deserialize : DescriptorPtr → ReflectedVariable → Loader → Bool →
      Except Fault (ReflectedVariable × Loader))
    (hrec : ∀ p v st b v' st', deserialize p v st b = .ok (v', st') → st.sameBlocks st')
    (var : ReflectedVariable) (st st' : Loader) (member : ReflectedMember)
    (h : ReflectionData.deserializeMember types deserialize var st member = .ok st') :
    st.sameBlocks st' := by
  unfold ReflectionData.deserializeMember at h
  split at h
  · cases hx : extractSize st.stream with
    | error e => simp [hx, bind, Except.bind] at h
    | ok r =>
      simp only [hx, bind, Except.bind, pure, Except.pure, Except.ok.injEq] at h
      subst h
      exact ⟨rfl, rfl⟩
  · split at h
    · split at h
      · cases h
      · have hfold : ∀ (ks : List Nat) (a b : Loader),
            List.foldlM (fun st k => do
              let (_, st) ← deserialize member.data
                (arrayElement types var.instanceData member k) st true
              pure st) a ks = .ok b → a.sameBlocks b := by
          intro ks
          induction ks with
          | nil =>
            intro a b hf
            simp only [List.foldlM_nil, pure, Except.pure, Except.ok.injEq] at hf
            subst hf; exact sameBlocks_refl a
          | cons k ks ih =>
            intro a b hf
            rw [List.foldlM_cons] at hf
            cases hd : deserialize member.data
                (arrayElement types var.instanceData member k) a true with
            | error e => simp [hd, bind, Except.bind] at hf
            | ok r =>
              obtain ⟨v1, a1⟩ := r
              simp only [hd, bind, Except.bind, pure, Except.pure] at hf
              exact sameBlocks_trans (hrec _ _ _ _ _ _ hd) (ih a1 b hf)
        exact hfold _ _ _ h
    · cases hd : deserialize member.data (memberVariable var.instanceData member) st false with
      | error e => simp [hd, bind, Except.bind] at h
      | ok r =>
        obtain ⟨v1, a1⟩ := r
        simp only [hd, bind, Except.bind, pure, Except.pure, Except.ok.injEq] at h
        subst h
        exact hrec _ _ _ _ _ _ hd

/-- `ReflectionData::deserialize` and its member loop never allocate. -/
theorem deserialize_sameBlocks (types : Descriptors) : ∀ (fuel : Nat),
    (∀ self var st isArray v' st',
      ReflectionData.deserialize types fuel self var st isArray = .ok (v', st') →
        st.sameBlocks st') ∧
    (∀ self var st v' st',
      ReflectionData.deserializeMembers types fuel self var st = .ok (v', st') →
        st.sameBlocks st') := by
  intro fuel
  induction fuel with
  | zero =>
    constructor
    · intro self var st isArray v' st' h
      simp [ReflectionData.deserialize] at h
    · intro self var st v' st' h
      simp [ReflectionData.deserializeMembers] at h
  | succ fuel ih =>
    obtain ⟨ihd, ihm⟩ := ih
    constructor
    · intro self var st isArray v' st' h
      rw [deserialize_succ] at h
      obtain ⟨⟨v1, st1⟩, hp, h⟩ := (bind_ok _ _ _).mp h
      have h1 : st.sameBlocks st1 := by
        split at hp
        · exact ihd _ _ _ _ _ _ hp
        · simp only [pure, Except.pure, Except.ok.injEq, Prod.mk.injEq] at hp
          obtain ⟨_, hp⟩ := hp
          subst hp; exact sameBlocks_refl st
      dsimp only at h
      split at h
      · obtain ⟨⟨rest, memory⟩, _, h⟩ := (bind_ok _ _ _).mp h
        simp only [pure, Except.pure, Except.ok.injEq, Prod.mk.injEq] at h
        obtain ⟨_, h⟩ := h
        subst h
        exact ⟨h1.1, h1.2⟩
      · obtain ⟨⟨i, s1⟩, _, h⟩ := (bind_ok _ _ _).mp h
        obtain ⟨⟨nm, s2⟩, _, h⟩ := (bind_ok _ _ _).mp h
        dsimp only at h
        split at h
        · cases h
        · obtain ⟨⟨br, s3⟩, _, h⟩ := (bind_ok _ _ _).mp h
          dsimp only at h
          split at h
          · cases h
          · obtain ⟨⟨v2, st2⟩, hm, h⟩ := (bind_ok _ _ _).mp h
            have h2 : Loader.sameBlocks { st1 with stream := s3 } st2 := ihm _ _ _ _ _ hm
            dsimp only at h
            split at h
            · simp only [pure, Except.pure, Except.ok.injEq, Prod.mk.injEq] at h
              obtain ⟨_, h⟩ := h
              subst h
              exact ⟨h2.1.trans h1.1, h2.2.trans h1.2⟩
            · obtain ⟨tb, _, h⟩ := (bind_ok _ _ _).mp h
              simp only [pure, Except.pure, Except.ok.injEq, Prod.mk.injEq] at h
              obtain ⟨_, h⟩ := h
              subst h
              exact ⟨h2.1.trans h1.1, h2.2.trans h1.2⟩
    · intro self var st v' st' h
      rw [deserializeMembers_succ] at h
      obtain ⟨⟨tok, s1⟩, _, h⟩ := (bind_ok _ _ _).mp h
      dsimp only at h
      split at h
      · have := ihm _ _ _ _ _ h
        exact ⟨this.1, this.2⟩
      · obtain ⟨st1, hmem, h⟩ := (bind_ok _ _ _).mp h
        have h1 : st.sameBlocks st1 := by
          split at hmem
          · simp only [pure, Except.pure, Except.ok.injEq] at hmem
            subst hmem; exact ⟨rfl, rfl⟩
          · have := deserializeMember_sameBlocks types _ ihd _ _ _ _ hmem
            exact ⟨this.1, this.2⟩
        split at h
        · simp only [pure, Except.pure, Except.ok.injEq, Prod.mk.injEq] at h
          obtain ⟨_, h⟩ := h
          subst h; exact h1
        · exact sameBlocks_trans h1 (ihm _ _ _ _ _ h)

/-- Loading one top-level record allocates exactly one block, whatever the record holds. -/
theorem deserializeRecord_allocates (types : Descriptors) (hashString : Text → Nat)
    (manager : ReflectionDataManager) (tableSize fuel : Nat) (st st' : Loader)
    (h : PointerTable.deserializeRecord types hashString manager tableSize fuel st = .ok st') :
    ∃ size, st'.heap.allocated = st.heap.allocated ++ [(st.heap.brk, size)] ∧
      st'.heap.brk = st.heap.brk + size := by
  unfold PointerTable.deserializeRecord at h
  obtain ⟨⟨inherited, tag, s1⟩, _, h⟩ := (bind_ok _ _ _).mp h
  dsimp only at h
  obtain ⟨⟨index, s2⟩, _, h⟩ := (bind_ok _ _ _).mp h
  dsimp only at h
  split at h
  · cases h
  · obtain ⟨⟨streamInput, s3⟩, _, h⟩ := (bind_ok _ _ _).mp h
    dsimp only at h
    split at h
    · cases h
    · rename_i rd hrd
      obtain ⟨⟨v1, st1⟩, hd, h⟩ := (bind_ok _ _ _).mp h
      simp only [pure, Except.pure, Except.ok.injEq] at h
      subst h
      have hsame := (deserialize_sameBlocks types fuel).1 _ _ _ _ _ _ hd
      refine ⟨(types rd).size, ?_, ?_⟩
      · rw [hsame.1]; rfl
      · rw [hsame.2]; rfl

theorem deserializeRecords_succ (types : Descriptors) (hashString : Text → Nat)
    (manager : ReflectionDataManager) (tableSize fuel : Nat) (st : Loader) :
    PointerTable.deserializeRecords types hashString manager tableSize (fuel + 1) st =
      if peekPositive st.stream then
        PointerTable.deserializeRecord types hashString manager tableSize fuel st >>=
          PointerTable.deserializeRecords types hashString manager tableSize fuel
      else .ok st := by
  rw [PointerTable.deserializeRecords]
  rfl

/-- The record loop allocates one block per record it loads. -/
theorem deserializeRecords_allocations (types : Descriptors) (hashString : Text → Nat)
    (manager : ReflectionDataManager) (tableSize : Nat) : ∀ (fuel : Nat) (st final : Loader),
    PointerTable.deserializeRecords types hashString manager tableSize fuel st = .ok final →
    final.heap.allocated.length = st.heap.allocated.length +
      PointerTable.loadedRecords types hashString manager tableSize fuel st := by
  intro fuel
  induction fuel with
  | zero => intro st final h; simp [PointerTable.deserializeRecords] at h
  | succ fuel ih =>
    intro st final h
    rw [deserializeRecords_succ] at h
    rw [PointerTable.loadedRecords]
    by_cases hp : peekPositive st.stream = true
    · simp only [hp, if_true] at h ⊢
      obtain ⟨st1, h1, h⟩ := (bind_ok _ _ _).mp h
      obtain ⟨size, ha, _⟩ := deserializeRecord_allocates types hashString manager tableSize
        fuel st st1 h1
      have := ih st1 final h
      simp only [h1]
      rw [this, ha]
      simp; omega
    · simp only [hp, Bool.false_eq_true, if_false, Except.ok.injEq] at h ⊢
      subst h; rfl

/-- The closing loop writes only the recorded slots, and a slot that no later entry of the
patch list names again holds the instance address of the table entry at its index when the
index is inside the table, and an unspecified value when it is not. -/
theorem patchPointers_spec (dataTable : List TableRecord) : ∀ (patches : List PatchPointer)
    (memory memory' : Memory),
    PointerTable.patchPointers dataTable patches memory = .ok memory' →
    (∀ a, (∀ p ∈ patches, p.var.instanceData ≠ a) → memory' a = memory a) ∧
    (∀ (k : Nat) (p : PatchPointer), patches[k]? = some p →
      (∀ (j : Nat) (q : PatchPointer), k < j → patches[j]? = some q →
        q.var.instanceData ≠ p.var.instanceData) →
      (∀ r, dataTable[p.index]? = some r →
        memory' p.var.instanceData = .pointer r.var.instanceData) ∧
      (dataTable[p.index]? = none → memory' p.var.instanceData = .garbage)) := by
  intro patches
  induction patches with
  | nil =>
    intro memory memory' h
    simp only [PointerTable.patchPointers, Except.ok.injEq] at h
    subst h
    exact ⟨fun _ _ => rfl, fun k p hk => by simp at hk⟩
  | cons p0 rest ih =>
    intro memory memory' h
    rw [PointerTable.patchPointers] at h
    obtain ⟨hframe, hlast⟩ := ih _ _ h
    constructor
    · intro a ha
      rw [hframe a (fun p hp => ha p (List.mem_cons_of_mem p0 hp))]
      have := ha p0 (List.mem_cons_self p0 rest)
      simp [Memory.write, Ne.symm this]
    · intro k p hk hlater
      cases k with
      | zero =>
        simp only [List.getElem?_cons_zero, Option.some.injEq] at hk
        subst hk
        have hslot : memory' p0.var.instanceData =
            (match dataTable[p0.index]? with
              | some tablePointer => Value.pointer tablePointer.var.instanceData
              | none => Value.garbage) := by
          rw [hframe]
          · simp [Memory.write]
          · intro q hq
            obtain ⟨j, hj⟩ := List.getElem?_of_mem hq
            exact hlater (j + 1) q (by omega) (by simpa using hj)
        constructor
        · intro r hr
          rw [hslot, hr]
        · intro hr
          rw [hslot, hr]
      | succ k =>
        simp only [List.getElem?_cons_succ] at hk
        exact hlast k p hk (fun j q hj hq =>
          hlater (j + 1) q (by omega) (by simpa using hq))

/-- The closing loop always returns. -/
theorem patchPointers_total (dataTable : List TableRecord) : ∀ (patches : List PatchPointer)
    (memory : Memory),
    ∃ memory', PointerTable.patchPointers dataTable patches memory = .ok memory' := by
  intro patches
  induction patches with
  | nil => intro memory; exact ⟨memory, rfl⟩
  | cons p0 rest ih =>
    intro memory
    rw [PointerTable.patchPointers]
    exact ih _

theorem showNat_append_head (n : Nat) (rest : Text) :
    ∃ c cs, showNat n ++ rest = c :: cs ∧ c.isDigit = true := by
  obtain ⟨c, cs, hc, hd⟩ := showNat_head n
  exact ⟨c, cs ++ rest, by rw [hc]; rfl, hd⟩

theorem extractSize_showNat_cons (n : Nat) (c : Char) (cs : Text) (hn : n < 2 ^ 64)
    (hc : c.isDigit = false) : extractSize (showNat n ++ c :: cs) = .ok (n, c :: cs) := by
  apply extractSize_showNat n (c :: cs) hn
  intro x hx
  simp only [List.head?_cons, Option.mem_def, Option.some.injEq] at hx
  subst hx; exact hc

theorem extractInt_showInt_cons (i : Int) (c : Char) (cs : Text) (hlo : -(2 : Int) ^ 31 ≤ i)
    (hhi : i < (2 : Int) ^ 31) (hc : c.isDigit = false) :
    extractInt (showInt i ++ c :: cs) = .ok (i, c :: cs) := by
  apply extractInt_showInt i (c :: cs) hlo hhi
  intro x hx
  simp only [List.head?_cons, Option.mem_def, Option.some.injEq] at hx
  subst hx; exact hc

theorem publish_ok (t : PointerTable) (index : Nat) (var : ReflectedVariable)
    (h : index < t.dataTable.length) : t.publish index var = .ok (t.withEntry index var) := by
  simp [PointerTable.publish, PointerTable.withEntry, h]

/-- Decoding a block that holds only `null`: the variable loses its instance, and the table
entry of the index read receives the variable with the null address. -/
theorem deserialize_null_block (types : Descriptors) (fuel : Nat) (self : DescriptorPtr)
    (var : ReflectedVariable) (st : Loader) (index : Nat) (rest : Text)
    (hparent : (types self).parent = 0) (hcodec : (types self).deserializeFunction = none)
    (hname : TokenName (types self).name) (hclose : (types self).member [']'] = none)
    (hindex : index < 2 ^ 64) (hlen : index < st.table.dataTable.length)
    (hstream : st.stream = nullRecordText index (types self).name ++ rest) :
    ReflectionData.deserialize types (fuel + 3) self var st false =
      .ok ({ var with instanceData := 0 },
        { st with
          stream := '\n' :: rest
          table := st.table.withEntry index { var with instanceData := 0 } }) := by
  have h1 : extractSize st.stream = .ok (index, ' ' :: ((types self).name ++
      '\n' :: '[' :: '\n' :: '\t' :: 'n' :: 'u' :: 'l' :: 'l' :: '\n' :: ']' :: '\n' :: rest)) := by
    rw [hstream]
    simpa [nullRecordText] using extractSize_showNat_cons index ' ' ((types self).name ++
      ['\n', '[', '\n', '\t', 'n', 'u', 'l', 'l', '\n', ']', '\n'] ++ rest) hindex (by decide)
  have h2 : extractToken (' ' :: ((types self).name ++
      '\n' :: '[' :: '\n' :: '\t' :: 'n' :: 'u' :: 'l' :: 'l' :: '\n' :: ']' :: '\n' :: rest)) =
      .ok ((types self).name, '\n' :: '[' :: '\n' :: '\t' :: 'n' :: 'u' :: 'l' :: 'l' :: '\n'
        :: ']' :: '\n' :: rest) := by
    rw [extractToken_space _ _ (by decide)]
    exact extractToken_append _ '\n' _ hname.1 hname.2 (by decide)
  have h3 : extractToken ('\n' :: '[' :: '\n' :: '\t' :: 'n' :: 'u' :: 'l' :: 'l' :: '\n'
      :: ']' :: '\n' :: rest) = .ok (['['], '\n' :: '\t' :: 'n' :: 'u' :: 'l' :: 'l' :: '\n'
        :: ']' :: '\n' :: rest) := by
    rfl
  have h4 : ReflectionData.deserializeMembers types (fuel + 2) self var
      { st with stream := '\n' :: '\t' :: 'n' :: 'u' :: 'l' :: 'l' :: '\n' :: ']' :: '\n' :: rest } =
      .ok ({ var with instanceData := 0 }, { st with stream := '\n' :: rest }) := by
    rw [deserializeMembers_null types (fuel + 1) self var
      { st with stream := '\n' :: '\t' :: 'n' :: 'u' :: 'l' :: 'l' :: '\n' :: ']' :: '\n' :: rest }
      ('\n' :: ']' :: '\n' :: rest) rfl]
    rw [deserializeMembers_close types fuel self { var with instanceData := 0 }
      { st with stream := '\n' :: ']' :: '\n' :: rest } ('\n' :: rest) rfl hclose]
  rw [deserialize_succ]
  simp [hparent, hcodec, h1, h2, h3, h4, publish_ok _ _ _ hlen, bind, Except.bind, pure,
    Except.pure]

/-- Loading a top-level record whose block holds only `null`: one instance is allocated,
and dropped; the table entry of the record's index gets the null address. -/
theorem deserializeRecord_null (types : Descriptors) (hashString : Text → Nat)
    (manager : ReflectionDataManager) (tableSize fuel : Nat) (st : Loader)
    (self : DescriptorPtr) (index : Nat) (rest : Text)
    (hlookup : manager.reflectionData hashString (types self).name = some self)
    (hparent : (types self).parent = 0) (hcodec : (types self).deserializeFunction = none)
    (hname : TokenName (types self).name) (hclose : (types self).member [']'] = none)
    (hindex : index < 2 ^ 64) (hsize : index < tableSize)
    (hlen : index < st.table.dataTable.length)
    (hstream : st.stream = nullRecordText index (types self).name ++ rest) :
    PointerTable.deserializeRecord types hashString manager tableSize (fuel + 3) st =
      .ok { stream := rest
            heap := (st.heap.allocateInstance (types self).size).2
            table := st.table.withEntry index { reflectionData := self, instanceData := 0 } } := by
  obtain ⟨c, cs, hc, hd⟩ := showNat_append_head index ([' '] ++ (types self).name ++
    ['\n', '[', '\n', '\t', 'n', 'u', 'l', 'l', '\n', ']', '\n'] ++ rest)
  have hstream' : st.stream = c :: cs := by
    rw [hstream, ← hc]; simp [nullRecordText]
  have hhead : ¬ st.stream.head? = some '(' := by
    rw [hstream']
    simp only [List.head?_cons, Option.some.injEq]
    intro heq; subst heq; revert hd; decide
  have h1 : extractSize st.stream = .ok (index, ' ' :: ((types self).name ++
      '\n' :: '[' :: '\n' :: '\t' :: 'n' :: 'u' :: 'l' :: 'l' :: '\n' :: ']' :: '\n' :: rest)) := by
    rw [hstream]
    simpa [nullRecordText] using extractSize_showNat_cons index ' ' ((types self).name ++
      ['\n', '[', '\n', '\t', 'n', 'u', 'l', 'l', '\n', ']', '\n'] ++ rest) hindex (by decide)
  have h2 : extractToken (' ' :: ((types self).name ++
      '\n' :: '[' :: '\n' :: '\t' :: 'n' :: 'u' :: 'l' :: 'l' :: '\n' :: ']' :: '\n' :: rest)) =
      .ok ((types self).name, '\n' :: '[' :: '\n' :: '\t' :: 'n' :: 'u' :: 'l' :: 'l' :: '\n'
        :: ']' :: '\n' :: rest) := by
    rw [extractToken_space _ _ (by decide)]
    exact extractToken_append _ '\n' _ hname.1 hname.2 (by decide)
  have h3 := deserialize_null_block types fuel self
    { reflectionData := self, instanceData := st.heap.brk }
    { st with heap := (st.heap.allocateInstance (types self).size).2 } index rest hparent hcodec
    hname hclose hindex hlen hstream
  unfold PointerTable.deserializeRecord
  simp only [hhead, if_false, bind, Except.bind, pure, Except.pure, h1, hsize, not_true_eq_false,
    Bool.false_eq_true, h2, hlookup]
  simp only [Heap.allocateInstance] at h3 ⊢
  rw [h3]
  simp [ignoreLine]

theorem exists_of_isOk {ε α : Type} (x : Except ε α) (h : x.isOk = true) : ∃ a, x = .ok a := by
  cases x with
  | error e => simp [Except.isOk, Except.toBool] at h
  | ok a => exact ⟨a, rfl⟩

/-- The record written for a null variable of a type without parent and codec. -/
theorem serialize_null (types : Descriptors) (mem : Memory) (t : PointerTable) (fuel : Nat)
    (self : DescriptorPtr) (v : ReflectedVariable) (index : Nat)
    (hparent : (types self).parent = 0) (hcodec : (types self).serializeFunction = none)
    (hv : v.instanceData = 0) (hindex : t.index types v = .ok index) :
    ReflectionData.serialize types mem t (fuel + 1) self v 0 false =
      .ok (nullRecordText index (types self).name) := by
  rw [ReflectionData.serialize]
  simp [hparent, hcodec, hv, hindex, nullRecordText, padStream, bind, Except.bind, pure,
    Except.pure]

/-- **C9** (amended) For a null pointer member whose pointee type has neither parent nor
leaf codec: `populate` appends one entry with the null address and the pointee type and
does not recurse; `PointerTable::serialize` writes that entry as `<index> <TypeName>`
followed by the block `[`, `null`, `]`; loading that record stores the null address in
the table entry of the index; and a pointer patched from an entry with the null address
is null. -/
theorem null_pointer_member (types : Descriptors) (mem : Memory) (base : Address)
    (member : ReflectedMember) (hpointer : member.isPointer = true)
    (hnull : (mem (pointerOffset base member.offset)).asPointer = 0)
    (hparent : (types member.data).parent = 0)
    (hser : (types member.data).serializeFunction = none)
    (hdes : (types member.data).deserializeFunction = none)
    (hname : TokenName (types member.data).name)
    (hclose : (types member.data).member [']'] = none) :
    childVariable mem base member = { reflectionData := member.data, instanceData := 0 } ∧
    (∀ (fuel : Nat) (t : PointerTable), t.Consistent types →
      t.hasPointer types (childVariable mem base member) = false →
      ∃ t', PointerTable.populate types mem (fuel + 1) (childVariable mem base member) true t
          = .ok t' ∧
        t'.dataTable = t.dataTable ++
          [{ var := { reflectionData := member.data, instanceData := 0 },
             needsSerialization := true }]) ∧
    (∀ (fuel : Nat) (t : PointerTable) (index : Nat),
      t.index types { reflectionData := member.data, instanceData := 0 } = .ok index →
      PointerTable.serializeRecord types mem (fuel + 1) t
          { var := { reflectionData := member.data, instanceData := 0 },
            needsSerialization := true } =
        .ok (nullRecordText index (types member.data).name)) ∧
    (∀ (hashString : Text → Nat) (manager : ReflectionDataManager) (tableSize fuel : Nat)
      (st : Loader) (index : Nat) (rest : Text),
      manager.reflectionData hashString (types member.data).name = some member.data →
      index < 2 ^ 64 → index < tableSize → index < st.table.dataTable.length →
      st.stream = nullRecordText index (types member.data).name ++ rest →
      PointerTable.deserializeRecord types hashString manager tableSize (fuel + 3) st =
        .ok { stream := rest
              heap := (st.heap.allocateInstance (types member.data).size).2
              table := st.table.withEntry index
                { reflectionData := member.data, instanceData := 0 } }) ∧
    (∀ (dataTable : List TableRecord) (patches : List PatchPointer) (memory memory' : Memory)
      (k : Nat) (p : PatchPointer) (r : TableRecord),
      PointerTable.patchPointers dataTable patches memory = .ok memory' →
      patches[k]? = some p →
      (∀ (j : Nat) (q : PatchPointer), k < j → patches[j]? = some q →
        q.var.instanceData ≠ p.var.instanceData) →
      dataTable[p.index]? = some r → r.var.instanceData = 0 →
      memory' p.var.instanceData = .pointer 0) := by
  have hchild : childVariable mem base member =
      { reflectionData := member.data, instanceData := 0 } := by
    simp [childVariable, hpointer, resolvedPointer, hnull]
  refine ⟨hchild, ?_, ?_, ?_, ?_⟩
  · intro fuel t _ hp
    rw [hchild] at hp ⊢
    refine ⟨(t.addPointer types _ true).2, ?_, (addPointer_dataTable types t _ true hp).1⟩
    rw [populate_succ]
    simp [hp]
  · intro fuel t index hindex
    have hnp : (types member.data).hasParent = false := by
      simp [ReflectionData.hasParent, hparent]
    simp [PointerTable.serializeRecord, hnp,
      serialize_null types mem t fuel member.data _ index hparent hser rfl hindex,
      bind, Except.bind, pure, Except.pure]
  · intro hashString manager tableSize fuel st index rest hlookup hindex hsize hlen hstream
    exact deserializeRecord_null types hashString manager tableSize fuel st member.data index
      rest hlookup hparent hdes hname hclose hindex hsize hlen hstream
  · intro dataTable patches memory memory' k p r hpatch hk hlater hr h0
    rw [((patchPointers_spec dataTable patches memory memory' hpatch).2 k p hk hlater).1 r hr,
      h0]

/-- The member `next` of the last node of the chain at 200 is null, and `Node` has neither
parent nor codec. -/
theorem null_pointer_member_witness :
    (chainMemory (pointerOffset 200 8)).asPointer = 0 ∧
    TokenName (exampleTypes 5).name ∧
    childVariable chainMemory 200 ⟨['n', 'e', 'x', 't'], 8, 8, true, 5⟩ =
      { reflectionData := 5, instanceData := 0 } :=
  ⟨by decide, by unfold TokenName; decide,
    (null_pointer_member exampleTypes chainMemory 200 ⟨['n', 'e', 'x', 't'], 8, 8, true, 5⟩
      rfl (by decide) rfl rfl rfl (by unfold TokenName; decide) (by decide)).1⟩

set_option maxRecDepth 100000 in
/-- For `Owner { Derived *d; }` with `d = nullptr` the null entry of `Derived : Base`, at
index 1, is written with a tag and two blocks, the first under the parent's name, and not
as `1 Derived` followed by one `null` block. -/
theorem null_record_of_derived :
    (do
      let t ← PointerTable.populate exampleTypes ownerMemory 10 ⟨13, 100⟩ true {}
      PointerTable.serializeRecord exampleTypes ownerMemory 10 t ⟨⟨12, 0⟩, true⟩) =
      .ok "(Derived) 1 Base\n[\n\tnull\n]\n1 Derived\n[\n\tnull\n]\n".toList ∧
    "(Derived) 1 Base\n[\n\tnull\n]\n1 Derived\n[\n\tnull\n]\n".toList ≠
      nullRecordText 1 (exampleTypes 12).name := by
  decide

/-- **C10** (amended) `PointerTable::deserialize` calls `allocateInstance` once for every
top-level record it loads, whatever the block of the record holds: one iteration of the
record loop adds one block, the blocks added by a whole load are as many as the records
loaded, and a record whose block is `null` gets its block like any other, the table
entry then receiving the null address. -/
theorem allocation_per_record (types : Descriptors) (hashString : Text → Nat)
    (manager : ReflectionDataManager) :
    (∀ (tableSize fuel : Nat) (st st' : Loader),
      PointerTable.deserializeRecord types hashString manager tableSize fuel st = .ok st' →
      st'.heap.allocated.length = st.heap.allocated.length + 1) ∧
    (∀ (fuel : Nat) (stream : Text) (heap : Heap) (final : Loader),
      PointerTable.deserialize types hashString manager fuel stream heap = .ok final →
      ∃ tableSize s, extractSize stream = .ok (tableSize, s) ∧
        final.heap.allocated.length = heap.allocated.length +
          PointerTable.loadedRecords types hashString manager tableSize fuel
            { stream := ignoreLine 256 s, heap := heap
              table := { dataTable := List.replicate tableSize {} } }) ∧
    (∀ (tableSize fuel : Nat) (st : Loader) (self : DescriptorPtr) (index : Nat) (rest : Text),
      manager.reflectionData hashString (types self).name = some self →
      (types self).parent = 0 → (types self).deserializeFunction = none →
      TokenName (types self).name → (types self).member [']'] = none →
      index < 2 ^ 64 → index < tableSize → index < st.table.dataTable.length →
      st.stream = nullRecordText index (types self).name ++ rest →
      ∃ st', PointerTable.deserializeRecord types hashString manager tableSize (fuel + 3) st
          = .ok st' ∧
        st'.heap.allocated = st.heap.allocated ++ [(st.heap.brk, (types self).size)] ∧
        st'.table.dataTable = st.table.dataTable.modify
          (fun r => { r with var := { reflectionData := self, instanceData := 0 } }) index) := by
  refine ⟨?_, ?_, ?_⟩
  · intro tableSize fuel st st' h
    obtain ⟨size, ha, _⟩ := deserializeRecord_allocates types hashString manager tableSize
      fuel st st' h
    rw [ha]; simp
  · intro fuel stream heap final h
    unfold PointerTable.deserialize at h
    obtain ⟨⟨tableSize, s⟩, hx, h⟩ := (bind_ok _ _ _).mp h
    dsimp only at h
    split at h
    · cases h
    · obtain ⟨st, hrec, h⟩ := (bind_ok _ _ _).mp h
      obtain ⟨memory, _, h⟩ := (bind_ok _ _ _).mp h
      simp only [pure, Except.pure, Except.ok.injEq] at h
      subst h
      refine ⟨tableSize, s, hx, ?_⟩
      exact deserializeRecords_allocations types hashString manager tableSize fuel _ st hrec
  · intro tableSize fuel st self index rest hlookup hparent hdes hname hclose hindex hsize
      hlen hstream
    refine ⟨_, deserializeRecord_null types hashString manager tableSize fuel st self index
      rest hlookup hparent hdes hname hclose hindex hsize hlen hstream, rfl, rfl⟩

set_option maxRecDepth 100000 in
/-- Loading the text of the one-node chain allocates two blocks. -/
theorem allocation_per_record_witness :
    (PointerTable.deserialize exampleTypes exampleHash exampleManager 10 singleNodeText
      exampleHeap).map (fun st => st.heap.allocated.length) =
      .ok (0 + PointerTable.loadedRecords exampleTypes exampleHash exampleManager 2 10
        { stream := ignoreLine 256 (singleNodeText.drop 1), heap := exampleHeap
          table := { dataTable := List.replicate 2 {} } }) := by
  obtain ⟨final, h⟩ := exists_of_isOk (PointerTable.deserialize exampleTypes exampleHash
    exampleManager 10 singleNodeText exampleHeap) (by decide)
  obtain ⟨tableSize, s, hx, hlen⟩ :=
    (allocation_per_record exampleTypes exampleHash exampleManager).2.1 10 singleNodeText
      exampleHeap final h
  have hx' : extractSize singleNodeText = .ok (2, singleNodeText.drop 1) := by decide
  rw [hx'] at hx
  simp only [Except.ok.injEq, Prod.mk.injEq] at hx
  obtain ⟨h1, h2⟩ := hx
  subst h1 h2
  rw [h]
  simp only [Except.map]
  rw [hlen]
  rfl

set_option maxRecDepth 100000 in
/-- The text of the one-node chain is what `serialize` writes for the node at 100; it has
two top-level records, one of which has the block `null`; loading it allocates two
blocks, and one loaded table entry has a non-null address. -/
theorem null_record_allocates :
    ReflectedVariable.serialize exampleTypes singleNodeMemory 10 ⟨5, 100⟩ = .ok singleNodeText ∧
    (PointerTable.deserialize exampleTypes exampleHash exampleManager 10 singleNodeText
      exampleHeap).map (fun st => (st.heap.allocated,
        st.table.dataTable.map (fun r => r.var),
        (st.table.dataTable.filter (fun r => r.var.instanceData != 0)).length)) =
      .ok ([(1000, 16), (1016, 16)], [⟨5, 1000⟩, ⟨5, 0⟩], 1) := by
  decide

/-- A type with a leaf codec and no parent is read by its codec alone. -/
theorem deserialize_leaf (types : Descriptors) (fuel : Nat) (p : DescriptorPtr)
    (v : ReflectedVariable) (st : Loader) (isArray : Bool) (hparent : (types p).parent = 0)
    (f : DeserializeFunction) (hf : (types p).deserializeFunction = some f) (rest : Text)
    (memory : Memory) (hrun : f st.heap.memory v st.stream = .ok (rest, memory)) :
    ReflectionData.deserialize types (fuel + 1) p v st isArray =
      .ok (v, { st with stream := rest, heap := { st.heap with memory := memory } }) := by
  rw [deserialize_succ]
  simp [hparent, hf, hrun, bind, Except.bind, pure, Except.pure]

/-- Reading the line of a plain leaf member runs the codec of its type on the member, and
the loop goes on. -/
theorem deserializeMembers_leaf (types : Descriptors) (fuel : Nat) (self : DescriptorPtr)
    (var : ReflectedVariable) (st : Loader) (member : ReflectedMember) (s1 rest : Text)
    (f : DeserializeFunction) (memory : Memory)
    (hstream : extractToken st.stream = .ok (member.name, s1))
    (hmember : (types self).member member.name = some member)
    (hpointer : member.isPointer = false) (harray : member.isArray types = false)
    (hparent : (types member.data).parent = 0)
    (hf : (types member.data).deserializeFunction = some f)
    (hrun : f st.heap.memory (memberVariable var.instanceData member) s1 = .ok (rest, memory))
    (hnull : member.name ≠ ['n', 'u', 'l', 'l']) (hclose : member.name ≠ [']']) :
    ReflectionData.deserializeMembers types (fuel + 2) self var st =
      ReflectionData.deserializeMembers types (fuel + 1) self var
        { st with stream := rest, heap := { st.heap with memory := memory } } := by
  rw [deserializeMembers_succ]
  have hleaf := deserialize_leaf types fuel member.data (memberVariable var.instanceData member)
    { st with stream := s1 } false hparent f hf rest memory hrun
  simp [hstream, hmember, hpointer, harray, hnull, hclose, ReflectionData.deserializeMember,
    hleaf, bind, Except.bind, pure, Except.pure]

/-- Decoding a composite record from its four parts: index, type name, opening bracket
and member loop. -/
theorem deserialize_composite (types : Descriptors) (fuel : Nat) (self : DescriptorPtr)
    (var var' : ReflectedVariable) (st st' : Loader) (index : Nat) (s1 s2 s3 : Text)
    (hparent : (types self).parent = 0) (hcodec : (types self).deserializeFunction = none)
    (hindex : extractSize st.stream = .ok (index, s1))
    (hname : extractToken s1 = .ok ((types self).name, s2))
    (hopen : extractToken s2 = .ok (['['], s3))
    (hmembers : ReflectionData.deserializeMembers types fuel self var { st with stream := s3 }
      = .ok (var', st'))
    (hlen : index < st'.table.dataTable.length) :
    ReflectionData.deserialize types (fuel + 1) self var st false =
      .ok (var', { st' with table := st'.table.withEntry index var' }) := by
  rw [deserialize_succ]
  simp [hparent, hcodec, hindex, hname, hopen, hmembers, publish_ok _ _ _ hlen, bind,
    Except.bind, pure, Except.pure]

/-- Loading the top-level record of a `Node`: a block of 16 bytes is allocated, the value is
stored in it, the slot of `next` is recorded with the index read, and the table entry of
the record's index receives the block. -/
theorem deserializeRecord_node (hashString : Text → Nat) (manager : ReflectionDataManager)
    (tableSize fuel : Nat) (st : Loader) (index : Nat) (v : Int) (next : Nat) (rest : Text)
    (hlookup : manager.reflectionData hashString ['N', 'o', 'd', 'e'] = some nodePtr)
    (hindex : index < 2 ^ 64) (hnext : next < 2 ^ 64) (hlo : -(2 : Int) ^ 31 ≤ v)
    (hhi : v < (2 : Int) ^ 31) (hsize : index < tableSize)
    (hlen : index < st.table.dataTable.length)
    (hstream : st.stream = nodeRecordText index v next ++ rest) :
    PointerTable.deserializeRecord exampleTypes hashString manager tableSize (fuel + 4) st =
      .ok { stream := rest
            heap := { memory := st.heap.memory.write st.heap.brk (.int v)
                      brk := st.heap.brk + 16
                      allocated := st.heap.allocated ++ [(st.heap.brk, 16)] }
            table := (st.table.addPatchPointer next
              { reflectionData := nodePtr, instanceData := st.heap.brk + 8 }).withEntry index
                { reflectionData := nodePtr, instanceData := st.heap.brk } } := by
  have hB : extractSize (' ' :: (showNat next ++ '\n' :: ']' :: '\n' :: rest)) =
      .ok (next, '\n' :: ']' :: '\n' :: rest) := by
    rw [extractSize_space _ _ (by decide)]
    exact extractSize_showNat_cons next '\n' _ hnext (by decide)
  have hA : ∀ (memory : Memory) (a : Address),
      deserializePrimitiveValueInt memory { reflectionData := 1, instanceData := a }
        (' ' :: (showInt v ++ '\n' :: '\t' :: 'n' :: 'e' :: 'x' :: 't' :: ' ' ::
          (showNat next ++ '\n' :: ']' :: '\n' :: rest))) =
      .ok ('\n' :: '\t' :: 'n' :: 'e' :: 'x' :: 't' :: ' ' ::
          (showNat next ++ '\n' :: ']' :: '\n' :: rest), memory.write a (.int v)) := by
    intro memory a
    unfold deserializePrimitiveValueInt
    rw [extractInt_space _ _ (by decide), extractInt_showInt_cons v '\n' _ hlo hhi (by decide)]
    rfl
  have hI : extractSize st.stream = .ok (index,
      ' ' :: 'N' :: 'o' :: 'd' :: 'e' :: '\n' :: '[' :: '\n' :: '\t' :: 'v' :: ' ' ::
        (showInt v ++ '\n' :: '\t' :: 'n' :: 'e' :: 'x' :: 't' :: ' ' ::
          (showNat next ++ '\n' :: ']' :: '\n' :: rest))) := by
    rw [hstream]
    simpa [nodeRecordText] using extractSize_showNat_cons index ' '
      ('N' :: 'o' :: 'd' :: 'e' :: '\n' :: '[' :: '\n' :: '\t' :: 'v' :: ' ' ::
        (showInt v ++ '\n' :: '\t' :: 'n' :: 'e' :: 'x' :: 't' :: ' ' ::
          (showNat next ++ '\n' :: ']' :: '\n' :: rest))) hindex (by decide)
  obtain ⟨c, cs, hc, hd⟩ := showNat_append_head index
    ([' ', 'N', 'o', 'd', 'e', '\n', '[', '\n', '\t', 'v', ' '] ++ showInt v
      ++ ['\n', '\t', 'n', 'e', 'x', 't', ' '] ++ showNat next ++ ['\n', ']', '\n'] ++ rest)
  have hhead : ¬ st.stream.head? = some '(' := by
    have : st.stream = c :: cs := by rw [hstream, ← hc]; simp [nodeRecordText]
    rw [this]
    simp only [List.head?_cons, Option.some.injEq]
    intro heq; subst heq; revert hd; decide
  have hM : ReflectionData.deserializeMembers exampleTypes (fuel + 3) nodePtr
      { reflectionData := nodePtr, instanceData := st.heap.brk }
      { stream := '\n' :: '\t' :: 'v' :: ' ' ::
          (showInt v ++ '\n' :: '\t' :: 'n' :: 'e' :: 'x' :: 't' :: ' ' ::
            (showNat next ++ '\n' :: ']' :: '\n' :: rest))
        heap := (st.heap.allocateInstance 16).2, table := st.table } =
      .ok ({ reflectionData := nodePtr, instanceData := st.heap.brk },
        { stream := '\n' :: rest
          heap := { memory := st.heap.memory.write st.heap.brk (.int v)
                    brk := st.heap.brk + 16
                    allocated := st.heap.allocated ++ [(st.heap.brk, 16)] }
          table := st.table.addPatchPointer next
            { reflectionData := nodePtr, instanceData := st.heap.brk + 8 } }) := by
    have e1 := deserializeMembers_leaf exampleTypes (fuel + 1) nodePtr
      { reflectionData := nodePtr, instanceData := st.heap.brk }
      { stream := '\n' :: '\t' :: 'v' :: ' ' :: (showInt v ++ '\n' :: '\t' :: 'n' :: 'e' :: 'x' :: 't' :: ' ' :: (showNat next ++ '\n' :: ']' :: '\n' :: rest)), heap := (st.heap.allocateInstance 16).2, table := st.table }
      ⟨['v'], 0, 4, false, 1⟩
      (' ' :: (showInt v ++ '\n' :: '\t' :: 'n' :: 'e' :: 'x' :: 't' :: ' ' :: (showNat next ++ '\n' :: ']' :: '\n' :: rest)))
      ('\n' :: '\t' :: 'n' :: 'e' :: 'x' :: 't' :: ' ' :: (showNat next ++ '\n' :: ']' :: '\n' :: rest))
      deserializePrimitiveValueInt (st.heap.memory.write st.heap.brk (.int v))
      rfl rfl rfl (by decide) rfl rfl (hA _ _) (by decide) (by decide)
    have e2 := deserializeMembers_pointer exampleTypes (fuel + 1) nodePtr
      { reflectionData := nodePtr, instanceData := st.heap.brk }
      { stream := '\n' :: '\t' :: 'n' :: 'e' :: 'x' :: 't' :: ' ' :: (showNat next ++ '\n' :: ']' :: '\n' :: rest), heap := { memory := st.heap.memory.write st.heap.brk (.int v), brk := st.heap.brk + 16, allocated := st.heap.allocated ++ [(st.heap.brk, 16)] }, table := st.table }
      ⟨['n', 'e', 'x', 't'], 8, 8, true, 5⟩ next
      (' ' :: (showNat next ++ '\n' :: ']' :: '\n' :: rest)) ('\n' :: ']' :: '\n' :: rest)
      rfl hB rfl rfl (by decide) (by decide)
    have e3 := deserializeMembers_close exampleTypes fuel nodePtr
      { reflectionData := nodePtr, instanceData := st.heap.brk }
      { stream := '\n' :: ']' :: '\n' :: rest, heap := { memory := st.heap.memory.write st.heap.brk (.int v), brk := st.heap.brk + 16, allocated := st.heap.allocated ++ [(st.heap.brk, 16)] }, table := st.table.addPatchPointer next { reflectionData := nodePtr, instanceData := st.heap.brk + 8 } }
      ('\n' :: rest) rfl rfl
    exact e1.trans (e2.trans e3)
  have hD := deserialize_composite exampleTypes (fuel + 3) nodePtr
    { reflectionData := nodePtr, instanceData := st.heap.brk } _
    { st with heap := (st.heap.allocateInstance 16).2 } _ index _ _ _ rfl rfl hI rfl rfl hM
    (by simpa [PointerTable.addPatchPointer] using hlen)
  unfold PointerTable.deserializeRecord
  simp only [hhead, if_false, bind, Except.bind, pure, Except.pure, hI, hsize,
    not_true_eq_false, Bool.false_eq_true]
  have hT : extractToken (' ' :: 'N' :: 'o' :: 'd' :: 'e' :: '\n' :: '[' :: '\n' :: '\t' :: 'v'
      :: ' ' :: (showInt v ++ '\n' :: '\t' :: 'n' :: 'e' :: 'x' :: 't' :: ' ' ::
          (showNat next ++ '\n' :: ']' :: '\n' :: rest))) =
      .ok (['N', 'o', 'd', 'e'], '\n' :: '[' :: '\n' :: '\t' :: 'v'
      :: ' ' :: (showInt v ++ '\n' :: '\t' :: 'n' :: 'e' :: 'x' :: 't' :: ' ' ::
          (showNat next ++ '\n' :: ']' :: '\n' :: rest))) := rfl
  simp only [hT, hlookup]
  have hsz : (exampleTypes nodePtr).size = 16 := rfl
  rw [hsz]
  simp only [Heap.allocateInstance] at hD ⊢
  rw [hD]
  simp [ignoreLine, PointerTable.withEntry, PointerTable.addPatchPointer]

/-! ## Chains of `Node` -/

theorem hasPointer_addPointer_ne (types : Descriptors) (t : PointerTable)
    (ht : t.Consistent types) (v w : ReflectedVariable) (n : Bool)
    (hv : t.hasPointer types v = false) (hw : t.hasPointer types w = false)
    (hne : tableKey types w ≠ tableKey types v) :
    (t.addPointer types v n).2.hasPointer types w = false := by
  have ht1 := addPointer_consistent types t ht v n hv
  obtain ⟨hd, _, _⟩ := addPointer_dataTable types t v n hv
  by_contra hc
  have hc' : (t.addPointer types v n).2.hasPointer types w = true := by simpa using hc
  rw [hasPointer_iff types _ ht1] at hc'
  obtain ⟨i, r, hr, hkey⟩ := hc'
  rw [hd] at hr
  by_cases hi : i < t.dataTable.length
  · rw [List.getElem?_append_left hi] at hr
    have : t.hasPointer types w = true := (hasPointer_iff types t ht w).mpr ⟨i, r, hr, hkey⟩
    rw [hw] at this; cases this
  · rw [List.getElem?_append_right (by omega)] at hr
    have h0 : i - t.dataTable.length = 0 := by
      by_contra hne0
      rw [List.getElem?_eq_none (by simp; omega)] at hr
      cases hr
    rw [h0] at hr
    simp only [List.getElem?_cons_zero, Option.some.injEq] at hr
    subst hr
    exact hne hkey.symm

theorem nodeKey_ne (a b : Address) (h : a ≠ b) :
    tableKey exampleTypes (nodeVariable a) ≠ tableKey exampleTypes (nodeVariable b) := by
  intro heq
  simp only [tableKey, nodeVariable, Prod.mk.injEq] at heq
  exact h heq.1

/-- The table built by adding absent, pairwise different nodes. -/
theorem nodeTable_spec : ∀ (L : List Address) (t : PointerTable), t.Consistent exampleTypes →
    L.Nodup → (∀ a ∈ L, t.hasPointer exampleTypes (nodeVariable a) = false) →
    (nodeTable t L).Consistent exampleTypes ∧
    (nodeTable t L).dataTable = t.dataTable ++
      L.map (fun a => { var := nodeVariable a, needsSerialization := true }) ∧
    (nodeTable t L).pointersToPatch = t.pointersToPatch := by
  intro L
  induction L with
  | nil => intro t ht _ _; exact ⟨ht, by simp [nodeTable], rfl⟩
  | cons a rest ih =>
    intro t ht hnd habs
    have ha := habs a (List.mem_cons_self a rest)
    obtain ⟨hd, hp, _⟩ := addPointer_dataTable exampleTypes t (nodeVariable a) true ha
    have ht1 := addPointer_consistent exampleTypes t ht (nodeVariable a) true ha
    have hnd' := List.nodup_cons.mp hnd
    obtain ⟨c1, c2, c3⟩ := ih (t.addPointer exampleTypes (nodeVariable a) true).2 ht1 hnd'.2
      (fun b hb => hasPointer_addPointer_ne exampleTypes t ht _ _ true ha
        (habs b (List.mem_cons_of_mem a hb))
        (nodeKey_ne b a (fun h => hnd'.1 (h ▸ hb))))
    refine ⟨c1, ?_, ?_⟩
    · show (nodeTable (t.addPointer exampleTypes (nodeVariable a) true).2 rest).dataTable = _
      rw [c2, hd]; simp
    · show (nodeTable (t.addPointer exampleTypes (nodeVariable a) true).2 rest).pointersToPatch = _
      rw [c3, hp]

theorem hasPointer_empty (types : Descriptors) (v : ReflectedVariable) :
    PointerTable.hasPointer types {} v = false := by
  simp [PointerTable.hasPointer]

/-- In the table of the nodes `L`, `index` returns the position in `L`. -/
theorem nodeTable_index (L : List Address) (hnd : L.Nodup) (a : Address) (ha : a ∈ L) :
    (nodeTable {} L).index exampleTypes (nodeVariable a) = .ok (L.indexOf a) := by
  obtain ⟨hc, hd, _⟩ := nodeTable_spec L {} (consistent_empty _) hnd
    (fun b _ => hasPointer_empty _ _)
  apply index_of_record exampleTypes _ hc _ _ { var := nodeVariable a, needsSerialization := true }
  · rw [hd]
    simp only [List.nil_append, List.getElem?_map]
    rw [List.getElem?_indexOf ha]
    rfl
  · rfl

theorem populateNodeMembers (mem : Memory) (fuel : Nat) (a : Address) (t : PointerTable) :
    List.foldlM (PointerTable.populateMember exampleTypes mem
      (PointerTable.populate exampleTypes mem fuel) (nodeVariable a)) t
      (exampleTypes (nodeVariable a).reflectionData).members =
    PointerTable.populate exampleTypes mem fuel
      (nodeVariable (mem (pointerOffset a 8)).asPointer) true t := by
  have hm : (exampleTypes (nodeVariable a).reflectionData).members =
      [⟨['v'], 0, 4, false, 1⟩, ⟨['n', 'e', 'x', 't'], 8, 8, true, 5⟩] := rfl
  have h1 : (exampleTypes 1).hasDataMembers = false := rfl
  rw [hm]
  simp only [List.foldlM_cons, List.foldlM_nil, PointerTable.populateMember, h1,
    Bool.or_false, Bool.false_eq_true, if_false, Bool.or_true, if_true, bind, Except.bind]
  have hr : resolvedPointer mem (nodeVariable a).instanceData
      ⟨['n', 'e', 'x', 't'], 8, 8, true, 5⟩ =
      nodeVariable (mem (pointerOffset a 8)).asPointer := rfl
  rw [hr]
  cases PointerTable.populate exampleTypes mem fuel
    (nodeVariable (mem (pointerOffset a 8)).asPointer) true t <;> rfl

/-- `populate` along a chain whose last node points back to a node already in the table or
to a node of the chain. -/
theorem populate_chain_back (mem : Memory) (last : Address) (fuel : Nat) :
    ∀ (addrs : List Address) (t : PointerTable), t.Consistent exampleTypes →
    NodeChain mem addrs last → addrs.Nodup →
    (∀ a ∈ addrs, a ≠ 0 ∧ t.hasPointer exampleTypes (nodeVariable a) = false) →
    (t.hasPointer exampleTypes (nodeVariable last) = true ∨ last ∈ addrs) →
    PointerTable.populate exampleTypes mem (fuel + addrs.length + 1)
      (nodeVariable (addrs.headD last)) true t = .ok (nodeTable t addrs) := by
  intro addrs
  induction addrs with
  | nil =>
    intro t _ _ _ _ hlast
    rcases hlast with hlast | hlast
    · rw [populate_succ]; simp [hlast, nodeTable]
    · simp at hlast
  | cons a rest ih =>
    intro t ht hchain hnd habs hlast
    obtain ⟨ha0, ha⟩ := habs a (List.mem_cons_self a rest)
    have hnd' := List.nodup_cons.mp hnd
    have ht1 := addPointer_consistent exampleTypes t ht (nodeVariable a) true ha
    obtain ⟨hd, _, _⟩ := addPointer_dataTable exampleTypes t (nodeVariable a) true ha
    have hself : (t.addPointer exampleTypes (nodeVariable a) true).2.hasPointer exampleTypes
        (nodeVariable a) = true := by
      rw [hasPointer_iff exampleTypes _ ht1]
      exact ⟨t.dataTable.length, { var := nodeVariable a, needsSerialization := true },
        by simp [hd], rfl⟩
    have hlen : fuel + (a :: rest).length + 1 = (fuel + rest.length + 1) + 1 := by simp; omega
    rw [hlen, populate_succ]
    simp only [List.headD_cons, ha, Bool.false_eq_true, if_false]
    have hz : (nodeVariable a).instanceData ≠ 0 := ha0
    simp only [hz, if_false]
    rw [populateNodeMembers, hchain.1]
    apply ih _ ht1 hchain.2 hnd'.2
    · intro b hb
      refine ⟨(habs b (List.mem_cons_of_mem a hb)).1, ?_⟩
      exact hasPointer_addPointer_ne exampleTypes t ht _ _ true ha
        (habs b (List.mem_cons_of_mem a hb)).2 (nodeKey_ne b a (fun h => hnd'.1 (h ▸ hb)))
    · rcases hlast with hlast | hlast
      · exact Or.inl (hasPointer_mono exampleTypes t _ ht ht1 ⟨_, hd⟩ _ hlast)
      · rw [List.mem_cons] at hlast
        rcases hlast with hlast | hlast
        · exact Or.inl (by rw [hlast]; exact hself)
        · exact Or.inr hlast

/-- `populate` along a null-terminated chain: the nodes, then the null entry. -/
theorem populate_chain_null (mem : Memory) (fuel : Nat) :
    ∀ (addrs : List Address) (t : PointerTable), t.Consistent exampleTypes →
    NodeChain mem addrs 0 → addrs.Nodup →
    (∀ a ∈ addrs, a ≠ 0 ∧ t.hasPointer exampleTypes (nodeVariable a) = false) →
    t.hasPointer exampleTypes (nodeVariable 0) = false →
    PointerTable.populate exampleTypes mem (fuel + addrs.length + 1)
      (nodeVariable (addrs.headD 0)) true t = .ok (nodeTable t (addrs ++ [0])) := by
  intro addrs
  induction addrs with
  | nil =>
    intro t _ _ _ _ hnull
    rw [populate_succ]
    simp only [List.headD_nil, hnull, Bool.false_eq_true, if_false]
    rfl
  | cons a rest ih =>
    intro t ht hchain hnd habs hnull
    obtain ⟨ha0, ha⟩ := habs a (List.mem_cons_self a rest)
    have hnd' := List.nodup_cons.mp hnd
    have ht1 := addPointer_consistent exampleTypes t ht (nodeVariable a) true ha
    have hlen : fuel + (a :: rest).length + 1 = (fuel + rest.length + 1) + 1 := by simp; omega
    rw [hlen, populate_succ]
    simp only [List.headD_cons, ha, Bool.false_eq_true, if_false]
    have hz : (nodeVariable a).instanceData ≠ 0 := ha0
    simp only [hz, if_false]
    rw [populateNodeMembers, hchain.1]
    apply ih _ ht1 hchain.2 hnd'.2
    · intro b hb
      refine ⟨(habs b (List.mem_cons_of_mem a hb)).1, ?_⟩
      exact hasPointer_addPointer_ne exampleTypes t ht _ _ true ha
        (habs b (List.mem_cons_of_mem a hb)).2 (nodeKey_ne b a (fun h => hnd'.1 (h ▸ hb)))
    · exact hasPointer_addPointer_ne exampleTypes t ht _ _ true ha hnull
        (nodeKey_ne 0 a (fun h => ha0 h.symm))

/-- The record written for a node of the table of the nodes `L`. -/
theorem serializeRecord_node (mem : Memory) (L : List Address) (hnd : L.Nodup)
    (hclosed : ∀ a ∈ L, a ≠ 0 → (mem (pointerOffset a 8)).asPointer ∈ L) (fuel : Nat)
    (a : Address) (ha : a ∈ L) :
    PointerTable.serializeRecord exampleTypes mem (fuel + 2) (nodeTable {} L)
      { var := nodeVariable a, needsSerialization := true } =
      .ok (chainRecordText mem L a) := by
  have hnp : (exampleTypes (nodeVariable a).reflectionData).hasParent = false := rfl
  have hidx := nodeTable_index L hnd a ha
  by_cases h0 : a = 0
  · subst h0
    have := serialize_null exampleTypes mem (nodeTable {} L) (fuel + 1) nodePtr (nodeVariable 0)
      (L.indexOf 0) rfl rfl rfl hidx
    simp only [PointerTable.serializeRecord, if_true, hnp, Bool.false_eq_true, if_false]
    show (ReflectionData.serialize exampleTypes mem (nodeTable {} L) (fuel + 1 + 1) nodePtr
      (nodeVariable 0) 0 false >>= fun text => pure ([] ++ text)) = _
    rw [this]
    simp [chainRecordText, bind, Except.bind, pure, Except.pure]
    rfl
  · have hnext := nodeTable_index L hnd _ (hclosed a ha h0)
    have hm : (exampleTypes nodePtr).members =
        [⟨['v'], 0, 4, false, 1⟩, ⟨['n', 'e', 'x', 't'], 8, 8, true, 5⟩] := rfl
    have hleaf := serialize_leaf exampleTypes mem (nodeTable {} L) fuel 1
      (memberVariable (nodeVariable a).instanceData ⟨['v'], 0, 4, false, 1⟩) (0 + 1) false rfl
      serializePrimitiveValueInt rfl
    have hres : resolvedPointer mem (nodeVariable a).instanceData
        ⟨['n', 'e', 'x', 't'], 8, 8, true, 5⟩ =
        nodeVariable (mem (pointerOffset a 8)).asPointer := rfl
    have harr : ReflectedMember.isArray exampleTypes ⟨['v'], 0, 4, false, 1⟩ = false := by decide
    have hbody : writeEach (ReflectionData.serializeMember exampleTypes mem (nodeTable {} L)
        (ReflectionData.serialize exampleTypes mem (nodeTable {} L) (fuel + 1))
        (nodeVariable a) (0 + 1)) (exampleTypes nodePtr).members =
        .ok (['\t', 'v', ' '] ++ showInt (mem a).asInt ++ ['\n'] ++
          (['\t', 'n', 'e', 'x', 't', ' '] ++
            showNat (L.indexOf (mem (pointerOffset a 8)).asPointer) ++ ['\n'])) := by
      rw [hm]
      simp only [writeEach, ReflectionData.serializeMember, Bool.false_eq_true, if_false,
        if_true, harr, hleaf, hres, hnext, bind, Except.bind, pure, Except.pure]
      simp [padStream, serializePrimitiveValueInt, memberVariable, nodeVariable, pointerOffset]
    have := serialize_composite exampleTypes mem (nodeTable {} L) (fuel + 1) nodePtr
      (nodeVariable a) 0 (L.indexOf a) rfl rfl h0 hidx _ hbody
    simp only [PointerTable.serializeRecord, if_true, hnp, Bool.false_eq_true, if_false]
    show (ReflectionData.serialize exampleTypes mem (nodeTable {} L) (fuel + 1 + 1) nodePtr
      (nodeVariable a) 0 false >>= fun text => pure ([] ++ text)) = _
    rw [this]
    simp [chainRecordText, h0, nodeRecordText, padStream, bind, Except.bind, pure, Except.pure]
    rfl

/-- The text written for the table of the nodes `L`. -/
theorem serialize_chain (mem : Memory) (L : List Address) (hnd : L.Nodup)
    (hclosed : ∀ a ∈ L, a ≠ 0 → (mem (pointerOffset a 8)).asPointer ∈ L) (fuel : Nat) :
    PointerTable.serialize exampleTypes mem (fuel + 2) (nodeTable {} L) =
      .ok (chainText mem L) := by
  obtain ⟨_, hd, _⟩ := nodeTable_spec L {} (consistent_empty _) hnd
    (fun b _ => hasPointer_empty _ _)
  have hw := writeEach_map
    (PointerTable.serializeRecord exampleTypes mem (fuel + 2) (nodeTable {} L))
    (fun r => chainRecordText mem L r.var.instanceData) (nodeTable {} L).dataTable (by
      intro r hr
      rw [hd] at hr
      simp only [List.nil_append, List.mem_map] at hr
      obtain ⟨a, ha, rfl⟩ := hr
      exact serializeRecord_node mem L hnd hclosed fuel a ha)
  unfold PointerTable.serialize
  rw [hw]
  simp [hd, chainText, bind, Except.bind, pure, Except.pure, List.map_map, Function.comp_def,
    nodeVariable]

theorem peekPositive_digit (c : Char) (cs : Text) (h : c.isDigit = true) :
    peekPositive (c :: cs) = true := by
  have h1 : 48 ≤ c.val := by
    simp [Char.isDigit] at h; exact h.1
  have h2 : 48 ≤ c.toNat := by
    have : (48 : UInt32).toNat ≤ c.val.toNat := h1
    simpa [Char.toNat] using this
  simp [peekPositive]; omega

theorem chainRecordText_head (mem : Memory) (L : List Address) (a : Address) (rest : Text) :
    ∃ c cs, chainRecordText mem L a ++ rest = c :: cs ∧ c.isDigit = true := by
  unfold chainRecordText
  split
  · obtain ⟨c, cs, hc, hd⟩ := showNat_append_head (L.indexOf 0)
      ([' '] ++ ['N', 'o', 'd', 'e'] ++
        ['\n', '[', '\n', '\t', 'n', 'u', 'l', 'l', '\n', ']', '\n'] ++ rest)
    exact ⟨c, cs, by rw [← hc]; simp [nullRecordText], hd⟩
  · obtain ⟨c, cs, hc, hd⟩ := showNat_append_head (L.indexOf a)
      ([' ', 'N', 'o', 'd', 'e', '\n', '[', '\n', '\t', 'v', ' '] ++ showInt (mem a).asInt
        ++ ['\n', '\t', 'n', 'e', 'x', 't', ' ']
        ++ showNat (L.indexOf (mem (pointerOffset a 8)).asPointer) ++ ['\n', ']', '\n'] ++ rest)
    exact ⟨c, cs, by rw [← hc]; simp [nodeRecordText], hd⟩

theorem withEntry_length (t : PointerTable) (i : Nat) (v : ReflectedVariable) :
    (t.withEntry i v).dataTable.length = t.dataTable.length := by
  simp [PointerTable.withEntry]

theorem loadRecord_length (mem : Memory) (L : List Address) (a : Address)
    (s : Heap × PointerTable) :
    (loadRecord mem L a s).2.dataTable.length = s.2.dataTable.length := by
  unfold loadRecord
  split <;> simp [PointerTable.withEntry, PointerTable.addPatchPointer]

/-- The record loop on the text of the entries `S` has the effect `loadChain`. -/
theorem deserializeRecords_chain (mem : Memory) (L : List Address) (hashString : Text → Nat)
    (manager : ReflectionDataManager)
    (hlookup : manager.reflectionData hashString ['N', 'o', 'd', 'e'] = some nodePtr)
    (hclosed : ∀ a ∈ L, a ≠ 0 → (mem (pointerOffset a 8)).asPointer ∈ L)
    (hvalues : IntValues mem L) (hbound : L.length < 2 ^ 64) (fuel : Nat) :
    ∀ (S : List Address) (st : Loader), (∀ a ∈ S, a ∈ L) →
    st.table.dataTable.length = L.length →
    st.stream = (S.map (chainRecordText mem L)).flatten →
    PointerTable.deserializeRecords exampleTypes hashString manager L.length
      (fuel + S.length + 5) st =
      .ok { stream := []
            heap := (loadChain mem L S (st.heap, st.table)).1
            table := (loadChain mem L S (st.heap, st.table)).2 } := by
  intro S
  induction S with
  | nil =>
    intro st _ _ hstream
    rw [deserializeRecords_succ]
    simp only [List.map_nil, List.flatten_nil] at hstream
    simp only [hstream, peekPositive, Bool.false_eq_true, if_false, loadChain, List.foldl_nil]
    cases st
    simp only at hstream
    subst hstream
    rfl
  | cons a rest ih =>
    intro st hS hlen hstream
    have haL : a ∈ L := hS a (List.mem_cons_self a rest)
    have hidx : L.indexOf a < L.length := List.indexOf_lt_length.mpr haL
    simp only [List.map_cons, List.flatten_cons] at hstream
    obtain ⟨c, cs, hc, hd⟩ := chainRecordText_head mem L a
      (rest.map (chainRecordText mem L)).flatten
    have hfuel : fuel + (a :: rest).length + 5 = (fuel + rest.length + 5) + 1 := by
      simp; omega
    rw [hfuel, deserializeRecords_succ]
    have hpeek : peekPositive st.stream = true := by
      rw [hstream, hc]; exact peekPositive_digit c cs hd
    simp only [hpeek, if_true]
    have hstep : PointerTable.deserializeRecord exampleTypes hashString manager L.length
        (fuel + rest.length + 5) st =
        .ok { stream := (rest.map (chainRecordText mem L)).flatten
              heap := (loadRecord mem L a (st.heap, st.table)).1
              table := (loadRecord mem L a (st.heap, st.table)).2 } := by
      by_cases h0 : a = 0
      · subst h0
        have := deserializeRecord_null exampleTypes hashString manager L.length
          (fuel + rest.length + 2) st nodePtr (L.indexOf 0)
          (rest.map (chainRecordText mem L)).flatten hlookup rfl rfl
          (by unfold TokenName; decide) (by decide) (by omega) hidx (by omega)
          (by rw [hstream]; simp [chainRecordText]; rfl)
        rw [this]
        simp [loadRecord, nodeVariable]
        rfl
      · have hnext : L.indexOf (mem (pointerOffset a 8)).asPointer < L.length :=
          List.indexOf_lt_length.mpr (hclosed a haL h0)
        have := deserializeRecord_node hashString manager L.length (fuel + rest.length + 1) st
          (L.indexOf a) (mem a).asInt (L.indexOf (mem (pointerOffset a 8)).asPointer)
          (rest.map (chainRecordText mem L)).flatten hlookup (by omega) (by omega)
          (hvalues a haL h0).1 (hvalues a haL h0).2 hidx (by omega)
          (by rw [hstream]; simp [chainRecordText, h0])
        rw [this]
        simp [loadRecord, h0, nodeVariable]
    rw [hstep]
    simp only [bind, Except.bind]
    have := ih { stream := (rest.map (chainRecordText mem L)).flatten
                 heap := (loadRecord mem L a (st.heap, st.table)).1
                 table := (loadRecord mem L a (st.heap, st.table)).2 }
      (fun b hb => hS b (List.mem_cons_of_mem a hb))
      (by rw [loadRecord_length]; exact hlen) rfl
    rw [this]
    rfl

theorem loadRecord_facts (mem : Memory) (L : List Address) (a : Address)
    (s : Heap × PointerTable) :
    (loadRecord mem L a s).1.brk = s.1.brk + 16 ∧
    (loadRecord mem L a s).2.pointersToPatch = s.2.pointersToPatch ++ chainPatches mem L s.1.brk [a] ∧
    (loadRecord mem L a s).2.dataTable = s.2.dataTable.modify
      (fun r => { r with var := nodeVariable (if a = 0 then 0 else s.1.brk) }) (L.indexOf a) := by
  unfold loadRecord
  by_cases h0 : a = 0
  · subst h0
    simp [Heap.allocateInstance, PointerTable.withEntry, chainPatches]
  · simp [h0, PointerTable.withEntry, PointerTable.addPatchPointer, chainPatches]

theorem chainPatches_cons (mem : Memory) (L : List Address) (brk : Address) (a : Address)
    (rest : List Address) :
    chainPatches mem L brk (a :: rest) =
      chainPatches mem L brk [a] ++ chainPatches mem L (brk + 16) rest := by
  simp [chainPatches]

/-- What loading the records of the entries `S` does to the break, the patch list and the
table entries. -/
theorem loadChain_spec (mem : Memory) (L : List Address) :
    ∀ (S : List Address) (s : Heap × PointerTable), S.Nodup → (∀ a ∈ S, a ∈ L) →
    (loadChain mem L S s).1.brk = s.1.brk + 16 * S.length ∧
    (loadChain mem L S s).2.pointersToPatch =
      s.2.pointersToPatch ++ chainPatches mem L s.1.brk S ∧
    (loadChain mem L S s).2.dataTable.length = s.2.dataTable.length ∧
    (∀ i, (∀ a ∈ S, L.indexOf a ≠ i) →
      (loadChain mem L S s).2.dataTable[i]? = s.2.dataTable[i]?) ∧
    (∀ a ∈ S, (loadChain mem L S s).2.dataTable[L.indexOf a]? =
      (s.2.dataTable[L.indexOf a]?).map (fun r =>
        { r with var := nodeVariable (if a = 0 then 0 else s.1.brk + 16 * S.indexOf a) })) := by
  intro S
  induction S with
  | nil =>
    intro s _ _
    simp [loadChain, chainPatches]
  | cons a rest ih =>
    intro s hnd hS
    have hnd' := List.nodup_cons.mp hnd
    obtain ⟨f1, f2, f3⟩ := loadRecord_facts mem L a s
    obtain ⟨c1, c2, c3, c4, c5⟩ := ih (loadRecord mem L a s) hnd'.2
      (fun b hb => hS b (List.mem_cons_of_mem a hb))
    have hstep : loadChain mem L (a :: rest) s = loadChain mem L rest (loadRecord mem L a s) := rfl
    have hne : ∀ b ∈ rest, L.indexOf b ≠ L.indexOf a := by
      intro b hb heq
      have := (List.indexOf_inj (hS b (List.mem_cons_of_mem a hb))
        (hS a (List.mem_cons_self a rest))).mp heq
      exact hnd'.1 (this ▸ hb)
    rw [hstep]
    refine ⟨?_, ?_, ?_, ?_, ?_⟩
    · rw [c1, f1, List.length_cons]; ring
    · rw [c2, f2, f1, List.append_assoc, ← chainPatches_cons]
    · rw [c3, f3]; simp
    · intro i hi
      rw [c4 i (fun b hb => hi b (List.mem_cons_of_mem a hb)), f3]
      exact List.getElem?_modify_ne _ _ (hi a (List.mem_cons_self a rest))
    · intro x hx
      rw [List.mem_cons] at hx
      rcases hx with hx | hx
      · subst hx
        rw [c4 _ hne, f3, List.getElem?_modify_eq]
        simp
      · have hxa : x ≠ a := fun h => hnd'.1 (h ▸ hx)
        have he : s.1.brk + 16 + 16 * List.indexOf x rest =
            s.1.brk + 16 * (List.indexOf x rest).succ := by
          simp only [Nat.succ_eq_add_one]; ring
        rw [c5 x hx, f3, List.getElem?_modify_ne _ _ (hne x hx).symm, f1,
          List.indexOf_cons_ne _ (Ne.symm hxa), he]

theorem chainPatches_slot_ge (mem : Memory) (L : List Address) :
    ∀ (S : List Address) (brk : Address), ∀ p ∈ chainPatches mem L brk S,
      brk + 8 ≤ p.var.instanceData := by
  intro S
  induction S with
  | nil => intro brk p hp; simp [chainPatches] at hp
  | cons a rest ih =>
    intro brk p hp
    rw [chainPatches_cons, List.mem_append] at hp
    rcases hp with hp | hp
    · by_cases h0 : a = 0
      · simp [chainPatches, h0] at hp
      · simp only [chainPatches, h0, if_false, List.append_nil, List.mem_singleton] at hp
        subst hp; simp [nodeVariable]
    · have := ih (brk + 16) p hp
      unfold Address at *
      omega

/-- The slots recorded while loading the records of a chain are pairwise different. -/
theorem chainPatches_nodup (mem : Memory) (L : List Address) :
    ∀ (S : List Address) (brk : Address),
      ((chainPatches mem L brk S).map (fun p => p.var.instanceData)).Nodup := by
  intro S
  induction S with
  | nil => intro brk; simp [chainPatches]
  | cons a rest ih =>
    intro brk
    rw [chainPatches_cons, List.map_append, List.nodup_append]
    refine ⟨?_, ih (brk + 16), ?_⟩
    · by_cases h0 : a = 0 <;> simp [chainPatches, h0]
    · intro x hx hx'
      rw [List.mem_map] at hx hx'
      obtain ⟨p, hp, rfl⟩ := hx
      obtain ⟨q, hq, hqp⟩ := hx'
      have hge := chainPatches_slot_ge mem L rest (brk + 16) q hq
      by_cases h0 : a = 0
      · simp [chainPatches, h0] at hp
      · simp only [chainPatches, h0, if_false, List.append_nil, List.mem_singleton] at hp
        subst hp
        simp only [nodeVariable] at hqp
        unfold Address at *
        omega

/-- Every node of `S` has its `next` slot in the patch list, with the table index of the
node that `next` points to. -/
theorem chainPatches_mem (mem : Memory) (L : List Address) :
    ∀ (S : List Address) (brk : Address) (a : Address), a ∈ S → a ≠ 0 →
      ({ index := L.indexOf (mem (pointerOffset a 8)).asPointer
         var := nodeVariable (brk + 16 * S.indexOf a + 8) } : PatchPointer)
        ∈ chainPatches mem L brk S := by
  intro S
  induction S with
  | nil => intro brk a ha; simp at ha
  | cons b rest ih =>
    intro brk a ha h0
    rw [chainPatches_cons, List.mem_append]
    by_cases hab : b = a
    · subst hab
      left
      simp [chainPatches, h0]
    · right
      have ha' : a ∈ rest := by
        rw [List.mem_cons] at ha
        rcases ha with ha | ha
        · exact absurd ha.symm hab
        · exact ha
      have := ih (brk + 16) a ha' h0
      rw [List.indexOf_cons_ne _ hab]
      have he : brk + 16 * (rest.indexOf a).succ + 8 = brk + 16 + 16 * rest.indexOf a + 8 := by
        simp only [Nat.succ_eq_add_one]; ring
      rw [he]
      exact this

theorem chainPatches_index (mem : Memory) (L : List Address)
    (hclosed : ∀ a ∈ L, a ≠ 0 → (mem (pointerOffset a 8)).asPointer ∈ L) :
    ∀ (S : List Address) (brk : Address), (∀ a ∈ S, a ∈ L) →
      ∀ p ∈ chainPatches mem L brk S, p.index < L.length := by
  intro S
  induction S with
  | nil => intro brk _ p hp; simp [chainPatches] at hp
  | cons a rest ih =>
    intro brk hS p hp
    rw [chainPatches_cons, List.mem_append] at hp
    rcases hp with hp | hp
    · by_cases h0 : a = 0
      · simp [chainPatches, h0] at hp
      · simp only [chainPatches, h0, if_false, List.append_nil, List.mem_singleton] at hp
        subst hp
        exact List.indexOf_lt_length.mpr (hclosed a (hS a (List.mem_cons_self a rest)) h0)
    · exact ih (brk + 16) (fun b hb => hS b (List.mem_cons_of_mem a hb)) p hp

/-- When the recorded slots are pairwise different, every recorded slot whose index is
inside the table holds after the closing loop the instance address of the table entry at
its index. -/
theorem patchPointers_of_nodup (dataTable : List TableRecord) (patches : List PatchPointer)
    (memory memory' : Memory)
    (h : PointerTable.patchPointers dataTable patches memory = .ok memory')
    (hnd : (patches.map (fun p => p.var.instanceData)).Nodup) (p : PatchPointer)
    (hp : p ∈ patches) (hin : p.index < dataTable.length) :
    ∃ r, dataTable[p.index]? = some r ∧
      memory' p.var.instanceData = .pointer r.var.instanceData := by
  obtain ⟨k, hk⟩ := List.getElem?_of_mem hp
  refine ⟨dataTable[p.index], List.getElem?_eq_getElem hin, ?_⟩
  apply ((patchPointers_spec dataTable patches memory memory' h).2 k p hk ?_).1 _
    (List.getElem?_eq_getElem hin)
  intro j q hj hq heq
  have hk' : (patches.map (fun p => p.var.instanceData))[k]? = some p.var.instanceData := by
    simp [hk]
  have hj' : (patches.map (fun p => p.var.instanceData))[j]? = some p.var.instanceData := by
    simp [hq, heq]
  have hkl : k < (patches.map (fun p => p.var.instanceData)).length := by
    by_contra hge
    rw [List.getElem?_eq_none (by omega)] at hk'; cases hk'
  have hjl : j < (patches.map (fun p => p.var.instanceData)).length := by
    by_contra hge
    rw [List.getElem?_eq_none (by omega)] at hj'; cases hj'
  rw [List.getElem?_eq_getElem hkl] at hk'
  rw [List.getElem?_eq_getElem hjl] at hj'
  have := (List.Nodup.getElem_inj_iff hnd).mp (Option.some.inj (hk'.trans hj'.symm))
  omega

theorem chainText_size (mem : Memory) (L : List Address) (hbound : L.length < 2 ^ 64) :
    extractSize (chainText mem L) =
      .ok (L.length, '\n' :: (L.map (chainRecordText mem L)).flatten) := by
  simpa [chainText] using extractSize_showNat_cons L.length '\n'
    (L.map (chainRecordText mem L)).flatten hbound (by decide)

/-- Loading the text of a table of nodes: the entry of each address of `L` is decoded at
`decodedAddress`, the `next` slot of each decoded node holds the decoded address of the
node that `next` pointed to, and the root pointer receives the address of entry 0. -/
theorem chain_decode (mem : Memory) (L : List Address) (hne : L ≠ []) (hnd : L.Nodup)
    (hclosed : ∀ a ∈ L, a ≠ 0 → (mem (pointerOffset a 8)).asPointer ∈ L)
    (hvalues : IntValues mem L) (hbound : L.length < 2 ^ 64)
    (hashString : Text → Nat) (manager : ReflectionDataManager)
    (hlookup : manager.reflectionData hashString ['N', 'o', 'd', 'e'] = some nodePtr)
    (heap : Heap) (self : ReflectedVariable) (hself : self.instanceData < heap.brk)
    (fuel : Nat) :
    ∃ st, ReflectedVariable.deserialize exampleTypes hashString manager (fuel + L.length + 5)
        self (chainText mem L) heap = .ok st ∧
      st.table.dataTable.map (fun r => r.var) =
        L.map (fun a => nodeVariable (decodedAddress L heap.brk a)) ∧
      (∀ a ∈ L, a ≠ 0 → st.heap.memory (heap.brk + 16 * L.indexOf a + 8) =
        .pointer (decodedAddress L heap.brk (mem (pointerOffset a 8)).asPointer)) ∧
      st.heap.memory self.instanceData = .pointer (decodedAddress L heap.brk (L.headD 0)) := by
  have hrec := deserializeRecords_chain mem L hashString manager hlookup hclosed hvalues hbound
    fuel L { stream := (L.map (chainRecordText mem L)).flatten, heap := heap
             table := { dataTable := List.replicate L.length {} } }
    (fun a ha => ha) (by simp) rfl
  obtain ⟨c1, c2, c3, c4, c5⟩ := loadChain_spec mem L L
    (heap, { dataTable := List.replicate L.length {} }) hnd (fun a ha => ha)
  generalize hHT : loadChain mem L L (heap, { dataTable := List.replicate L.length {} }) = HT
    at hrec c1 c2 c3 c4 c5
  obtain ⟨H, T⟩ := HT
  simp only [List.nil_append, List.length_replicate] at c1 c2 c3 c5
  have hentry : ∀ a ∈ L, T.dataTable[L.indexOf a]? =
      some { var := nodeVariable (decodedAddress L heap.brk a), needsSerialization := false } := by
    intro a ha
    have hlt : L.indexOf a < L.length := List.indexOf_lt_length.mpr ha
    rw [c5 a ha]
    simp [hlt, decodedAddress]
  have hpatch : ∀ p ∈ T.pointersToPatch, p.index < T.dataTable.length := by
    intro p hp
    rw [c2] at hp
    rw [c3]
    exact chainPatches_index mem L hclosed L heap.brk (fun a ha => ha) p hp
  obtain ⟨memory', hmem⟩ := patchPointers_total T.dataTable T.pointersToPatch H.memory
  have hlen0 : 0 < L.length := List.length_pos.mpr hne
  have hload : PointerTable.deserialize exampleTypes hashString manager (fuel + L.length + 5)
      (chainText mem L) heap =
      .ok { stream := [], heap := { H with memory := memory' }, table := T } := by
    unfold PointerTable.deserialize
    rw [chainText_size mem L hbound]
    have hz : ¬ L.length = 0 := by omega
    have hig : ignoreLine 256 ('\n' :: (L.map (chainRecordText mem L)).flatten) =
        (L.map (chainRecordText mem L)).flatten := by simp [ignoreLine]
    simp only [bind, Except.bind, hz, if_false, hig, hrec, hmem, pure, Except.pure]
  obtain ⟨a0, rest, hL⟩ := List.exists_cons_of_ne_nil hne
  have h0 : L.indexOf a0 = 0 := by rw [hL]; exact List.indexOf_cons_self a0 rest
  have hroot : T.dataTable[0]? =
      some { var := nodeVariable (decodedAddress L heap.brk a0), needsSerialization := false } := by
    have := hentry a0 (by rw [hL]; exact List.mem_cons_self a0 rest)
    rwa [h0] at this
  refine ⟨{ stream := [], table := T, heap := { H with memory := Memory.write memory' self.instanceData (.pointer (decodedAddress L heap.brk a0)) } }, ?_, ?_, ?_, ?_⟩
  · unfold ReflectedVariable.deserialize
    rw [hload]
    simp [bind, Except.bind, PointerTable.pointer, hroot, pure, Except.pure, nodeVariable]
  · apply List.ext_getElem?
    intro i
    by_cases hi : i < L.length
    · have hia : L.indexOf L[i] = i := List.indexOf_getElem hnd i hi
      have := hentry L[i] (List.getElem_mem hi)
      rw [hia] at this
      simp [this, hi]
    · have h1 : (List.map (fun r => r.var) T.dataTable).length ≤ i := by
        simp [c3]; omega
      have h2 : (L.map (fun a => nodeVariable (decodedAddress L heap.brk a))).length ≤ i := by
        simp; omega
      rw [List.getElem?_eq_none h1, List.getElem?_eq_none h2]
  · intro a ha ha0
    have hin := chainPatches_mem mem L L heap.brk a ha ha0
    rw [← c2] at hin
    have hnodup : (T.pointersToPatch.map (fun p => p.var.instanceData)).Nodup := by
      rw [c2]; exact chainPatches_nodup mem L L heap.brk
    obtain ⟨r, hr, hm⟩ := patchPointers_of_nodup T.dataTable T.pointersToPatch H.memory memory'
      hmem hnodup _ hin (hpatch _ hin)
    simp only at hr hm
    rw [hentry _ (hclosed a ha ha0)] at hr
    cases hr
    have hne' : heap.brk + 16 * L.indexOf a + 8 ≠ self.instanceData := by
      unfold Address at *; omega
    simp only [Memory.write, hne', if_false]
    simpa [nodeVariable] using hm
  · simp [Memory.write, hL]

theorem nodeChain_get (mem : Memory) (last : Address) : ∀ (addrs : List Address),
    NodeChain mem addrs last → ∀ (i : Nat) (a : Address), addrs[i]? = some a →
    (addrs ++ [last])[i + 1]? = some (mem (pointerOffset a 8)).asPointer := by
  intro addrs
  induction addrs with
  | nil => intro _ i a h; simp at h
  | cons b rest ih =>
    intro hchain i a h
    cases i with
    | zero =>
      simp only [List.getElem?_cons_zero, Option.some.injEq] at h
      subst h
      rw [hchain.1]
      cases rest <;> simp
    | succ i =>
      simp only [List.getElem?_cons_succ] at h
      have := ih hchain.2 i a h
      simpa using this

theorem indexOf_append_getElem (addrs : List Address) (z : Address) (hnd : addrs.Nodup)
    (i : Nat) (a : Address) (h : addrs[i]? = some a) : (addrs ++ [z]).indexOf a = i := by
  have hi : i < addrs.length := by
    by_contra hge
    rw [List.getElem?_eq_none (by omega)] at h; cases h
  rw [List.getElem?_eq_getElem hi] at h
  have ha : a = addrs[i] := (Option.some.inj h).symm
  subst ha
  rw [List.indexOf_append_of_mem (List.getElem_mem hi)]
  exact List.indexOf_getElem hnd i hi

theorem indexOf_self_getElem (addrs : List Address) (hnd : addrs.Nodup)
    (i : Nat) (a : Address) (h : addrs[i]? = some a) : addrs.indexOf a = i := by
  have hi : i < addrs.length := by
    by_contra hge
    rw [List.getElem?_eq_none (by omega)] at h; cases h
  rw [List.getElem?_eq_getElem hi] at h
  have ha : a = addrs[i] := (Option.some.inj h).symm
  subst ha
  exact List.indexOf_getElem hnd i hi

/-- **C4** For every null-terminated chain of `k ≥ 1` distinct nodes, `populate` builds the
table of the `k` nodes in chain order followed by one null entry, and loading the
serialized text gives `k` decoded nodes, the `i`-th one in the `i`-th block of 16 bytes,
such that `next` of the `i`-th holds the address of the `(i+1)`-th and `next` of the last
one is null; the root pointer receives the address of the first decoded node. -/
theorem chain_round_trip_null (mem : Memory) (addrs : List Address) (hne : addrs ≠ [])
    (hnd : addrs.Nodup) (hnz : ∀ a ∈ addrs, a ≠ 0) (hchain : NodeChain mem addrs 0)
    (hvalues : IntValues mem addrs) (hbound : addrs.length + 1 < 2 ^ 64)
    (hashString : Text → Nat) (manager : ReflectionDataManager)
    (hlookup : manager.reflectionData hashString ['N', 'o', 'd', 'e'] = some nodePtr)
    (heap : Heap) (self : ReflectedVariable) (hself : self.instanceData < heap.brk)
    (fuel : Nat) (hfuel : addrs.length + 6 ≤ fuel) :
    (∃ t, PointerTable.populate exampleTypes mem fuel (nodeVariable (addrs.headD 0)) true {}
        = .ok t ∧
      t.dataTable = addrs.map (fun a => { var := nodeVariable a, needsSerialization := true })
        ++ [{ var := nodeVariable 0, needsSerialization := true }]) ∧
    (∃ text st,
      ReflectedVariable.serialize exampleTypes mem fuel (nodeVariable (addrs.headD 0))
        = .ok text ∧
      ReflectedVariable.deserialize exampleTypes hashString manager fuel self text heap
        = .ok st ∧
      st.table.dataTable.map (fun r => r.var) =
        (List.range addrs.length).map (fun i => nodeVariable (heap.brk + 16 * i))
          ++ [nodeVariable 0] ∧
      (∀ i, i + 1 < addrs.length →
        st.heap.memory (heap.brk + 16 * i + 8) = .pointer (heap.brk + 16 * (i + 1))) ∧
      st.heap.memory (heap.brk + 16 * (addrs.length - 1) + 8) = .pointer 0 ∧
      st.heap.memory self.instanceData = .pointer heap.brk) := by
  obtain ⟨F, rfl⟩ : ∃ F, fuel = F + addrs.length + 6 := ⟨fuel - (addrs.length + 6), by omega⟩
  have h0 : (0 : Address) ∉ addrs := fun h => hnz 0 h rfl
  have hndL : (addrs ++ [0]).Nodup := by
    rw [List.nodup_append]
    refine ⟨hnd, by simp, ?_⟩
    intro x hx hx'
    simp only [List.mem_singleton] at hx'
    subst hx'; exact h0 hx
  have hclosed : ∀ a ∈ addrs ++ [0], a ≠ 0 →
      (mem (pointerOffset a 8)).asPointer ∈ addrs ++ [0] := by
    intro a ha ha0
    have ha' : a ∈ addrs := by
      rw [List.mem_append, List.mem_singleton] at ha
      rcases ha with ha | ha
      · exact ha
      · exact absurd ha ha0
    obtain ⟨i, hi⟩ := List.getElem?_of_mem ha'
    exact List.getElem?_mem (nodeChain_get mem 0 addrs hchain i a hi)
  have hvaluesL : IntValues mem (addrs ++ [0]) := by
    intro a ha ha0
    rw [List.mem_append, List.mem_singleton] at ha
    rcases ha with ha | ha
    · exact hvalues a ha ha0
    · exact absurd ha ha0
  have hpop : PointerTable.populate exampleTypes mem (F + addrs.length + 6)
      (nodeVariable (addrs.headD 0)) true {} = .ok (nodeTable {} (addrs ++ [0])) := by
    have := populate_chain_null mem (F + 5) addrs {} (consistent_empty _) hchain hnd
      (fun a ha => ⟨hnz a ha, hasPointer_empty _ _⟩) (hasPointer_empty _ _)
    rwa [show F + 5 + addrs.length + 1 = F + addrs.length + 6 by omega] at this
  obtain ⟨_, hd, _⟩ := nodeTable_spec (addrs ++ [0]) {} (consistent_empty _) hndL
    (fun b _ => hasPointer_empty _ _)
  have hser : ReflectedVariable.serialize exampleTypes mem (F + addrs.length + 6)
      (nodeVariable (addrs.headD 0)) = .ok (chainText mem (addrs ++ [0])) := by
    unfold ReflectedVariable.serialize
    rw [hpop]
    have := serialize_chain mem (addrs ++ [0]) hndL hclosed (F + addrs.length + 4)
    rwa [show F + addrs.length + 4 + 2 = F + addrs.length + 6 by omega] at this
  obtain ⟨st, hst, htab, hptr, hroot⟩ := chain_decode mem (addrs ++ [0]) (by simp) hndL hclosed
    hvaluesL (by simpa using hbound) hashString manager hlookup heap self hself F
  have hlenL : (addrs ++ [0]).length = addrs.length + 1 := by simp
  rw [hlenL, show F + (addrs.length + 1) + 5 = F + addrs.length + 6 by omega] at hst
  have hidx : ∀ (i : Nat) (a : Address), addrs[i]? = some a →
      decodedAddress (addrs ++ [0]) heap.brk a = heap.brk + 16 * i := by
    intro i a hi
    have ha0 : a ≠ 0 := hnz a (List.getElem?_mem hi)
    simp [decodedAddress, ha0, indexOf_append_getElem addrs 0 hnd i a hi]
  refine ⟨⟨_, hpop, by simpa using hd⟩, chainText mem (addrs ++ [0]), st, hser, hst, ?_, ?_, ?_,
    ?_⟩
  · rw [htab, List.map_append]
    congr 1
    · apply List.ext_getElem?
      intro i
      by_cases hi : i < addrs.length
      · simp [hi, hidx i addrs[i] (List.getElem?_eq_getElem hi)]
      · rw [List.getElem?_eq_none (by simp; omega), List.getElem?_eq_none (by simp; omega)]
  · intro i hi
    have hai : addrs[i]? = some addrs[i] := List.getElem?_eq_getElem (by omega)
    have hnext := nodeChain_get mem 0 addrs hchain i _ hai
    rw [List.getElem?_append_left (by omega), List.getElem?_eq_getElem (by omega)] at hnext
    have hn := hidx (i + 1) addrs[i + 1] (List.getElem?_eq_getElem hi)
    have hnx : (mem (pointerOffset addrs[i] 8)).asPointer = addrs[i + 1] :=
      (Option.some.inj hnext).symm
    have := hptr addrs[i] (List.mem_append_left _ (List.getElem_mem _))
      (hnz _ (List.getElem_mem _))
    rw [indexOf_append_getElem addrs 0 hnd i _ hai, hnx, hn] at this
    exact this
  · have hk : addrs.length - 1 < addrs.length :=
      Nat.sub_lt (List.length_pos.mpr hne) Nat.one_pos
    have hai : addrs[addrs.length - 1]? = some addrs[addrs.length - 1] :=
      List.getElem?_eq_getElem hk
    have hnext := nodeChain_get mem 0 addrs hchain _ _ hai
    rw [show addrs.length - 1 + 1 = addrs.length by omega,
      List.getElem?_append_right (le_refl _)] at hnext
    simp only [Nat.sub_self, List.getElem?_cons_zero, Option.some.injEq] at hnext
    have := hptr addrs[addrs.length - 1] (List.mem_append_left _ (List.getElem_mem _))
      (hnz _ (List.getElem_mem _))
    rw [indexOf_append_getElem addrs 0 hnd _ _ hai, ← hnext] at this
    simpa [decodedAddress] using this
  · obtain ⟨a0, rest, hL⟩ := List.exists_cons_of_ne_nil hne
    have h00 : addrs[0]? = some a0 := by rw [hL]; simp
    have := hidx 0 a0 h00
    rw [hroot]
    simp [hL] at this ⊢
    exact this

/-- The chain `a.next = &b`, `b.next = nullptr` of two nodes at 100 and 200: table of three
entries, decoded `a` at 1000 and `b` at 1016 with `a.next = 1016` and `b.next` null. -/
theorem chain_round_trip_null_witness :
    NodeChain chainMemory [100, 200] 0 ∧ IntValues chainMemory [100, 200] ∧
    exampleManager.reflectionData exampleHash ['N', 'o', 'd', 'e'] = some nodePtr ∧
    ((∃ t, PointerTable.populate exampleTypes chainMemory 8
        (nodeVariable ([100, 200].headD 0)) true {} = .ok t ∧
      t.dataTable = [100, 200].map
          (fun a => { var := nodeVariable a, needsSerialization := true })
        ++ [{ var := nodeVariable 0, needsSerialization := true }]) ∧
    (∃ text st,
      ReflectedVariable.serialize exampleTypes chainMemory 8 (nodeVariable ([100, 200].headD 0))
        = .ok text ∧
      ReflectedVariable.deserialize exampleTypes exampleHash exampleManager 8 ⟨0, 50⟩ text
        exampleHeap = .ok st ∧
      st.table.dataTable.map (fun r => r.var) =
        (List.range [100, 200].length).map (fun i => nodeVariable (exampleHeap.brk + 16 * i))
          ++ [nodeVariable 0] ∧
      (∀ i, i + 1 < [100, 200].length →
        st.heap.memory (exampleHeap.brk + 16 * i + 8) =
          .pointer (exampleHeap.brk + 16 * (i + 1))) ∧
      st.heap.memory (exampleHeap.brk + 16 * ([100, 200].length - 1) + 8) = .pointer 0 ∧
      st.heap.memory (⟨0, 50⟩ : ReflectedVariable).instanceData = .pointer exampleHeap.brk)) :=
  ⟨by simp [NodeChain, chainMemory, pointerOffset, Value.asPointer],
    by unfold IntValues; decide, by decide,
    chain_round_trip_null chainMemory [100, 200] (by decide) (by decide) (by decide)
      (by simp [NodeChain, chainMemory, pointerOffset, Value.asPointer])
      (by unfold IntValues; decide) (by decide) exampleHash exampleManager (by decide)
      exampleHeap ⟨0, 50⟩ (by decide) 8 (by decide)⟩

/-- **C5** For every cyclic chain of `k ≥ 1` distinct nodes (the last node points to the
first), `populate` builds the table of the `k` nodes and no null entry, and loading the
serialized text gives `k` decoded nodes, the `i`-th one in the `i`-th block of 16 bytes,
such that `next` of the `i`-th holds the address of the `(i+1)`-th and `next` of the last
one holds the address of the first decoded node. -/
theorem chain_round_trip_cycle (mem : Memory) (addrs : List Address) (hne : addrs ≠ [])
    (hnd : addrs.Nodup) (hnz : ∀ a ∈ addrs, a ≠ 0)
    (hchain : NodeChain mem addrs (addrs.headD 0))
    (hvalues : IntValues mem addrs) (hbound : addrs.length < 2 ^ 64)
    (hashString : Text → Nat) (manager : ReflectionDataManager)
    (hlookup : manager.reflectionData hashString ['N', 'o', 'd', 'e'] = some nodePtr)
    (heap : Heap) (self : ReflectedVariable) (hself : self.instanceData < heap.brk)
    (fuel : Nat) (hfuel : addrs.length + 5 ≤ fuel) :
    (∃ t, PointerTable.populate exampleTypes mem fuel (nodeVariable (addrs.headD 0)) true {}
        = .ok t ∧
      t.dataTable = addrs.map (fun a => { var := nodeVariable a, needsSerialization := true }) ∧
      t.dataTable.length = addrs.length ∧ ∀ r ∈ t.dataTable, r.var.instanceData ≠ 0) ∧
    (∃ text st,
      ReflectedVariable.serialize exampleTypes mem fuel (nodeVariable (addrs.headD 0))
        = .ok text ∧
      ReflectedVariable.deserialize exampleTypes hashString manager fuel self text heap
        = .ok st ∧
      st.table.dataTable.map (fun r => r.var) =
        (List.range addrs.length).map (fun i => nodeVariable (heap.brk + 16 * i)) ∧
      (∀ i, i + 1 < addrs.length →
        st.heap.memory (heap.brk + 16 * i + 8) = .pointer (heap.brk + 16 * (i + 1))) ∧
      st.heap.memory (heap.brk + 16 * (addrs.length - 1) + 8) = .pointer heap.brk ∧
      st.heap.memory self.instanceData = .pointer heap.brk) := by
  obtain ⟨F, rfl⟩ : ∃ F, fuel = F + addrs.length + 5 := ⟨fuel - (addrs.length + 5), by omega⟩
  obtain ⟨a0, rest, hL⟩ := List.exists_cons_of_ne_nil hne
  have hhead : addrs.headD 0 = a0 := by rw [hL]; rfl
  have ha0 : a0 ∈ addrs := by rw [hL]; exact List.mem_cons_self a0 rest
  have h00 : addrs[0]? = some a0 := by rw [hL]; simp
  rw [hhead] at hchain ⊢
  have hclosed : ∀ a ∈ addrs, a ≠ 0 → (mem (pointerOffset a 8)).asPointer ∈ addrs := by
    intro a ha _
    obtain ⟨i, hi⟩ := List.getElem?_of_mem ha
    have := List.getElem?_mem (nodeChain_get mem a0 addrs hchain i a hi)
    rw [List.mem_append, List.mem_singleton] at this
    rcases this with h | h
    · exact h
    · rw [h]; exact ha0
  have hpop : PointerTable.populate exampleTypes mem (F + addrs.length + 5)
      (nodeVariable a0) true {} = .ok (nodeTable {} addrs) := by
    have := populate_chain_back mem a0 (F + 4) addrs {} (consistent_empty _) hchain hnd
      (fun a ha => ⟨hnz a ha, hasPointer_empty _ _⟩) (Or.inr ha0)
    have hhead' : addrs.headD a0 = a0 := by rw [hL]; rfl
    rw [hhead'] at this
    rwa [show F + 4 + addrs.length + 1 = F + addrs.length + 5 by omega] at this
  obtain ⟨_, hd, _⟩ := nodeTable_spec addrs {} (consistent_empty _) hnd
    (fun b _ => hasPointer_empty _ _)
  have hser : ReflectedVariable.serialize exampleTypes mem (F + addrs.length + 5)
      (nodeVariable a0) = .ok (chainText mem addrs) := by
    unfold ReflectedVariable.serialize
    rw [hpop]
    have := serialize_chain mem addrs hnd hclosed (F + addrs.length + 3)
    rwa [show F + addrs.length + 3 + 2 = F + addrs.length + 5 by omega] at this
  obtain ⟨st, hst, htab, hptr, hroot⟩ := chain_decode mem addrs hne hnd hclosed hvalues hbound
    hashString manager hlookup heap self hself F
  have hidx : ∀ (i : Nat) (a : Address), addrs[i]? = some a →
      decodedAddress addrs heap.brk a = heap.brk + 16 * i := by
    intro i a hi
    have ha0 : a ≠ 0 := hnz a (List.getElem?_mem hi)
    simp [decodedAddress, ha0, indexOf_self_getElem addrs hnd i a hi]
  have hd' : (nodeTable {} addrs).dataTable =
      addrs.map (fun a => { var := nodeVariable a, needsSerialization := true }) := by
    simpa using hd
  refine ⟨⟨_, hpop, hd', by rw [hd']; simp, ?_⟩, chainText mem addrs, st, hser, hst, ?_, ?_,
    ?_, ?_⟩
  · intro r hr
    rw [hd', List.mem_map] at hr
    obtain ⟨a, ha, rfl⟩ := hr
    exact hnz a ha
  · rw [htab]
    apply List.ext_getElem?
    intro i
    by_cases hi : i < addrs.length
    · simp [hi, hidx i addrs[i] (List.getElem?_eq_getElem hi)]
    · rw [List.getElem?_eq_none (by simp; omega), List.getElem?_eq_none (by simp; omega)]
  · intro i hi
    have hai : addrs[i]? = some addrs[i] := List.getElem?_eq_getElem (by omega)
    have hnext := nodeChain_get mem a0 addrs hchain i _ hai
    rw [List.getElem?_append_left (by omega), List.getElem?_eq_getElem (by omega)] at hnext
    have hn := hidx (i + 1) addrs[i + 1] (List.getElem?_eq_getElem hi)
    have hnx : (mem (pointerOffset addrs[i] 8)).asPointer = addrs[i + 1] :=
      (Option.some.inj hnext).symm
    have := hptr addrs[i] (List.getElem_mem _) (hnz _ (List.getElem_mem _))
    rw [indexOf_self_getElem addrs hnd i _ hai, hnx, hn] at this
    exact this
  · have hk : addrs.length - 1 < addrs.length :=
      Nat.sub_lt (List.length_pos.mpr hne) Nat.one_pos
    have hai : addrs[addrs.length - 1]? = some addrs[addrs.length - 1] :=
      List.getElem?_eq_getElem hk
    have hnext := nodeChain_get mem a0 addrs hchain _ _ hai
    rw [show addrs.length - 1 + 1 = addrs.length by omega,
      List.getElem?_append_right (le_refl _)] at hnext
    simp only [Nat.sub_self, List.getElem?_cons_zero, Option.some.injEq] at hnext
    have := hptr addrs[addrs.length - 1] (List.getElem_mem _) (hnz _ (List.getElem_mem _))
    rw [indexOf_self_getElem addrs hnd _ _ hai, ← hnext, hidx 0 a0 h00] at this
    simpa using this
  · rw [hroot, hhead, hidx 0 a0 h00]
    simp

/-- The cycle `a.next = &b`, `b.next = &a` of two nodes at 100 and 200: table of two
entries, decoded `a` at 1000 and `b` at 1016 with `a.next = 1016` and `b.next = 1000`. -/
theorem chain_round_trip_cycle_witness :
    NodeChain cycleMemory [100, 200] ([100, 200].headD 0) ∧ IntValues cycleMemory [100, 200] ∧
    exampleManager.reflectionData exampleHash ['N', 'o', 'd', 'e'] = some nodePtr ∧
    ((∃ t, PointerTable.populate exampleTypes cycleMemory 7
        (nodeVariable ([100, 200].headD 0)) true {} = .ok t ∧
      t.dataTable = [100, 200].map
          (fun a => { var := nodeVariable a, needsSerialization := true }) ∧
      t.dataTable.length = [100, 200].length ∧ ∀ r ∈ t.dataTable, r.var.instanceData ≠ 0) ∧
    (∃ text st,
      ReflectedVariable.serialize exampleTypes cycleMemory 7 (nodeVariable ([100, 200].headD 0))
        = .ok text ∧
      ReflectedVariable.deserialize exampleTypes exampleHash exampleManager 7 ⟨0, 50⟩ text
        exampleHeap = .ok st ∧
      st.table.dataTable.map (fun r => r.var) =
        (List.range [100, 200].length).map (fun i => nodeVariable (exampleHeap.brk + 16 * i)) ∧
      (∀ i, i + 1 < [100, 200].length →
        st.heap.memory (exampleHeap.brk + 16 * i + 8) =
          .pointer (exampleHeap.brk + 16 * (i + 1))) ∧
      st.heap.memory (exampleHeap.brk + 16 * ([100, 200].length - 1) + 8) =
        .pointer exampleHeap.brk ∧
      st.heap.memory (⟨0, 50⟩ : ReflectedVariable).instanceData = .pointer exampleHeap.brk)) :=
  ⟨by simp [NodeChain, cycleMemory, pointerOffset, Value.asPointer],
    by unfold IntValues; decide, by decide,
    chain_round_trip_cycle cycleMemory [100, 200] (by decide) (by decide) (by decide)
      (by simp [NodeChain, cycleMemory, pointerOffset, Value.asPointer])
      (by unfold IntValues; decide) (by decide) exampleHash exampleManager (by decide)
      exampleHeap ⟨0, 50⟩ (by decide) 7 (by decide)⟩

/-! ## Shared pointees -/

/-- After the closing loop of `PointerTable::deserialize`, when the recorded slots are
pairwise different, every recorded slot whose index is inside the table holds the instance
address of the table entry at its index. -/
theorem deserialize_patched (types : Descriptors) (hashString : Text → Nat)
    (manager : ReflectionDataManager) (fuel : Nat) (stream : Text) (heap : Heap) (st : Loader)
    (h : PointerTable.deserialize types hashString manager fuel stream heap = .ok st)
    (hnd : (st.table.pointersToPatch.map (fun p => p.var.instanceData)).Nodup)
    (p : PatchPointer) (hp : p ∈ st.table.pointersToPatch)
    (hin : p.index < st.table.dataTable.length) :
    ∃ r, st.table.dataTable[p.index]? = some r ∧
      st.heap.memory p.var.instanceData = .pointer r.var.instanceData := by
  unfold PointerTable.deserialize at h
  obtain ⟨⟨tableSize, s⟩, _, h⟩ := (bind_ok _ _ _).mp h
  dsimp only at h
  split at h
  · cases h
  · obtain ⟨st0, _, h⟩ := (bind_ok _ _ _).mp h
    obtain ⟨memory, hm, h⟩ := (bind_ok _ _ _).mp h
    simp only [pure, Except.pure, Except.ok.injEq] at h
    subst h
    exact patchPointers_of_nodup _ _ _ _ hm hnd p hp hin

/-- When two pointer members, declared on the types of objects that have a table entry,
have the same pointee type name and hold the same address, the table built by `populate`
has exactly one entry for that address and type name; `ReflectionData::serialize` writes for both
members the index of that entry; the decoder records, for a pointer member line, the
member's slot with the index it reads; and after `PointerTable::deserialize` two recorded
slots with the same index, inside the table, hold the same address, that of the table
entry at the index. -/
theorem shared_pointee (types : Descriptors) (mem : Memory) (fuel : Nat)
    (root : ReflectedVariable) (t : PointerTable)
    (hpop : PointerTable.populate types mem fuel root true {} = .ok t)
    (i1 i2 : Nat) (r1 r2 : TableRecord) (h1 : t.dataTable[i1]? = some r1)
    (_h2 : t.dataTable[i2]? = some r2) (hn1 : r1.var.instanceData ≠ 0)
    (_hn2 : r2.var.instanceData ≠ 0) (m1 m2 : ReflectedMember)
    (hm1 : m1 ∈ (types r1.var.reflectionData).members)
    (_hm2 : m2 ∈ (types r2.var.reflectionData).members)
    (hp1 : m1.isPointer = true) (hp2 : m2.isPointer = true)
    (hname : (types m1.data).name = (types m2.data).name)
    (htarget : (mem (pointerOffset r1.var.instanceData m1.offset)).asPointer =
      (mem (pointerOffset r2.var.instanceData m2.offset)).asPointer) :
    ∃ j : Nat,
      (∃ r, t.dataTable[j]? = some r ∧
        tableKey types r.var = tableKey types (resolvedPointer mem r1.var.instanceData m1)) ∧
      (∀ (k : Nat) (r : TableRecord), t.dataTable[k]? = some r →
        tableKey types r.var = tableKey types (resolvedPointer mem r1.var.instanceData m1) →
        k = j) ∧
      (∀ (serialize : DescriptorPtr → ReflectedVariable → Nat → Bool → Except Fault Text)
        (padding : Nat),
        ReflectionData.serializeMember types mem t serialize r1.var padding m1 =
          .ok (padStream padding ++ m1.name ++ [' '] ++ showNat j ++ ['\n']) ∧
        ReflectionData.serializeMember types mem t serialize r2.var padding m2 =
          .ok (padStream padding ++ m2.name ++ [' '] ++ showNat j ++ ['\n'])) ∧
      (∀ (self : DescriptorPtr) (member : ReflectedMember) (fuel' : Nat)
        (var : ReflectedVariable) (st : Loader) (white rest : Text),
        (types self).member member.name = some member → member.isPointer = true →
        TokenName member.name → member.name ≠ ['n', 'u', 'l', 'l'] → member.name ≠ [']'] →
        j < 2 ^ 64 → (∀ c ∈ white, isSpace c = true) →
        st.stream = white ++ member.name ++ [' '] ++ showNat j ++ ['\n'] ++ rest →
        ReflectionData.deserializeMembers types (fuel' + 1) self var st =
          ReflectionData.deserializeMembers types fuel' self var
            { st with
              stream := '\n' :: rest
              table := st.table.addPatchPointer j (memberVariable var.instanceData member) }) ∧
      (∀ (hashString : Text → Nat) (manager : ReflectionDataManager) (fuel' : Nat)
        (stream : Text) (heap : Heap) (st : Loader),
        PointerTable.deserialize types hashString manager fuel' stream heap = .ok st →
        (st.table.pointersToPatch.map (fun p => p.var.instanceData)).Nodup →
        j < st.table.dataTable.length →
        ∀ p ∈ st.table.pointersToPatch, ∀ q ∈ st.table.pointersToPatch,
          p.index = j → q.index = j →
          st.heap.memory p.var.instanceData = st.heap.memory q.var.instanceData ∧
          ∃ r, st.table.dataTable[j]? = some r ∧
            st.heap.memory p.var.instanceData = .pointer r.var.instanceData) := by
  obtain ⟨hc, _, _, hexp⟩ := populate_spec types mem fuel root true {} t (consistent_empty _) hpop
  have hf1 : followed types m1 = true := by simp [followed, hp1]
  have hin := hexp i1 r1 (Nat.zero_le _) h1 hn1 m1 hm1 hf1
  simp only [childVariable, hp1, if_true] at hin
  rw [hasPointer_iff types t hc] at hin
  obtain ⟨j, r, hr, hkey⟩ := hin
  have hkey2 : tableKey types r.var = tableKey types (resolvedPointer mem r2.var.instanceData m2) := by
    rw [hkey]
    simp [tableKey, resolvedPointer, hname, htarget]
  have hi1 := index_of_record types t hc _ j r hr hkey
  have hi2 := index_of_record types t hc _ j r hr hkey2
  refine ⟨j, ⟨r, hr, hkey⟩, ?_, ?_, ?_, ?_⟩
  · intro k r' hr' hkey'
    exact record_unique types t hc k j r' r hr' hr (hkey'.trans hkey.symm)
  · intro serialize padding
    simp [ReflectionData.serializeMember, hp1, hp2, hi1, hi2, bind, Except.bind, pure,
      Except.pure]
  · intro self member fuel' var st white rest hmember hpointer htoken hnull hclose hj hwhite
      hstream
    have hskip : ∀ (w : Text) (s : Text), (∀ c ∈ w, isSpace c = true) →
        extractToken (w ++ s) = extractToken s := by
      intro w
      induction w with
      | nil => intro s _; rfl
      | cons c cs ih =>
        intro s hw
        rw [List.cons_append, extractToken_space c _ (hw c (List.mem_cons_self c cs))]
        exact ih s (fun x hx => hw x (List.mem_cons_of_mem c hx))
    have htok : extractToken st.stream =
        .ok (member.name, ' ' :: (showNat j ++ '\n' :: rest)) := by
      rw [hstream]
      simp only [List.append_assoc, List.singleton_append]
      rw [hskip white _ hwhite]
      exact extractToken_append member.name ' ' _ htoken.1 htoken.2 (by decide)
    have hidx : extractSize (' ' :: (showNat j ++ '\n' :: rest)) = .ok (j, '\n' :: rest) := by
      rw [extractSize_space _ _ (by decide)]
      exact extractSize_showNat_cons j '\n' rest hj (by decide)
    exact deserializeMembers_pointer types fuel' self var st member j _ _ htok hidx hmember
      hpointer hnull hclose
  · intro hashString manager fuel' stream heap st hst hnd hj p hp q hq hpj hqj
    obtain ⟨rp, hrp, hmp⟩ := deserialize_patched types hashString manager fuel' stream heap st
      hst hnd p hp (by rw [hpj]; exact hj)
    obtain ⟨rq, hrq, hmq⟩ := deserialize_patched types hashString manager fuel' stream heap st
      hst hnd q hq (by rw [hqj]; exact hj)
    rw [hpj] at hrp
    rw [hqj] at hrq
    rw [hrp] at hrq
    cases hrq
    exact ⟨hmp.trans hmq.symm, rp, hrp, hmp⟩

set_option maxRecDepth 100000 in
/-- On `Pair { Y *p; Y *q; }` with `p = q = &y` the table has the entries of the pair and
of `y`, both member lines carry the index 1, and after decoding both pointer fields (at
1000 and 1008) hold 1016, the address of the one decoded `Y`. -/
theorem shared_pointee_witness :
    ∃ t, PointerTable.populate exampleTypes pairMemory 10 ⟨15, 100⟩ true {} = .ok t ∧
      t.dataTable = [⟨⟨15, 100⟩, true⟩, ⟨⟨6, 200⟩, true⟩] ∧
      (∀ (serialize : DescriptorPtr → ReflectedVariable → Nat → Bool → Except Fault Text)
        (padding : Nat),
        ReflectionData.serializeMember exampleTypes pairMemory t serialize ⟨15, 100⟩ padding
            ⟨['p'], 0, 8, true, 6⟩ =
          .ok (padStream padding ++ ['p'] ++ [' '] ++ showNat 1 ++ ['\n']) ∧
        ReflectionData.serializeMember exampleTypes pairMemory t serialize ⟨15, 100⟩ padding
            ⟨['q'], 8, 8, true, 6⟩ =
          .ok (padStream padding ++ ['q'] ++ [' '] ++ showNat 1 ++ ['\n'])) ∧
      (roundTrip pairMemory 10 ⟨15, 100⟩).map
          (fun r => (r.1, r.2.table.dataTable.map (fun e => e.var),
            r.2.table.pointersToPatch,
            r.2.heap.memory 1000, r.2.heap.memory 1008, r.2.heap.memory 1016)) =
        .ok ("2\n0 Pair\n[\n\tp 1\n\tq 1\n]\n1 Y\n[\n\tv 7\n]\n".toList,
          [⟨15, 1000⟩, ⟨6, 1016⟩], [⟨1, ⟨6, 1000⟩⟩, ⟨1, ⟨6, 1008⟩⟩],
          .pointer 1016, .pointer 1016, .int 7) := by
  obtain ⟨t, ht⟩ := exists_of_isOk
    (PointerTable.populate exampleTypes pairMemory 10 ⟨15, 100⟩ true {}) (by decide)
  have hdt : t.dataTable = [⟨⟨15, 100⟩, true⟩, ⟨⟨6, 200⟩, true⟩] := by
    have h : (PointerTable.populate exampleTypes pairMemory 10 ⟨15, 100⟩ true {}).map
        (fun t => t.dataTable) = .ok [⟨⟨15, 100⟩, true⟩, ⟨⟨6, 200⟩, true⟩] := by decide
    rw [ht] at h
    simpa [Except.map] using h
  obtain ⟨j, _, hunique, hlines, _, _⟩ := shared_pointee exampleTypes pairMemory 10 ⟨15, 100⟩ t
    ht 0 0 ⟨⟨15, 100⟩, true⟩ ⟨⟨15, 100⟩, true⟩ (by rw [hdt]; rfl) (by rw [hdt]; rfl)
    (by decide) (by decide) ⟨['p'], 0, 8, true, 6⟩ ⟨['q'], 8, 8, true, 6⟩ (by decide)
    (by decide) rfl rfl (by decide) (by decide)
  have hj : 1 = j := hunique 1 ⟨⟨6, 200⟩, true⟩ (by rw [hdt]; rfl) (by decide)
  subst hj
  exact ⟨t, ht, hdt, hlines, by decide⟩

set_option maxRecDepth 100000 in
/-- **C7** Two pointer members that hold the address of the same `Y` get no table entry for
it when `populate` does not walk them. On `Tagged : Links { int m; }` with the inherited
members `p = q = &y` the table holds the entry of the root alone, and on
`Refs { Ref rs[3]; }` with `rs[1].p = rs[2].p = &y` it holds the root, the first element and
the pointee of the first element; in both the table has no entry for `y` and
`ReflectedVariable::serialize` stops at the assertion of `PointerTable::index`. -/
theorem shared_pointee_unlisted :
    (PointerTable.populate exampleTypes inheritedMemory 10 ⟨17, 100⟩ true {}).map
        (fun t => (t.dataTable, t.hasPointer exampleTypes ⟨6, 200⟩)) =
      .ok ([⟨⟨17, 100⟩, true⟩], false) ∧
    ReflectedVariable.serialize exampleTypes inheritedMemory 10 ⟨17, 100⟩ =
      .error .assertion ∧
    (PointerTable.populate exampleTypes refsMemory 10 ⟨19, 100⟩ true {}).map
        (fun t => (t.dataTable, t.hasPointer exampleTypes ⟨6, 200⟩)) =
      .ok ([⟨⟨19, 100⟩, true⟩, ⟨⟨18, 100⟩, false⟩, ⟨⟨6, 300⟩, true⟩], false) ∧
    ReflectedVariable.serialize exampleTypes refsMemory 10 ⟨19, 100⟩ = .error .assertion := by
  decide

/-! ## Tokens that name no member -/

/-- **C20** (amended) When the member loop of `ReflectionData::deserialize` reads a token
that is neither `]` nor `null` nor the name of a member of the descriptor, the token is
skipped: the loop goes on with the next token, and the variable, the free store and the
table are as they were; decoding does not fail on it. -/
theorem unknown_token_skipped (types : Descriptors) (fuel : Nat) (self : DescriptorPtr)
    (var : ReflectedVariable) (st : Loader) (token rest : Text)
    (hstream : extractToken st.stream = .ok (token, rest))
    (hnull : token ≠ ['n', 'u', 'l', 'l']) (hclose : token ≠ [']'])
    (hmember : (types self).member token = none) :
    ReflectionData.deserializeMembers types (fuel + 1) self var st =
      ReflectionData.deserializeMembers types fuel self var { st with stream := rest } := by
  rw [deserializeMembers_succ]
  simp [hstream, hnull, hclose, hmember, bind, Except.bind, pure, Except.pure]

set_option maxRecDepth 100000 in
/-- In a block of `Foo { int x; float y; }` the token `zz` names no member: the loop goes
on with the token `5`, and the block `x 10`, `zz 5`, `y 13` decodes like `x 10`, `y 13`. -/
theorem unknown_token_skipped_witness :
    extractToken "\tzz 5\n\ty 13\n]\n".toList = .ok ("zz".toList, " 5\n\ty 13\n]\n".toList) ∧
    (exampleTypes 4).member "zz".toList = none ∧
    ReflectionData.deserializeMembers exampleTypes (3 + 1) 4 ⟨4, 1000⟩
        { stream := "\tzz 5\n\ty 13\n]\n".toList, heap := exampleHeap, table := {} } =
      ReflectionData.deserializeMembers exampleTypes 3 4 ⟨4, 1000⟩
        { stream := " 5\n\ty 13\n]\n".toList, heap := exampleHeap, table := {} } :=
  ⟨by decide, by decide,
    unknown_token_skipped exampleTypes 3 4 ⟨4, 1000⟩
      { stream := "\tzz 5\n\ty 13\n]\n".toList, heap := exampleHeap, table := {} }
      "zz".toList " 5\n\ty 13\n]\n".toList (by decide) (by decide) (by decide) (by decide)⟩

set_option maxRecDepth 100000 in
/-- A record of `Foo` with the extra line `zz 5` between its members loads without a fault:
the tokens `zz` and `5` are passed over and the members hold `x = 10`, `y = 13`. -/
theorem unknown_member_accepted :
    (ReflectedVariable.deserialize exampleTypes exampleHash exampleManager 10 ⟨0, 50⟩
        "1\n0 Foo\n[\n\tx 10\n\tzz 5\n\ty 13\n]\n".toList exampleHeap).map
        (fun st => (st.table.dataTable.map (fun e => e.var), st.heap.memory 1000,
          st.heap.memory 1004, st.heap.memory 50, st.stream)) =
      .ok ([⟨4, 1000⟩], .int 10, .float 13, .pointer 1000, []) ∧
    (exampleTypes 4).member "zz".toList = none ∧ (exampleTypes 4).member "5".toList = none := by
  decide

/-! ## The text of the whole table -/

/-- The text of `writeEach` is the concatenation of the texts of the single writes, which
all have to return. -/
theorem writeEach_ok_iff {α : Type} (write : α → Except Fault Text) :
    ∀ (l : List α) (text : Text), writeEach write l = .ok text ↔
      ∃ texts, List.Forall₂ (fun a t => write a = .ok t) l texts ∧ text = texts.flatten := by
  intro l
  induction l with
  | nil =>
    intro text
    constructor
    · intro h
      simp only [writeEach, pure, Except.pure, Except.ok.injEq] at h
      exact ⟨[], List.Forall₂.nil, by simp [← h]⟩
    · rintro ⟨texts, hall, rfl⟩
      cases hall
      rfl
  | cons a rest ih =>
    intro text
    constructor
    · intro h
      unfold writeEach at h
      obtain ⟨t1, h1, h⟩ := (bind_ok _ _ _).mp h
      obtain ⟨more, h2, h⟩ := (bind_ok _ _ _).mp h
      simp only [pure, Except.pure, Except.ok.injEq] at h
      obtain ⟨texts, hall, rfl⟩ := (ih more).mp h2
      exact ⟨t1 :: texts, List.Forall₂.cons h1 hall, by simp [← h]⟩
    · rintro ⟨texts, hall, rfl⟩
      cases hall with
      | cons h1 hrest =>
        rename_i t1 texts
        have h2 := (ih texts.flatten).mpr ⟨texts, hrest, rfl⟩
        unfold writeEach
        simp [h1, h2, bind, Except.bind, pure, Except.pure]

/-- Elements for which nothing is written can be left out of `writeEach`. -/
theorem writeEach_filter {α : Type} (write : α → Except Fault Text) (p : α → Bool)
    (h : ∀ a, p a = false → write a = .ok []) :
    ∀ l : List α, writeEach write (l.filter p) = writeEach write l := by
  intro l
  induction l with
  | nil => rfl
  | cons a rest ih =>
    cases hp : p a with
    | true =>
      rw [List.filter_cons_of_pos (by simpa using hp)]
      unfold writeEach
      rw [ih]
    | false =>
      rw [List.filter_cons_of_neg (by simp [hp]), ih]
      conv_rhs => unfold writeEach
      rw [h a hp]
      cases writeEach write rest <;> rfl

/-- Numbering the elements does not change the text of `writeEach`. -/
theorem writeEach_enumFrom {α : Type} (write : α → Except Fault Text) :
    ∀ (l : List α) (n : Nat),
      writeEach (fun e : Nat × α => write e.2) (l.enumFrom n) = writeEach write l := by
  intro l
  induction l with
  | nil => intro n; rfl
  | cons a rest ih =>
    intro n
    rw [List.enumFrom_cons]
    unfold writeEach
    rw [ih]

/-- **C18** `PointerTable::serialize` writes the number of table entries and a newline, and
then the records of the entries whose flag `needsSerialization` is set, one after the
other in table order: it returns exactly when the record of each such entry is written,
its text is the size line followed by these records, the indices of the entries written
increase strictly, an entry is written exactly when it is in the table with its flag set,
and nothing is written for an entry whose flag is not set. -/
theorem serialize_table (types : Descriptors) (mem : Memory) (fuel : Nat) (t : PointerTable) :
    (∀ text, t.serialize types mem fuel = .ok text ↔
      ∃ records, List.Forall₂
          (fun (e : Nat × TableRecord) record =>
            t.serializeRecord types mem fuel e.2 = .ok record)
          t.emitted records ∧
        text = showNat t.dataTable.length ++ ['\n'] ++ records.flatten) ∧
    (t.emitted.map Prod.fst).Pairwise (fun i j => i < j) ∧
    (∀ (i : Nat) (r : TableRecord),
      (i, r) ∈ t.emitted ↔ t.dataTable[i]? = some r ∧ r.needsSerialization = true) ∧
    (∀ r : TableRecord, r.needsSerialization = false →
      t.serializeRecord types mem fuel r = .ok []) := by
  have hskip : ∀ r : TableRecord, r.needsSerialization = false →
      t.serializeRecord types mem fuel r = .ok [] := by
    intro r hr
    simp [PointerTable.serializeRecord, hr, pure, Except.pure]
  have hbody : writeEach (fun e : Nat × TableRecord => t.serializeRecord types mem fuel e.2)
      t.emitted = writeEach (t.serializeRecord types mem fuel) t.dataTable := by
    unfold PointerTable.emitted
    rw [writeEach_filter _ _ (fun e he => hskip e.2 he)]
    exact writeEach_enumFrom _ _ 0
  refine ⟨?_, ?_, ?_, hskip⟩
  · intro text
    unfold PointerTable.serialize
    rw [← hbody]
    constructor
    · intro h
      obtain ⟨body, hb, h⟩ := (bind_ok _ _ _).mp h
      simp only [pure, Except.pure, Except.ok.injEq] at h
      obtain ⟨records, hall, rfl⟩ := (writeEach_ok_iff _ _ _).mp hb
      exact ⟨records, hall, h.symm⟩
    · rintro ⟨records, hall, rfl⟩
      have hb := (writeEach_ok_iff _ _ _).mpr ⟨records, hall, rfl⟩
      simp [hb, bind, Except.bind, pure, Except.pure]
  · unfold PointerTable.emitted
    have hsub : ((t.dataTable.enum.filter (fun e => e.2.needsSerialization)).map Prod.fst).Sublist
        (t.dataTable.enum.map Prod.fst) := (List.filter_sublist _).map _
    rw [List.enum_map_fst] at hsub
    exact (List.pairwise_lt_range _).sublist hsub
  · intro i r
    unfold PointerTable.emitted
    rw [List.mem_filter, List.mk_mem_enum_iff_getElem?]

set_option maxRecDepth 100000 in
/-- The table of `Root { int id; Holder *h; }` has three entries, the third one (the first
array element of the holder, found inline) without the flag: the text starts with the line
`3` and holds the records of the entries 0 and 1 only. -/
theorem serialize_table_witness :
    ∃ t, PointerTable.populate exampleTypes arrayMemory 10 ⟨10, 300⟩ true {} = .ok t ∧
      t.dataTable = [⟨⟨10, 300⟩, true⟩, ⟨⟨9, 200⟩, true⟩, ⟨⟨8, 200⟩, false⟩] ∧
      t.emitted = [(0, ⟨⟨10, 300⟩, true⟩), (1, ⟨⟨9, 200⟩, true⟩)] ∧
      ∃ records, List.Forall₂
          (fun (e : Nat × TableRecord) record =>
            t.serializeRecord exampleTypes arrayMemory 10 e.2 = .ok record)
          t.emitted records ∧
        ("3\n0 Root\n[\n\tid 5\n\th 1\n]\n1 Holder\n[\n\tpts\n\t\tPt\n\t\t[\n\t\t\tx 7\n\t\t]"
          ++ "\n\t\tPt\n\t\t[\n\t\t\tx 8\n\t\t]\n]\n").toList =
          showNat t.dataTable.length ++ ['\n'] ++ records.flatten := by
  obtain ⟨t, ht⟩ := exists_of_isOk
    (PointerTable.populate exampleTypes arrayMemory 10 ⟨10, 300⟩ true {}) (by decide)
  have hdt : t.dataTable = [⟨⟨10, 300⟩, true⟩, ⟨⟨9, 200⟩, true⟩, ⟨⟨8, 200⟩, false⟩] := by
    have h : (PointerTable.populate exampleTypes arrayMemory 10 ⟨10, 300⟩ true {}).map
        (fun t => t.dataTable) =
        .ok [⟨⟨10, 300⟩, true⟩, ⟨⟨9, 200⟩, true⟩, ⟨⟨8, 200⟩, false⟩] := by decide
    rw [ht] at h
    simpa [Except.map] using h
  have hser : t.serialize exampleTypes arrayMemory 10 =
      .ok ("3\n0 Root\n[\n\tid 5\n\th 1\n]\n1 Holder\n[\n\tpts\n\t\tPt\n\t\t[\n\t\t\tx 7\n\t\t]"
          ++ "\n\t\tPt\n\t\t[\n\t\t\tx 8\n\t\t]\n]\n").toList := by
    have h : ReflectedVariable.serialize exampleTypes arrayMemory 10 ⟨10, 300⟩ =
      .ok ("3\n0 Root\n[\n\tid 5\n\th 1\n]\n1 Holder\n[\n\tpts\n\t\tPt\n\t\t[\n\t\t\tx 7\n\t\t]"
          ++ "\n\t\tPt\n\t\t[\n\t\t\tx 8\n\t\t]\n]\n").toList := by decide
    unfold ReflectedVariable.serialize at h
    rw [ht] at h
    exact h
  refine ⟨t, ht, hdt, ?_, ((serialize_table exampleTypes arrayMemory 10 t).1 _).mp hser⟩
  unfold PointerTable.emitted
  rw [hdt]
  decide

set_option maxRecDepth 100000 in
/-- **C17** For `Root { int id; Holder *h; }` whose holder has an array of two `Pt`, the
first record is decoded into the block allocated at 1000 with the size of `Root`, but at
the end of loading the table entry 0 holds the variable of type `Pt` at 1020, the second
element of the array in the later record of the holder: the address that
`ReflectedVariable::deserialize` stores is 1020, not the instance of `Root`. -/
theorem root_entry_overwritten :
    (do
      let text ← ReflectedVariable.serialize exampleTypes arrayMemory 10 ⟨10, 300⟩
      let loaded ← PointerTable.deserialize exampleTypes exampleHash exampleManager 10 text
        exampleHeap
      let st ← ReflectedVariable.deserialize exampleTypes exampleHash exampleManager 10
        ⟨0, 50⟩ text exampleHeap
      pure (loaded.heap.allocated.head?, loaded.table.pointer 0, st.heap.memory 50)) =
      .ok (some (1000, (exampleTypes 10).size), .ok ⟨8, 1020⟩, .pointer 1020) := by
  decide

/-! ## The registry -/

/-- Lookup by key in a list of entries whose keys are pairwise different. -/
theorem find_of_mem (l : List (Nat × DescriptorPtr)) (hnd : (l.map Prod.fst).Nodup)
    (k : Nat) (d : DescriptorPtr) (h : (k, d) ∈ l) :
    ReflectionDataManager.find { reflectedData := l } k = some d := by
  induction l with
  | nil => cases h
  | cons e rest ih =>
    rw [List.map_cons, List.nodup_cons] at hnd
    rcases List.mem_cons.mp h with h | h
    · subst h
      simp [ReflectionDataManager.find, List.find?]
    · have hne : e.1 ≠ k := by
        intro he
        apply hnd.1
        rw [he]
        exact List.mem_map_of_mem Prod.fst h
      have := ih hnd.2 h
      simp only [ReflectionDataManager.find] at this ⊢
      rw [List.find?_cons, beq_eq_false_iff_ne.mpr hne]
      exact this

/-- Lookup by a key that no entry has. -/
theorem find_none (l : List (Nat × DescriptorPtr)) (k : Nat)
    (h : ∀ e ∈ l, e.1 ≠ k) : ReflectionDataManager.find { reflectedData := l } k = none := by
  simp only [ReflectionDataManager.find, Option.map_eq_none', List.find?_eq_none]
  intro e he
  simpa using h e he

/-- A successful lookup returns the descriptor of an entry with the key looked up. -/
theorem find_some (l : List (Nat × DescriptorPtr)) (k : Nat) (d : DescriptorPtr)
    (h : ReflectionDataManager.find { reflectedData := l } k = some d) : (k, d) ∈ l := by
  simp only [ReflectionDataManager.find, Option.map_eq_some'] at h
  obtain ⟨e, he, rfl⟩ := h
  have hk := List.find?_some he
  have hm := List.mem_of_find?_eq_some he
  simp only [beq_iff_eq] at hk
  rw [← hk]
  exact hm

/-- After a sequence of successful registrations the map holds, behind its former entries,
one entry per registered descriptor, under the key of its name, and the keys stay pairwise
different. -/
theorem registerAll_spec (types : Descriptors) (hashString : Text → Nat) :
    ∀ (ds : List DescriptorPtr) (m m' : ReflectionDataManager),
      ReflectionDataManager.registerAll types hashString m ds = .ok m' →
      m'.reflectedData = m.reflectedData ++
          ds.map (fun d => (nameKey hashString (types d).name, d)) ∧
        ((m.reflectedData.map Prod.fst).Nodup → (m'.reflectedData.map Prod.fst).Nodup) ∧
        ∀ d ∈ ds, d ≠ 0 := by
  intro ds
  induction ds with
  | nil =>
    intro m m' h
    simp only [ReflectionDataManager.registerAll, List.foldlM, pure, Except.pure,
      Except.ok.injEq] at h
    subst h
    simp
  | cons d rest ih =>
    intro m m' h
    simp only [ReflectionDataManager.registerAll, List.foldlM] at h
    obtain ⟨m1, h1, h⟩ := (bind_ok _ _ _).mp h
    obtain ⟨hdata, hnd, hnz⟩ := ih m1 m' h
    rw [addReflectedData_eq] at h1
    split at h1
    · cases h1
    · rename_i hd
      split at h1
      · cases h1
      · rename_i hfind
        simp only [Except.ok.injEq] at h1
        subst h1
        refine ⟨?_, ?_, ?_⟩
        · rw [hdata]
          simp [nameKey]
        · intro hm
          apply hnd
          simp only [List.map_append, List.map_cons, List.map_nil]
          rw [List.nodup_append]
          refine ⟨hm, List.nodup_singleton _, ?_⟩
          intro k hk hk'
          simp only [List.mem_singleton] at hk'
          subst hk'
          apply hfind
          obtain ⟨e, he, hek⟩ := List.mem_map.mp hk
          have := find_of_mem m.reflectedData hm e.1 e.2 he
          rw [hek] at this
          rw [show m = { reflectedData := m.reflectedData } from rfl, this]
          rfl
        · intro x hx
          rcases List.mem_cons.mp hx with hx | hx
          · subst hx; exact hd
          · exact hnz x hx

/-- After a sequence of successful registrations on the empty registry, the lookup of the
name of a registered descriptor returns that descriptor. -/
theorem lookup_registered (types : Descriptors) (hashString : Text → Nat)
    (ds : List DescriptorPtr) (m : ReflectionDataManager)
    (hreg : ReflectionDataManager.registerAll types hashString {} ds = .ok m)
    (d : DescriptorPtr) (hd : d ∈ ds) :
    m.reflectionData hashString (types d).name = some d := by
  obtain ⟨hdata, hnd, _⟩ := registerAll_spec types hashString ds {} m hreg
  have hnd' := hnd (by simp)
  simp only [List.nil_append] at hdata
  have hm : (nameKey hashString (types d).name, d) ∈ m.reflectedData := by
    rw [hdata]
    exact List.mem_map_of_mem _ hd
  exact find_of_mem m.reflectedData hnd' _ d hm

/-- After a sequence of successful registrations on the empty registry, a lookup returns a
registered descriptor whose name has the key of the name looked up, and it returns nothing
exactly when no registered name has that key. -/
theorem lookup_by_key (types : Descriptors) (hashString : Text → Nat)
    (ds : List DescriptorPtr) (m : ReflectionDataManager)
    (hreg : ReflectionDataManager.registerAll types hashString {} ds = .ok m) (name : Text) :
    (∀ d, m.reflectionData hashString name = some d →
      d ∈ ds ∧ nameKey hashString (types d).name = nameKey hashString name) ∧
    (m.reflectionData hashString name = none ↔
      ∀ d ∈ ds, nameKey hashString (types d).name ≠ nameKey hashString name) := by
  obtain ⟨hdata, _, _⟩ := registerAll_spec types hashString ds {} m hreg
  simp only [List.nil_append] at hdata
  have hsome : ∀ d, m.reflectionData hashString name = some d →
      d ∈ ds ∧ nameKey hashString (types d).name = nameKey hashString name := by
    intro d h
    have hmem := find_some m.reflectedData _ d h
    rw [hdata] at hmem
    obtain ⟨x, hx, hxe⟩ := List.mem_map.mp hmem
    simp only [Prod.mk.injEq] at hxe
    obtain ⟨hk, rfl⟩ := hxe
    exact ⟨hx, hk⟩
  refine ⟨hsome, ?_, ?_⟩
  · intro h d hd hk
    have := lookup_registered types hashString ds m hreg d hd
    unfold ReflectionDataManager.reflectionData at this h
    unfold nameKey at hk
    rw [hk, h] at this
    cases this
  · intro h
    cases hl : m.reflectionData hashString name with
    | none => rfl
    | some d =>
      obtain ⟨hd, hk⟩ := hsome d hl
      exact absurd hk (h d hd)

/-- Whatever the hash function, two names made of a different number of letters `a` have
the same 32-bit key. -/
theorem exists_collision (hashString : Text → Nat) :
    ∃ x y : Nat, x ≠ y ∧
      nameKey hashString (List.replicate (x + 1) 'a') =
        nameKey hashString (List.replicate (y + 1) 'a') := by
  let f : Nat → Fin (2 ^ 32) := fun k =>
    ⟨hashString (List.replicate (k + 1) 'a') % 2 ^ 32, Nat.mod_lt _ (by norm_num)⟩
  obtain ⟨x, y, hne, h⟩ := Finite.exists_ne_map_eq_of_infinite f
  exact ⟨x, y, hne, congrArg Fin.val h⟩

/-- **C15** Whatever the hash function, there are two different names such that, after the
registration of one descriptor under the first name only, the lookup of the second name,
which was never registered, returns that descriptor: the registry files a descriptor under
the 32-bit key of the hash of its name and never compares the names. -/
theorem lookup_other_name (hashString : Text → Nat) :
    ∃ name other : Text, name ≠ other ∧
      ∃ m, ReflectionDataManager.registerAll (soleType name) hashString {} [1] = .ok m ∧
        m.reflectionData hashString other = some 1 := by
  obtain ⟨x, y, hne, hkey⟩ := exists_collision hashString
  have hnames : List.replicate (x + 1) 'a' ≠ List.replicate (y + 1) 'a' := by
    intro h
    have := congrArg List.length h
    simp only [List.length_replicate] at this
    omega
  refine ⟨List.replicate (x + 1) 'a', List.replicate (y + 1) 'a', hnames,
    { reflectedData := [(nameKey hashString (List.replicate (x + 1) 'a'), 1)] }, ?_, ?_⟩
  · simp [ReflectionDataManager.registerAll, List.foldlM, addReflectedData_eq,
      ReflectionDataManager.find, nameKey, soleType, bind, Except.bind, pure, Except.pure]
  · unfold ReflectionDataManager.reflectionData
    unfold nameKey at hkey
    rw [← hkey]
    simp [ReflectionDataManager.find, nameKey]

/-- **C16** After a sequence of successful registrations, `addReflectedData` of a
descriptor whose name is the name of a registered descriptor stops at its assertion, and
the registry in which the call ends is the registry it was called on: it resolves every
name as before the call. -/
theorem duplicate_rejected (types : Descriptors) (hashString : Text → Nat)
    (ds : List DescriptorPtr) (m : ReflectionDataManager)
    (hreg : ReflectionDataManager.registerAll types hashString {} ds = .ok m)
    (d e : DescriptorPtr) (he : e ∈ ds) (hname : (types d).name = (types e).name) :
    m.addReflectedData types hashString d = .error .assertion ∧
    m.registryAfter types hashString d = m ∧
    ∀ name, (m.registryAfter types hashString d).reflectionData hashString name =
      m.reflectionData hashString name := by
  have hfind := lookup_registered types hashString ds m hreg e he
  unfold ReflectionDataManager.reflectionData at hfind
  rw [← hname] at hfind
  have hfail : m.addReflectedData types hashString d = .error .assertion := by
    rw [addReflectedData_eq]
    split
    · rfl
    · rw [hfind]
      rfl
  have hafter : m.registryAfter types hashString d = m := by
    unfold ReflectionDataManager.registryAfter
    rw [addReflectedDataSteps_run]
    split
    · rfl
    · rw [hfind]
      rfl
  refine ⟨hfail, hafter, ?_⟩
  intro name
  rw [hafter]

set_option maxRecDepth 100000 in
/-- After the registration of `int`, `float` and `Foo`, a second registration of `Foo` stops
at the assertion and ends in the registry it started from, which holds the three types;
the registration of `Node`, which is new, ends in a registry of four. -/
theorem duplicate_rejected_witness :
    ∃ m, ReflectionDataManager.registerAll exampleTypes exampleHash {} [1, 2, 4] = .ok m ∧
      m.addReflectedData exampleTypes exampleHash 4 = .error .assertion ∧
      m.registryAfter exampleTypes exampleHash 4 = m ∧
      (∀ name, (m.registryAfter exampleTypes exampleHash 4).reflectionData
          exampleHash name = m.reflectionData exampleHash name) ∧
      (m.registryAfter exampleTypes exampleHash 4).reflectedData.length = 3 ∧
      (m.registryAfter exampleTypes exampleHash 5).reflectedData.length = 4 := by
  obtain ⟨m, hm⟩ := exists_of_isOk
    (ReflectionDataManager.registerAll exampleTypes exampleHash {} [1, 2, 4]) (by decide)
  have hlen : (ReflectionDataManager.registerAll exampleTypes exampleHash {} [1, 2, 4]).map
      (fun m => ((m.registryAfter exampleTypes exampleHash 4).reflectedData.length,
        (m.registryAfter exampleTypes exampleHash 5).reflectedData.length)) = .ok (3, 4) := by
    decide
  rw [hm] at hlen
  simp only [Except.map, Except.ok.injEq, Prod.mk.injEq] at hlen
  have h := duplicate_rejected exampleTypes exampleHash [1, 2, 4] m hm 4 4 (by decide) rfl
  exact ⟨m, hm, h.1, h.2.1, h.2.2, hlen.1, hlen.2⟩

/-! ## Leaf codecs -/

/-- Formatted extraction of a `size_t` skips leading whitespace. -/
theorem extractSize_white (white s : Text) (h : ∀ c ∈ white, isSpace c = true) :
    extractSize (white ++ s) = extractSize s := by
  induction white with
  | nil => rfl
  | cons c cs ih =>
    rw [List.cons_append, extractSize_space c _ (h c (List.mem_cons_self c cs))]
    exact ih (fun x hx => h x (List.mem_cons_of_mem c hx))

/-- Formatted extraction of an `int` skips leading whitespace. -/
theorem extractInt_white (white s : Text) (h : ∀ c ∈ white, isSpace c = true) :
    extractInt (white ++ s) = extractInt s := by
  induction white with
  | nil => rfl
  | cons c cs ih =>
    rw [List.cons_append, extractInt_space c _ (h c (List.mem_cons_self c cs))]
    exact ih (fun x hx => h x (List.mem_cons_of_mem c hx))

/-- Formatted extraction of a token skips leading whitespace. -/
theorem extractToken_white (white s : Text) (h : ∀ c ∈ white, isSpace c = true) :
    extractToken (white ++ s) = extractToken s := by
  induction white with
  | nil => rfl
  | cons c cs ih =>
    rw [List.cons_append, extractToken_space c _ (h c (List.mem_cons_self c cs))]
    exact ih (fun x hx => h x (List.mem_cons_of_mem c hx))

/-- The `int` codec reads back a cell that holds a 32-bit integer. -/
theorem readsBack_int (mem : Memory) (v : ReflectedVariable) (i : Int)
    (hcell : mem v.instanceData = .int i) (hlo : -(2 : Int) ^ 31 ≤ i) (hhi : i < (2 : Int) ^ 31) :
    ReadsBack serializePrimitiveValueInt deserializePrimitiveValueInt mem v := by
  refine ⟨showInt i, by simp [serializePrimitiveValueInt, hcell, Value.asInt], ?_⟩
  intro memory w white rest hwhite
  unfold deserializePrimitiveValueInt
  rw [List.append_assoc, extractInt_white _ _ hwhite,
    extractInt_showInt_cons i '\n' rest hlo hhi (by decide), hcell]
  rfl

/-- The `std::string` codec reads back a cell that holds a string of 1 to 1024 bytes. -/
theorem readsBack_string (mem : Memory) (v : ReflectedVariable) (s : Text)
    (hcell : mem v.instanceData = .string s) (hpos : 0 < s.length) (hmax : s.length ≤ 1024) :
    ReadsBack serializePrimitiveValueString deserializePrimitiveValueString mem v := by
  refine ⟨showNat s.length ++ [' '] ++ s,
    by simp [serializePrimitiveValueString, hcell, Value.asString], ?_⟩
  intro memory w white rest hwhite
  unfold deserializePrimitiveValueString
  have hx : white ++ (showNat s.length ++ [' '] ++ s) ++ '\n' :: rest =
      white ++ (showNat s.length ++ ' ' :: (s ++ '\n' :: rest)) := by simp
  rw [hx, extractSize_white _ _ hwhite,
    extractSize_showNat_cons s.length ' ' _ (by omega) (by decide), hcell]
  have h0 : ¬ s.length = 0 := by omega
  have h1 : ¬ 1024 < s.length := by omega
  simp [bind, Except.bind, pure, Except.pure, h0, h1]

/-- **C14** (amended) For every string `s` the string codec writes the length of `s`, a
space, the bytes of `s` and a newline; and for every `s` of 1 to 1024 bytes, spaces among
them or not, the string decoder applied to that text behind any whitespace reads the
length, skips one byte, reads exactly that many bytes, stores exactly `s` and stops in
front of the newline. -/
theorem string_codec (mem : Memory) (v : ReflectedVariable) (s : Text)
    (hcell : mem v.instanceData = .string s) :
    serializePrimitiveValueString mem v = showNat s.length ++ [' '] ++ s ++ ['\n'] ∧
    (0 < s.length → s.length ≤ 1024 →
      ∀ (memory : Memory) (w : ReflectedVariable) (white rest : Text),
        (∀ c ∈ white, isSpace c = true) →
        deserializePrimitiveValueString memory w
            (white ++ serializePrimitiveValueString mem v ++ rest) =
          .ok ('\n' :: rest, memory.write w.instanceData (.string s))) := by
  have hwrite : serializePrimitiveValueString mem v =
      showNat s.length ++ [' '] ++ s ++ ['\n'] := by
    simp [serializePrimitiveValueString, hcell, Value.asString]
  refine ⟨hwrite, ?_⟩
  intro hpos hmax memory w white rest hwhite
  obtain ⟨body, hbody, hread⟩ := readsBack_string mem v s hcell hpos hmax
  have := hread memory w white rest hwhite
  rw [hcell] at this
  rw [hbody]
  simpa using this

set_option maxRecDepth 100000 in
/-- For `s = "hello world"` the codec writes `11 hello world`, the decoder reads it back
behind the space that follows the member name, the member line of `Msg { std::string s; }`
is `s 11 hello world`, and the decoded member holds `hello world`. -/
theorem string_codec_witness :
    msgMemory (⟨3, 100⟩ : ReflectedVariable).instanceData = .string "hello world".toList ∧
    serializePrimitiveValueString msgMemory ⟨3, 100⟩ = "11 hello world\n".toList ∧
    deserializePrimitiveValueString exampleHeap.memory ⟨3, 1000⟩
        ([' '] ++ serializePrimitiveValueString msgMemory ⟨3, 100⟩ ++ "]\n".toList) =
      .ok ("\n]\n".toList, exampleHeap.memory.write 1000 (.string "hello world".toList)) ∧
    (roundTrip msgMemory 10 ⟨22, 100⟩).map (fun r => (r.1, r.2.heap.memory 1000)) =
      .ok ("1\n0 Msg\n[\n\ts 11 hello world\n]\n".toList, .string "hello world".toList) :=
  ⟨rfl, (string_codec msgMemory ⟨3, 100⟩ "hello world".toList rfl).1.trans (by decide),
    (string_codec msgMemory ⟨3, 100⟩ "hello world".toList rfl).2 (by decide) (by decide)
      exampleHeap.memory ⟨3, 1000⟩ [' '] "]\n".toList (by decide),
    by decide⟩

set_option maxRecDepth 1000000 in
/-- The empty string is written as `0`, a space and a newline, and the decoder stops at
its assertion on that text; a string of 1025 bytes is written in full, and the decoder,
whose buffer has 1024 bytes, reads the 1025 bytes, returns in front of the newline and
leaves an unspecified value, not the string, in the destination. -/
theorem string_codec_limits :
    serializePrimitiveValueString (fun _ => .string []) ⟨3, 100⟩ = "0 \n".toList ∧
    (deserializePrimitiveValueString exampleHeap.memory ⟨3, 1000⟩
        ([' '] ++ serializePrimitiveValueString (fun _ => .string []) ⟨3, 100⟩)).map Prod.fst =
      .error .assertion ∧
    (deserializePrimitiveValueString exampleHeap.memory ⟨3, 1000⟩
        ([' '] ++ serializePrimitiveValueString
          (fun _ => .string (List.replicate 1025 'a')) ⟨3, 100⟩)).map
        (fun r => (r.1, r.2 1000)) =
      .ok (['\n'], .garbage) := by
  refine ⟨by decide, by decide, ?_⟩
  have h : serializePrimitiveValueString (fun _ => .string (List.replicate 1025 'a')) ⟨3, 100⟩
      = showNat 1025 ++ ' ' :: (List.replicate 1025 'a' ++ ['\n']) := by
    simp [serializePrimitiveValueString, Value.asString]
  rw [h]
  unfold deserializePrimitiveValueString
  rw [extractSize_white [' '] _ (by decide),
    extractSize_showNat_cons 1025 ' ' _ (by norm_num) (by decide)]
  simp [bind, Except.bind, pure, Except.pure, Except.map, Memory.write]

/-! ## The tag of a record -/

/-- Outside an array, the text of `ReflectionData::serialize` opens with the table index of
the variable and the name of the type at the end of the parent chain, when that type has
no leaf codec. -/
theorem serialize_header (types : Descriptors) (mem : Memory) (t : PointerTable) :
    ∀ (fuel : Nat) (self : DescriptorPtr) (var : ReflectedVariable) (padding : Nat)
      (text : Text),
      ReflectionData.serialize types mem t fuel self var padding false = .ok text →
      (types (headerType types fuel self)).serializeFunction = none →
      ∃ index rest, t.index types var = .ok index ∧
        text = showNat index ++ [' '] ++ (types (headerType types fuel self)).name ++ ['\n']
          ++ rest := by
  intro fuel
  induction fuel with
  | zero =>
    intro self var padding text h
    simp [ReflectionData.serialize] at h
  | succ fuel ih =>
    intro self var padding text h hcodec
    unfold ReflectionData.serialize at h
    obtain ⟨parentText, hp, h⟩ := (bind_ok _ _ _).mp h
    by_cases hparent : (types self).parent != 0
    · rw [if_pos hparent] at hp
      have hh : headerType types (fuel + 1) self = headerType types fuel (types self).parent := by
        simp only [headerType, hparent, if_true]
      rw [hh] at hcodec ⊢
      obtain ⟨index, rest, hi, hrest⟩ := ih _ var padding parentText hp hcodec
      subst hrest
      dsimp only at h
      split at h
      · simp only [pure, Except.pure, Except.ok.injEq] at h
        exact ⟨index, _, hi, by rw [← h]; simp only [List.append_assoc]; rfl⟩
      · obtain ⟨indexText, _, h⟩ := (bind_ok _ _ _).mp h
        split at h
        · simp only [pure, Except.pure, Except.ok.injEq] at h
          exact ⟨index, _, hi, by rw [← h]; simp only [List.append_assoc]; rfl⟩
        · obtain ⟨body, _, h⟩ := (bind_ok _ _ _).mp h
          simp only [pure, Except.pure, Except.ok.injEq] at h
          exact ⟨index, _, hi, by rw [← h]; simp only [List.append_assoc]; rfl⟩
    · rw [if_neg hparent] at hp
      simp only [pure, Except.pure, Except.ok.injEq] at hp
      subst hp
      have hh : headerType types (fuel + 1) self = self := by
        simp only [headerType, hparent, if_false]
        simp
      rw [hh] at hcodec ⊢
      dsimp only at h
      rw [hcodec] at h
      obtain ⟨indexText, hit, h⟩ := (bind_ok _ _ _).mp h
      simp only [Bool.false_eq_true, if_false] at hit
      obtain ⟨index, hi, hit⟩ := (bind_ok _ _ _).mp hit
      simp only [pure, Except.pure, Except.ok.injEq] at hit
      subst hit
      split at h
      · simp only [pure, Except.pure, Except.ok.injEq] at h
        exact ⟨index, _, hi, by rw [← h]; simp only [List.append_assoc]; rfl⟩
      · obtain ⟨body, _, h⟩ := (bind_ok _ _ _).mp h
        simp only [pure, Except.pure, Except.ok.injEq] at h
        exact ⟨index, _, hi, by rw [← h]; simp only [List.append_assoc]; rfl⟩

/-- **C11** (amended) `PointerTable::serialize` writes for an entry whose flag is set the
text of `ReflectionData::serialize`, prefixed with `(<Name>) `, `<Name>` being the type
name of the entry, exactly when the descriptor of the entry has a parent. The text that
follows opens with `<index> <AncestorName>` and a newline, `<AncestorName>` being the name
of the type at the end of the parent chain of the entry: the parent itself when the parent
has no parent. An entry whose descriptor has no parent gets no prefix and its record opens
with the index. -/
theorem record_tag (types : Descriptors) (mem : Memory) (fuel : Nat) (t : PointerTable)
    (record : TableRecord) (text : Text) (hflag : record.needsSerialization = true)
    (h : t.serializeRecord types mem fuel record = .ok text) :
    ∃ body,
      ReflectionData.serialize types mem t fuel record.var.reflectionData record.var 0 false
        = .ok body ∧
      ((types record.var.reflectionData).hasParent = true →
        text = ['('] ++ (types record.var.reflectionData).name ++ [')', ' '] ++ body ∧
        ((types (types record.var.reflectionData).parent).parent = 0 →
          headerType types fuel record.var.reflectionData =
            (types record.var.reflectionData).parent)) ∧
      ((types record.var.reflectionData).hasParent = false →
        text = body ∧ headerType types fuel record.var.reflectionData =
          record.var.reflectionData) ∧
      ((types (headerType types fuel record.var.reflectionData)).serializeFunction = none →
        ∃ index rest, t.index types record.var = .ok index ∧
          body = showNat index ++ [' ']
            ++ (types (headerType types fuel record.var.reflectionData)).name ++ ['\n']
            ++ rest ∧
          ((types record.var.reflectionData).hasParent = false → text.head? ≠ some '(')) := by
  unfold PointerTable.serializeRecord at h
  rw [if_pos hflag] at h
  obtain ⟨body, hb, ht⟩ := (bind_ok _ _ _).mp h
  simp only [pure, Except.pure, Except.ok.injEq] at ht
  have hfuel : ∃ f, fuel = f + 1 := by
    cases fuel with
    | zero => simp [ReflectionData.serialize] at hb
    | succ f => exact ⟨f, rfl⟩
  obtain ⟨f, rfl⟩ := hfuel
  refine ⟨body, hb, ?_, ?_, ?_⟩
  · intro hp
    rw [hp] at ht
    simp only [if_true] at ht
    refine ⟨by rw [← ht], ?_⟩
    intro hgrand
    have hp' : ((types record.var.reflectionData).parent != 0) = true := hp
    cases f with
    | zero => simp only [headerType, hp', if_true]
    | succ f =>
      simp only [headerType, hp', if_true, hgrand, bne_self_eq_false, Bool.false_eq_true,
        if_false]
  · intro hp
    rw [hp] at ht
    simp only [Bool.false_eq_true, if_false, List.nil_append] at ht
    have hp' : ((types record.var.reflectionData).parent != 0) = false := hp
    exact ⟨ht.symm, by simp [headerType, hp']⟩
  · intro hcodec
    obtain ⟨index, rest, hi, hrest⟩ := serialize_header types mem t _ _ _ _ _ hb hcodec
    refine ⟨index, rest, hi, hrest, ?_⟩
    intro hp
    rw [hp] at ht
    simp only [Bool.false_eq_true, if_false, List.nil_append] at ht
    rw [← ht, hrest]
    obtain ⟨c, cs, hc, hdigit⟩ := showNat_head index
    rw [hc]
    simp only [List.cons_append, List.head?_cons, ne_eq, Option.some.injEq]
    intro hc'
    rw [hc'] at hdigit
    exact absurd hdigit (by decide)

set_option maxRecDepth 100000 in
/-- The entry of the `Derived : Base` object that `Owner { Derived *d; }` points to, at
index 1, is written as `(Derived) 1 Base`, a newline, and the blocks of `Base` and of
`Derived`. -/
theorem record_tag_witness :
    ∃ t, PointerTable.populate exampleTypes derivedMemory 10 ⟨13, 100⟩ true {} = .ok t ∧
      t.serializeRecord exampleTypes derivedMemory 10 ⟨⟨12, 200⟩, true⟩ =
        .ok "(Derived) 1 Base\n[\n\tk 4\n]\n1 Derived\n[\n\tm 9\n]\n".toList ∧
      ∃ body index rest,
        "(Derived) 1 Base\n[\n\tk 4\n]\n1 Derived\n[\n\tm 9\n]\n".toList =
          "(Derived) ".toList ++ body ∧
        t.index exampleTypes ⟨12, 200⟩ = .ok index ∧
        body = showNat index ++ " Base\n".toList ++ rest := by
  obtain ⟨t, ht⟩ := exists_of_isOk
    (PointerTable.populate exampleTypes derivedMemory 10 ⟨13, 100⟩ true {}) (by decide)
  have hrec : t.serializeRecord exampleTypes derivedMemory 10 ⟨⟨12, 200⟩, true⟩ =
      .ok "(Derived) 1 Base\n[\n\tk 4\n]\n1 Derived\n[\n\tm 9\n]\n".toList := by
    have h : (do
        let t ← PointerTable.populate exampleTypes derivedMemory 10 ⟨13, 100⟩ true {}
        t.serializeRecord exampleTypes derivedMemory 10 ⟨⟨12, 200⟩, true⟩) =
        .ok "(Derived) 1 Base\n[\n\tk 4\n]\n1 Derived\n[\n\tm 9\n]\n".toList := by decide
    rw [ht] at h
    exact h
  obtain ⟨body, _, hparent, _, hheader⟩ :=
    record_tag exampleTypes derivedMemory 10 t ⟨⟨12, 200⟩, true⟩ _ rfl hrec
  obtain ⟨htext, hh⟩ := hparent (by decide)
  have hh' := hh (by decide)
  dsimp only at hh'
  obtain ⟨index, rest, hi, hbody, _⟩ := hheader (by rw [hh']; rfl)
  rw [hh'] at hbody
  exact ⟨t, ht, hrec, body, index, rest, htext, hi, by rw [hbody]; simp; rfl⟩

set_option maxRecDepth 100000 in
/-- For `Final : Derived : Base` the record of a `Final` entry at index 0 opens with
`(Final) 0 Base`, the name of the parent of the parent, and not with `(Final) 0 Derived`,
the name of the parent. -/
theorem record_tag_of_grandchild :
    (do
      let t ← PointerTable.populate exampleTypes finalMemory 10 ⟨21, 100⟩ true {}
      t.serializeRecord exampleTypes finalMemory 10 ⟨⟨21, 100⟩, true⟩) =
      .ok ("(Final) 0 Base\n[\n\tk 1\n]\n0 Derived\n[\n\tm 2\n]\n0 Final\n[\n\tn 3\n]\n").toList ∧
    (exampleTypes (exampleTypes 21).parent).name = "Derived".toList ∧
    "(Final) 0 Derived\n".toList.isPrefixOf
      ("(Final) 0 Base\n[\n\tk 1\n]\n0 Derived\n[\n\tm 2\n]\n0 Final\n[\n\tn 3\n]\n").toList
      = false := by
  decide

/-! ## Arrays of leaf elements -/

/-- A cell outside the addresses written keeps its value. -/
theorem writeAll_frame (cells : List (Address × Value)) :
    ∀ (memory : Memory) (a : Address), a ∉ cells.map Prod.fst →
      memory.writeAll cells a = memory a := by
  induction cells with
  | nil => intro memory a _; rfl
  | cons c rest ih =>
    intro memory a ha
    simp only [List.map_cons, List.mem_cons, not_or] at ha
    simp only [Memory.writeAll, List.foldl_cons]
    have := ih (memory.write c.1 c.2) a ha.2
    simp only [Memory.writeAll] at this
    rw [this]
    simp [Memory.write, ha.1]

/-- A cell written once, among writes to pairwise different addresses, holds the value
written. -/
theorem writeAll_get (cells : List (Address × Value)) :
    ∀ (memory : Memory), (cells.map Prod.fst).Nodup →
      ∀ (a : Address) (v : Value), (a, v) ∈ cells → memory.writeAll cells a = v := by
  induction cells with
  | nil => intro memory _ a v h; cases h
  | cons c rest ih =>
    intro memory hnd a v h
    rw [List.map_cons, List.nodup_cons] at hnd
    simp only [Memory.writeAll, List.foldl_cons]
    rcases List.mem_cons.mp h with h | h
    · subst h
      have := writeAll_frame rest (memory.write a v) a hnd.1
      simp only [Memory.writeAll] at this
      rw [this]
      simp [Memory.write]
    · have := ih (memory.write c.1 c.2) hnd.2 a v h
      simpa only [Memory.writeAll] using this

/-- The member lines written for members that are plain leaves. -/
theorem writeEach_leaf_members (types : Descriptors) (mem : Memory) (t : PointerTable)
    (fuel : Nat) (var : ReflectedVariable) (padding : Nat) (ms : List ReflectedMember)
    (hleaf : ∀ m ∈ ms, LeafMember types m) :
    writeEach (ReflectionData.serializeMember types mem t
      (ReflectionData.serialize types mem t (fuel + 1)) var padding) ms =
      .ok (memberLines types mem var.instanceData padding ms) := by
  unfold memberLines
  apply writeEach_map
  intro m hm
  obtain ⟨h1, h2, h3, h4, _⟩ := hleaf m hm
  obtain ⟨f, hf⟩ := Option.isSome_iff_exists.mp h3
  have := serialize_leaf types mem t fuel m.data (memberVariable var.instanceData m) padding
    false h4 f hf
  have hlt : leafText types mem (memberVariable var.instanceData m)
      = f mem (memberVariable var.instanceData m) := by
    simp [leafText, memberVariable, hf]
  simp [ReflectionData.serializeMember, h1, h2, this, hlt, bind, Except.bind, pure,
    Except.pure]

/-- The text of `ReflectionData::serialize` for a non-null object of a type without leaf
codec: the text of the parent, if any, and then the block of the type. -/
theorem serialize_block (types : Descriptors) (mem : Memory) (t : PointerTable) (fuel : Nat)
    (self : DescriptorPtr) (v : ReflectedVariable) (padding index : Nat) (parentText : Text)
    (hparent : (if (types self).parent != 0 then
        ReflectionData.serialize types mem t (fuel + 1) (types self).parent v padding false
      else pure []) = .ok parentText)
    (hcodec : (types self).serializeFunction = none) (hv : v.instanceData ≠ 0)
    (hindex : t.index types v = .ok index)
    (hleaf : ∀ m ∈ (types self).members, LeafMember types m) :
    ReflectionData.serialize types mem t (fuel + 2) self v padding false =
      .ok (parentText ++ blockText types mem self v.instanceData index padding) := by
  have hbody := writeEach_leaf_members types mem t fuel v (padding + 1) (types self).members
    hleaf
  unfold ReflectionData.serialize
  rw [hparent]
  simp only [hcodec, hindex, hv, hbody, bind, Except.bind, pure, Except.pure,
    Bool.false_eq_true, if_false, blockText]
  simp

/-- The member loop of `ReflectionData::deserialize` on the lines of leaf members: every
line is read back into the member of the destination, and the loop goes on in front of the
newline that ends the last line. -/
theorem decode_leaf_members (types : Descriptors) (fuel : Nat) (mem : Memory)
    (self : DescriptorPtr) (src : Address) (dest : ReflectedVariable) (p : Nat) :
    ∀ (ms : List ReflectedMember) (st : Loader) (rest : Text),
      (∀ m ∈ ms, ReadableMember types mem self src m) →
      st.stream = '\n' :: (memberLines types mem src p ms ++ rest) →
      ReflectionData.deserializeMembers types (fuel + ms.length + 1) self dest st =
        ReflectionData.deserializeMembers types (fuel + 1) self dest
          { st with
            stream := '\n' :: rest
            heap := { st.heap with
              memory := st.heap.memory.writeAll (memberCells mem src dest.instanceData ms) } }
    := by
  intro ms
  induction ms with
  | nil =>
    intro st rest _ hstream
    simp only [memberLines, List.map_nil, List.flatten_nil, List.nil_append] at hstream
    simp only [List.length_nil, Nat.add_zero, memberCells, List.map_nil, Memory.writeAll,
      List.foldl_nil, ← hstream]
  | cons m ms ih =>
    intro st rest hread hstream
    obtain ⟨hmember, ⟨hpointer, harray, _, hparent, _⟩, hname, hnull, hclose, f, g, hf, hg,
      body, hbody, hback⟩ := hread m (List.mem_cons_self m ms)
    have hlt : leafText types mem (memberVariable src m) = body ++ ['\n'] := by
      rw [← hbody]
      simp [leafText, memberVariable, hf]
    have hwhite : ∀ c ∈ '\n' :: padStream p, isSpace c = true := by
      intro c hc
      rcases List.mem_cons.mp hc with hc | hc
      · subst hc; decide
      · rw [List.eq_of_mem_replicate hc]; decide
    have hs : st.stream = ('\n' :: padStream p) ++ (m.name ++ ' ' :: (body ++
        '\n' :: (memberLines types mem src p ms ++ rest))) := by
      rw [hstream]
      simp only [memberLines, List.map_cons, List.flatten_cons, hlt]
      simp
    have htok : extractToken st.stream = .ok (m.name, ' ' :: (body ++
        '\n' :: (memberLines types mem src p ms ++ rest))) := by
      rw [hs, extractToken_white _ _ hwhite]
      exact extractToken_append m.name ' ' _ hname.1 hname.2 (by decide)
    have hrun := hback st.heap.memory (memberVariable dest.instanceData m) [' ']
      (memberLines types mem src p ms ++ rest) (by decide)
    have hstep := deserializeMembers_leaf types (fuel + ms.length) self dest st m _ _ g _
      htok hmember hpointer harray hparent hg (by simpa using hrun) hnull hclose
    have hlen : fuel + (m :: ms).length + 1 = fuel + ms.length + 2 := by
      simp only [List.length_cons]
      omega
    rw [hlen, hstep, ih _ rest (fun x hx => hread x (List.mem_cons_of_mem m hx)) rfl]
    rfl

/-- No member is named `]` when every member is readable. -/
theorem member_close_none (types : Descriptors) (mem : Memory) (self : DescriptorPtr)
    (src : Address) (h : ∀ m ∈ (types self).members, ReadableMember types mem self src m) :
    (types self).member [']'] = none := by
  simp only [ReflectionData.member, List.find?_eq_none]
  intro m hm
  obtain ⟨_, _, _, _, hclose, _⟩ := h m hm
  simpa using hclose

/-- The frame of `ReflectionData::deserialize` for a type without leaf codec whose members
are leaves, on the block written for the object at `src`, after the frame of the parent,
if any, has run: the members of the destination receive the values, the frame stops in
front of the newline that ends the block, and it publishes the variable at the index read
exactly when the type has no parent. -/
theorem deserialize_block (types : Descriptors) (fuel : Nat) (mem : Memory)
    (self : DescriptorPtr) (src : Address) (var : ReflectedVariable) (st st1 : Loader)
    (index padding : Nat) (white rest : Text)
    (hparent : (if (types self).parent != 0 then
        ReflectionData.deserialize types (fuel + (types self).members.length + 1)
          (types self).parent var st false
      else pure (var, st)) = .ok (var, st1))
    (hcodec : (types self).deserializeFunction = none)
    (hname : TokenName (types self).name)
    (hmembers : ∀ m ∈ (types self).members, ReadableMember types mem self src m)
    (hwhite : ∀ c ∈ white, isSpace c = true) (hindex : index < 2 ^ 64)
    (hlen : index < st1.table.dataTable.length)
    (hstream : st1.stream = white ++ blockText types mem self src index padding ++ rest) :
    ReflectionData.deserialize types (fuel + (types self).members.length + 2) self var st false
      = .ok (var,
        { stream := '\n' :: rest
          heap := { st1.heap with
            memory := st1.heap.memory.writeAll
              (memberCells mem src var.instanceData (types self).members) }
          table := if (types self).parent != 0 then st1.table
            else st1.table.withEntry index var }) := by
  have hI : extractSize st1.stream = .ok (index, ' ' :: ((types self).name ++ '\n' ::
      (padStream padding ++ '[' :: '\n' ::
        (memberLines types mem src (padding + 1) (types self).members
          ++ (padStream padding ++ ']' :: '\n' :: rest))))) := by
    rw [hstream]
    simp only [blockText, List.append_assoc, List.singleton_append, List.cons_append,
      List.nil_append]
    rw [extractSize_white _ _ hwhite]
    exact extractSize_showNat_cons index ' ' _ hindex (by decide)
  have hN : extractToken (' ' :: ((types self).name ++ '\n' ::
      (padStream padding ++ '[' :: '\n' ::
        (memberLines types mem src (padding + 1) (types self).members
          ++ (padStream padding ++ ']' :: '\n' :: rest))))) =
      .ok ((types self).name, '\n' :: (padStream padding ++ '[' :: '\n' ::
        (memberLines types mem src (padding + 1) (types self).members
          ++ (padStream padding ++ ']' :: '\n' :: rest)))) := by
    rw [extractToken_space _ _ (by decide)]
    exact extractToken_append _ '\n' _ hname.1 hname.2 (by decide)
  have hO : extractToken ('\n' :: (padStream padding ++ '[' :: '\n' ::
        (memberLines types mem src (padding + 1) (types self).members
          ++ (padStream padding ++ ']' :: '\n' :: rest)))) =
      .ok (['['], '\n' :: (memberLines types mem src (padding + 1) (types self).members
          ++ (padStream padding ++ ']' :: '\n' :: rest))) := by
    rw [extractToken_space _ _ (by decide), extractToken_padStream]
    exact extractToken_append ['['] '\n' _ (by decide) (by decide) (by decide)
  have hM := decode_leaf_members types fuel mem self src var (padding + 1)
    (types self).members
    { st1 with stream := '\n' :: (memberLines types mem src (padding + 1) (types self).members
          ++ (padStream padding ++ ']' :: '\n' :: rest)) }
    (padStream padding ++ ']' :: '\n' :: rest) hmembers rfl
  have hC := deserializeMembers_close types fuel self var
    { stream := '\n' :: (padStream padding ++ ']' :: '\n' :: rest)
      heap := { st1.heap with
        memory := st1.heap.memory.writeAll
          (memberCells mem src var.instanceData (types self).members) }
      table := st1.table }
    ('\n' :: rest)
    (by
      show extractToken ('\n' :: (padStream padding ++ ']' :: '\n' :: rest)) = _
      rw [extractToken_space _ _ (by decide), extractToken_padStream]
      exact extractToken_append [']'] '\n' _ (by decide) (by decide) (by decide))
    (member_close_none types mem self src hmembers)
  have hM' : ReflectionData.deserializeMembers types (fuel + (types self).members.length + 1)
      self var { st1 with stream := '\n' ::
        (memberLines types mem src (padding + 1) (types self).members
          ++ (padStream padding ++ ']' :: '\n' :: rest)) } =
      .ok (var, { stream := '\n' :: rest
                  heap := { st1.heap with
                    memory := st1.heap.memory.writeAll
                      (memberCells mem src var.instanceData (types self).members) }
                  table := st1.table }) := by
    rw [hM]
    exact hC
  rw [deserialize_succ, hparent]
  by_cases hp : (types self).parent != 0
  · simp [hp, hcodec, hI, hN, hO, hM', bind, Except.bind, pure, Except.pure]
  · simp only [hp, hcodec, hI, hN, hO, hM', bind, Except.bind, pure, Except.pure,
      publish_ok _ _ _ hlen, ne_eq, not_true_eq_false, if_false, Bool.false_eq_true]

/-- Successive writes are the writes of the concatenated list. -/
theorem writeAll_append (memory : Memory) (a b : List (Address × Value)) :
    (memory.writeAll a).writeAll b = memory.writeAll (a ++ b) := by
  simp [Memory.writeAll, List.foldl_append]

/-- The tag `(<Name>)` is read as one token, and stripping its first and last character
gives the name back. -/
theorem extractToken_tag (name rest : Text) (hname : TokenName name) :
    extractToken ('(' :: (name ++ ')' :: ' ' :: rest)) =
      .ok ('(' :: (name ++ [')']), ' ' :: rest) ∧
    (('(' :: (name ++ [')'])).drop 1).take (('(' :: (name ++ [')'])).length - 2) = name := by
  constructor
  · have := extractToken_append ('(' :: (name ++ [')'])) ' ' rest (by simp)
      (by
        intro x hx
        rcases List.mem_cons.mp hx with hx | hx
        · subst hx; decide
        · rcases List.mem_append.mp hx with hx | hx
          · exact hname.2 x hx
          · rw [List.mem_singleton.mp hx]; decide)
      (by decide)
    simpa using this
  · simp

/-- For an object of a type `D` whose parent `B` has no parent, both without leaf
codec and with readable leaf members, the record that `PointerTable::serialize` writes is
the tag `(D)`, the block of `B` and the block of `D`; and `PointerTable::deserialize`, on
that record, allocates one instance with the size of `D`, the type named in the tag,
stores in it the values of the members declared by `B` and of the members declared by `D`,
changes no other cell, and puts the instance, with the descriptor `D`, into the table
entry of the index of the record. -/
theorem tagged_record_round_trip (types : Descriptors) (mem : Memory)
    (hashString : Text → Nat) (manager : ReflectionDataManager) (t : PointerTable)
    (D : DescriptorPtr) (src : Address) (index : Nat)
    (hD : (types D).parent ≠ 0) (hB : (types (types D).parent).parent = 0)
    (hsD : (types D).serializeFunction = none) (hdD : (types D).deserializeFunction = none)
    (hsB : (types (types D).parent).serializeFunction = none)
    (hdB : (types (types D).parent).deserializeFunction = none)
    (hnameD : TokenName (types D).name) (hnameB : TokenName (types (types D).parent).name)
    (hsrc : src ≠ 0) (hindex : t.index types ⟨D, src⟩ = .ok index) (hbound : index < 2 ^ 64)
    (hlookup : manager.reflectionData hashString (types D).name = some D)
    (hmB : ∀ m ∈ (types (types D).parent).members,
      ReadableMember types mem (types D).parent src m)
    (hmD : ∀ m ∈ (types D).members, ReadableMember types mem D src m)
    (hoffsets : (((types (types D).parent).members ++ (types D).members).map
      (fun m => m.offset)).Nodup)
    (fuel : Nat)
    (hfuel : (types (types D).parent).members.length + (types D).members.length + 4 ≤ fuel) :
    t.serializeRecord types mem fuel ⟨⟨D, src⟩, true⟩ =
      .ok (['('] ++ (types D).name ++ [')', ' ']
        ++ blockText types mem (types D).parent src index 0
        ++ blockText types mem D src index 0) ∧
    ∀ (tableSize : Nat) (st : Loader) (rest : Text),
      index < tableSize → index < st.table.dataTable.length →
      st.stream = ['('] ++ (types D).name ++ [')', ' ']
        ++ blockText types mem (types D).parent src index 0
        ++ blockText types mem D src index 0 ++ rest →
      ∃ memory : Memory,
        PointerTable.deserializeRecord types hashString manager tableSize fuel st =
          .ok { stream := rest
                heap := { memory := memory
                          brk := st.heap.brk + (types D).size
                          allocated := st.heap.allocated ++ [(st.heap.brk, (types D).size)] }
                table := st.table.withEntry index ⟨D, st.heap.brk⟩ } ∧
        (∀ m ∈ (types (types D).parent).members ++ (types D).members,
          memory (pointerOffset st.heap.brk m.offset) = mem (pointerOffset src m.offset)) ∧
        ∀ a, (∀ m ∈ (types (types D).parent).members ++ (types D).members,
            a ≠ pointerOffset st.heap.brk m.offset) → memory a = st.heap.memory a := by
  have hDp : ((types D).parent != 0) = true := by simpa using hD
  have hBp : ((types (types D).parent).parent != 0) = false := by simp [hB]
  have hleafB : ∀ m ∈ (types (types D).parent).members, LeafMember types m :=
    fun m hm => (hmB m hm).2.1
  have hleafD : ∀ m ∈ (types D).members, LeafMember types m := fun m hm => (hmD m hm).2.1
  constructor
  · obtain ⟨f, rfl⟩ : ∃ f, fuel = f + 3 := ⟨fuel - 3, by omega⟩
    have hb := serialize_block types mem t f (types D).parent ⟨D, src⟩ 0 index []
      (by rw [hBp]; rfl) hsB hsrc hindex hleafB
    have hd := serialize_block types mem t (f + 1) D ⟨D, src⟩ 0 index _
      (by rw [hDp]; exact hb) hsD hsrc hindex hleafD
    unfold PointerTable.serializeRecord
    have hhp : (types D).hasParent = true := hDp
    simp only [hhp, if_true, hd, bind, Except.bind, pure, Except.pure]
    simp
  · intro tableSize st rest hsize hlen hstream
    obtain ⟨fD, hfD⟩ : ∃ f, fuel = f + (types D).members.length + 2 :=
      ⟨fuel - (types D).members.length - 2, by omega⟩
    obtain ⟨fB, hfB⟩ : ∃ f, fD + (types D).members.length + 1 =
        f + (types (types D).parent).members.length + 2 :=
      ⟨fD + (types D).members.length + 1 - (types (types D).parent).members.length - 2,
        by omega⟩
    obtain ⟨htoken, htag⟩ := extractToken_tag (types D).name
      (blockText types mem (types D).parent src index 0
        ++ blockText types mem D src index 0 ++ rest) hnameD
    have hs : st.stream = '(' :: ((types D).name ++ ')' :: ' ' ::
        (blockText types mem (types D).parent src index 0
          ++ blockText types mem D src index 0 ++ rest)) := by
      rw [hstream]; simp
    have hhead : st.stream.head? = some '(' := by rw [hs]; rfl
    have hI : extractSize (' ' :: (blockText types mem (types D).parent src index 0
        ++ blockText types mem D src index 0 ++ rest)) = .ok (index,
          ' ' :: ((types (types D).parent).name ++ '\n' :: (padStream 0 ++ '[' :: '\n' ::
            (memberLines types mem src (0 + 1) (types (types D).parent).members
              ++ (padStream 0 ++ ']' :: '\n' ::
                (blockText types mem D src index 0 ++ rest)))))) := by
      rw [extractSize_space _ _ (by decide)]
      simp only [blockText, List.append_assoc, List.singleton_append, List.cons_append,
        List.nil_append]
      exact extractSize_showNat_cons index ' ' _ hbound (by decide)
    -- the frame of the parent
    have hframeB := deserialize_block types fB mem (types D).parent src ⟨D, st.heap.brk⟩
      { st with
        stream := ' ' :: (blockText types mem (types D).parent src index 0
          ++ blockText types mem D src index 0 ++ rest)
        heap := (st.heap.allocateInstance (types D).size).2 }
      { st with
        stream := ' ' :: (blockText types mem (types D).parent src index 0
          ++ blockText types mem D src index 0 ++ rest)
        heap := (st.heap.allocateInstance (types D).size).2 }
      index 0 [' '] (blockText types mem D src index 0 ++ rest)
      (by rw [hBp]; rfl) hdB hnameB hmB (by decide) hbound hlen (by simp)
    rw [← hfB] at hframeB
    simp only [hBp, Bool.false_eq_true, if_false] at hframeB
    -- the frame of the type itself
    have hframeD := deserialize_block types fD mem D src ⟨D, st.heap.brk⟩
      { st with
        stream := ' ' :: (blockText types mem (types D).parent src index 0
          ++ blockText types mem D src index 0 ++ rest)
        heap := (st.heap.allocateInstance (types D).size).2 }
      _ index 0 ['\n'] rest
      (by rw [if_pos hDp]; exact hframeB) hdD hnameD hmD (by decide) hbound
      (by rw [withEntry_length]; exact hlen) (by simp)
    rw [← hfD] at hframeD
    simp only [hDp, if_true] at hframeD
    refine ⟨((st.heap.memory.writeAll
      (memberCells mem src st.heap.brk (types (types D).parent).members)).writeAll
        (memberCells mem src st.heap.brk (types D).members)), ?_, ?_, ?_⟩
    · unfold PointerTable.deserializeRecord
      simp only [List.head?_cons, if_true, hs, htoken, htag, hI, hsize, hlookup, bind,
        Except.bind, pure, Except.pure, not_true_eq_false, if_false]
      rw [show (st.heap.allocateInstance (types D).size).1 = st.heap.brk from rfl, hframeD]
      rfl
    · intro m hm
      rw [writeAll_append]
      apply writeAll_get
      · simp only [memberCells, ← List.map_append, List.map_map]
        have : (Prod.fst ∘ fun m : ReflectedMember =>
            (pointerOffset st.heap.brk m.offset, mem (pointerOffset src m.offset))) =
            (fun o => pointerOffset st.heap.brk o) ∘ (fun m => m.offset) := rfl
        rw [this, ← List.map_map]
        apply List.Nodup.map _ hoffsets
        intro x y hxy
        exact Nat.add_left_cancel hxy
      · simp only [memberCells, ← List.map_append]
        exact List.mem_map.mpr ⟨m, hm, rfl⟩
    · intro a ha
      rw [writeAll_append]
      apply writeAll_frame
      simp only [memberCells, ← List.map_append, List.map_map]
      intro hmem
      obtain ⟨m, hm, hma⟩ := List.mem_map.mp hmem
      exact ha m hm hma.symm

set_option maxRecDepth 100000 in
/-- For `Owner { Derived *d; }` with `d` pointing to a `Derived : Base` with `k = 4` and
`m = 9`, the entry of the object at index 1 is written as `(Derived) 1 Base` with the block
of `k` and `1 Derived` with the block of `m`; loading that record into a fresh store
allocates 8 bytes, the size of `Derived`, at 1000, stores 4 and 9 at the offsets of `k`
and `m`, and sets the table entry 1 to the `Derived` at 1000. -/
theorem tagged_record_round_trip_witness :
    ∃ t, PointerTable.populate exampleTypes derivedMemory 10 ⟨13, 100⟩ true {} = .ok t ∧
      t.index exampleTypes ⟨12, 200⟩ = .ok 1 ∧
      t.serializeRecord exampleTypes derivedMemory 10 ⟨⟨12, 200⟩, true⟩ =
        .ok "(Derived) 1 Base\n[\n\tk 4\n]\n1 Derived\n[\n\tm 9\n]\n".toList ∧
      ∃ memory : Memory,
        PointerTable.deserializeRecord exampleTypes exampleHash exampleManager 2 10
            { stream := "(Derived) 1 Base\n[\n\tk 4\n]\n1 Derived\n[\n\tm 9\n]\n".toList
              heap := exampleHeap, table := { dataTable := List.replicate 2 {} } } =
          .ok { stream := []
                heap := { memory := memory, brk := 1000 + (exampleTypes 12).size
                          allocated := [(1000, (exampleTypes 12).size)] }
                table := PointerTable.withEntry { dataTable := List.replicate 2 {} } 1
                  ⟨12, 1000⟩ } ∧
        memory 1000 = .int 4 ∧ memory 1004 = .int 9 := by
  obtain ⟨t, ht⟩ := exists_of_isOk
    (PointerTable.populate exampleTypes derivedMemory 10 ⟨13, 100⟩ true {}) (by decide)
  have hindex : t.index exampleTypes ⟨12, 200⟩ = .ok 1 := by
    have h : (do
        let t ← PointerTable.populate exampleTypes derivedMemory 10 ⟨13, 100⟩ true {}
        t.index exampleTypes ⟨12, 200⟩) = .ok 1 := by decide
    rw [ht] at h
    exact h
  have hk : ReadableMember exampleTypes derivedMemory 11 200 ⟨['k'], 0, 4, false, 1⟩ :=
    ⟨by decide, by unfold LeafMember; decide, by unfold TokenName; decide, by decide,
      by decide, serializePrimitiveValueInt, deserializePrimitiveValueInt, rfl, rfl,
      readsBack_int derivedMemory _ 4 rfl (by norm_num) (by norm_num)⟩
  have hm : ReadableMember exampleTypes derivedMemory 12 200 ⟨['m'], 4, 4, false, 1⟩ :=
    ⟨by decide, by unfold LeafMember; decide, by unfold TokenName; decide, by decide,
      by decide, serializePrimitiveValueInt, deserializePrimitiveValueInt, rfl, rfl,
      readsBack_int derivedMemory _ 9 rfl (by norm_num) (by norm_num)⟩
  obtain ⟨hwrite, hload⟩ := tagged_record_round_trip exampleTypes derivedMemory exampleHash
    exampleManager t 12 200 1 (by decide) (by decide) rfl rfl rfl rfl
    (by unfold TokenName; decide) (by unfold TokenName; decide) (by decide) hindex
    (by norm_num) (by decide)
    (by
      intro m hmem
      have : (exampleTypes (exampleTypes 12).parent).members = [⟨['k'], 0, 4, false, 1⟩] := rfl
      rw [this, List.mem_singleton] at hmem
      subst hmem
      exact hk)
    (by
      intro m hmem
      have : (exampleTypes 12).members = [⟨['m'], 4, 4, false, 1⟩] := rfl
      rw [this, List.mem_singleton] at hmem
      subst hmem
      exact hm)
    (by decide) 10 (by decide)
  have htext : ['('] ++ (exampleTypes 12).name ++ [')', ' ']
      ++ blockText exampleTypes derivedMemory (exampleTypes 12).parent 200 1 0
      ++ blockText exampleTypes derivedMemory 12 200 1 0 =
      "(Derived) 1 Base\n[\n\tk 4\n]\n1 Derived\n[\n\tm 9\n]\n".toList := by decide
  rw [htext] at hwrite
  obtain ⟨memory, hrec, hvalues, _⟩ := hload 2
    { stream := "(Derived) 1 Base\n[\n\tk 4\n]\n1 Derived\n[\n\tm 9\n]\n".toList
      heap := exampleHeap, table := { dataTable := List.replicate 2 {} } } []
    (by decide) (by decide) (by rw [htext]; rfl)
  exact ⟨t, ht, hindex, hwrite, memory, hrec,
    hvalues ⟨['k'], 0, 4, false, 1⟩ (by decide), hvalues ⟨['m'], 4, 4, false, 1⟩ (by decide)⟩

/-! ## Records of unregistered types -/

/-- When the registry returns nothing for the type name of a record (the tag, or else the
type name of the header), the loop body of `PointerTable::deserialize` stops at an
assertion: the one on the descriptor comes before the allocation. -/
theorem unknown_type_rejected (types : Descriptors) (hashString : Text → Nat)
    (manager : ReflectionDataManager) (tableSize fuel : Nat) (st : Loader) (name : Text)
    (hname : recordTypeName st.stream = .ok name)
    (hnone : manager.reflectionData hashString name = none) :
    PointerTable.deserializeRecord types hashString manager tableSize fuel st =
      .error .assertion := by
  unfold recordTypeName at hname
  obtain ⟨⟨inherited, tag, s1⟩, h1, hname⟩ := (bind_ok _ _ _).mp hname
  obtain ⟨⟨index, s2⟩, h2, hname⟩ := (bind_ok _ _ _).mp hname
  obtain ⟨⟨streamInput, s3⟩, h3, hname⟩ := (bind_ok _ _ _).mp hname
  simp only [pure, Except.pure, Except.ok.injEq] at hname
  subst hname
  unfold PointerTable.deserializeRecord
  rw [h1]
  simp only [bind, Except.bind, h2]
  split
  · rfl
  · rw [h3]
    simp only [hnone]

/-- **C19** Whatever the hash function, there are two different names such that, with one
type registered under the first name only, `PointerTable::deserialize` loads a record
tagged with the second name, which is not registered, without a fault: the lookup of the
tag returns the descriptor registered under the first name, whose 32-bit key is the same,
the allocator of that descriptor runs, and the table entry receives the instance. -/
theorem unregistered_tag_accepted (hashString : Text → Nat) :
    ∃ name other : Text, name ≠ other ∧
      ∃ m, ReflectionDataManager.registerAll (soleType name) hashString {} [1] = .ok m ∧
        recordTypeName (['('] ++ other ++ [')', ' ', '0', ' '] ++ name
          ++ ['\n', '[', '\n', ']', '\n']) = .ok other ∧
        ∃ st, PointerTable.deserialize (soleType name) hashString m 4
            (['1', '\n', '('] ++ other ++ [')', ' ', '0', ' '] ++ name
              ++ ['\n', '[', '\n', ']', '\n']) exampleHeap = .ok st ∧
          st.heap.allocated = [(1000, 4)] ∧
          st.table.dataTable.map (fun r => r.var) = [⟨1, 1000⟩] := by
  obtain ⟨x, y, hne, hkey⟩ := exists_collision hashString
  have hnames : List.replicate (x + 1) 'a' ≠ List.replicate (y + 1) 'a' := by
    intro h
    have := congrArg List.length h
    simp only [List.length_replicate] at this
    omega
  have htoken : ∀ k, TokenName (List.replicate (k + 1) 'a') := by
    intro k
    refine ⟨by simp [List.replicate_succ], ?_⟩
    intro c hc
    rw [List.eq_of_mem_replicate hc]
    decide
  generalize hn : List.replicate (x + 1) 'a' = name at hkey hnames
  generalize ho : List.replicate (y + 1) 'a' = other at hkey hnames
  have hname : TokenName name := hn ▸ htoken x
  have hother : TokenName other := ho ▸ htoken y
  have hlookup : ReflectionDataManager.reflectionData hashString
      { reflectedData := [(nameKey hashString name, 1)] } other = some 1 := by
    unfold ReflectionDataManager.reflectionData
    unfold nameKey at hkey
    rw [← hkey]
    simp [ReflectionDataManager.find, nameKey]
  obtain ⟨htok, htag⟩ := extractToken_tag other
    ('0' :: ' ' :: (name ++ ['\n', '[', '\n', ']', '\n'])) hother
  have h0 : showNat 0 = ['0'] := by decide
  have hI : extractSize (' ' :: '0' :: ' ' :: (name ++ ['\n', '[', '\n', ']', '\n'])) =
      .ok (0, ' ' :: (name ++ ['\n', '[', '\n', ']', '\n'])) := by
    rw [extractSize_space _ _ (by decide)]
    have := extractSize_showNat_cons 0 ' ' (name ++ ['\n', '[', '\n', ']', '\n'])
      (by norm_num) (by decide)
    rwa [h0] at this
  have hrecord : ['('] ++ other ++ [')', ' ', '0', ' '] ++ name ++ ['\n', '[', '\n', ']', '\n']
      = '(' :: (other ++ ')' :: ' ' :: '0' :: ' ' :: (name ++ ['\n', '[', '\n', ']', '\n'])) := by
    simp
  refine ⟨name, other, hnames, { reflectedData := [(nameKey hashString name, 1)] }, ?_, ?_, ?_⟩
  · simp [ReflectionDataManager.registerAll, List.foldlM, addReflectedData_eq,
      ReflectionDataManager.find, nameKey, soleType, bind, Except.bind, pure, Except.pure]
  · rw [hrecord]
    unfold recordTypeName
    simp only [List.head?_cons, if_true, htok, htag, hI, bind, Except.bind, pure, Except.pure]
  · have hblock : blockText (soleType name) (fun _ => .garbage) 1 0 0 0 =
        '0' :: ' ' :: (name ++ ['\n', '[', '\n', ']', '\n']) := by
      simp [blockText, memberLines, soleType, padStream, h0]
    have hframe := deserialize_block (soleType name) 1 (fun _ => .garbage) 1 0 ⟨1, 1000⟩
      { stream := ' ' :: '0' :: ' ' :: (name ++ ['\n', '[', '\n', ']', '\n'])
        heap := (exampleHeap.allocateInstance 4).2
        table := { dataTable := List.replicate 1 {} } }
      { stream := ' ' :: '0' :: ' ' :: (name ++ ['\n', '[', '\n', ']', '\n'])
        heap := (exampleHeap.allocateInstance 4).2
        table := { dataTable := List.replicate 1 {} } }
      0 0 [' '] [] rfl rfl hname (by intro m hm; cases hm) (by decide) (by norm_num)
      (by simp) (by rw [hblock]; simp)
    have hload : PointerTable.deserializeRecord (soleType name) hashString
        { reflectedData := [(nameKey hashString name, 1)] } 1 3
        { stream := '(' :: (other ++ ')' :: ' ' :: '0' :: ' ' ::
            (name ++ ['\n', '[', '\n', ']', '\n']))
          heap := exampleHeap, table := { dataTable := List.replicate 1 {} } } =
        .ok { stream := []
              heap := { memory := exampleHeap.memory.writeAll [], brk := 1004
                        allocated := [(1000, 4)] }
              table := PointerTable.withEntry { dataTable := List.replicate 1 {} } 0
                ⟨1, 1000⟩ } := by
      unfold PointerTable.deserializeRecord
      simp only [List.head?_cons, if_true, htok, htag, hI, hlookup, bind, Except.bind, pure,
        Except.pure, Nat.lt_one_iff, not_true_eq_false, if_false]
      have hsize : (soleType name 1).size = 4 := rfl
      rw [hsize, show (exampleHeap.allocateInstance 4).1 = 1000 from rfl]
      have hframe' : ReflectionData.deserialize (soleType name) 3 1 ⟨1, 1000⟩
          { stream := ' ' :: '0' :: ' ' :: (name ++ ['\n', '[', '\n', ']', '\n'])
            heap := (exampleHeap.allocateInstance 4).2
            table := { dataTable := List.replicate 1 {} } } false = _ := hframe
      rw [hframe']
      rfl
    refine ⟨{ stream := []
              heap := { memory := exampleHeap.memory.writeAll [], brk := 1004
                        allocated := [(1000, 4)] }
              table := PointerTable.withEntry { dataTable := List.replicate 1 {} } 0
                ⟨1, 1000⟩ }, ?_, rfl, rfl⟩
    have h1 : showNat 1 = ['1'] := by decide
    have hS : extractSize (['1', '\n', '('] ++ other ++ [')', ' ', '0', ' '] ++ name
        ++ ['\n', '[', '\n', ']', '\n']) = .ok (1, '\n' :: '(' :: (other ++ ')' :: ' ' :: '0' ::
          ' ' :: (name ++ ['\n', '[', '\n', ']', '\n']))) := by
      have := extractSize_showNat_cons 1 '\n' ('(' :: (other ++ ')' :: ' ' :: '0' ::
          ' ' :: (name ++ ['\n', '[', '\n', ']', '\n']))) (by norm_num) (by decide)
      rw [h1] at this
      simpa using this
    unfold PointerTable.deserialize
    rw [hS]
    simp only [bind, Except.bind, one_ne_zero, if_false, ignoreLine, if_true]
    rw [deserializeRecords_succ]
    have hpeek : peekPositive ('(' :: (other ++ ')' :: ' ' :: '0' :: ' ' ::
        (name ++ ['\n', '[', '\n', ']', '\n']))) = true := by
      simp [peekPositive]
    simp only [hpeek, if_true, hload, bind, Except.bind]
    rw [deserializeRecords_succ]
    simp [peekPositive, PointerTable.withEntry, PointerTable.patchPointers, pure, Except.pure]

/-! ## Keys of the table -/

/-- Every table built by calls of `populate` from an empty table is consistent. -/
theorem reachable_consistent (types : Descriptors) (mem : Memory) (t : PointerTable)
    (h : PopulateReachable types mem t) : t.Consistent types := by
  induction h with
  | empty => exact consistent_empty types
  | call t t' fuel v n _ hp ih => exact (populate_spec types mem fuel v n t t' ih hp).1

/-- Among elements with pairwise different images, at most one has a given image. -/
theorem countP_le_one_of_nodup {α β : Type} [DecidableEq β] (f : α → β) (b : β) :
    ∀ l : List α, (l.map f).Nodup → l.countP (fun o => decide (f o = b)) ≤ 1 := by
  intro l
  induction l with
  | nil => intro _; exact Nat.zero_le 1
  | cons a rest ih =>
    intro hnd
    rw [List.map_cons, List.nodup_cons] at hnd
    rw [List.countP_cons]
    by_cases hab : f a = b
    · have hzero : rest.countP (fun o => decide (f o = b)) = 0 := by
        rw [List.countP_eq_zero]
        intro x hx hxb
        apply hnd.1
        have hxb' : f x = b := by simpa using hxb
        rw [hab, ← hxb']
        exact List.mem_map_of_mem f hx
      simp [hzero, hab]
    · have := ih hnd.2
      simpa [hab] using this

/-- **C30** In every table that calls of `populate` build from an empty table, the address
lookup map lists every key, made of an address and a type name, at most once: the type
names listed under one address are pairwise different, and two records of the table with
the same key are the same record. -/
theorem lookup_keys_unique (types : Descriptors) (mem : Memory) (t : PointerTable)
    (h : PopulateReachable types mem t) :
    (∀ (a : Address) (name : Text), t.keyCount types a name ≤ 1) ∧
    (∀ (a : Address) (objects : List Instance), t.lookupTable a = some objects →
      (objects.map (fun o => (types o.reflectionData).name)).Nodup) ∧
    (∀ (i j : Nat) (r s : TableRecord), t.dataTable[i]? = some r → t.dataTable[j]? = some s →
      tableKey types r.var = tableKey types s.var → i = j) := by
  have hc := reachable_consistent types mem t h
  refine ⟨?_, hc.names, fun i j r s hr hs hk => record_unique types t hc i j r s hr hs hk⟩
  intro a name
  unfold PointerTable.keyCount
  cases hl : t.lookupTable a with
  | none => exact Nat.zero_le 1
  | some objects =>
    exact countP_le_one_of_nodup (fun o : Instance => (types o.reflectionData).name) name
      objects (hc.names a objects hl)

set_option maxRecDepth 100000 in
/-- The table of `Root { int id; Holder *h; }`, in which the holder at 200 and its first
array element share the address, lists every key at most once; under the address 200 it
lists the two type names `Holder` and `Pt`. -/
theorem lookup_keys_unique_witness :
    ∃ t, PointerTable.populate exampleTypes arrayMemory 10 ⟨10, 300⟩ true {} = .ok t ∧
      (∀ (a : Address) (name : Text), t.keyCount exampleTypes a name ≤ 1) ∧
      t.keyCount exampleTypes 200 "Holder".toList = 1 ∧
      t.keyCount exampleTypes 200 "Pt".toList = 1 := by
  obtain ⟨t, ht⟩ := exists_of_isOk
    (PointerTable.populate exampleTypes arrayMemory 10 ⟨10, 300⟩ true {}) (by decide)
  have hcount : (PointerTable.populate exampleTypes arrayMemory 10 ⟨10, 300⟩ true {}).map
      (fun t => (t.keyCount exampleTypes 200 "Holder".toList,
        t.keyCount exampleTypes 200 "Pt".toList)) = .ok (1, 1) := by decide
  rw [ht] at hcount
  simp only [Except.map, Except.ok.injEq, Prod.mk.injEq] at hcount
  exact ⟨t, ht,
    (lookup_keys_unique exampleTypes arrayMemory t
      (PopulateReachable.call {} t 10 ⟨10, 300⟩ true PopulateReachable.empty ht)).1,
    hcount.1, hcount.2⟩

/-- When an object with a table entry has, at offset zero, an inline member, declared on
the type of the entry, of a composite type with another type name, the table built by `populate` holds two entries
with the address of the object, one per type name, at different indices, and
`PointerTable::index` returns for the object the index of its entry and for the member the
index of the entry of the member. -/
theorem aliased_entries (types : Descriptors) (mem : Memory) (fuel : Nat)
    (root : ReflectedVariable) (t : PointerTable)
    (hpop : PointerTable.populate types mem fuel root true {} = .ok t)
    (i : Nat) (r : TableRecord) (hr : t.dataTable[i]? = some r) (hn : r.var.instanceData ≠ 0)
    (m : ReflectedMember) (hm : m ∈ (types r.var.reflectionData).members)
    (hoffset : m.offset = 0) (hpointer : m.isPointer = false)
    (hcomposite : (types m.data).hasDataMembers = true)
    (hname : (types m.data).name ≠ (types r.var.reflectionData).name) :
    ∃ (j : Nat) (s : TableRecord), t.dataTable[j]? = some s ∧
      s.var.instanceData = r.var.instanceData ∧
      (types s.var.reflectionData).name = (types m.data).name ∧
      i ≠ j ∧
      t.index types r.var = .ok i ∧
      t.index types (memberVariable r.var.instanceData m) = .ok j := by
  obtain ⟨hc, _, _, hexp⟩ := populate_spec types mem fuel root true {} t (consistent_empty _) hpop
  have hf : followed types m = true := by simp [followed, hcomposite]
  have hin := hexp i r (Nat.zero_le _) hr hn m hm hf
  simp only [childVariable, hpointer, Bool.false_eq_true, if_false] at hin
  rw [hasPointer_iff types t hc] at hin
  obtain ⟨j, s, hs, hkey⟩ := hin
  have haddr : s.var.instanceData = r.var.instanceData := by
    have := congrArg Prod.fst hkey
    simpa [tableKey, memberVariable, pointerOffset, hoffset] using this
  have hsname : (types s.var.reflectionData).name = (types m.data).name := by
    have := congrArg Prod.snd hkey
    simpa [tableKey, memberVariable] using this
  refine ⟨j, s, hs, haddr, hsname, ?_, index_of_record types t hc r.var i r hr rfl,
    index_of_record types t hc _ j s hs hkey⟩
  intro hij
  subst hij
  rw [hr] at hs
  cases hs
  exact hname hsname.symm

set_option maxRecDepth 100000 in
/-- In the table of `Root { int id; Holder *h; }` the holder at 200 has the entry 1 and its
first array element, of type `Pt` and at the same address, has the entry 2. -/
theorem aliased_entries_witness :
    ∃ t, PointerTable.populate exampleTypes arrayMemory 10 ⟨10, 300⟩ true {} = .ok t ∧
      t.dataTable = [⟨⟨10, 300⟩, true⟩, ⟨⟨9, 200⟩, true⟩, ⟨⟨8, 200⟩, false⟩] ∧
      t.index exampleTypes ⟨9, 200⟩ = .ok 1 ∧ t.index exampleTypes ⟨8, 200⟩ = .ok 2 ∧
      ∃ (j : Nat) (s : TableRecord), t.dataTable[j]? = some s ∧
        s.var.instanceData = 200 ∧
        (exampleTypes s.var.reflectionData).name = "Pt".toList ∧
        1 ≠ j ∧
        t.index exampleTypes ⟨9, 200⟩ = .ok 1 ∧
        t.index exampleTypes (memberVariable 200 ⟨['p', 't', 's'], 0, 8, false, 8⟩) = .ok j := by
  obtain ⟨t, ht⟩ := exists_of_isOk
    (PointerTable.populate exampleTypes arrayMemory 10 ⟨10, 300⟩ true {}) (by decide)
  have hall : (PointerTable.populate exampleTypes arrayMemory 10 ⟨10, 300⟩ true {}).map
      (fun t => (t.dataTable, t.index exampleTypes ⟨9, 200⟩, t.index exampleTypes ⟨8, 200⟩)) =
      .ok ([⟨⟨10, 300⟩, true⟩, ⟨⟨9, 200⟩, true⟩, ⟨⟨8, 200⟩, false⟩], .ok 1, .ok 2) := by
    decide
  rw [ht] at hall
  simp only [Except.map, Except.ok.injEq, Prod.mk.injEq] at hall
  obtain ⟨hdt, h1, h2⟩ := hall
  exact ⟨t, ht, hdt, h1, h2,
    aliased_entries exampleTypes arrayMemory 10 ⟨10, 300⟩ t ht 1 ⟨⟨9, 200⟩, true⟩
      (by rw [hdt]; rfl) (by decide) ⟨['p', 't', 's'], 0, 8, false, 8⟩ (by decide) rfl rfl
      (by decide) (by decide)⟩

/-! ## Visits of a variable that has an entry -/

/-- On a variable whose entry has the flag `needsSerialization` unset, `addPointer` returns
the index of the entry and leaves the records as they are, whatever flag it is called
with: it only ever rewrites a flag that is set. -/
theorem addPointer_unflagged (types : Descriptors) (t : PointerTable) (ht : t.Consistent types)
    (i : Nat) (r : TableRecord) (hr : t.dataTable[i]? = some r)
    (hflag : r.needsSerialization = false) (v : ReflectedVariable)
    (hkey : tableKey types r.var = tableKey types v) (n : Bool) :
    (t.addPointer types v n).1 = i ∧ (t.addPointer types v n).2.dataTable = t.dataTable := by
  have hindex := index_of_record types t ht v i r hr hkey
  unfold PointerTable.index at hindex
  unfold PointerTable.addPointer
  cases hl : t.lookupTable v.instanceData with
  | none => simp [hl] at hindex
  | some objects =>
    simp only [hl] at hindex ⊢
    cases hf : objects.find? (sameTypeName types v) with
    | none => simp [hf] at hindex
    | some object =>
      simp only [hf, Except.ok.injEq] at hindex ⊢
      refine ⟨hindex, ?_⟩
      rw [hindex]
      apply List.ext_getElem?
      intro k
      rw [List.getElem?_modify]
      by_cases hk : i = k
      · subst hk
        simp [hr, hflag]
      · simp [hk]

/-- **C25** (amended) When a variable whose key is in the table with the flag
`needsSerialization` unset is visited again with the flag set, `populate` returns at once
with the table as it was, the flag of the entry staying unset, and without going into the
members; `addPointer` itself would leave the records unchanged too, since it rewrites only
a flag that is set. -/
theorem visited_entry_kept (types : Descriptors) (mem : Memory) (t : PointerTable)
    (ht : t.Consistent types) (i : Nat) (r : TableRecord) (hr : t.dataTable[i]? = some r)
    (hflag : r.needsSerialization = false) (v : ReflectedVariable)
    (hkey : tableKey types r.var = tableKey types v) (fuel : Nat) :
    PointerTable.populate types mem (fuel + 1) v true t = .ok t ∧
    (t.addPointer types v true).1 = i ∧
    (t.addPointer types v true).2.dataTable = t.dataTable := by
  have hhas : t.hasPointer types v = true :=
    (hasPointer_iff types t ht v).mpr ⟨i, r, hr, hkey⟩
  refine ⟨?_, addPointer_unflagged types t ht i r hr hflag v hkey true⟩
  rw [populate_succ, hhas]
  rfl

set_option maxRecDepth 100000 in
/-- In the table of `Inl { Y y; Y *p; }` with `p = &y` the member `y`, found inline first,
has the entry 1 without the flag; the visit of the target of `p`, with the flag set, leaves
the table as it is. -/
theorem visited_entry_kept_witness :
    ∃ t, PointerTable.populate exampleTypes inlMemory 10 ⟨23, 100⟩ true {} = .ok t ∧
      t.dataTable = [⟨⟨23, 100⟩, true⟩, ⟨⟨6, 100⟩, false⟩] ∧
      PointerTable.populate exampleTypes inlMemory (3 + 1) ⟨6, 100⟩ true t = .ok t ∧
      (t.addPointer exampleTypes ⟨6, 100⟩ true).1 = 1 ∧
      (t.addPointer exampleTypes ⟨6, 100⟩ true).2.dataTable = t.dataTable := by
  obtain ⟨t, ht⟩ := exists_of_isOk
    (PointerTable.populate exampleTypes inlMemory 10 ⟨23, 100⟩ true {}) (by decide)
  have hdt : t.dataTable = [⟨⟨23, 100⟩, true⟩, ⟨⟨6, 100⟩, false⟩] := by
    have h : (PointerTable.populate exampleTypes inlMemory 10 ⟨23, 100⟩ true {}).map
        (fun t => t.dataTable) = .ok [⟨⟨23, 100⟩, true⟩, ⟨⟨6, 100⟩, false⟩] := by decide
    rw [ht] at h
    simpa [Except.map] using h
  have hc := (populate_spec exampleTypes inlMemory 10 ⟨23, 100⟩ true {} t
    (consistent_empty _) ht).1
  exact ⟨t, ht, hdt,
    visited_entry_kept exampleTypes inlMemory t hc 1 ⟨⟨6, 100⟩, false⟩ (by rw [hdt]; rfl) rfl
      ⟨6, 100⟩ rfl 3⟩

set_option maxRecDepth 100000 in
/-- For `Inl { Y y; Y *p; }` with `p = &y`, the entry of `y`, created without the flag by
the inline visit, is visited again through `p` with the flag set, and its flag is still
unset in the table that `populate` returns; a further visit with the flag set changes
nothing either. -/
theorem visited_entry_not_upgraded :
    resolvedPointer inlMemory 100 ⟨['p'], 8, 8, true, 6⟩ = ⟨6, 100⟩ ∧
    (PointerTable.populate exampleTypes inlMemory 10 ⟨23, 100⟩ true {}).map
        (fun t => t.dataTable) = .ok [⟨⟨23, 100⟩, true⟩, ⟨⟨6, 100⟩, false⟩] ∧
    (do
      let t ← PointerTable.populate exampleTypes inlMemory 10 ⟨23, 100⟩ true {}
      let t' ← PointerTable.populate exampleTypes inlMemory 10 ⟨6, 100⟩ true t
      pure t'.dataTable) = .ok [⟨⟨23, 100⟩, true⟩, ⟨⟨6, 100⟩, false⟩] := by
  decide

set_option maxRecDepth 100000 in
/-- **C24** For `C { Y *p; Y y; }` with `p = &y`, the entry of `y` is created with the flag
set by the visit of the target of `p`; the later visit of the inline member `y`, with the
flag unset, returns the table unchanged, the flag of the entry still set. The update in
`addPointer`, called on the same table, would unset the flag, but `populate` does not call
`addPointer` for a variable that has an entry. -/
theorem inline_visit_keeps_flag :
    resolvedPointer aliasMemory 100 ⟨['p'], 0, 8, true, 6⟩ = ⟨6, 108⟩ ∧
    memberVariable 100 ⟨['y'], 8, 4, false, 6⟩ = ⟨6, 108⟩ ∧
    (do
      let t1 ← PointerTable.populate exampleTypes aliasMemory 5 ⟨6, 108⟩ true
        (PointerTable.addPointer exampleTypes {} ⟨7, 100⟩ true).2
      let t2 ← PointerTable.populate exampleTypes aliasMemory 5 ⟨6, 108⟩ false t1
      pure (t1.dataTable, t2.dataTable,
        (t1.addPointer exampleTypes ⟨6, 108⟩ false).2.dataTable)) =
      .ok ([⟨⟨7, 100⟩, true⟩, ⟨⟨6, 108⟩, true⟩], [⟨⟨7, 100⟩, true⟩, ⟨⟨6, 108⟩, true⟩],
        [⟨⟨7, 100⟩, true⟩, ⟨⟨6, 108⟩, false⟩]) ∧
    (PointerTable.populate exampleTypes aliasMemory 10 ⟨7, 100⟩ true {}).map
        (fun t => t.emitted.map Prod.fst) = .ok [0, 1] := by
  decide

/-! ## Indices read from the stream -/

/-- The index of an untagged record is checked against the table size: a record whose own
index is not below the size stops the loop body of `PointerTable::deserialize` at its
assertion. -/
theorem record_index_checked (types : Descriptors) (hashString : Text → Nat)
    (manager : ReflectionDataManager) (tableSize fuel : Nat) (st : Loader) (index : Nat)
    (rest : Text) (hhead : st.stream.head? ≠ some '(')
    (hindex : extractSize st.stream = .ok (index, rest)) (hge : tableSize ≤ index) :
    PointerTable.deserializeRecord types hashString manager tableSize fuel st =
      .error .assertion := by
  unfold PointerTable.deserializeRecord
  have hlt : ¬ index < tableSize := by omega
  simp [hhead, hindex, hlt, bind, Except.bind, pure, Except.pure]

set_option maxRecDepth 100000 in
/-- **C21** In a stream with table size 1 whose only record, a `Node`, writes the index 5
for its pointer member `next`, the record is loaded without a fault: when all records are
loaded the patch list holds the target index 5 for the slot at 1008, the table having one
entry. `PointerTable::deserialize` returns for that stream: the closing loop reads the table
at index 5, outside its single entry, and the slot at 1008 receives an unspecified value,
the address of no table entry. A record whose own index is 3 stops the loading. -/
theorem pointer_index_unchecked :
    (PointerTable.deserializeRecords exampleTypes exampleHash exampleManager 1 5
        { stream := "0 Node\n[\n\tv 1\n\tnext 5\n]\n".toList, heap := exampleHeap
          table := { dataTable := List.replicate 1 {} } }).map
        (fun st => (st.table.pointersToPatch, st.table.dataTable.length, st.stream)) =
      .ok ([⟨5, ⟨5, 1008⟩⟩], 1, []) ∧
    (PointerTable.deserialize exampleTypes exampleHash exampleManager 5
        "1\n0 Node\n[\n\tv 1\n\tnext 5\n]\n".toList exampleHeap).map
        (fun st => (st.table.pointersToPatch, st.table.dataTable, st.heap.memory 1008,
          st.stream)) =
      .ok ([⟨5, ⟨5, 1008⟩⟩], [⟨⟨5, 1000⟩, false⟩], .garbage, []) ∧
    (PointerTable.deserialize exampleTypes exampleHash exampleManager 5
        "1\n3 Node\n[\n\tv 1\n\tnext 0\n]\n".toList exampleHeap).map (fun st => st.stream) =
      .error .assertion := by
  decide

/-! ## Coverage of `populate` -/

set_option maxRecDepth 100000 in
/-- **C22** Two objects that are reachable from the root and have no entry in the table
that `populate` builds: for `Root { int id; Holder *h; }` the second element of the array
`pts` of the holder, at 204, and for `Tagged : Links { int m; }` the target, at 200, of the
pointer members declared on the parent `Links`. -/
theorem populate_misses_reachable :
    Reachable exampleTypes arrayMemory ⟨10, 300⟩ ⟨8, 204⟩ ∧
    (PointerTable.populate exampleTypes arrayMemory 10 ⟨10, 300⟩ true {}).map
        (fun t => (t.dataTable.map (fun r => r.var), t.hasPointer exampleTypes ⟨8, 204⟩)) =
      .ok ([⟨10, 300⟩, ⟨9, 200⟩, ⟨8, 200⟩], false) ∧
    Reachable exampleTypes inheritedMemory ⟨17, 100⟩ ⟨6, 200⟩ ∧
    (PointerTable.populate exampleTypes inheritedMemory 10 ⟨17, 100⟩ true {}).map
        (fun t => (t.dataTable.map (fun r => r.var), t.hasPointer exampleTypes ⟨6, 200⟩)) =
      .ok ([⟨17, 100⟩], false) := by
  refine ⟨?_, by decide, ?_, by decide⟩
  · have h1 : Reachable exampleTypes arrayMemory ⟨10, 300⟩ ⟨9, 200⟩ :=
      Reachable.target ⟨10, 300⟩ 1 ⟨['h'], 8, 8, true, 9⟩ Reachable.root (by decide)
        (by decide) rfl
    exact Reachable.element ⟨9, 200⟩ 1 ⟨['p', 't', 's'], 0, 8, false, 8⟩ 1 h1 (by decide)
      (by decide) rfl (by decide) (by decide)
  · exact Reachable.target ⟨17, 100⟩ 2 ⟨['p'], 0, 8, true, 6⟩ Reachable.root (by decide)
      (by decide) rfl

/-! ## Registration of members -/

/-- **C23** (amended) `addMember` never fails and makes no check of the layout: whatever the
offset and the size of the member, the members of the descriptor are afterwards the former
members followed by the new member, built from the arguments as they are, and the name,
the size, the parent and the codec of the descriptor are unchanged. -/
theorem addMember_appends (d : ReflectionData) (name : Text) (offset size : Nat)
    (isPointer : Bool) (data : DescriptorPtr) :
    (ReflectionDataCreator.addMember d name offset size isPointer data).members =
      d.members ++ [⟨name, offset, size, isPointer, data⟩] ∧
    (ReflectionDataCreator.addMember d name offset size isPointer data).name = d.name ∧
    (ReflectionDataCreator.addMember d name offset size isPointer data).size = d.size ∧
    (ReflectionDataCreator.addMember d name offset size isPointer data).parent = d.parent := by
  exact ⟨rfl, rfl, rfl, rfl⟩

/-- A member at offset 100 of size 4 is added to the descriptor of `Foo`, whose size is 8:
afterwards the descriptor has that member, for which offset plus size exceeds the size of
the type. -/
theorem addMember_beyond_size :
    (exampleTypes 4).size = 8 ∧
    (ReflectionDataCreator.addMember (exampleTypes 4) ['z'] 100 4 false 1).members =
      [⟨['x'], 0, 4, false, 1⟩, ⟨['y'], 4, 4, false, 2⟩, ⟨['z'], 100, 4, false, 1⟩] ∧
    ¬ ∀ m ∈ (ReflectionDataCreator.addMember (exampleTypes 4) ['z'] 100 4 false 1).members,
      m.offset + m.size ≤
        (ReflectionDataCreator.addMember (exampleTypes 4) ['z'] 100 4 false 1).size := by
  refine ⟨rfl, rfl, ?_⟩
  intro h
  have := h ⟨['z'], 100, 4, false, 1⟩ (by decide)
  revert this
  decide

/-! ## Blocks of a type with a parent -/

/-- **C26** (amended) For a non-null object of a type `D` whose parent `B` has no parent,
both without leaf codec and with leaf members, `ReflectionData::serialize` writes one block
per type, the block of the parent first: the header `<index> <B>`, a line `[`, the lines of
the members declared by `B`, a line `]`, and then the header `<index> <D>`, a line `[`, the
lines of the members declared by `D`, a line `]`. The members of `B` come before the
members of `D`, each list in declaration order, in two blocks at one nesting level. -/
theorem serialize_child_blocks (types : Descriptors) (mem : Memory) (t : PointerTable)
    (D : DescriptorPtr) (v : ReflectedVariable) (index padding : Nat)
    (hD : (types D).parent ≠ 0) (hB : (types (types D).parent).parent = 0)
    (hsD : (types D).serializeFunction = none)
    (hsB : (types (types D).parent).serializeFunction = none)
    (hv : v.instanceData ≠ 0) (hindex : t.index types v = .ok index)
    (hleafB : ∀ m ∈ (types (types D).parent).members, LeafMember types m)
    (hleafD : ∀ m ∈ (types D).members, LeafMember types m) (fuel : Nat) :
    ReflectionData.serialize types mem t (fuel + 3) D v padding false =
      .ok (blockText types mem (types D).parent v.instanceData index padding
        ++ blockText types mem D v.instanceData index padding) ∧
    blockText types mem (types D).parent v.instanceData index padding =
      showNat index ++ [' '] ++ (types (types D).parent).name ++ ['\n']
        ++ padStream padding ++ ['[', '\n']
        ++ ((types (types D).parent).members.map (fun m =>
            padStream (padding + 1) ++ m.name ++ [' ']
              ++ leafText types mem (memberVariable v.instanceData m))).flatten
        ++ padStream padding ++ [']', '\n'] ∧
    blockText types mem D v.instanceData index padding =
      showNat index ++ [' '] ++ (types D).name ++ ['\n']
        ++ padStream padding ++ ['[', '\n']
        ++ ((types D).members.map (fun m =>
            padStream (padding + 1) ++ m.name ++ [' ']
              ++ leafText types mem (memberVariable v.instanceData m))).flatten
        ++ padStream padding ++ [']', '\n'] := by
  have hDp : ((types D).parent != 0) = true := by simpa using hD
  have hBp : ((types (types D).parent).parent != 0) = false := by simp [hB]
  have hb := serialize_block types mem t fuel (types D).parent v padding index []
    (by rw [hBp]; rfl) hsB hv hindex hleafB
  have hd := serialize_block types mem t (fuel + 1) D v padding index _
    (by rw [hDp]; exact hb) hsD hv hindex hleafD
  refine ⟨?_, rfl, rfl⟩
  rw [hd]
  simp

set_option maxRecDepth 100000 in
/-- The `Derived : Base` object with `k = 4` and `m = 9` that `Owner` points to is written
as the block of `Base` with the line of `k` followed by the block of `Derived` with the line
of `m`. -/
theorem serialize_child_blocks_witness :
    ∃ t, PointerTable.populate exampleTypes derivedMemory 10 ⟨13, 100⟩ true {} = .ok t ∧
      t.index exampleTypes ⟨12, 200⟩ = .ok 1 ∧
      ReflectionData.serialize exampleTypes derivedMemory t (2 + 3) 12 ⟨12, 200⟩ 0 false =
        .ok "1 Base\n[\n\tk 4\n]\n1 Derived\n[\n\tm 9\n]\n".toList := by
  obtain ⟨t, ht⟩ := exists_of_isOk
    (PointerTable.populate exampleTypes derivedMemory 10 ⟨13, 100⟩ true {}) (by decide)
  have hindex : t.index exampleTypes ⟨12, 200⟩ = .ok 1 := by
    have h : (do
        let t ← PointerTable.populate exampleTypes derivedMemory 10 ⟨13, 100⟩ true {}
        t.index exampleTypes ⟨12, 200⟩) = .ok 1 := by decide
    rw [ht] at h
    exact h
  refine ⟨t, ht, hindex, ?_⟩
  rw [(serialize_child_blocks exampleTypes derivedMemory t 12 ⟨12, 200⟩ 1 0 (by decide)
    (by decide) rfl rfl (by decide) hindex (by unfold LeafMember; decide)
    (by unfold LeafMember; decide) 2).1]
  decide

set_option maxRecDepth 100000 in
/-- The text written for the `Derived : Base` object with `k = 4` and `m = 9` holds two
lines `[` and two lines `]`: the member `k` is in the first block and the member `m` in
the second one. -/
theorem child_written_in_two_blocks :
    (do
      let t ← PointerTable.populate exampleTypes derivedMemory 10 ⟨13, 100⟩ true {}
      ReflectionData.serialize exampleTypes derivedMemory t 10 12 ⟨12, 200⟩ 0 false) =
      .ok "1 Base\n[\n\tk 4\n]\n1 Derived\n[\n\tm 9\n]\n".toList ∧
    "1 Base\n[\n\tk 4\n]\n1 Derived\n[\n\tm 9\n]\n".toList.count '[' = 2 ∧
    "1 Base\n[\n\tk 4\n]\n1 Derived\n[\n\tm 9\n]\n".toList.count ']' = 2 := by
  decide

/-! ## Array elements -/

set_option maxRecDepth 100000 in
/-- **C27** For `Ders { Derived ds[2]; }` the text that `ReflectionData::serialize` writes in
array context for the first element, of type `Derived : Base`, starts with the table index 1:
the call of the parent does not pass the array flag on, so that the block of `Base` gets
the header `1 Base`, and only the block of `Derived` has a header without index. The
second element has no table entry and the whole serialization stops at the assertion of
`PointerTable::index`. An element of a type without parent, `Pt`, is written without
index. -/
theorem array_element_of_child_indexed :
    (do
      let t ← PointerTable.populate exampleTypes dersMemory 10 ⟨24, 100⟩ true {}
      ReflectionData.serialize exampleTypes dersMemory t 6 12 ⟨12, 100⟩ 2 true) =
      .ok "1 Base\n\t\t[\n\t\t\tk 1\n\t\t]\nDerived\n\t\t[\n\t\t\tm 2\n\t\t]\n".toList ∧
    ReflectedVariable.serialize exampleTypes dersMemory 10 ⟨24, 100⟩ = .error .assertion ∧
    (do
      let t ← PointerTable.populate exampleTypes arrayMemory 10 ⟨10, 300⟩ true {}
      ReflectionData.serialize exampleTypes arrayMemory t 6 8 ⟨8, 204⟩ 2 true) =
      .ok "Pt\n\t\t[\n\t\t\tx 8\n\t\t]\n".toList := by
  decide

set_option maxRecDepth 100000 in
/-- **C28** Decoding an array element of type `Pt` into the address 1020, in array context,
changes the table: the frame read no index, and the entry 0, which held the `Root` at 1000,
holds the element afterwards. -/
theorem array_element_published :
    (ReflectionData.deserialize exampleTypes 5 8 ⟨8, 1020⟩
        { stream := "Pt\n\t\t[\n\t\t\tx 8\n\t\t]\n".toList, heap := exampleHeap
          table := { dataTable := [⟨⟨10, 1000⟩, false⟩, ⟨⟨9, 1016⟩, false⟩] } } true).map
        (fun r => (r.1, r.2.table.dataTable, r.2.heap.memory 1020, r.2.stream)) =
      .ok (⟨8, 1020⟩, [⟨⟨8, 1020⟩, false⟩, ⟨⟨9, 1016⟩, false⟩], .int 8, ['\n']) := by
  decide

/-- **C37** A call of `populate` on a table that already lists the key of `v` (its address
and the name of its type) returns the table it was given, whatever the flag `owns`: no
entry is added, no flag and no list of the lookup map changes, no member is visited. In a
consistent table the key is listed exactly when an entry has it. An entry's flag is
therefore the flag of the call that discovered it: a call on a variable that is not listed
appends the entry with the flag it was given, and no call changes an entry that is already
there. -/
theorem populate_listed_unchanged (types : Descriptors) (mem : Memory) (t : PointerTable)
    (v : ReflectedVariable) (ht : t.Consistent types)
    (h : ∃ (i : Nat) (r : TableRecord), t.dataTable[i]? = some r ∧
      tableKey types r.var = tableKey types v) :
    t.hasPointer types v = true ∧
    (∀ (fuel : Nat) (owns : Bool),
      PointerTable.populate types mem (fuel + 1) v owns t = .ok t) ∧
    (∀ (fuel : Nat) (w : ReflectedVariable) (owns : Bool) (t' : PointerTable),
      PointerTable.populate types mem fuel w owns t = .ok t' →
      (∀ (i : Nat) (r : TableRecord), t.dataTable[i]? = some r → t'.dataTable[i]? = some r) ∧
      (t.hasPointer types w = false →
        t'.dataTable[t.dataTable.length]? = some { var := w, needsSerialization := owns })) := by
  have hv : t.hasPointer types v = true := (hasPointer_iff types t ht v).mpr h
  refine ⟨hv, ?_, ?_⟩
  · intro fuel owns
    rw [populate_succ, if_pos hv]
  · intro fuel w owns t' hp
    obtain ⟨_, ⟨ext, hext⟩, _, _⟩ := populate_spec types mem fuel w owns t t' ht hp
    refine ⟨?_, ?_⟩
    · intro i r hr
      rw [hext, List.getElem?_append_left (List.getElem?_eq_some_iff.mp hr).1]
      exact hr
    · intro hw
      cases fuel with
      | zero => simp [PointerTable.populate] at hp
      | succ f =>
        obtain ⟨e, he⟩ := populate_absent types mem f w owns t t' ht hw hp
        rw [he, List.getElem?_append_right (Nat.le_refl _)]
        simp

set_option maxRecDepth 100000 in
theorem populate_listed_unchanged_witness :
    ∃ t, PointerTable.populate exampleTypes cycleMemory 7 ⟨5, 100⟩ true {} = .ok t ∧
      t.hasPointer exampleTypes ⟨5, 200⟩ = true ∧
      (∀ (fuel : Nat) (owns : Bool),
        PointerTable.populate exampleTypes cycleMemory (fuel + 1) ⟨5, 200⟩ owns t = .ok t) := by
  obtain ⟨t, ht⟩ := exists_of_isOk
    (PointerTable.populate exampleTypes cycleMemory 7 ⟨5, 100⟩ true {}) (by decide)
  have hc := (populate_spec exampleTypes cycleMemory 7 ⟨5, 100⟩ true {} t
    (consistent_empty exampleTypes) ht).1
  have hd : (PointerTable.populate exampleTypes cycleMemory 7 ⟨5, 100⟩ true {}).map
      (fun t => t.dataTable) = .ok [⟨⟨5, 100⟩, true⟩, ⟨⟨5, 200⟩, true⟩] := by decide
  rw [ht] at hd
  simp only [Except.map, Except.ok.injEq] at hd
  have := populate_listed_unchanged exampleTypes cycleMemory t ⟨5, 200⟩ hc
    ⟨1, ⟨⟨5, 200⟩, true⟩, by rw [hd]; rfl, rfl⟩
  exact ⟨t, ht, this.1, this.2.1⟩

/-- **C32** `ReflectedMember::isArray` compares the two sizes and nothing else, so that it
returns true for a pointer member whose pointee type is smaller than the member: the member
`int *p` of `IntRef`, of size 8 with an element type of size 4, is a pointer and
`isArray` returns true for it. -/
theorem isArray_of_pointer_member :
    (exampleTypes 14).members = [⟨['p'], 0, 8, true, 1⟩] ∧
    (exampleTypes 1).size = 4 ∧
    (⟨['p'], 0, 8, true, 1⟩ : ReflectedMember).isPointer = true ∧
    (⟨['p'], 0, 8, true, 1⟩ : ReflectedMember).isArray exampleTypes = true ∧
    (∀ (types : Descriptors) (m : ReflectedMember),
      m.isArray types = true ↔ m.size > (types m.data).size) := by
  refine ⟨by decide, by decide, rfl, by decide, ?_⟩
  intro types m
  simp [ReflectedMember.isArray]

/-- **C34** In every table that calls of `populate` build from the empty table,
`index(pointer(i)) = i` for every index `i` below the number of entries. The root of the
first call `populate(root, true)` is entry 0 with the flag true, so that the table has an
entry, the record of the root is the first one of the emitted records, and the text that
`PointerTable::serialize` writes is the size line followed by the record of the root. -/
theorem root_is_first_entry (types : Descriptors) (mem : Memory) (fuel : Nat)
    (root : ReflectedVariable) (t : PointerTable)
    (hpop : PointerTable.populate types mem fuel root true {} = .ok t) :
    t.dataTable[0]? = some { var := root, needsSerialization := true } ∧
    0 < t.dataTable.length ∧
    t.pointer 0 = .ok root ∧ t.index types root = .ok 0 ∧
    (∀ i, i < t.dataTable.length → ∃ v, t.pointer i = .ok v ∧ t.index types v = .ok i) ∧
    (∃ rest, t.emitted = (0, { var := root, needsSerialization := true }) :: rest) ∧
    (∀ (fuel' : Nat) (text : Text), t.serialize types mem fuel' = .ok text →
      ∃ record more,
        t.serializeRecord types mem fuel' { var := root, needsSerialization := true }
          = .ok record ∧
        text = showNat t.dataTable.length ++ ['\n'] ++ record ++ more) ∧
    (∀ t' : PointerTable, PopulateReachable types mem t' → ∀ i, i < t'.dataTable.length →
      ∃ v, t'.pointer i = .ok v ∧ t'.index types v = .ok i) := by
  have hall : ∀ t' : PointerTable, t'.Consistent types → ∀ i, i < t'.dataTable.length →
      ∃ v, t'.pointer i = .ok v ∧ t'.index types v = .ok i := by
    intro t' hc i hi
    have hr : t'.dataTable[i]? = some (t'.dataTable[i]) := List.getElem?_eq_getElem hi
    refine ⟨(t'.dataTable[i]).var, ?_, index_of_record types t' hc _ i _ hr rfl⟩
    unfold PointerTable.pointer
    rw [hr]
  have hc : t.Consistent types :=
    (populate_spec types mem fuel root true {} t (consistent_empty types) hpop).1
  obtain ⟨ext, hext⟩ : ∃ ext, t.dataTable = { var := root, needsSerialization := true } :: ext := by
    cases fuel with
    | zero => simp [PointerTable.populate] at hpop
    | succ f =>
      obtain ⟨e, he⟩ := populate_absent types mem f root true {} t (consistent_empty types)
        (hasPointer_empty types root) hpop
      exact ⟨e, he⟩
  have h0 : t.dataTable[0]? = some { var := root, needsSerialization := true } := by
    rw [hext]; simp
  refine ⟨h0, by rw [hext]; exact Nat.succ_pos _, ?_, ?_, ?_, ?_, ?_, ?_⟩
  · unfold PointerTable.pointer
    rw [h0]
  · exact index_of_record types t hc root 0 _ h0 rfl
  · exact hall t hc
  · refine ⟨(List.enumFrom 1 ext).filter (fun e => e.2.needsSerialization), ?_⟩
    unfold PointerTable.emitted
    rw [hext]
    rfl
  · intro fuel' text h
    unfold PointerTable.serialize at h
    obtain ⟨body, hbody, h⟩ := (bind_ok _ _ _).mp h
    simp only [pure, Except.pure, Except.ok.injEq] at h
    rw [hext, writeEach] at hbody
    obtain ⟨record, hrec, hbody⟩ := (bind_ok _ _ _).mp hbody
    obtain ⟨more, _, hbody⟩ := (bind_ok _ _ _).mp hbody
    simp only [pure, Except.pure, Except.ok.injEq] at hbody
    refine ⟨record, more, hrec, ?_⟩
    rw [← h, ← hbody]
    simp only [List.append_assoc]
  · intro t' hr
    exact hall t' (reachable_consistent types mem t' hr)

set_option maxRecDepth 100000 in
theorem root_is_first_entry_witness :
    ∃ t, PointerTable.populate exampleTypes cycleMemory 7 ⟨5, 100⟩ true {} = .ok t ∧
      t.dataTable[0]? = some { var := ⟨5, 100⟩, needsSerialization := true } ∧
      t.index exampleTypes ⟨5, 100⟩ = .ok 0 ∧
      (∀ i, i < t.dataTable.length →
        ∃ v, t.pointer i = .ok v ∧ t.index exampleTypes v = .ok i) := by
  obtain ⟨t, ht⟩ := exists_of_isOk
    (PointerTable.populate exampleTypes cycleMemory 7 ⟨5, 100⟩ true {}) (by decide)
  have := root_is_first_entry exampleTypes cycleMemory 7 ⟨5, 100⟩ t ht
  exact ⟨t, ht, this.1, this.2.2.2.1, this.2.2.2.2.1⟩

/-- **C31** `PointerTable::deserialize` is the record loop followed by the closing loop over
the patch list. Reading a pointer member line writes nothing into memory: it appends the
member's slot with the index it read to the patch list. When `PointerTable::deserialize`
returns, the table, the patch list and the stream are the ones the record loop left; memory
is the one the record loop left except at the recorded slots; and a recorded slot whose
index is inside the table, and that no later entry of the patch list names again, holds the
instance address stored at its index in the table at the end of loading, whatever the
order of the records in the stream. -/
theorem patched_after_loading (types : Descriptors) (hashString : Text → Nat)
    (manager : ReflectionDataManager) (fuel : Nat) (stream : Text) (heap : Heap) (st : Loader)
    (h : PointerTable.deserialize types hashString manager fuel stream heap = .ok st) :
    (∃ tableSize s loaded,
      extractSize stream = .ok (tableSize, s) ∧
      PointerTable.deserializeRecords types hashString manager tableSize fuel
        { stream := ignoreLine 256 s, heap := heap
          table := { dataTable := List.replicate tableSize {} } } = .ok loaded ∧
      st.table = loaded.table ∧ st.stream = loaded.stream ∧
      PointerTable.patchPointers loaded.table.dataTable loaded.table.pointersToPatch
        loaded.heap.memory = .ok st.heap.memory ∧
      (∀ a, (∀ p ∈ st.table.pointersToPatch, p.var.instanceData ≠ a) →
        st.heap.memory a = loaded.heap.memory a)) ∧
    (∀ (k : Nat) (p : PatchPointer), st.table.pointersToPatch[k]? = some p →
      (∀ (j : Nat) (q : PatchPointer), k < j → st.table.pointersToPatch[j]? = some q →
        q.var.instanceData ≠ p.var.instanceData) →
      ∀ r, st.table.dataTable[p.index]? = some r →
        st.heap.memory p.var.instanceData = .pointer r.var.instanceData) ∧
    (∀ (deserialize : DescriptorPtr → ReflectedVariable → Loader → Bool →
        Except Fault (ReflectedVariable × Loader))
      (var : ReflectedVariable) (st0 st1 : Loader) (member : ReflectedMember),
      member.isPointer = true →
      ReflectionData.deserializeMember types deserialize var st0 member = .ok st1 →
      st1.heap = st0.heap ∧ st1.table.dataTable = st0.table.dataTable ∧
      ∃ index, st1.table.pointersToPatch = st0.table.pointersToPatch ++
        [{ index := index, var := memberVariable var.instanceData member }]) := by
  unfold PointerTable.deserialize at h
  obtain ⟨⟨tableSize, s⟩, hsize, h⟩ := (bind_ok _ _ _).mp h
  dsimp only at h
  split at h
  · cases h
  · obtain ⟨st0, hst0, h⟩ := (bind_ok _ _ _).mp h
    obtain ⟨memory, hm, h⟩ := (bind_ok _ _ _).mp h
    simp only [pure, Except.pure, Except.ok.injEq] at h
    subst h
    have hspec := patchPointers_spec _ _ _ _ hm
    refine ⟨⟨tableSize, s, st0, hsize, hst0, rfl, rfl, hm, hspec.1⟩, ?_, ?_⟩
    · intro k p hk hlater r hr
      exact (hspec.2 k p hk hlater).1 r hr
    · intro deserialize var sta stb member hptr hd
      unfold ReflectionData.deserializeMember at hd
      rw [if_pos hptr] at hd
      obtain ⟨⟨index, s'⟩, _, hd⟩ := (bind_ok _ _ _).mp hd
      simp only [pure, Except.pure, Except.ok.injEq] at hd
      subst hd
      exact ⟨rfl, rfl, index, rfl⟩

set_option maxRecDepth 100000 in
theorem patched_after_loading_witness :
    ReflectedVariable.serialize exampleTypes cycleMemory 7 ⟨5, 100⟩ = .ok cycleText ∧
    ∃ st, PointerTable.deserialize exampleTypes exampleHash exampleManager 7 cycleText
        exampleHeap = .ok st ∧
      st.table.pointersToPatch = [⟨1, ⟨5, 1008⟩⟩, ⟨0, ⟨5, 1024⟩⟩] ∧
      st.table.dataTable = [⟨⟨5, 1000⟩, false⟩, ⟨⟨5, 1016⟩, false⟩] ∧
      st.heap.memory 1008 = .pointer 1016 ∧ st.heap.memory 1024 = .pointer 1000 ∧
      (∀ (k : Nat) (p : PatchPointer), st.table.pointersToPatch[k]? = some p →
        (∀ (j : Nat) (q : PatchPointer), k < j → st.table.pointersToPatch[j]? = some q →
          q.var.instanceData ≠ p.var.instanceData) →
        ∀ r, st.table.dataTable[p.index]? = some r →
          st.heap.memory p.var.instanceData = .pointer r.var.instanceData) := by
  refine ⟨by decide, ?_⟩
  obtain ⟨st, hst⟩ := exists_of_isOk
    (PointerTable.deserialize exampleTypes exampleHash exampleManager 7 cycleText exampleHeap)
    (by decide)
  have h : (PointerTable.deserialize exampleTypes exampleHash exampleManager 7 cycleText
      exampleHeap).map (fun st => (st.table.pointersToPatch, st.table.dataTable,
        st.heap.memory 1008, st.heap.memory 1024))
      = .ok ([⟨1, ⟨5, 1008⟩⟩, ⟨0, ⟨5, 1024⟩⟩], [⟨⟨5, 1000⟩, false⟩, ⟨⟨5, 1016⟩, false⟩],
        .pointer 1016, .pointer 1000) := by decide
  rw [hst] at h
  simp only [Except.map, Except.ok.injEq, Prod.mk.injEq] at h
  have := patched_after_loading exampleTypes exampleHash exampleManager 7 cycleText
    exampleHeap st hst
  exact ⟨st, hst, h.1, h.2.1, h.2.2.1, h.2.2.2, this.2.1⟩

/-- A property of tables that every step of a monadic fold keeps is kept by the fold. -/
theorem foldlM_invariant {α β : Type} (P : β → Prop) (f : β → α → Except Fault β) :
    ∀ (l : List α) (b b' : β), (∀ a ∈ l, ∀ x y, P x → f x a = .ok y → P y) → P b →
      l.foldlM f b = .ok b' → P b' := by
  intro l
  induction l with
  | nil =>
    intro b b' _ hb h
    simp only [List.foldlM_nil, pure, Except.pure, Except.ok.injEq] at h
    subst h; exact hb
  | cons a rest ih =>
    intro b b' hstep hb h
    rw [List.foldlM_cons] at h
    obtain ⟨b1, h1, h⟩ := (bind_ok _ _ _).mp h
    exact ih b1 b' (fun x hx => hstep x (List.mem_cons_of_mem a hx))
      (hstep a (List.mem_cons_self a rest) b b1 hb h1) h

/-- Every variable listed by `populate` satisfies a property that the visited variable
satisfies and that passes from a non-null variable to the variables of its members. -/
theorem populate_records (types : Descriptors) (mem : Memory) (Q : ReflectedVariable → Prop)
    (hQ : ∀ v, Q v → v.instanceData ≠ 0 → ∀ m ∈ (types v.reflectionData).members,
      Q (childVariable mem v.instanceData m)) :
    ∀ (fuel : Nat) (v : ReflectedVariable) (n : Bool) (t t' : PointerTable), Q v →
      (∀ r ∈ t.dataTable, Q r.var) → PointerTable.populate types mem fuel v n t = .ok t' →
      ∀ r ∈ t'.dataTable, Q r.var := by
  intro fuel
  induction fuel with
  | zero => intro v n t t' _ _ h; simp [PointerTable.populate] at h
  | succ fuel ih =>
    intro v n t t' hv ht h
    rw [populate_succ] at h
    by_cases hp : t.hasPointer types v = true
    · simp only [hp, if_true, Except.ok.injEq] at h
      subst h; exact ht
    · have hp' : t.hasPointer types v = false := by simpa using hp
      simp only [hp', Bool.false_eq_true, if_false] at h
      obtain ⟨hd, _, _⟩ := addPointer_dataTable types t v n hp'
      have ht1 : ∀ r ∈ (t.addPointer types v n).2.dataTable, Q r.var := by
        intro r hr
        rw [hd] at hr
        rcases List.mem_append.mp hr with hr | hr
        · exact ht r hr
        · rw [List.mem_singleton.mp hr]; exact hv
      by_cases h0 : v.instanceData = 0
      · simp only [h0, if_true, Except.ok.injEq] at h
        subst h; exact ht1
      · simp only [h0, if_false] at h
        refine foldlM_invariant (fun b : PointerTable => ∀ r ∈ b.dataTable, Q r.var) _ _ _ _
          ?_ ht1 h
        intro m hm x y hx hstep
        have hchild := hQ v hv h0 m hm
        unfold PointerTable.populateMember at hstep
        split at hstep
        · split at hstep
          · rename_i hptr
            rw [childVariable, if_pos hptr] at hchild
            exact ih _ _ _ _ hchild hx hstep
          · rename_i hptr
            rw [childVariable, if_neg hptr] at hchild
            exact ih _ _ _ _ hchild hx hstep
        · simp only [Except.ok.injEq] at hstep
          subst hstep; exact hx

/-- A loop of writes stops on an assertion only when one of its writes does. -/
theorem writeEach_no_assertion {α : Type} (write : α → Except Fault Text) :
    ∀ l : List α, (∀ a ∈ l, write a ≠ .error .assertion) →
      writeEach write l ≠ .error .assertion := by
  intro l
  induction l with
  | nil => intro _ h; cases h
  | cons a rest ih =>
    intro h
    have ha := h a (List.mem_cons_self a rest)
    have hr := ih (fun x hx => h x (List.mem_cons_of_mem a hx))
    rw [writeEach]
    cases hw : write a with
    | error e =>
      cases e with
      | assertion => exact absurd hw ha
      | outOfFuel => simp [bind, Except.bind]
    | ok text =>
      cases hm : writeEach write rest with
      | error e =>
        cases e with
        | assertion => exact absurd hm hr
        | outOfFuel => simp [bind, Except.bind]
      | ok more => simp [bind, Except.bind, pure, Except.pure]

/-- In a consistent table `index` finds every variable that `hasPointer` reports. -/
theorem index_of_hasPointer (types : Descriptors) (t : PointerTable) (ht : t.Consistent types)
    (v : ReflectedVariable) (h : t.hasPointer types v = true) : ∃ i, t.index types v = .ok i := by
  obtain ⟨i, r, hr, hkey⟩ := (hasPointer_iff types t ht v).mp h
  exact ⟨i, index_of_record types t ht v i r hr hkey⟩

/-- Under the preconditions `PlainTypes`, in a consistent table whose records are expanded
and of registered types, `ReflectionData::serialize` stops on no assertion when it is
called on a listed variable of a registered type, or on an array element of a registered
type without members. -/
theorem serialize_no_assertion (types : Descriptors) (mem : Memory) (R : DescriptorPtr → Prop)
    (hR : PlainTypes types R) (t : PointerTable) (ht : t.Consistent types)
    (hexp : ∀ r ∈ t.dataTable, t.Expanded types mem r)
    (hreg : ∀ r ∈ t.dataTable, R r.var.reflectionData) :
    ∀ (fuel : Nat) (var : ReflectedVariable) (padding : Nat) (isArray : Bool),
      R var.reflectionData →
      (isArray = false → (types var.reflectionData).serializeFunction = none →
        t.hasPointer types var = true) →
      (isArray = true → (types var.reflectionData).members = []) →
      ReflectionData.serialize types mem t fuel var.reflectionData var padding isArray
        ≠ .error .assertion := by
  intro fuel
  induction fuel with
  | zero => intro var padding isArray _ _ _ h; simp [ReflectionData.serialize] at h
  | succ fuel ih =>
    intro var padding isArray hvar hlisted helem
    rw [ReflectionData.serialize]
    have hparent : ((types var.reflectionData).parent != 0) = false := by
      rw [hR.noParent _ hvar]; rfl
    simp only [hparent, Bool.false_eq_true, if_false]
    cases hf : (types var.reflectionData).serializeFunction with
    | some f => simp [bind, Except.bind, pure, Except.pure]
    | none =>
      cases isArray with
      | true => exact absurd hf (hR.leafCodec _ hvar (helem rfl))
      | false =>
        have hhas := hlisted rfl hf
        obtain ⟨index, hindex⟩ := index_of_hasPointer types t ht var hhas
        by_cases h0 : var.instanceData = 0
        · simp [hindex, h0, bind, Except.bind, pure, Except.pure]
        · obtain ⟨i, r, hr, hkey⟩ := (hasPointer_iff types t ht var).mp hhas
          have hrmem : r ∈ t.dataTable := List.mem_iff_getElem?.mpr ⟨i, hr⟩
          simp only [tableKey, Prod.mk.injEq] at hkey
          have hsame : r.var.reflectionData = var.reflectionData :=
            hR.names _ _ (hreg r hrmem) hvar hkey.2
          have hcover : ∀ m ∈ (types var.reflectionData).members, followed types m = true →
              t.hasPointer types (childVariable mem var.instanceData m) = true := by
            intro m hm hfo
            have := hexp r hrmem (by rw [hkey.1]; exact h0) m (by rw [hsame]; exact hm) hfo
            rw [hkey.1] at this
            exact this
          have hbody : writeEach
              (ReflectionData.serializeMember types mem t
                (ReflectionData.serialize types mem t fuel) var (padding + 1))
              (types var.reflectionData).members ≠ .error .assertion := by
            apply writeEach_no_assertion
            intro m hm
            unfold ReflectionData.serializeMember
            by_cases hptr : m.isPointer = true
            · rw [if_pos hptr]
              have hc := hcover m hm (by simp [followed, hptr])
              rw [childVariable, if_pos hptr] at hc
              obtain ⟨j, hj⟩ := index_of_hasPointer types t ht _ hc
              simp [hj, bind, Except.bind, pure, Except.pure]
            · rw [if_neg hptr]
              by_cases harr : m.isArray types = true
              · rw [if_pos harr]
                obtain ⟨hmem, hsize⟩ := hR.arrays _ hvar m hm (by simpa using hptr) harr
                rw [if_neg hsize]
                have hel : writeEach
                    (fun k => do
                      let text ← ReflectionData.serialize types mem t fuel m.data
                        (arrayElement types var.instanceData m k) (padding + 1 + 1) true
                      pure (padStream (padding + 1 + 1) ++ text))
                    (List.range (arrayCount m.size (types m.data).size))
                      ≠ .error .assertion := by
                  apply writeEach_no_assertion
                  intro k _
                  have := ih (arrayElement types var.instanceData m k) (padding + 1 + 1) true
                    (hR.closed _ hvar m hm) (fun h => by cases h) (fun _ => hmem)
                  cases he : ReflectionData.serialize types mem t fuel m.data
                      (arrayElement types var.instanceData m k) (padding + 1 + 1) true with
                  | error e =>
                    cases e with
                    | assertion => exact absurd he this
                    | outOfFuel => simp [bind, Except.bind]
                  | ok text => simp [bind, Except.bind, pure, Except.pure]
                revert hel
                cases writeEach _ _ with
                | error e =>
                  cases e with
                  | assertion => intro h; exact absurd rfl h
                  | outOfFuel => intro _; simp [bind, Except.bind]
                | ok text => intro _; simp [bind, Except.bind, pure, Except.pure]
              · rw [if_neg harr]
                have := ih (memberVariable var.instanceData m) (padding + 1) false
                  (hR.closed _ hvar m hm)
                  (fun _ hcodec => by
                    have hne : (types m.data).members ≠ [] := fun he =>
                      hR.leafCodec _ (hR.closed _ hvar m hm) he hcodec
                    have hc := hcover m hm (by
                      simp [followed, ReflectionData.hasDataMembers, hne])
                    rw [childVariable, if_neg hptr] at hc
                    exact hc)
                  (fun h => by cases h)
                cases he : ReflectionData.serialize types mem t fuel m.data
                    (memberVariable var.instanceData m) (padding + 1) false with
                | error e =>
                  cases e with
                  | assertion => exact absurd he this
                  | outOfFuel => simp [bind, Except.bind]
                | ok text => simp [bind, Except.bind, pure, Except.pure]
          revert hbody
          cases writeEach _ _ with
          | error e =>
            cases e with
            | assertion => intro h; exact absurd rfl h
            | outOfFuel => intro _; simp [hindex, h0, bind, Except.bind, pure, Except.pure]
          | ok text => intro _; simp [hindex, h0, bind, Except.bind, pure, Except.pure]

/-- A monadic fold stops on an assertion only when one of its steps does. -/
theorem foldlM_no_assertion {α β : Type} (f : β → α → Except Fault β) :
    ∀ (l : List α) (b : β), (∀ a ∈ l, ∀ x, f x a ≠ .error .assertion) →
      l.foldlM f b ≠ .error .assertion := by
  intro l
  induction l with
  | nil => intro b _ h; cases h
  | cons a rest ih =>
    intro b hstep
    rw [List.foldlM_cons]
    cases h1 : f b a with
    | error e =>
      cases e with
      | assertion => exact absurd h1 (hstep a (List.mem_cons_self a rest) b)
      | outOfFuel => simp [bind, Except.bind]
    | ok b1 =>
      simp only [bind, Except.bind]
      exact ih b1 (fun x hx => hstep x (List.mem_cons_of_mem a hx))

/-- `PointerTable::populate` has no assertion to stop on. -/
theorem populate_no_assertion (types : Descriptors) (mem : Memory) :
    ∀ (fuel : Nat) (v : ReflectedVariable) (n : Bool) (t : PointerTable),
      PointerTable.populate types mem fuel v n t ≠ .error .assertion := by
  intro fuel
  induction fuel with
  | zero => intro v n t h; simp [PointerTable.populate] at h
  | succ fuel ih =>
    intro v n t
    rw [populate_succ]
    split
    · intro h; cases h
    · split
      · intro h; cases h
      · apply foldlM_no_assertion
        intro m _ x
        unfold PointerTable.populateMember
        split
        · split
          · exact ih _ _ _
          · exact ih _ _ _
        · intro h; cases h

/-- **C35** Under the preconditions `PlainTypes` on the registered types (no parent, a leaf
codec for every type without members, no array member whose element type has members, and
the invariants of the registry: element sizes that are not zero and pairwise different
names), for every root of a registered type and every heap, `ReflectedVariable::serialize`
stops on no assertion, whatever the fuel. In the table that `populate(root, true)` builds
from the empty table, `index` finds every listed variable and the pointee of every pointer
member of a non-null listed variable, and neither the writing of a record nor
`PointerTable::serialize` stops on an assertion: every `index` lookup finds its key. -/
theorem index_lookups_succeed (types : Descriptors) (mem : Memory)
    (R : DescriptorPtr → Prop) (hR : PlainTypes types R) (root : ReflectedVariable)
    (hroot : R root.reflectionData) :
    (∀ fuel : Nat, ReflectedVariable.serialize types mem fuel root ≠ .error .assertion) ∧
    (∀ (fuel : Nat) (t : PointerTable),
      PointerTable.populate types mem fuel root true {} = .ok t →
      (∀ r ∈ t.dataTable, ∃ i, t.index types r.var = .ok i) ∧
      (∀ r ∈ t.dataTable, r.var.instanceData ≠ 0 →
        ∀ m ∈ (types r.var.reflectionData).members, m.isPointer = true →
          ∃ i, t.index types (resolvedPointer mem r.var.instanceData m) = .ok i) ∧
      (∀ (fuel' : Nat), ∀ r ∈ t.dataTable,
        t.serializeRecord types mem fuel' r ≠ .error .assertion) ∧
      (∀ fuel' : Nat, t.serialize types mem fuel' ≠ .error .assertion)) := by
  have hmain : ∀ (fuel : Nat) (t : PointerTable),
      PointerTable.populate types mem fuel root true {} = .ok t →
      (∀ r ∈ t.dataTable, ∃ i, t.index types r.var = .ok i) ∧
      (∀ r ∈ t.dataTable, r.var.instanceData ≠ 0 →
        ∀ m ∈ (types r.var.reflectionData).members, m.isPointer = true →
          ∃ i, t.index types (resolvedPointer mem r.var.instanceData m) = .ok i) ∧
      (∀ (fuel' : Nat), ∀ r ∈ t.dataTable,
        t.serializeRecord types mem fuel' r ≠ .error .assertion) ∧
      (∀ fuel' : Nat, t.serialize types mem fuel' ≠ .error .assertion) := by
    intro fuel t hpop
    obtain ⟨ht, _, _, hexp0⟩ := populate_spec types mem fuel root true {} t
      (consistent_empty types) hpop
    have hexp : ∀ r ∈ t.dataTable, t.Expanded types mem r := by
      intro r hr
      obtain ⟨i, hi⟩ := List.mem_iff_getElem?.mp hr
      exact hexp0 i r (Nat.zero_le _) hi
    have hreg : ∀ r ∈ t.dataTable, R r.var.reflectionData := by
      refine populate_records types mem (fun v => R v.reflectionData) ?_ fuel root true {} t
        hroot (fun r hr => by cases hr) hpop
      intro v hv _ m hm
      unfold childVariable
      split
      · exact hR.closed _ hv m hm
      · exact hR.closed _ hv m hm
    have hlisted : ∀ r ∈ t.dataTable, t.hasPointer types r.var = true := by
      intro r hr
      obtain ⟨i, hi⟩ := List.mem_iff_getElem?.mp hr
      exact (hasPointer_iff types t ht r.var).mpr ⟨i, r, hi, rfl⟩
    have hrecord : ∀ (fuel' : Nat), ∀ r ∈ t.dataTable,
        t.serializeRecord types mem fuel' r ≠ .error .assertion := by
      intro fuel' r hr
      unfold PointerTable.serializeRecord
      split
      · have := serialize_no_assertion types mem R hR t ht hexp hreg fuel' r.var 0 false
          (hreg r hr) (fun _ _ => hlisted r hr) (fun h => by cases h)
        cases he : ReflectionData.serialize types mem t fuel' r.var.reflectionData r.var 0
            false with
        | error e =>
          cases e with
          | assertion => exact absurd he this
          | outOfFuel => simp [bind, Except.bind]
        | ok text => simp [bind, Except.bind, pure, Except.pure]
      · intro h; cases h
    refine ⟨fun r hr => index_of_hasPointer types t ht _ (hlisted r hr), ?_, hrecord, ?_⟩
    · intro r hr h0 m hm hptr
      have := hexp r hr h0 m hm (by simp [followed, hptr])
      rw [childVariable, if_pos hptr] at this
      exact index_of_hasPointer types t ht _ this
    · intro fuel'
      unfold PointerTable.serialize
      have := writeEach_no_assertion (PointerTable.serializeRecord types mem fuel' t)
        t.dataTable (hrecord fuel')
      revert this
      cases writeEach _ _ with
      | error e =>
        cases e with
        | assertion => intro h; exact absurd rfl h
        | outOfFuel => intro _; simp [bind, Except.bind]
      | ok text => intro _; simp [bind, Except.bind, pure, Except.pure]
  refine ⟨?_, hmain⟩
  intro fuel
  unfold ReflectedVariable.serialize
  cases hpop : PointerTable.populate types mem fuel root true {} with
  | error e =>
    cases e with
    | assertion => exact absurd hpop (populate_no_assertion types mem fuel root true {})
    | outOfFuel => simp [bind, Except.bind]
  | ok t =>
    simp only [bind, Except.bind]
    exact (hmain fuel t hpop).2.2.2 fuel

/-- The registered types of the cycle of two nodes, `Node` and `int`, meet the
preconditions. -/
theorem plainTypes_node : PlainTypes exampleTypes (fun p => p = 5 ∨ p = 1) := by
  constructor
  · rintro p (rfl | rfl) m hm
    · simp [exampleTypes] at hm
      rcases hm with rfl | rfl <;> simp
    · simp [exampleTypes, intReflectionData] at hm
  · rintro p (rfl | rfl) <;> rfl
  · rintro p (rfl | rfl) h
    · simp [exampleTypes] at h
    · simp [exampleTypes, intReflectionData]
  · rintro p (rfl | rfl) m hm hptr harr
    · simp [exampleTypes] at hm
      rcases hm with rfl | rfl
      · exact absurd harr (by decide)
      · cases hptr
    · simp [exampleTypes, intReflectionData] at hm
  · rintro p q (rfl | rfl) (rfl | rfl) h
    · rfl
    · exact absurd h (by decide)
    · exact absurd h (by decide)
    · rfl

set_option maxRecDepth 100000 in
theorem index_lookups_succeed_witness :
    ReflectedVariable.serialize exampleTypes cycleMemory 7 ⟨5, 100⟩ = .ok cycleText ∧
    (∀ fuel : Nat,
      ReflectedVariable.serialize exampleTypes cycleMemory fuel ⟨5, 100⟩ ≠ .error .assertion) :=
  ⟨by decide, (index_lookups_succeed exampleTypes cycleMemory (fun p => p = 5 ∨ p = 1)
    plainTypes_node ⟨5, 100⟩ (Or.inl rfl)).1⟩

theorem relatedResults_foldlM {α β γ : Type} (rel : β → γ → Prop)
    (f1 : β → α → Except Fault β) (f2 : γ → α → Except Fault γ) :
    ∀ (l : List α) (b1 : β) (b2 : γ), rel b1 b2 →
      (∀ a ∈ l, ∀ x y, rel x y → RelatedResults rel (f1 x a) (f2 y a)) →
      RelatedResults rel (l.foldlM f1 b1) (l.foldlM f2 b2) := by
  intro l
  induction l with
  | nil => intro b1 b2 h _; exact h
  | cons a rest ih =>
    intro b1 b2 h hstep
    rw [List.foldlM_cons, List.foldlM_cons]
    have ha := hstep a (List.mem_cons_self a rest) b1 b2 h
    cases h1 : f1 b1 a with
    | error e =>
      cases h2 : f2 b2 a with
      | error e' => rw [h1, h2] at ha; exact ha
      | ok y => rw [h1, h2] at ha; exact ha.elim
    | ok x =>
      cases h2 : f2 b2 a with
      | error e' => rw [h1, h2] at ha; exact ha.elim
      | ok y =>
        rw [h1, h2] at ha
        exact ih x y ha (fun c hc => hstep c (List.mem_cons_of_mem a hc))

theorem moved_hasPointer (types : Descriptors) (φ : Address → Address)
    (F : DescriptorPtr → Address → Prop) (t1 t2 : PointerTable)
    (h : PointerTable.Moved φ F t1 t2) (p : DescriptorPtr) (v : ReflectedVariable)
    (hv : F p v.instanceData) :
    t2.hasPointer types (v.moved φ) = t1.hasPointer types v := by
  unfold PointerTable.hasPointer
  show (match t2.lookupTable (φ v.instanceData) with
    | none => false
    | some objects => objects.any (sameTypeName types (v.moved φ))) = _
  rw [h.2 p _ hv]
  rfl

theorem moved_index (types : Descriptors) (φ : Address → Address)
    (F : DescriptorPtr → Address → Prop) (t1 t2 : PointerTable)
    (h : PointerTable.Moved φ F t1 t2) (p : DescriptorPtr) (v : ReflectedVariable)
    (hv : F p v.instanceData) :
    t2.index types (v.moved φ) = t1.index types v := by
  unfold PointerTable.index
  show (match t2.lookupTable (φ v.instanceData) with
    | none => Except.error Fault.assertion
    | some objects =>
      match objects.find? (sameTypeName types (v.moved φ)) with
      | some object => .ok object.tableIndex
      | none => .error .assertion) = _
  rw [h.2 p _ hv]
  rfl

theorem moved_addPointer (types : Descriptors) (mem1 mem2 : Memory) (φ : Address → Address)
    (F : DescriptorPtr → Address → Prop) (hφ : Relocation types mem1 mem2 φ F)
    (t1 t2 : PointerTable) (h : PointerTable.Moved φ F t1 t2) (v : ReflectedVariable)
    (hv : F v.reflectionData v.instanceData) (n : Bool)
    (hp : t1.hasPointer types v = false) :
    PointerTable.Moved φ F (t1.addPointer types v n).2
      (t2.addPointer types (v.moved φ) n).2 := by
  have hp2 : t2.hasPointer types (v.moved φ) = false := by
    rw [moved_hasPointer types φ F t1 t2 h _ v hv]; exact hp
  obtain ⟨objs1, ho1, _, he1⟩ := addPointer_absent types t1 v n hp
  obtain ⟨objs2, ho2, _, he2⟩ := addPointer_absent types t2 (v.moved φ) n hp2
  have hl : t2.lookupTable (φ v.instanceData) = t1.lookupTable v.instanceData := h.2 _ _ hv
  have hobjs : objs2 = objs1 := by
    have hl' : t2.lookupTable (v.moved φ).instanceData = t1.lookupTable v.instanceData := hl
    rcases ho1 with h1 | ⟨h1, e1⟩ <;> rcases ho2 with h2 | ⟨h2, e2⟩
    · rw [hl', h1] at h2; exact (Option.some.inj h2).symm
    · rw [hl', h1] at h2; cases h2
    · rw [hl', h1] at h2; cases h2
    · rw [e1, e2]
  rw [he1, he2, hobjs]
  refine ⟨?_, ?_⟩
  · simp only [PointerTable.pushRecord, h.1, List.map_append, List.map_cons, List.map_nil]
    rfl
  · intro q b hb
    simp only [PointerTable.pushRecord, h.1, List.length_map]
    show (if φ b = φ v.instanceData then _ else _) = _
    by_cases hbv : b = v.instanceData
    · rw [if_pos (by rw [hbv]), if_pos hbv]
      rfl
    · rw [if_neg (fun he => hbv (hφ.injective _ _ _ _ hb hv he)), if_neg hbv]
      exact h.2 q b hb

/-- The variable of a member of the mapped object is the mapped variable of the member. -/
theorem moved_childVariable (types : Descriptors) (mem1 mem2 : Memory) (φ : Address → Address)
    (F : DescriptorPtr → Address → Prop) (hφ : Relocation types mem1 mem2 φ F)
    (p : DescriptorPtr) (a : Address) (hF : F p a) (h0 : a ≠ 0) (m : ReflectedMember)
    (hm : m ∈ (types p).members) :
    (m.isPointer = true →
      F m.data (resolvedPointer mem1 a m).instanceData ∧
      resolvedPointer mem2 (φ a) m = (resolvedPointer mem1 a m).moved φ) ∧
    (m.isPointer = false →
      F m.data (memberVariable a m).instanceData ∧
      memberVariable (φ a) m = (memberVariable a m).moved φ) := by
  constructor
  · intro hptr
    obtain ⟨h1, h2⟩ := hφ.pointers p a hF h0 m hm hptr
    refine ⟨h1, ?_⟩
    unfold resolvedPointer ReflectedVariable.moved
    rw [h2]
  · intro hptr
    obtain ⟨h1, h2⟩ := hφ.inline p a hF h0 m hm hptr 0 (Or.inl rfl)
    simp only [Nat.zero_mul, Nat.add_zero] at h1 h2
    refine ⟨h1, ?_⟩
    unfold memberVariable ReflectedVariable.moved
    rw [h2]

/-- On two heaps that hold the same graph, `populate` builds the same table at the mapped
addresses, or stops on the same fault. -/
theorem moved_populate (types : Descriptors) (mem1 mem2 : Memory) (φ : Address → Address)
    (F : DescriptorPtr → Address → Prop) (hφ : Relocation types mem1 mem2 φ F) :
    ∀ (fuel : Nat) (v : ReflectedVariable) (n : Bool) (t1 t2 : PointerTable),
      F v.reflectionData v.instanceData → PointerTable.Moved φ F t1 t2 →
      RelatedResults (PointerTable.Moved φ F)
        (PointerTable.populate types mem1 fuel v n t1)
        (PointerTable.populate types mem2 fuel (v.moved φ) n t2) := by
  intro fuel
  induction fuel with
  | zero => intro v n t1 t2 _ _; exact rfl
  | succ fuel ih =>
    intro v n t1 t2 hv h
    rw [populate_succ, populate_succ, moved_hasPointer types φ F t1 t2 h _ v hv]
    by_cases hp : t1.hasPointer types v = true
    · rw [if_pos hp, if_pos hp]; exact h
    · rw [if_neg hp, if_neg hp]
      have hadd := moved_addPointer types mem1 mem2 φ F hφ t1 t2 h v hv n (by simpa using hp)
      by_cases h0 : v.instanceData = 0
      · have h0' : (v.moved φ).instanceData = 0 := by
          show φ v.instanceData = 0
          rw [h0]; exact hφ.null
        rw [if_pos h0, if_pos h0']; exact hadd
      · have h0' : ¬ (v.moved φ).instanceData = 0 := hφ.nonNull _ _ hv h0
        rw [if_neg h0, if_neg h0']
        apply relatedResults_foldlM _ _ _ _ _ _ hadd
        intro m hm x y hxy
        obtain ⟨hc1, hc2⟩ := moved_childVariable types mem1 mem2 φ F hφ _ _ hv h0 m hm
        unfold PointerTable.populateMember
        split
        · split
          · rename_i hptr
            obtain ⟨hF, he⟩ := hc1 hptr
            show RelatedResults _ _
              (PointerTable.populate types mem2 fuel (resolvedPointer mem2 (φ v.instanceData) m)
                true y)
            rw [he]
            exact ih _ _ _ _ hF hxy
          · rename_i hptr
            obtain ⟨hF, he⟩ := hc2 (by simpa using hptr)
            show RelatedResults _ _
              (PointerTable.populate types mem2 fuel (memberVariable (φ v.instanceData) m)
                false y)
            rw [he]
            exact ih _ _ _ _ hF hxy
        · exact hxy

theorem writeEach_congr {α : Type} (f g : α → Except Fault Text) :
    ∀ l : List α, (∀ a ∈ l, f a = g a) → writeEach f l = writeEach g l := by
  intro l
  induction l with
  | nil => intro _; rfl
  | cons a rest ih =>
    intro h
    rw [writeEach, writeEach, h a (List.mem_cons_self a rest),
      ih (fun x hx => h x (List.mem_cons_of_mem a hx))]

theorem writeEach_comp {α β : Type} (f : β → Except Fault Text) (g : α → β) :
    ∀ l : List α, writeEach f (l.map g) = writeEach (fun a => f (g a)) l := by
  intro l
  induction l with
  | nil => rfl
  | cons a rest ih => rw [List.map_cons, writeEach, writeEach, ih]

/-- On two heaps that hold the same graph, with tables that hold the same records at the
mapped addresses, `ReflectionData::serialize` writes the same text for a variable and for
the mapped variable, or stops on the same fault. -/
theorem moved_serialize (types : Descriptors) (mem1 mem2 : Memory) (φ : Address → Address)
    (F : DescriptorPtr → Address → Prop) (hφ : Relocation types mem1 mem2 φ F)
    (t1 t2 : PointerTable) (h : PointerTable.Moved φ F t1 t2) :
    ∀ (fuel : Nat) (self : DescriptorPtr) (v : ReflectedVariable) (padding : Nat)
      (isArray : Bool), F self v.instanceData →
      ReflectionData.serialize types mem2 t2 fuel self (v.moved φ) padding isArray =
        ReflectionData.serialize types mem1 t1 fuel self v padding isArray := by
  intro fuel
  induction fuel with
  | zero => intro self v padding isArray _; rfl
  | succ fuel ih =>
    intro self v padding isArray hv
    rw [ReflectionData.serialize, ReflectionData.serialize]
    have hparent : (if (types self).parent != 0 then
          ReflectionData.serialize types mem2 t2 fuel (types self).parent (v.moved φ) padding
            false
        else pure []) =
        (if (types self).parent != 0 then
          ReflectionData.serialize types mem1 t1 fuel (types self).parent v padding false
        else pure []) := by
      by_cases hp : (types self).parent = 0
      · simp [hp]
      · rw [if_pos (by simpa using hp), if_pos (by simpa using hp)]
        exact ih _ v padding false (hφ.parent _ _ hv hp)
    rw [hparent]
    congr 1
    funext parentText
    cases hf : (types self).serializeFunction with
    | some f =>
      simp only
      have := hφ.leaves self v.instanceData hv f hf v.reflectionData
      rw [show v.moved φ = { reflectionData := v.reflectionData, instanceData := φ v.instanceData }
        from rfl, this]
    | none =>
      simp only
      rw [moved_index types φ F t1 t2 h self v hv]
      congr 1
      funext indexText
      by_cases h0 : v.instanceData = 0
      · have h0' : (v.moved φ).instanceData = 0 := by
          show φ v.instanceData = 0
          rw [h0]; exact hφ.null
        rw [if_pos h0, if_pos h0']
      · have h0' : ¬ (v.moved φ).instanceData = 0 := hφ.nonNull _ _ hv h0
        rw [if_neg h0, if_neg h0']
        have hbody : writeEach
            (ReflectionData.serializeMember types mem2 t2
              (ReflectionData.serialize types mem2 t2 fuel) (v.moved φ) (padding + 1))
            (types self).members =
          writeEach
            (ReflectionData.serializeMember types mem1 t1
              (ReflectionData.serialize types mem1 t1 fuel) v (padding + 1))
            (types self).members := by
          apply writeEach_congr
          intro m hm
          obtain ⟨hc1, hc2⟩ := moved_childVariable types mem1 mem2 φ F hφ _ _ hv h0 m hm
          unfold ReflectionData.serializeMember
          by_cases hptr : m.isPointer = true
          · rw [if_pos hptr, if_pos hptr]
            obtain ⟨hF, he⟩ := hc1 hptr
            show (PointerTable.index types t2 (resolvedPointer mem2 (φ v.instanceData) m)
              >>= _) = _
            rw [he, moved_index types φ F t1 t2 h _ _ hF]
          · rw [if_neg hptr, if_neg hptr]
            by_cases harr : m.isArray types = true
            · rw [if_pos harr, if_pos harr]
              by_cases hsize : (types m.data).size = 0
              · rw [if_pos hsize, if_pos hsize]
              · rw [if_neg hsize, if_neg hsize]
                have hel : writeEach
                    (fun k => do
                      let text ← ReflectionData.serialize types mem2 t2 fuel m.data
                        (arrayElement types (v.moved φ).instanceData m k) (padding + 1 + 1) true
                      pure (padStream (padding + 1 + 1) ++ text))
                    (List.range (arrayCount m.size (types m.data).size)) =
                  writeEach
                    (fun k => do
                      let text ← ReflectionData.serialize types mem1 t1 fuel m.data
                        (arrayElement types v.instanceData m k) (padding + 1 + 1) true
                      pure (padStream (padding + 1 + 1) ++ text))
                    (List.range (arrayCount m.size (types m.data).size)) := by
                  apply writeEach_congr
                  intro k hk
                  obtain ⟨hF, he⟩ := hφ.inline _ _ hv h0 m hm (by simpa using hptr) k
                    (Or.inr (List.mem_range.mp hk))
                  have hmove : arrayElement types (v.moved φ).instanceData m k =
                      (arrayElement types v.instanceData m k).moved φ := by
                    unfold arrayElement ReflectedVariable.moved
                    rw [he]
                  rw [hmove, ih m.data _ (padding + 1 + 1) true hF]
                rw [hel]
            · rw [if_neg harr, if_neg harr]
              obtain ⟨hF, he⟩ := hc2 (by simpa using hptr)
              show (ReflectionData.serialize types mem2 t2 fuel m.data
                (memberVariable (φ v.instanceData) m) (padding + 1) false >>= _) = _
              rw [he, ih m.data _ (padding + 1) false hF]
        rw [hbody]

/-- **C33** Table indices and the serialized text do not depend on the addresses of the
objects. For two heaps that hold the same graph (`Relocation`: an address map that sends
null to null, different objects to different addresses, members and array elements to the
same offsets, pointer targets to pointer targets, and leaf values to leaf values with the
same text), `ReflectedVariable::serialize` of the mapped root returns the same text as for
the root, or stops on the same fault, whatever the fuel; when `populate(root, true)`
returns a table on the first heap it returns one on the second heap with the same records
in the same order at the mapped addresses, `index` gives the same index for every object
and its image, and `PointerTable::serialize` writes the same text for both tables. -/
theorem serialize_address_independent (types : Descriptors) (mem1 mem2 : Memory)
    (φ : Address → Address) (F : DescriptorPtr → Address → Prop)
    (hφ : Relocation types mem1 mem2 φ F) (root : ReflectedVariable)
    (hroot : F root.reflectionData root.instanceData) :
    (∀ fuel : Nat, ReflectedVariable.serialize types mem2 fuel (root.moved φ) =
      ReflectedVariable.serialize types mem1 fuel root) ∧
    (∀ (fuel : Nat) (t1 : PointerTable),
      PointerTable.populate types mem1 fuel root true {} = .ok t1 →
      ∃ t2, PointerTable.populate types mem2 fuel (root.moved φ) true {} = .ok t2 ∧
        t2.dataTable = t1.dataTable.map (TableRecord.moved φ) ∧
        (∀ r ∈ t1.dataTable, t2.index types (r.var.moved φ) = t1.index types r.var) ∧
        (∀ (p : DescriptorPtr) (v : ReflectedVariable), F p v.instanceData →
          t2.index types (v.moved φ) = t1.index types v) ∧
        (∀ fuel' : Nat, t2.serialize types mem2 fuel' = t1.serialize types mem1 fuel')) := by
  have hempty : PointerTable.Moved φ F {} {} := ⟨rfl, fun _ _ _ => rfl⟩
  have hmain : ∀ (fuel : Nat) (t1 : PointerTable),
      PointerTable.populate types mem1 fuel root true {} = .ok t1 →
      ∃ t2, PointerTable.populate types mem2 fuel (root.moved φ) true {} = .ok t2 ∧
        t2.dataTable = t1.dataTable.map (TableRecord.moved φ) ∧
        (∀ r ∈ t1.dataTable, t2.index types (r.var.moved φ) = t1.index types r.var) ∧
        (∀ (p : DescriptorPtr) (v : ReflectedVariable), F p v.instanceData →
          t2.index types (v.moved φ) = t1.index types v) ∧
        (∀ fuel' : Nat, t2.serialize types mem2 fuel' = t1.serialize types mem1 fuel') := by
    intro fuel t1 h1
    have hrel := moved_populate types mem1 mem2 φ F hφ fuel root true {} {} hroot hempty
    rw [h1] at hrel
    cases h2 : PointerTable.populate types mem2 fuel (root.moved φ) true {} with
    | error e => rw [h2] at hrel; exact hrel.elim
    | ok t2 =>
      rw [h2] at hrel
      have hmoved : PointerTable.Moved φ F t1 t2 := hrel
      have hrec : ∀ r ∈ t1.dataTable, F r.var.reflectionData r.var.instanceData := by
        refine populate_records types mem1 (fun v => F v.reflectionData v.instanceData) ?_
          fuel root true {} t1 hroot (fun r hr => by cases hr) h1
        intro v hv h0 m hm
        obtain ⟨hc1, hc2⟩ := moved_childVariable types mem1 mem2 φ F hφ _ _ hv h0 m hm
        unfold childVariable
        split
        · rename_i hptr; exact (hc1 hptr).1
        · rename_i hptr; exact (hc2 (by simpa using hptr)).1
      refine ⟨t2, rfl, hmoved.1, ?_, ?_, ?_⟩
      · intro r hr
        exact moved_index types φ F t1 t2 hmoved _ _ (hrec r hr)
      · intro p v hv
        exact moved_index types φ F t1 t2 hmoved p v hv
      · intro fuel'
        unfold PointerTable.serialize
        rw [hmoved.1, List.length_map, writeEach_comp]
        rw [writeEach_congr _ (PointerTable.serializeRecord types mem1 fuel' t1)]
        intro r hr
        unfold PointerTable.serializeRecord
        show (if r.needsSerialization = true then
          (ReflectionData.serialize types mem2 t2 fuel' r.var.reflectionData (r.var.moved φ) 0
            false >>= _) else _) = _
        rw [moved_serialize types mem1 mem2 φ F hφ t1 t2 hmoved fuel' _ r.var 0 false
          (hrec r hr)]
        rfl
  refine ⟨?_, hmain⟩
  intro fuel
  unfold ReflectedVariable.serialize
  cases h1 : PointerTable.populate types mem1 fuel root true {} with
  | error e =>
    have hrel := moved_populate types mem1 mem2 φ F hφ fuel root true {} {} hroot hempty
    rw [h1] at hrel
    cases h2 : PointerTable.populate types mem2 fuel (root.moved φ) true {} with
    | error e' =>
      rw [h2] at hrel
      have : e = e' := hrel
      rw [this]; rfl
    | ok t2 => rw [h2] at hrel; exact hrel.elim
  | ok t1 =>
    obtain ⟨t2, h2, _, _, _, hs⟩ := hmain fuel t1 h1
    rw [h2]
    exact hs fuel

/-- The cycle at 500 and 300 is the cycle at 100 and 200 seen through `relocate`. -/
theorem relocation_cycle :
    Relocation exampleTypes cycleMemory movedCycleMemory relocate cycleFrames := by
  constructor
  · rfl
  · rintro p a ⟨_, rfl | rfl⟩ _ <;> decide
  · rintro p q a b ⟨_, rfl | rfl⟩ ⟨_, rfl | rfl⟩ h
    · rfl
    · exact absurd h (by decide)
    · exact absurd h (by decide)
    · rfl
  · rintro p a ⟨rfl | rfl, _⟩ h <;> exact absurd rfl h
  · rintro p a ⟨rfl | rfl, ha⟩ _ m hm hptr
    · simp [exampleTypes] at hm
      rcases hm with rfl | rfl
      · cases hptr
      · rcases ha with rfl | rfl
        · exact ⟨⟨Or.inl rfl, Or.inr rfl⟩, rfl⟩
        · exact ⟨⟨Or.inl rfl, Or.inl rfl⟩, rfl⟩
    · simp [exampleTypes, intReflectionData] at hm
  · rintro p a ⟨rfl | rfl, ha⟩ _ m hm hptr k hk
    · simp [exampleTypes] at hm
      rcases hm with rfl | rfl
      · have hk0 : k = 0 := by
          rcases hk with hk | hk
          · exact hk
          · have : arrayCount 4 (exampleTypes 1).size = 1 := by decide
            simp only [this] at hk
            omega
        subst hk0
        rcases ha with rfl | rfl
        · exact ⟨⟨Or.inr rfl, Or.inl rfl⟩, rfl⟩
        · exact ⟨⟨Or.inr rfl, Or.inr rfl⟩, rfl⟩
      · cases hptr
    · simp [exampleTypes, intReflectionData] at hm
  · rintro p a ⟨rfl | rfl, ha⟩ f hf d
    · simp [exampleTypes] at hf
    · simp [exampleTypes, intReflectionData] at hf
      subst hf
      rcases ha with rfl | rfl <;> rfl

theorem relocate_bijective : Function.Bijective relocate := by
  have hinv : Function.Involutive relocate := by
    intro a
    unfold relocate
    split_ifs <;> simp_all
  exact hinv.bijective

set_option maxRecDepth 100000 in
theorem serialize_address_independent_witness :
    Function.Bijective relocate ∧
    ReflectedVariable.serialize exampleTypes cycleMemory 7 ⟨5, 100⟩ = .ok cycleText ∧
    ReflectedVariable.serialize exampleTypes movedCycleMemory 7 ⟨5, 500⟩ = .ok cycleText ∧
    (∀ fuel : Nat,
      ReflectedVariable.serialize exampleTypes movedCycleMemory fuel
          ((⟨5, 100⟩ : ReflectedVariable).moved relocate) =
        ReflectedVariable.serialize exampleTypes cycleMemory fuel ⟨5, 100⟩) :=
  ⟨relocate_bijective, by decide, by decide,
    (serialize_address_independent exampleTypes cycleMemory movedCycleMemory relocate
      cycleFrames relocation_cycle ⟨5, 100⟩ ⟨Or.inl rfl, Or.inl rfl⟩).1⟩

theorem foldlM_ok_mono {α β : Type} (f1 f2 : β → α → Except Fault β)
    (h : ∀ x a y, f1 x a = .ok y → f2 x a = .ok y) :
    ∀ (l : List α) (b b' : β), l.foldlM f1 b = .ok b' → l.foldlM f2 b = .ok b' := by
  intro l
  induction l with
  | nil => intro b b' hb; exact hb
  | cons a rest ih =>
    intro b b' hb
    rw [List.foldlM_cons] at hb ⊢
    obtain ⟨b1, h1, hb⟩ := (bind_ok _ _ _).mp hb
    exact (bind_ok _ _ _).mpr ⟨b1, h _ _ _ h1, ih _ _ hb⟩

/-- The body of the member loop returns the same state with a recursive call that returns
whenever the first one does. -/
theorem deserializeMember_ok_mono (types : Descriptors)
    (d1 d2 : DescriptorPtr → ReflectedVariable → Loader → Bool →
      Except Fault (ReflectedVariable × Loader))
    (h : ∀ p v st b r, d1 p v st b = .ok r → d2 p v st b = .ok r)
    (var : ReflectedVariable) (st st' : Loader) (member : ReflectedMember)
    (hd : ReflectionData.deserializeMember types d1 var st member = .ok st') :
    ReflectionData.deserializeMember types d2 var st member = .ok st' := by
  unfold ReflectionData.deserializeMember at hd ⊢
  split
  · rename_i hptr
    rw [if_pos hptr] at hd
    exact hd
  · rename_i hptr
    rw [if_neg hptr] at hd
    split
    · rename_i harr
      rw [if_pos harr] at hd
      split
      · rename_i hsize
        rw [if_pos hsize] at hd
        exact hd
      · rename_i hsize
        rw [if_neg hsize] at hd
        refine foldlM_ok_mono _ _ ?_ _ _ _ hd
        intro x k y hx
        obtain ⟨r, hr, hx⟩ := (bind_ok _ _ _).mp hx
        exact (bind_ok _ _ _).mpr ⟨r, h _ _ _ _ _ hr, hx⟩
    · rename_i harr
      rw [if_neg harr] at hd
      obtain ⟨r, hr, hd⟩ := (bind_ok _ _ _).mp hd
      exact (bind_ok _ _ _).mpr ⟨r, h _ _ _ _ _ hr, hd⟩

/-- More fuel does not change what `ReflectionData::deserialize` and its member loop
return. -/
theorem deserialize_fuel_succ (types : Descriptors) : ∀ fuel : Nat,
    (∀ self var st isArray r,
      ReflectionData.deserialize types fuel self var st isArray = .ok r →
      ReflectionData.deserialize types (fuel + 1) self var st isArray = .ok r) ∧
    (∀ self var st r,
      ReflectionData.deserializeMembers types fuel self var st = .ok r →
      ReflectionData.deserializeMembers types (fuel + 1) self var st = .ok r) := by
  intro fuel
  induction fuel with
  | zero =>
    constructor
    · intro self var st isArray r h; simp [ReflectionData.deserialize] at h
    · intro self var st r h; simp [ReflectionData.deserializeMembers] at h
  | succ fuel ih =>
    obtain ⟨ihd, ihm⟩ := ih
    constructor
    · intro self var st isArray r h
      rw [deserialize_succ] at h ⊢
      obtain ⟨⟨var0, st0⟩, hpar, h⟩ := (bind_ok _ _ _).mp h
      refine (bind_ok _ _ _).mpr ⟨(var0, st0), ?_, ?_⟩
      · split
        · rename_i hp
          rw [if_pos hp] at hpar
          exact ihd _ _ _ _ _ hpar
        · rename_i hp
          rw [if_neg hp] at hpar
          exact hpar
      · dsimp only at h ⊢
        cases hf : (types self).deserializeFunction with
        | some f => rw [hf] at h; exact h
        | none =>
          rw [hf] at h
          dsimp only at h ⊢
          obtain ⟨⟨tableIndex, s1⟩, h1, h⟩ := (bind_ok _ _ _).mp h
          refine (bind_ok _ _ _).mpr ⟨(tableIndex, s1), h1, ?_⟩
          dsimp only at h ⊢
          obtain ⟨⟨typeName, s2⟩, h2, h⟩ := (bind_ok _ _ _).mp h
          refine (bind_ok _ _ _).mpr ⟨(typeName, s2), h2, ?_⟩
          dsimp only at h ⊢
          split
          · rename_i hn
            rw [if_pos hn] at h; exact h
          · rename_i hn
            rw [if_neg hn] at h
            obtain ⟨⟨bracket, s3⟩, h3, h⟩ := (bind_ok _ _ _).mp h
            refine (bind_ok _ _ _).mpr ⟨(bracket, s3), h3, ?_⟩
            dsimp only at h ⊢
            split
            · rename_i hb
              rw [if_pos hb] at h; exact h
            · rename_i hb
              rw [if_neg hb] at h
              obtain ⟨⟨var1, st1⟩, hm, h⟩ := (bind_ok _ _ _).mp h
              exact (bind_ok _ _ _).mpr ⟨(var1, st1), ihm _ _ _ _ hm, h⟩
    · intro self var st r h
      rw [deserializeMembers_succ] at h ⊢
      obtain ⟨⟨streamInput, s1⟩, h1, h⟩ := (bind_ok _ _ _).mp h
      refine (bind_ok _ _ _).mpr ⟨(streamInput, s1), h1, ?_⟩
      dsimp only at h ⊢
      split
      · rename_i hn
        rw [if_pos hn] at h
        exact ihm _ _ _ _ h
      · rename_i hn
        rw [if_neg hn] at h
        obtain ⟨st1, hstep, h⟩ := (bind_ok _ _ _).mp h
        refine (bind_ok _ _ _).mpr ⟨st1, ?_, ?_⟩
        · cases hmem : (types self).member streamInput with
          | none => rw [hmem] at hstep; exact hstep
          | some member =>
            rw [hmem] at hstep
            exact deserializeMember_ok_mono types _ _ ihd _ _ _ _ hstep
        · split
          · rename_i hc
            rw [if_pos hc] at h; exact h
          · rename_i hc
            rw [if_neg hc] at h
            exact ihm _ _ _ _ h

theorem deserialize_fuel_le (types : Descriptors) (fuel fuel' : Nat) (hle : fuel ≤ fuel')
    (self : DescriptorPtr) (var : ReflectedVariable) (st : Loader) (isArray : Bool)
    (r : ReflectedVariable × Loader)
    (h : ReflectionData.deserialize types fuel self var st isArray = .ok r) :
    ReflectionData.deserialize types fuel' self var st isArray = .ok r := by
  induction hle with
  | refl => exact h
  | step _ ih => exact (deserialize_fuel_succ types _).1 _ _ _ _ _ ih

theorem deserializeMembers_fuel_le (types : Descriptors) (fuel fuel' : Nat) (hle : fuel ≤ fuel')
    (self : DescriptorPtr) (var : ReflectedVariable) (st : Loader)
    (r : ReflectedVariable × Loader)
    (h : ReflectionData.deserializeMembers types fuel self var st = .ok r) :
    ReflectionData.deserializeMembers types fuel' self var st = .ok r := by
  induction hle with
  | refl => exact h
  | step _ ih => exact (deserialize_fuel_succ types _).2 _ _ _ _ ih

/-- In a consistent table `index` returns an index below the size of the table. -/
theorem index_lt (types : Descriptors) (t : PointerTable) (ht : t.Consistent types)
    (v : ReflectedVariable) (i : Nat) (h : t.index types v = .ok i) :
    i < t.dataTable.length := by
  unfold PointerTable.index at h
  cases hl : t.lookupTable v.instanceData with
  | none => rw [hl] at h; cases h
  | some objs =>
    rw [hl] at h
    dsimp only at h
    cases hf : objs.find? (sameTypeName types v) with
    | none => rw [hf] at h; cases h
    | some o =>
      rw [hf] at h
      simp only [Except.ok.injEq] at h
      obtain ⟨r, hr, _⟩ := ht.sound _ _ o hl (List.mem_of_find?_eq_some hf)
      rw [← h]
      exact (List.getElem?_eq_some_iff.mp hr).1

/-- Formatted extraction of a token that stands after whitespace and before a whitespace
character. -/
theorem extractToken_line (white name : Text) (c : Char) (rest : Text)
    (hwhite : ∀ x ∈ white, isSpace x = true) (hname : TokenName name)
    (hc : isSpace c = true) :
    extractToken (white ++ (name ++ c :: rest)) = .ok (name, c :: rest) := by
  rw [extractToken_white white _ hwhite]
  exact extractToken_append name c rest hname.1 hname.2 hc

theorem member_none_of_names (d : ReflectionData) (name : Text)
    (h : ∀ m ∈ d.members, m.name ≠ name) : d.member name = none := by
  unfold ReflectionData.member
  rw [List.find?_eq_none]
  intro m hm
  simpa using h m hm

/-- Reading the line of an inline member of a type, leaf or not, runs
`ReflectionData::deserialize` on the member, and the loop goes on from the state that the
call leaves. -/
theorem deserializeMembers_inline (types : Descriptors) (fuel : Nat) (self : DescriptorPtr)
    (var var' : ReflectedVariable) (st st' : Loader) (member : ReflectedMember) (s1 : Text)
    (hstream : extractToken st.stream = .ok (member.name, s1))
    (hmember : (types self).member member.name = some member)
    (hpointer : member.isPointer = false) (harray : member.isArray types = false)
    (hnested : ReflectionData.deserialize types fuel member.data
      (memberVariable var.instanceData member) { st with stream := s1 } false = .ok (var', st'))
    (hnull : member.name ≠ ['n', 'u', 'l', 'l']) (hclose : member.name ≠ [']']) :
    ReflectionData.deserializeMembers types (fuel + 1) self var st =
      ReflectionData.deserializeMembers types fuel self var st' := by
  rw [deserializeMembers_succ]
  simp [hstream, hmember, hpointer, harray, hnested, hnull, hclose,
    ReflectionData.deserializeMember, bind, Except.bind, pure, Except.pure]

/-- Reading the line of an array member runs `ReflectionData::deserialize` on every
element in turn, and the loop goes on from the state that the last call leaves. -/
theorem deserializeMembers_array (types : Descriptors) (fuel : Nat) (self : DescriptorPtr)
    (var : ReflectedVariable) (st st' : Loader) (member : ReflectedMember) (s1 : Text)
    (hstream : extractToken st.stream = .ok (member.name, s1))
    (hmember : (types self).member member.name = some member)
    (hpointer : member.isPointer = false) (harray : member.isArray types = true)
    (hsize : (types member.data).size ≠ 0)
    (hfold : (List.range (arrayCount member.size (types member.data).size)).foldlM
        (fun st k => do
          let (_, st) ← ReflectionData.deserialize types fuel member.data
            (arrayElement types var.instanceData member k) st true
          pure st)
        { st with stream := s1 } = .ok st')
    (hnull : member.name ≠ ['n', 'u', 'l', 'l']) (hclose : member.name ≠ [']']) :
    ReflectionData.deserializeMembers types (fuel + 1) self var st =
      ReflectionData.deserializeMembers types fuel self var st' := by
  have hstep : ReflectionData.deserializeMember types (ReflectionData.deserialize types fuel)
      var { st with stream := s1 } member = .ok st' := by
    unfold ReflectionData.deserializeMember
    rw [if_neg (by simp [hpointer]), if_pos harray, if_neg hsize]
    exact hfold
  rw [deserializeMembers_succ, hstream]
  simp only [bind, Except.bind, hnull, if_false, hmember, hstep, hclose]

/-- The codec branch of `ReflectionData::deserialize`, after the call on the parent. -/
theorem deserialize_own_leaf (types : Descriptors) (fuel : Nat) (self : DescriptorPtr)
    (var var0 : ReflectedVariable) (st st0 : Loader) (isArray : Bool)
    (hparent : (if (types self).parent != 0 then
        ReflectionData.deserialize types fuel (types self).parent var st isArray
      else pure (var, st)) = .ok (var0, st0))
    (g : DeserializeFunction) (hg : (types self).deserializeFunction = some g) (rest : Text)
    (memory : Memory) (hrun : g st0.heap.memory var0 st0.stream = .ok (rest, memory)) :
    ReflectionData.deserialize types (fuel + 1) self var st isArray =
      .ok (var0, { st0 with stream := rest, heap := { st0.heap with memory := memory } }) := by
  rw [deserialize_succ, hparent]
  simp [hg, hrun, bind, Except.bind, pure, Except.pure]

/-- The block branch of `ReflectionData::deserialize`, after the call on the parent. -/
theorem deserialize_own_block (types : Descriptors) (fuel : Nat) (self : DescriptorPtr)
    (var var0 var' : ReflectedVariable) (st st0 st' : Loader) (isArray : Bool) (index : Nat)
    (s1 s2 s3 : Text)
    (hparent : (if (types self).parent != 0 then
        ReflectionData.deserialize types fuel (types self).parent var st isArray
      else pure (var, st)) = .ok (var0, st0))
    (hcodec : (types self).deserializeFunction = none)
    (hindex : (if isArray then pure (0, st0.stream) else extractSize st0.stream)
      = .ok (index, s1))
    (hname : extractToken s1 = .ok ((types self).name, s2))
    (hopen : extractToken s2 = .ok (['['], s3))
    (hmembers : ReflectionData.deserializeMembers types fuel self var0 { st0 with stream := s3 }
      = .ok (var', st'))
    (hlen : index < st'.table.dataTable.length) :
    ∃ st'', ReflectionData.deserialize types (fuel + 1) self var st isArray = .ok (var', st'') ∧
      st''.stream = st'.stream ∧
      st''.table.dataTable.length = st'.table.dataTable.length := by
  rw [deserialize_succ, hparent]
  by_cases hp : (types self).parent = 0
  · refine ⟨{ st' with table := st'.table.withEntry index var' }, ?_, rfl,
      withEntry_length _ _ _⟩
    simp only [bind, Except.bind, hcodec, hindex, hname, hopen, hmembers]
    simp [hp, publish_ok _ _ _ hlen, pure, Except.pure]
  · refine ⟨st', ?_, rfl, rfl⟩
    simp only [bind, Except.bind, hcodec, hindex, hname, hopen, hmembers]
    simp [hp, pure, Except.pure]


/-- The decoder consumes the elements of an array member that the encoder wrote, one call
of `ReflectionData::deserialize` for each element. -/
theorem elements_consumed (types : Descriptors) (mem : Memory) (t : PointerTable)
    (fuelS : Nat) (m : ReflectedMember) (src : Address) (padding : Nat) (P : Nat → Prop)
    (ih : ∀ (k : Nat) (text : Text), P k →
      ReflectionData.serialize types mem t fuelS m.data (arrayElement types src m k) padding
        true = .ok text →
      Consumed types m.data true t.dataTable.length text) :
    ∀ (ks : List Nat) (etext : Text), (∀ k ∈ ks, P k) →
      writeEach (fun k => do
          let text ← ReflectionData.serialize types mem t fuelS m.data
            (arrayElement types src m k) padding true
          pure (padStream padding ++ text)) ks = .ok etext →
      ∀ (dst : Address) (st : Loader) (white tail : Text),
        (∀ c ∈ white, isSpace c = true) → st.stream = white ++ etext ++ tail →
        0 < st.table.dataTable.length → t.dataTable.length ≤ st.table.dataTable.length →
        ∃ (N : Nat) (st1 : Loader) (white' : Text),
          (∀ c ∈ white', isSpace c = true) ∧ st1.stream = white' ++ tail ∧
          st1.table.dataTable.length = st.table.dataTable.length ∧
          ∀ fuel, N ≤ fuel →
            ks.foldlM (fun st k => do
                let (_, st) ← ReflectionData.deserialize types fuel m.data
                  (arrayElement types dst m k) st true
                pure st) st = .ok st1 := by
  intro ks
  induction ks with
  | nil =>
    intro etext _ h dst st white tail hwhite hst _ _
    simp only [writeEach, pure, Except.pure, Except.ok.injEq] at h
    subst h
    exact ⟨0, st, white, hwhite, by rw [hst]; simp, rfl, fun _ _ => rfl⟩
  | cons k ks ihk =>
    intro etext hP h dst st white tail hwhite hst hpos hlen
    rw [writeEach] at h
    obtain ⟨tk, htk, h⟩ := (bind_ok _ _ _).mp h
    obtain ⟨more, hmore, h⟩ := (bind_ok _ _ _).mp h
    simp only [pure, Except.pure, Except.ok.injEq] at h
    obtain ⟨text, htext, htk⟩ := (bind_ok _ _ _).mp htk
    simp only [pure, Except.pure, Except.ok.injEq] at htk
    obtain ⟨body, hbody, hdec⟩ := ih k _ (hP k (List.mem_cons_self k ks)) htext
    have hstream : st.stream = (white ++ padStream padding) ++ body ++ '\n' :: (more ++ tail) := by
      rw [hst, ← h, ← htk, hbody]
      simp only [List.append_assoc, List.cons_append, List.nil_append]
    have hwhite2 : ∀ c ∈ white ++ padStream padding, isSpace c = true := by
      intro c hc
      rcases List.mem_append.mp hc with hc | hc
      · exact hwhite c hc
      · rw [padStream, List.mem_replicate] at hc
        rw [hc.2]; decide
    obtain ⟨fuelD, var', st', hdes, hs', hl'⟩ := hdec (arrayElement types dst m k) st _ _
      hwhite2 hstream hpos hlen
    obtain ⟨N, st1, white', hw', hs1, hl1, hfold⟩ := ihk more
      (fun x hx => hP x (List.mem_cons_of_mem k hx)) hmore dst st' ['\n'] tail
      (by intro c hc; rw [List.mem_singleton.mp hc]; decide)
      (by rw [hs']; simp) (by rw [hl']; exact hpos) (by rw [hl']; exact hlen)
    refine ⟨max fuelD N, st1, white', hw', hs1, by rw [hl1, hl'], ?_⟩
    intro fuel hfuel
    rw [List.foldlM_cons]
    refine (bind_ok _ _ _).mpr ⟨st', ?_, hfold fuel (le_trans (le_max_right _ _) hfuel)⟩
    exact (bind_ok _ _ _).mpr ⟨(var', st'),
      deserialize_fuel_le types fuelD fuel (le_trans (le_max_left _ _) hfuel) _ _ _ _ _ hdes,
      rfl⟩

/-- The decoder consumes the line, or the lines, that the encoder wrote for one member,
and its member loop goes on after them. -/
theorem member_consumed (types : Descriptors) (mem : Memory)
    (F : DescriptorPtr → Address → Prop)
    (hD : Decodable types mem F) (t : PointerTable) (ht : t.Consistent types)
    (hsize : t.dataTable.length < 2 ^ 64) (fuelS : Nat)
    (ih : ∀ (self : DescriptorPtr) (v : ReflectedVariable) (padding : Nat) (isArray : Bool)
      (text : Text), F self v.instanceData → (isArray = true → (types self).parent = 0) →
      ReflectionData.serialize types mem t fuelS self v padding isArray = .ok text →
      Consumed types self isArray t.dataTable.length text)
    (self : DescriptorPtr) (v : ReflectedVariable) (hself : F self v.instanceData)
    (h0 : v.instanceData ≠ 0) (padding : Nat)
    (m : ReflectedMember) (hm : m ∈ (types self).members) (text : Text)
    (h : ReflectionData.serializeMember types mem t (ReflectionData.serialize types mem t fuelS)
      v padding m = .ok text) :
    ∀ (dest : ReflectedVariable) (st : Loader) (white tail : Text),
      (∀ c ∈ white, isSpace c = true) → st.stream = white ++ text ++ tail →
      0 < st.table.dataTable.length → t.dataTable.length ≤ st.table.dataTable.length →
      ∃ (N : Nat) (st1 : Loader) (white' : Text),
        (∀ c ∈ white', isSpace c = true) ∧ st1.stream = white' ++ tail ∧
        st1.table.dataTable.length = st.table.dataTable.length ∧
        ∀ fuel r, ReflectionData.deserializeMembers types fuel self dest st1 = .ok r →
          ReflectionData.deserializeMembers types (fuel + N) self dest st = .ok r := by
  intro dest st white tail hwhite hst hpos hlen
  obtain ⟨hfind, hname, hnull, hclose⟩ := hD.memberNames self _ hself m hm
  have hwhite2 : ∀ c ∈ white ++ padStream padding, isSpace c = true := by
    intro c hc
    rcases List.mem_append.mp hc with hc | hc
    · exact hwhite c hc
    · rw [padStream, List.mem_replicate] at hc
      rw [hc.2]; decide
  have hnl : ∀ c ∈ ['\n'], isSpace c = true := by
    intro c hc; rw [List.mem_singleton.mp hc]; decide
  unfold ReflectionData.serializeMember at h
  by_cases hptr : m.isPointer = true
  · rw [if_pos hptr] at h
    obtain ⟨index, hindex, h⟩ := (bind_ok _ _ _).mp h
    simp only [pure, Except.pure, Except.ok.injEq] at h
    have hstream : st.stream = (white ++ padStream padding) ++
        (m.name ++ ' ' :: (showNat index ++ '\n' :: tail)) := by
      rw [hst, ← h]
      simp only [List.append_assoc, List.cons_append, List.nil_append]
    have htok : extractToken st.stream = .ok (m.name, ' ' :: (showNat index ++ '\n' :: tail)) := by
      rw [hstream]
      exact extractToken_line _ _ _ _ hwhite2 hname (by decide)
    have hidx : extractSize (' ' :: (showNat index ++ '\n' :: tail)) = .ok (index, '\n' :: tail) := by
      rw [show ' ' :: (showNat index ++ '\n' :: tail) = [' '] ++ (showNat index ++ '\n' :: tail)
        from rfl, extractSize_white _ _ (by intro c hc; rw [List.mem_singleton.mp hc]; decide)]
      exact extractSize_showNat_cons index '\n' tail
        (lt_trans (index_lt types t ht _ _ hindex) hsize) (by decide)
    refine ⟨1, { st with
        stream := '\n' :: tail
        table := st.table.addPatchPointer index (memberVariable dest.instanceData m) },
      ['\n'], hnl, rfl, rfl, ?_⟩
    intro fuel r hr
    rw [deserializeMembers_pointer types fuel self dest st m index _ _ htok hidx hfind hptr hnull
      hclose]
    exact hr
  · have hptr' : m.isPointer = false := by simpa using hptr
    rw [if_neg hptr] at h
    by_cases harr : m.isArray types = true
    · rw [if_pos harr] at h
      by_cases hsz : (types m.data).size = 0
      · rw [if_pos hsz] at h; cases h
      · rw [if_neg hsz] at h
        obtain ⟨elements, hel, h⟩ := (bind_ok _ _ _).mp h
        simp only [pure, Except.pure, Except.ok.injEq] at h
        have hstream : st.stream = (white ++ padStream padding) ++
            (m.name ++ '\n' :: (elements ++ tail)) := by
          rw [hst, ← h]
          simp only [List.append_assoc, List.cons_append, List.nil_append]
        have htok : extractToken st.stream = .ok (m.name, '\n' :: (elements ++ tail)) := by
          rw [hstream]
          exact extractToken_line _ _ _ _ hwhite2 hname (by decide)
        obtain ⟨N, st1, white', hw', hs1, hl1, hfold⟩ :=
          elements_consumed types mem t fuelS m v.instanceData (padding + 1)
            (fun k => k < arrayCount m.size (types m.data).size)
            (fun k text hk hw => ih m.data _ (padding + 1) true text
              (hD.members _ _ hself h0 m hm hptr' k (Or.inr hk))
              (fun _ => hD.elements _ _ hself m hm hptr' harr) hw)
            _ elements (fun k hk => List.mem_range.mp hk) hel dest.instanceData { st with stream := '\n' :: (elements ++ tail) }
            ['\n'] tail hnl (by simp) hpos hlen
        refine ⟨N + 1, st1, white', hw', hs1, hl1, ?_⟩
        intro fuel r hr
        rw [show fuel + (N + 1) = (fuel + N) + 1 from rfl,
          deserializeMembers_array types (fuel + N) self dest st st1 m _ htok hfind hptr' harr hsz
            (hfold (fuel + N) (Nat.le_add_left _ _)) hnull hclose]
        exact deserializeMembers_fuel_le types fuel (fuel + N) (Nat.le_add_right _ _) _ _ _ _ hr
    · have harr' : m.isArray types = false := by simpa using harr
      rw [if_neg harr] at h
      obtain ⟨ntext, hntext, h⟩ := (bind_ok _ _ _).mp h
      simp only [pure, Except.pure, Except.ok.injEq] at h
      have hFm : F m.data (memberVariable v.instanceData m).instanceData := by
        have := hD.members _ _ hself h0 m hm hptr' 0 (Or.inl rfl)
        simpa only [Nat.zero_mul, Nat.add_zero] using this
      obtain ⟨body, hbody, hdec⟩ := ih m.data _ padding false ntext hFm
        (fun hc => by cases hc) hntext
      have hstream : st.stream = (white ++ padStream padding) ++
          (m.name ++ ' ' :: (body ++ '\n' :: tail)) := by
        rw [hst, ← h, hbody]
        simp only [List.append_assoc, List.cons_append, List.nil_append]
      have htok : extractToken st.stream = .ok (m.name, ' ' :: (body ++ '\n' :: tail)) := by
        rw [hstream]
        exact extractToken_line _ _ _ _ hwhite2 hname (by decide)
      obtain ⟨fuelD, var', st', hdes, hs', hl'⟩ := hdec (memberVariable dest.instanceData m)
        { st with stream := ' ' :: (body ++ '\n' :: tail) } [' '] tail
        (by intro c hc; rw [List.mem_singleton.mp hc]; decide) (by simp) hpos hlen
      refine ⟨fuelD + 1, st', ['\n'], hnl, hs', hl', ?_⟩
      intro fuel r hr
      rw [show fuel + (fuelD + 1) = (fuel + fuelD) + 1 from rfl,
        deserializeMembers_inline types (fuel + fuelD) self dest var' st st' m _ htok hfind hptr'
          harr'
          (deserialize_fuel_le types fuelD (fuel + fuelD) (Nat.le_add_left _ _) _ _ _ _ _ hdes)
          hnull hclose]
      exact deserializeMembers_fuel_le types fuel (fuel + fuelD) (Nat.le_add_right _ _) _ _ _ _ hr

/-- The decoder consumes the member lines that the encoder wrote for a list of members of
a type, and its member loop goes on after them. -/
theorem members_consumed (types : Descriptors) (mem : Memory)
    (F : DescriptorPtr → Address → Prop)
    (hD : Decodable types mem F) (t : PointerTable) (ht : t.Consistent types)
    (hsize : t.dataTable.length < 2 ^ 64) (fuelS : Nat)
    (ih : ∀ (self : DescriptorPtr) (v : ReflectedVariable) (padding : Nat) (isArray : Bool)
      (text : Text), F self v.instanceData → (isArray = true → (types self).parent = 0) →
      ReflectionData.serialize types mem t fuelS self v padding isArray = .ok text →
      Consumed types self isArray t.dataTable.length text)
    (self : DescriptorPtr) (v : ReflectedVariable) (hself : F self v.instanceData)
    (h0 : v.instanceData ≠ 0) (padding : Nat) :
    ∀ (ms : List ReflectedMember), (∀ m ∈ ms, m ∈ (types self).members) → ∀ (text : Text),
      writeEach (ReflectionData.serializeMember types mem t
        (ReflectionData.serialize types mem t fuelS) v padding) ms = .ok text →
      ∀ (dest : ReflectedVariable) (st : Loader) (white tail : Text),
        (∀ c ∈ white, isSpace c = true) → st.stream = white ++ text ++ tail →
        0 < st.table.dataTable.length → t.dataTable.length ≤ st.table.dataTable.length →
        ∃ (N : Nat) (st1 : Loader) (white' : Text),
          (∀ c ∈ white', isSpace c = true) ∧ st1.stream = white' ++ tail ∧
          st1.table.dataTable.length = st.table.dataTable.length ∧
          ∀ fuel r, ReflectionData.deserializeMembers types fuel self dest st1 = .ok r →
            ReflectionData.deserializeMembers types (fuel + N) self dest st = .ok r := by
  intro ms
  induction ms with
  | nil =>
    intro _ text h dest st white tail hwhite hst _ _
    simp only [writeEach, pure, Except.pure, Except.ok.injEq] at h
    subst h
    exact ⟨0, st, white, hwhite, by rw [hst]; simp, rfl, fun _ _ hr => hr⟩
  | cons m ms ihm =>
    intro hmem text h dest st white tail hwhite hst hpos hlen
    rw [writeEach] at h
    obtain ⟨mtext, hmtext, h⟩ := (bind_ok _ _ _).mp h
    obtain ⟨more, hmore, h⟩ := (bind_ok _ _ _).mp h
    simp only [pure, Except.pure, Except.ok.injEq] at h
    obtain ⟨N1, st1, white1, hw1, hs1, hl1, hred1⟩ :=
      member_consumed types mem F hD t ht hsize fuelS ih self v hself h0 padding m
        (hmem m (List.mem_cons_self m ms)) mtext hmtext dest st white (more ++ tail) hwhite
        (by rw [hst, ← h]; simp only [List.append_assoc]) hpos hlen
    obtain ⟨N2, st2, white2, hw2, hs2, hl2, hred2⟩ :=
      ihm (fun x hx => hmem x (List.mem_cons_of_mem m hx)) more hmore dest st1 white1 tail hw1
        (by rw [hs1]; simp only [List.append_assoc]) (by rw [hl1]; exact hpos)
        (by rw [hl1]; exact hlen)
    refine ⟨N2 + N1, st2, white2, hw2, hs2, by rw [hl2, hl1], ?_⟩
    intro fuel r hr
    rw [← Nat.add_assoc]
    exact hred1 _ r (hred2 fuel r hr)


/-- `ReflectionData::deserialize` consumes what `ReflectionData::serialize` wrote, up to
the newline that follows the closing token of the block, and nothing after it. -/
theorem serialized_consumed (types : Descriptors) (mem : Memory)
    (F : DescriptorPtr → Address → Prop)
    (hD : Decodable types mem F) (t : PointerTable) (ht : t.Consistent types)
    (hsize : t.dataTable.length < 2 ^ 64) :
    ∀ (fuelS : Nat) (self : DescriptorPtr) (v : ReflectedVariable) (padding : Nat)
      (isArray : Bool) (text : Text), F self v.instanceData →
      (isArray = true → (types self).parent = 0) →
      ReflectionData.serialize types mem t fuelS self v padding isArray = .ok text →
      Consumed types self isArray t.dataTable.length text := by
  intro fuelS
  induction fuelS with
  | zero => intro self v padding isArray text _ _ h; simp [ReflectionData.serialize] at h
  | succ fuelS ih =>
    intro self v padding isArray text hself harr h
    rw [ReflectionData.serialize] at h
    obtain ⟨parentText, hparentS, h⟩ := (bind_ok _ _ _).mp h
    -- what the call on the parent leaves
    have hpar :
        ∀ (dest : ReflectedVariable) (st : Loader) (white rest : Text),
          (∀ c ∈ white, isSpace c = true) → st.stream = white ++ parentText ++ rest →
          0 < st.table.dataTable.length → t.dataTable.length ≤ st.table.dataTable.length →
          ∃ (fuelP : Nat) (var0 : ReflectedVariable) (st0 : Loader) (white0 : Text),
            (∀ c ∈ white0, isSpace c = true) ∧ st0.stream = white0 ++ rest ∧
            st0.table.dataTable.length = st.table.dataTable.length ∧
            ∀ fuel, fuelP ≤ fuel →
              (if (types self).parent != 0 then
                ReflectionData.deserialize types fuel (types self).parent dest st isArray
              else pure (dest, st)) = .ok (var0, st0) := by
      by_cases hp : (types self).parent = 0
      · simp only [hp, bne_self_eq_false, Bool.false_eq_true, if_false, pure, Except.pure,
          Except.ok.injEq] at hparentS
        subst hparentS
        intro dest st white rest hwhite hst _ _
        refine ⟨0, dest, st, white, hwhite, by rw [hst]; simp, rfl, ?_⟩
        intro fuel _
        simp [hp, pure, Except.pure]
      · have hp' : ((types self).parent != 0) = true := by simpa using hp
        have hf : isArray = false := by
          cases isArray with
          | false => rfl
          | true => exact absurd (harr rfl) hp
        rw [if_pos hp'] at hparentS
        obtain ⟨pbody, hpbody, hdec⟩ := ih _ v padding false parentText
          (hD.parent _ _ hself hp) (fun hc => by cases hc) hparentS
        intro dest st white rest hwhite hst hpos hlen
        obtain ⟨fuelP, var0, st0, hdes, hs0, hl0⟩ := hdec dest st white rest hwhite
          (by rw [hst, hpbody]; simp only [List.append_assoc, List.cons_append,
            List.nil_append]) hpos hlen
        refine ⟨fuelP, var0, st0, ['\n'],
          (by intro c hc; rw [List.mem_singleton.mp hc]; decide), hs0, hl0, ?_⟩
        intro fuel hfuel
        rw [if_pos hp', hf]
        exact deserialize_fuel_le types fuelP fuel hfuel _ _ _ _ _ hdes
    have hpdec := hpar
    cases hcodec : (types self).serializeFunction with
    | some f =>
      rw [hcodec] at h
      simp only [pure, Except.pure, Except.ok.injEq] at h
      obtain ⟨g, hg, hcons⟩ := hD.codecs self _ hself f hcodec
      obtain ⟨body, hbody, hrun⟩ := hcons v.reflectionData
      refine ⟨parentText ++ body, by rw [← h, hbody, List.append_assoc], ?_⟩
      intro dest st white rest hwhite hst hpos hlen
      obtain ⟨fuelP, var0, st0, white0, hw0, hs0, hl0, hparentD⟩ := hpdec dest st white
        (body ++ '\n' :: rest) hwhite (by rw [hst]; simp only [List.append_assoc]) hpos hlen
      obtain ⟨memory', hrun'⟩ := hrun st0.heap.memory var0 white0 rest hw0
      have hrun'' : g st0.heap.memory var0 st0.stream = .ok ('\n' :: rest, memory') := by
        rw [hs0, ← List.append_assoc]; exact hrun'
      exact ⟨fuelP + 1, var0, _,
        deserialize_own_leaf types fuelP self dest var0 st st0 isArray (hparentD fuelP (le_refl _))
          g hg _ _ hrun'', rfl, hl0⟩
    | none =>
      rw [hcodec] at h
      dsimp only at h
      obtain ⟨indexText, hindexS, h⟩ := (bind_ok _ _ _).mp h
      have hname := hD.typeName self _ hself hcodec
      have hnoCodec := hD.noCodec self _ hself hcodec
      have hclose : (types self).member [']'] = none :=
        member_none_of_names _ _ (fun m hm => (hD.memberNames self _ hself m hm).2.2.2)
      have hwpad : ∀ (white : Text) (n : Nat), (∀ c ∈ white, isSpace c = true) →
          ∀ c ∈ white ++ padStream n, isSpace c = true := by
        intro white n hwhite c hc
        rcases List.mem_append.mp hc with hc | hc
        · exact hwhite c hc
        · rw [padStream, List.mem_replicate] at hc
          rw [hc.2]; decide
      have hnl : ∀ c ∈ ['\n'], isSpace c = true := by
        intro c hc; rw [List.mem_singleton.mp hc]; decide
      -- the index that the decoder reads
      have hidx : ∃ index, (isArray = true ∧ indexText = [] ∧ index = 0) ∨
          (isArray = false ∧ indexText = showNat index ++ [' '] ∧
            index < t.dataTable.length) := by
        cases isArray with
        | true =>
          simp only [if_true, pure, Except.pure, Except.ok.injEq] at hindexS
          exact ⟨0, Or.inl ⟨rfl, hindexS.symm, rfl⟩⟩
        | false =>
          simp only [Bool.false_eq_true, if_false] at hindexS
          obtain ⟨index, hindex, hindexS⟩ := (bind_ok _ _ _).mp hindexS
          simp only [pure, Except.pure, Except.ok.injEq] at hindexS
          exact ⟨index, Or.inr ⟨rfl, hindexS.symm, index_lt types t ht _ _ hindex⟩⟩
      obtain ⟨index, hidx⟩ := hidx
      -- the decoding of a block whose inside the member loop consumes
      have hblock : ∀ (inner : Text),
          (∀ (var0 : ReflectedVariable) (st1 : Loader) (rest : Text),
            st1.stream = '\n' :: (inner ++ (padStream padding ++ ']' :: '\n' :: rest)) →
            0 < st1.table.dataTable.length → t.dataTable.length ≤ st1.table.dataTable.length →
            ∃ (fuelM : Nat) (var' : ReflectedVariable) (st' : Loader),
              ReflectionData.deserializeMembers types fuelM self var0 st1 = .ok (var', st') ∧
              st'.stream = '\n' :: rest ∧
              st'.table.dataTable.length = st1.table.dataTable.length) →
          Consumed types self isArray t.dataTable.length
            (parentText ++ indexText ++ (types self).name ++ ['\n'] ++ padStream padding
              ++ ['[', '\n'] ++ inner ++ padStream padding ++ [']', '\n']) := by
        intro inner hinner
        refine ⟨parentText ++ indexText ++ (types self).name ++ ['\n'] ++ padStream padding
              ++ ['[', '\n'] ++ inner ++ padStream padding ++ [']'], by simp, ?_⟩
        intro dest st white rest hwhite hst hpos hlen
        obtain ⟨fuelP, var0, st0, white0, hw0, hs0, hl0, hparentD⟩ := hpdec dest st white
          (indexText ++ ((types self).name ++ '\n' :: (padStream padding ++ '[' :: '\n' ::
            (inner ++ (padStream padding ++ ']' :: '\n' :: rest))))) hwhite
          (by rw [hst]; simp only [List.append_assoc, List.cons_append, List.nil_append])
          hpos hlen
        have hstep1 : ∃ white1, (∀ c ∈ white1, isSpace c = true) ∧
            (if isArray then pure (0, st0.stream) else extractSize st0.stream) =
              .ok (index, white1 ++ ((types self).name ++ '\n' :: (padStream padding ++
                '[' :: '\n' :: (inner ++ (padStream padding ++ ']' :: '\n' :: rest))))) ∧
            index < st0.table.dataTable.length := by
          rcases hidx with ⟨ha, hi, h0⟩ | ⟨ha, hi, hlt⟩
          · refine ⟨white0, hw0, ?_, by rw [h0, hl0]; exact hpos⟩
            rw [ha, hs0, hi, h0]
            rfl
          · refine ⟨[' '], by intro c hc; rw [List.mem_singleton.mp hc]; decide, ?_,
              by rw [hl0]; exact lt_of_lt_of_le hlt hlen⟩
            rw [ha, hs0, hi]
            simp only [Bool.false_eq_true, if_false]
            rw [extractSize_white _ _ hw0]
            simp only [List.append_assoc, List.cons_append, List.nil_append]
            exact extractSize_showNat_cons index ' ' _ (lt_trans hlt hsize) (by decide)
        obtain ⟨white1, hw1, hindexD, hlt0⟩ := hstep1
        have hnameD := extractToken_line white1 (types self).name '\n'
          (padStream padding ++ '[' :: '\n' ::
            (inner ++ (padStream padding ++ ']' :: '\n' :: rest))) hw1 hname (by decide)
        have hopenD : extractToken ('\n' :: (padStream padding ++ '[' :: '\n' ::
            (inner ++ (padStream padding ++ ']' :: '\n' :: rest)))) =
            .ok (['['], '\n' :: (inner ++ (padStream padding ++ ']' :: '\n' :: rest))) := by
          have := extractToken_line (['\n'] ++ padStream padding) ['['] '\n'
            (inner ++ (padStream padding ++ ']' :: '\n' :: rest)) (hwpad _ _ hnl)
            ⟨by simp, by intro c hc; rw [List.mem_singleton.mp hc]; decide⟩ (by decide)
          simpa only [List.append_assoc, List.cons_append, List.nil_append] using this
        obtain ⟨fuelM, var', st', hmem, hs', hl'⟩ := hinner var0
          { st0 with stream := '\n' :: (inner ++ (padStream padding ++ ']' :: '\n' :: rest)) }
          rest rfl (by rw [hl0]; exact hpos) (by rw [hl0]; exact hlen)
        obtain ⟨st'', hdes, hs'', hl''⟩ := deserialize_own_block types (max fuelP fuelM) self
          dest var0 var' st st0 st' isArray index _ _ _ (hparentD _ (le_max_left _ _)) hnoCodec
          hindexD hnameD hopenD
          (deserializeMembers_fuel_le types fuelM _ (le_max_right _ _) _ _ _ _ hmem)
          (by rw [hl']; exact hlt0)
        exact ⟨max fuelP fuelM + 1, var', st'', hdes, by rw [hs'', hs'],
          by rw [hl'', hl', hl0]⟩
      have hcloseD : ∀ (white rest : Text), (∀ c ∈ white, isSpace c = true) →
          extractToken (white ++ (padStream padding ++ ']' :: '\n' :: rest)) =
            .ok ([']'], '\n' :: rest) := by
        intro white rest hwhite
        have := extractToken_line (white ++ padStream padding) [']'] '\n' rest
          (hwpad _ _ hwhite)
          ⟨by simp, by intro c hc; rw [List.mem_singleton.mp hc]; decide⟩ (by decide)
        simpa only [List.append_assoc, List.cons_append, List.nil_append] using this
      by_cases h0 : v.instanceData = 0
      · rw [if_pos h0] at h
        simp only [pure, Except.pure, Except.ok.injEq] at h
        rw [← h]
        have hb := hblock (padStream (padding + 1) ++ ['n', 'u', 'l', 'l', '\n'])
        simp only [List.append_assoc] at hb ⊢
        apply hb
        intro var0 st1 rest hs1 _ _
        have htok : extractToken st1.stream = .ok (['n', 'u', 'l', 'l'],
            '\n' :: (padStream padding ++ ']' :: '\n' :: rest)) := by
          rw [hs1]
          have := extractToken_line (['\n'] ++ padStream (padding + 1)) ['n', 'u', 'l', 'l'] '\n'
            (padStream padding ++ ']' :: '\n' :: rest) (hwpad _ _ hnl)
            ⟨by simp, by
              intro c hc
              simp only [List.mem_cons, List.mem_singleton, List.not_mem_nil, or_false] at hc
              rcases hc with rfl | rfl | rfl | rfl <;> decide⟩ (by decide)
          simpa only [List.append_assoc, List.cons_append, List.nil_append] using this
        refine ⟨2, { var0 with instanceData := 0 }, { st1 with stream := '\n' :: rest }, ?_,
          rfl, rfl⟩
        rw [deserializeMembers_null types 1 self var0 st1 _ htok]
        exact deserializeMembers_close types 0 self _ _ _ (hcloseD ['\n'] rest hnl) hclose
      · rw [if_neg h0] at h
        obtain ⟨inner, hinnerS, h⟩ := (bind_ok _ _ _).mp h
        simp only [pure, Except.pure, Except.ok.injEq] at h
        rw [← h]
        apply hblock inner
        intro var0 st1 rest hs1 hpos1 hlen1
        obtain ⟨N, st2, white2, hw2, hs2, hl2, hred⟩ :=
          members_consumed types mem F hD t ht hsize fuelS ih self v hself h0 (padding + 1)
            (types self).members (fun m hm => hm) inner hinnerS var0 st1 ['\n']
            (padStream padding ++ ']' :: '\n' :: rest) hnl
            (by rw [hs1]; simp only [List.append_assoc, List.cons_append, List.nil_append])
            hpos1 hlen1
        refine ⟨1 + N, var0, { st2 with stream := '\n' :: rest }, ?_, rfl, hl2⟩
        apply hred
        exact deserializeMembers_close types 0 self var0 st2 _
          (by rw [hs2]; exact hcloseD white2 rest hw2) hclose


/-- The text that `ReflectionData::serialize` writes for a type without codec ends with
the closing token of its block and a newline. -/
theorem serialize_closing (types : Descriptors) (mem : Memory) (t : PointerTable) (fuel : Nat)
    (self : DescriptorPtr) (v : ReflectedVariable) (padding : Nat) (isArray : Bool)
    (text : Text) (hcodec : (types self).serializeFunction = none)
    (h : ReflectionData.serialize types mem t fuel self v padding isArray = .ok text) :
    ∃ inside, text = inside ++ [']', '\n'] := by
  cases fuel with
  | zero => simp [ReflectionData.serialize] at h
  | succ fuel =>
    rw [ReflectionData.serialize] at h
    obtain ⟨parentText, _, h⟩ := (bind_ok _ _ _).mp h
    rw [hcodec] at h
    dsimp only at h
    obtain ⟨indexText, _, h⟩ := (bind_ok _ _ _).mp h
    split at h
    · simp only [pure, Except.pure, Except.ok.injEq] at h
      exact ⟨_, h.symm⟩
    · obtain ⟨inner, _, h⟩ := (bind_ok _ _ _).mp h
      simp only [pure, Except.pure, Except.ok.injEq] at h
      exact ⟨_, h.symm⟩

/-- **C36** Under the conditions `Decodable` on the objects `F` of a heap, for a block that
`ReflectionData::serialize` wrote for an object of `F` (outside an array, or for an array
element of a type without parent) with a consistent table of fewer than 2^64 entries: the
text is a body followed by a newline, the body of a type without codec ending with the
closing token of the block; and from every stream that holds, after any whitespace, the
block followed by anything, in a state whose table has an entry and at least as many
entries as the writer's, `ReflectionData::deserialize` returns with the stream at the
newline that follows that closing token, whatever comes after it, for every amount of fuel
from some amount on. The lines written for a member of the block, which hold the closing
tokens of its nested blocks, are consumed inside one iteration of the member loop of the
enclosing block, which goes on with what follows them. -/
theorem deserialize_consumes_block (types : Descriptors) (mem : Memory)
    (F : DescriptorPtr → Address → Prop) (hD : Decodable types mem F) (t : PointerTable)
    (ht : t.Consistent types) (hsize : t.dataTable.length < 2 ^ 64) (self : DescriptorPtr)
    (v : ReflectedVariable) (hself : F self v.instanceData) :
    (∀ (fuelS : Nat) (padding : Nat) (isArray : Bool) (text : Text),
      (isArray = true → (types self).parent = 0) →
      ReflectionData.serialize types mem t fuelS self v padding isArray = .ok text →
      ∃ body, text = body ++ ['\n'] ∧
        ((types self).serializeFunction = none → ∃ inside, body = inside ++ [']']) ∧
        ∀ (dest : ReflectedVariable) (st : Loader) (white rest : Text),
          (∀ c ∈ white, isSpace c = true) →
          st.stream = white ++ body ++ '\n' :: rest →
          0 < st.table.dataTable.length → t.dataTable.length ≤ st.table.dataTable.length →
          ∃ (fuel : Nat) (var' : ReflectedVariable) (st' : Loader),
            st'.stream = '\n' :: rest ∧
            ∀ fuel', fuel ≤ fuel' →
              ReflectionData.deserialize types fuel' self dest st isArray = .ok (var', st')) ∧
    (∀ (fuelS : Nat) (padding : Nat) (m : ReflectedMember) (lines : Text),
      v.instanceData ≠ 0 → m ∈ (types self).members →
      ReflectionData.serializeMember types mem t (ReflectionData.serialize types mem t fuelS)
        v padding m = .ok lines →
      ∀ (dest : ReflectedVariable) (st : Loader) (white tail : Text),
        (∀ c ∈ white, isSpace c = true) → st.stream = white ++ lines ++ tail →
        0 < st.table.dataTable.length → t.dataTable.length ≤ st.table.dataTable.length →
        ∃ (N : Nat) (st1 : Loader) (white' : Text),
          (∀ c ∈ white', isSpace c = true) ∧ st1.stream = white' ++ tail ∧
          ∀ fuel r, ReflectionData.deserializeMembers types fuel self dest st1 = .ok r →
            ReflectionData.deserializeMembers types (fuel + N) self dest st = .ok r) := by
  constructor
  · intro fuelS padding isArray text harr h
    obtain ⟨body, hbody, hdec⟩ := serialized_consumed types mem F hD t ht hsize fuelS self v
      padding isArray text hself harr h
    refine ⟨body, hbody, ?_, ?_⟩
    · intro hcodec
      obtain ⟨inside, hin⟩ := serialize_closing types mem t fuelS self v padding isArray text
        hcodec h
      refine ⟨inside, ?_⟩
      rw [hbody, show inside ++ [']', '\n'] = (inside ++ [']']) ++ ['\n'] by simp] at hin
      exact List.append_cancel_right hin
    · intro dest st white rest hwhite hst hpos hlen
      obtain ⟨fuel, var', st', hdes, hs', _⟩ := hdec dest st white rest hwhite hst hpos hlen
      exact ⟨fuel, var', st', hs', fun fuel' hle =>
        deserialize_fuel_le types fuel fuel' hle _ _ _ _ _ hdes⟩
  · intro fuelS padding m lines h0 hm h dest st white tail hwhite hst hpos hlen
    obtain ⟨N, st1, white', hw', hs1, _, hred⟩ :=
      member_consumed types mem F hD t ht hsize fuelS
        (serialized_consumed types mem F hD t ht hsize fuelS) self v hself h0 padding m hm
        lines h dest st white tail hwhite hst hpos hlen
    exact ⟨N, st1, white', hw', hs1, hred⟩

/-- The `int` codec consumes what it writes for a cell that reads as a 32-bit integer. -/
theorem consumes_int (mem : Memory) (v : ReflectedVariable)
    (hlo : -(2 : Int) ^ 31 ≤ (mem v.instanceData).asInt)
    (hhi : (mem v.instanceData).asInt < (2 : Int) ^ 31) :
    Consumes serializePrimitiveValueInt deserializePrimitiveValueInt mem v := by
  refine ⟨showInt (mem v.instanceData).asInt, rfl, ?_⟩
  intro memory w white rest hwhite
  unfold deserializePrimitiveValueInt
  rw [List.append_assoc, extractInt_white _ _ hwhite,
    extractInt_showInt_cons _ '\n' rest hlo hhi (by decide)]
  exact ⟨_, rfl⟩

/-- A codec that reads back what it writes consumes what it writes. -/
theorem consumes_of_readsBack (f : SerializeFunction) (g : DeserializeFunction) (mem : Memory)
    (v : ReflectedVariable) (h : ReadsBack f g mem v) : Consumes f g mem v := by
  obtain ⟨body, hbody, hread⟩ := h
  exact ⟨body, hbody, fun memory w white rest hwhite => ⟨_, hread memory w white rest hwhite⟩⟩

/-- The objects of the `Card` of `cardMemory`, with its `int` members, its string member,
its inline member `y` and its pointer member, meet the conditions `Decodable`; the heap
also holds a pointer cell and cells that are not initialised, which are no objects. -/
theorem decodable_card : Decodable moreTypes cardMemory cardFrames := by
  have hint : ∀ (d : DescriptorPtr) (a : Address), (a = 100 ∨ a = 140 ∨ a = 144) →
      Consumes serializePrimitiveValueInt deserializePrimitiveValueInt cardMemory
        { reflectionData := d, instanceData := a } := by
    intro d a ha
    apply consumes_int
    · rcases ha with rfl | rfl | rfl <;> simp [cardMemory, Value.asInt]
    · rcases ha with rfl | rfl | rfl <;> simp [cardMemory, Value.asInt]
  have hone : ∀ k : Nat, (k = 0 ∨ k < 1) → k = 0 := by
    intro k hk
    omega
  constructor
  · rintro p a (⟨rfl, rfl⟩ | ⟨rfl, _⟩ | ⟨rfl, rfl⟩ | ⟨rfl, rfl⟩) _ m hm hptr k hk
    · simp [moreTypes] at hm
      rcases hm with rfl | rfl | rfl | rfl | rfl
      · have hk0 := hone k (by simpa [arrayCount, moreTypes, exampleTypes, intReflectionData]
          using hk)
        subst hk0
        simp [cardFrames, pointerOffset]
      · have hk0 := hone k (by simpa [arrayCount, moreTypes, exampleTypes,
          stringReflectionData] using hk)
        subst hk0
        simp [cardFrames, pointerOffset]
      · have hk0 := hone k (by simpa [arrayCount, moreTypes, exampleTypes] using hk)
        subst hk0
        simp [cardFrames, pointerOffset]
      · have hk0 := hone k (by simpa [arrayCount, moreTypes, exampleTypes, intReflectionData]
          using hk)
        subst hk0
        simp [cardFrames, pointerOffset]
      · exact absurd hptr (by decide)
    · simp [moreTypes, exampleTypes, intReflectionData] at hm
    · simp [moreTypes, exampleTypes, stringReflectionData] at hm
    · simp [moreTypes, exampleTypes] at hm
      subst hm
      have hk0 := hone k (by simpa [arrayCount, moreTypes, exampleTypes, intReflectionData]
        using hk)
      subst hk0
      simp [cardFrames, pointerOffset]
  · rintro p a (⟨rfl, _⟩ | ⟨rfl, _⟩ | ⟨rfl, _⟩ | ⟨rfl, _⟩) h <;> exact absurd rfl h
  · rintro p a (⟨rfl, _⟩ | ⟨rfl, _⟩ | ⟨rfl, _⟩ | ⟨rfl, _⟩) _
    all_goals exact ⟨by decide, by decide⟩
  · rintro p a (⟨rfl, _⟩ | ⟨rfl, _⟩ | ⟨rfl, _⟩ | ⟨rfl, _⟩) m hm
    all_goals simp [moreTypes, exampleTypes, intReflectionData, stringReflectionData] at hm
    · rcases hm with rfl | rfl | rfl | rfl | rfl
      all_goals exact ⟨by decide, ⟨by decide, by decide⟩, by decide, by decide⟩
    · subst hm
      exact ⟨by decide, ⟨by decide, by decide⟩, by decide, by decide⟩
  · rintro p a (⟨rfl, _⟩ | ⟨rfl, ha⟩ | ⟨rfl, rfl⟩ | ⟨rfl, _⟩) f hf
    · simp [moreTypes] at hf
    · simp [moreTypes, exampleTypes, intReflectionData] at hf
      subst hf
      exact ⟨deserializePrimitiveValueInt, rfl, fun d => hint d a ha⟩
    · simp [moreTypes, exampleTypes, stringReflectionData] at hf
      subst hf
      exact ⟨deserializePrimitiveValueString, rfl, fun d => consumes_of_readsBack _ _ _ _
        (readsBack_string cardMemory _ ['a', ' ', 'b', ']'] rfl (by decide) (by decide))⟩
    · simp [moreTypes, exampleTypes] at hf
  · rintro p a (⟨rfl, _⟩ | ⟨rfl, _⟩ | ⟨rfl, _⟩ | ⟨rfl, _⟩) h
    all_goals first
      | rfl
      | simp [moreTypes, exampleTypes, intReflectionData, stringReflectionData] at h
  · rintro p a (⟨rfl, _⟩ | ⟨rfl, _⟩ | ⟨rfl, _⟩ | ⟨rfl, _⟩) m hm _ harr
    all_goals simp [moreTypes, exampleTypes, intReflectionData, stringReflectionData] at hm
    · rcases hm with rfl | rfl | rfl | rfl | rfl
      all_goals rfl
    · subst hm
      rfl


set_option maxRecDepth 100000 in
theorem deserialize_consumes_block_witness :
    (∃ t, PointerTable.populate moreTypes cardMemory 7 ⟨28, 100⟩ true {} = .ok t ∧
      ReflectionData.serialize moreTypes cardMemory t 7 28 ⟨28, 100⟩ 0 false = .ok cardBlock ∧
      ∃ body, cardBlock = body ++ ['\n'] ∧
        ∀ (dest : ReflectedVariable) (st : Loader) (white rest : Text),
          (∀ c ∈ white, isSpace c = true) →
          st.stream = white ++ body ++ '\n' :: rest →
          0 < st.table.dataTable.length → t.dataTable.length ≤ st.table.dataTable.length →
          ∃ (fuel : Nat) (var' : ReflectedVariable) (st' : Loader),
            st'.stream = '\n' :: rest ∧
            ∀ fuel', fuel ≤ fuel' →
              ReflectionData.deserialize moreTypes fuel' 28 dest st false = .ok (var', st')) ∧
    (ReflectionData.deserialize moreTypes 9 28 ⟨28, 1000⟩
        ⟨cardBlock ++ [']', '\n', 'r', 'e', 's', 't'], exampleHeap,
          { dataTable := List.replicate 2 {} }⟩ false).map (fun r => r.2.stream)
      = .ok ['\n', ']', '\n', 'r', 'e', 's', 't'] ∧
    (ReflectionData.deserialize exampleTypes 7 23 ⟨23, 1000⟩
        ⟨inlBlock ++ [']', '\n', 'r', 'e', 's', 't'], exampleHeap,
          { dataTable := List.replicate 2 {} }⟩ false).map (fun r => r.2.stream)
      = .ok ['\n', ']', '\n', 'r', 'e', 's', 't'] ∧
    (ReflectionData.deserialize exampleTypes 7 9 ⟨9, 1000⟩
        ⟨holderBlock ++ [']', '\n', 'r', 'e', 's', 't'], exampleHeap,
          { dataTable := List.replicate 2 {} }⟩ false).map (fun r => r.2.stream)
      = .ok ['\n', ']', '\n', 'r', 'e', 's', 't'] := by
  refine ⟨?_, by decide, by decide, by decide⟩
  obtain ⟨t, ht⟩ := exists_of_isOk
    (PointerTable.populate moreTypes cardMemory 7 ⟨28, 100⟩ true {}) (by decide)
  have hc := (populate_spec moreTypes cardMemory 7 ⟨28, 100⟩ true {} t
    (consistent_empty moreTypes) ht).1
  have hd : (PointerTable.populate moreTypes cardMemory 7 ⟨28, 100⟩ true {}).map
      (fun t => t.dataTable.length) = .ok 2 := by decide
  have hs : (PointerTable.populate moreTypes cardMemory 7 ⟨28, 100⟩ true {}).bind
      (fun t => ReflectionData.serialize moreTypes cardMemory t 7 28 ⟨28, 100⟩ 0 false)
      = .ok cardBlock := by decide
  rw [ht] at hd hs
  simp only [Except.map, Except.ok.injEq] at hd
  have hs' : ReflectionData.serialize moreTypes cardMemory t 7 28 ⟨28, 100⟩ 0 false
      = .ok cardBlock := hs
  obtain ⟨body, hbody, _, hdec⟩ :=
    (deserialize_consumes_block moreTypes cardMemory cardFrames decodable_card t hc
      (by rw [hd]; decide) 28 ⟨28, 100⟩ (Or.inl ⟨rfl, rfl⟩)).1 7 0 false cardBlock
      (fun h => by cases h) hs'
  exact ⟨t, ht, hs', body, hbody, hdec⟩

set_option maxRecDepth 100000 in
/-- **C12** For `DerArr : Base { Pt pts[2]; }` at 100 with `k = 4` and `pts = { {7}, {8} }`,
`ReflectedVariable::serialize` writes one record tagged `(DerArr)`, with index 0, made of
the block of `Base` and the block of `DerArr`, and the registry resolves `DerArr`. Loading
that text allocates one instance of 12 bytes, the size of `DerArr`, at 1000, and stores 4,
7 and 8 in the members declared by `Base` and by `DerArr`; but the table entry at the index
of the record, 0, ends as the second element of `pts`, of type `Pt` at 1008, not as the
instance with the descriptor `DerArr`: each array element is published into entry 0 after
the block of `Base` put the instance there. -/
theorem tagged_record_entry_lost :
    moreManager.reflectionData exampleHash ['D', 'e', 'r', 'A', 'r', 'r'] = some 25 ∧
    ReflectedVariable.serialize moreTypes derArrMemory 10 ⟨25, 100⟩ =
      .ok ("2\n(DerArr) 0 Base\n[\n\tk 4\n]\n0 DerArr\n[\n\tpts\n\t\tPt\n\t\t[\n\t\t\tx 7\n\t\t]"
        ++ "\n\t\tPt\n\t\t[\n\t\t\tx 8\n\t\t]\n]\n").toList ∧
    ((ReflectedVariable.serialize moreTypes derArrMemory 10 ⟨25, 100⟩).bind
        (fun text => PointerTable.deserialize moreTypes exampleHash moreManager 10 text
          exampleHeap)).map
        (fun st => (st.heap.allocated, st.heap.memory 1000, st.heap.memory 1004,
          st.heap.memory 1008, st.table.dataTable[0]?.map (fun r => r.var))) =
      .ok ([(1000, 12)], .int 4, .int 7, .int 8, some ⟨8, 1008⟩) := by
  decide

set_option maxRecDepth 100000 in
/-- **C29** For `Der2 : Base2 { int m; }` at 100, whose parent `Base2 { Pt first; }` declares
the inline composite member `first` at offset zero, the object and its first inline
composite member share the address 100. The table that `populate` builds from the object
holds one entry, that of the object: `populate` walks the members that `Der2` declares and
not those of `Base2`. `PointerTable::index` returns 0 for the object and stops at its
assertion for the member, and so does `ReflectedVariable::serialize`, which writes the
members of `Base2`. -/
theorem aliased_member_of_parent_unlisted :
    memberVariable 100 ⟨['f', 'i', 'r', 's', 't'], 0, 4, false, 8⟩ = ⟨8, 100⟩ ∧
    (PointerTable.populate moreTypes der2Memory 10 ⟨27, 100⟩ true {}).map
        (fun t => (t.dataTable, t.index moreTypes ⟨27, 100⟩, t.index moreTypes ⟨8, 100⟩)) =
      .ok ([⟨⟨27, 100⟩, true⟩], .ok 0, .error .assertion) ∧
    ReflectedVariable.serialize moreTypes der2Memory 10 ⟨27, 100⟩ = .error .assertion := by
  decide

end carl
